import Mathlib

/-!
# Substitution-count distributions (phast, `subst_distrib.c`)

A shallow embedding of `src/lib/phylo/subst_distrib.c`: the jump process, the branch
distributions and the prior, posterior and joint distributions of a site; and of the
option `--indel-model` of `src/dmotif/dmsProcessParallel.c`.

Conventions of the embedding
* C `double`s are exact rationals (`ℚ`) with `x / 0 = 0`; rounding, infinities and NaN are
  not modelled, except in the option `--indel-model`, whose values are `CDouble`s: NaN,
  an infinity or an exact rational.
* Helpers whose code is not in the source tree are parameters (`pv_poisson`,
  `tm_build_seq_idx`, `pv_stats`) or are modelled from the specification, as their doc
  comments say.
* A C `for` loop is `forUpTo`/`forRange`: the loop body is a state transformer and the
  loop threads the state through the iterations in increasing index order.
* `Vector`/`Matrix` carry their dimensions and a total data function; entries are written
  with `set`.
* `assert` failures and `die` are `none`.
* Index traces list the indices at which a loop nest reads or writes a table, in the order
  of the loop nest.
-/

namespace Phast

/-! ## Loops -/

/-- The C loop `for (i = 0; i < n; i++) s = body i s`. -/
def forUpTo {σ : Type} : Nat → (Nat → σ → σ) → σ → σ
  | 0, _, s => s
  | n + 1, body, s => body n (forUpTo n body s)

/-- The C loop `for (i = lo; i < hi; i++) s = body i s`. -/
def forRange {σ : Type} (lo hi : Nat) (body : Nat → σ → σ) (s : σ) : σ :=
  forUpTo (hi - lo) (fun d => body (lo + d)) s

/-! ## Vectors and matrices -/

/-- The `Vector` of `vector.h`: a length and its `double` entries. -/
structure Vector where
  size : Nat
  data : Nat → ℚ

/-- The `Matrix` of `matrix.h`: dimensions and `data[row][col]`. -/
structure Matrix where
  nrows : Nat
  ncols : Nat
  data : Nat → Nat → ℚ

/-- Modelled from the spec: `vec_new` followed by nothing is an allocation; every use in
`subst_distrib.c` zeroes the vector before reading it, so the fresh vector is all zero. -/
def vec_new (size : Nat) : Vector := ⟨size, fun _ => 0⟩

/-- Modelled from the spec: `vec_zero` of `vector.c` (absent) sets every entry to 0. -/
def vec_zero (v : Vector) : Vector := { v with data := fun _ => 0 }

/-- Modelled from the spec: `mat_new` of `matrix.c` (absent) allocates `nrows x ncols`. -/
def mat_new (nrows ncols : Nat) : Matrix := ⟨nrows, ncols, fun _ _ => 0⟩

/-- Modelled from the spec: `mat_zero` of `matrix.c` (absent) sets every entry to 0. -/
def mat_zero (M : Matrix) : Matrix := { M with data := fun _ _ => 0 }

/-- The assignment `v->data[n] = x`. -/
@[noinline] def Vector.set (v : Vector) (n : Nat) (x : ℚ) : Vector :=
  { v with data := fun n' => if n' = n then x else v.data n' }

/-- The assignment `M->data[r][c] = x`. -/
@[noinline] def Matrix.set (M : Matrix) (r c : Nat) (x : ℚ) : Matrix :=
  { M with data := fun r' c' => if r' = r ∧ c' = c then x else M.data r' c' }

/-- An array of matrices (`Matrix **`). -/
structure MatrixArray where
  get : Nat → Matrix

/-- An array of arrays of matrices (`Matrix ***`). -/
structure MatrixArray2 where
  get : Nat → MatrixArray

/-- The assignment `A[i] = M` in an array of matrices. -/
@[noinline] def MatrixArray.set (A : MatrixArray) (i : Nat) (M : Matrix) : MatrixArray :=
  ⟨fun i' => if i' = i then M else A.get i'⟩

/-- The assignment `B[i] = A` in an array of arrays of matrices. -/
@[noinline] def MatrixArray2.set (B : MatrixArray2) (i : Nat) (A : MatrixArray) : MatrixArray2 :=
  ⟨fun i' => if i' = i then A else B.get i'⟩

/-- An array of matrices before any of its cells is assigned. -/
def MatrixArray.empty : MatrixArray := ⟨fun _ => mat_new 0 0⟩

/-- An array of arrays of matrices before any of its cells is assigned. -/
def MatrixArray2.empty : MatrixArray2 := ⟨fun _ => MatrixArray.empty⟩

/-- The assignment `A[i]->data[r][c] = x` in an array of matrices. -/
def setEntry (A : MatrixArray) (i r c : Nat) (x : ℚ) : MatrixArray :=
  A.set i ((A.get i).set r c x)

/-- Sum of the entries of a vector, accumulated left to right. -/
def vec_sum (v : Vector) : ℚ := forUpTo v.size (fun i s => s + v.data i) 0

/-- Sum of the entries of a matrix, accumulated row by row. -/
def mat_sum (M : Matrix) : ℚ :=
  forUpTo M.nrows (fun x s => forUpTo M.ncols (fun y s => s + M.data x y) s) 0

/-- Modelled from the spec: `mat_scale` of `matrix.c` (absent) multiplies every entry by
the given factor. -/
def mat_scale (M : Matrix) (c : ℚ) : Matrix := { M with data := fun x y => M.data x y * c }

/-- Modelled from the spec: `normalize_probs`/`pv_normalize` (`misc.c`, `prob_vector.c`,
absent) rescale a vector so that its entries sum to 1: each entry is divided by the sum
of the entries. -/
def pv_normalize (v : Vector) : Vector := { v with data := fun n => v.data n / vec_sum v }

/-- Modelled from the spec: `pm_normalize` (`prob_matrix.c`, absent) rescales a matrix so
that its entries sum to 1: each entry is multiplied by the inverse of the total. -/
def pm_normalize (M : Matrix) : Matrix := mat_scale M (1 / mat_sum M)

/-! ## Tree models -/

/-- The `TreeNode` of `trees.h`, as far as `subst_distrib.c` reads it: `id`, the branch
length `dparent` to the parent, and the two children (`lchild == NULL` at a leaf). -/
inductive TreeNode where
  | leaf (id : Nat) (dparent : ℚ) : TreeNode
  | node (id : Nat) (dparent : ℚ) (lchild rchild : TreeNode) : TreeNode
  deriving DecidableEq

/-- The `MarkovMatrix` of `markov_matrix.h`: `size` and the entries read by `mm_get`. -/
structure MarkovMatrix where
  size : Nat
  mm_get : Nat → Nat → ℚ

/-- The `TreeModel` of `tree_model.h`, as far as it is read here. `msa_seq_idx` is
`none` for the C `NULL`. -/
structure TreeModel where
  rate_matrix : MarkovMatrix
  backgd_freqs : Vector
  tree : TreeNode
  order : Int
  msa_seq_idx : Option (Nat → Nat)

/-- The `JumpProcess` of `subst_distrib.h`. -/
structure JumpProcess where
  njumps_max : Nat
  R : Matrix
  lambda : ℚ
  mod : TreeModel
  A : MatrixArray
  B : MatrixArray2

/-! ## The jump process -/

/-- The function `get_substs_and_bases_given_jumps` (lines 21-54). -/
def get_substs_and_bases_given_jumps (jp : JumpProcess) (jmax : Nat) (condition_on : Int) :
    MatrixArray :=
  let size := jp.R.nrows
  let A0 : MatrixArray :=
    forUpTo size (fun i A => A.set i (mat_zero (mat_new jmax jmax))) MatrixArray.empty
  -- initialization
  let A1 : MatrixArray :=
    if condition_on < 0 then
      forUpTo size (fun i A => setEntry A i 0 0 (jp.mod.backgd_freqs.data i)) A0
    else
      setEntry A0 condition_on.toNat 0 0 1
  -- recurrence
  forRange 1 jmax (fun j A =>
    forUpTo (j + 1) (fun n A =>
      forUpTo size (fun i A =>
        let A := setEntry A i n j ((A.get i).data n (j - 1) * jp.R.data i i)
        if n > 0 then
          forUpTo size (fun k A =>
            if k = i then A
            else setEntry A i n j
              ((A.get i).data n j + (A.get k).data (n - 1) (j - 1) * jp.R.data k i))
            A
        else A) A) A) A1

/-- The function `sub_define_jump_process` (lines 57-90). -/
def sub_define_jump_process (mod : TreeModel) (njumps_max : Nat) : JumpProcess :=
  let size := mod.rate_matrix.size
  -- set lambda to max_a -q_aa
  let lambda : ℚ :=
    forUpTo size (fun j lambda =>
      let val := - mod.rate_matrix.mm_get j j
      if val > lambda then val else lambda) 0
  -- now define jump matrix R
  let R : Matrix :=
    forUpTo size (fun i R =>
      forUpTo size (fun j R =>
        let R := R.set i j (mod.rate_matrix.mm_get i j / lambda)
        if i = j then R.set i j (R.data i j + 1) else R) R) (mat_new size size)
  let jp : JumpProcess :=
    { njumps_max := njumps_max, R := R, lambda := lambda, mod := mod,
      A := MatrixArray.empty, B := MatrixArray2.empty }
  let jp : JumpProcess := { jp with A := get_substs_and_bases_given_jumps jp njumps_max (-1) }
  { jp with
    B := forUpTo size (fun i B => B.set i (get_substs_and_bases_given_jumps jp njumps_max i))
           MatrixArray2.empty }

/-! ## Branch distributions

`pv_poisson` (`prob_vector.c`) is not part of the sources; it is a parameter of every
function that calls it. -/

/-- The function `sub_distrib_branch` (lines 109-139); `none` is the failed assertion
`jp->njumps_max > pois->size`. -/
def sub_distrib_branch (pv_poisson : ℚ → Vector) (jp : JumpProcess) (t : ℚ) : Option Vector :=
  let pois := pv_poisson (jp.lambda * t)
  let M := mat_new pois.size pois.size
  let distrib := vec_new pois.size
  if jp.njumps_max > pois.size then
    -- simply marginalize jp->A[i] over i to get M
    let M := mat_zero M
    let M :=
      forUpTo pois.size (fun n M =>
        forUpTo pois.size (fun j M =>
          forUpTo jp.R.nrows (fun i M =>
            M.set n j (M.data n j + (jp.A.get i).data n j)) M) M) M
    -- now combine with Poisson to get desired distribution
    let distrib := vec_zero distrib
    let distrib :=
      forUpTo pois.size (fun n distrib =>
        forUpTo pois.size (fun j distrib =>
          distrib.set n (distrib.data n + M.data n j * pois.data j)) distrib) distrib
    some (pv_normalize distrib)
  else none

/-- The function `sub_distrib_branch_conditional` (lines 145-176); `none` is the failed
assertion `jp->njumps_max > pois->size`. -/
def sub_distrib_branch_conditional (pv_poisson : ℚ → Vector) (jp : JumpProcess) (t : ℚ) :
    Option MatrixArray :=
  let pois := pv_poisson (jp.lambda * t)
  let size := jp.mod.rate_matrix.size
  if jp.njumps_max > pois.size then
    let D : MatrixArray :=
      forUpTo size (fun i D => D.set i (mat_zero (mat_new size pois.size))) MatrixArray.empty
    -- now combine with Poisson to get desired distribution
    let D :=
      forUpTo size (fun k D =>
        forUpTo pois.size (fun n D =>
          forUpTo pois.size (fun j D =>
            forUpTo size (fun i D =>
              setEntry D k i n
                ((D.get k).data i n + ((jp.B.get k).get i).data n j * pois.data j)) D) D) D) D
    some (forUpTo size (fun i D => D.set i (pm_normalize (D.get i))) D)
  else none

/-! ## Alignments and the tree traversal -/

/-- An array of `int` (`int *`). -/
structure IntArray where
  get : Nat → Int

/-- The assignment `a[i] = x` in an array of `int`. -/
@[noinline] def IntArray.set (a : IntArray) (i : Nat) (x : Int) : IntArray :=
  ⟨fun i' => if i' = i then x else a.get i'⟩

/-- The sufficient statistics `msa->ss` of `sufficient_stats.h`, as far as they are read
here: the number of tuples, their counts, and the character that `ss_get_char_tuple (msa,
tuple, seq, 0)` returns (characters are their codes). -/
structure SuffStats where
  ntuples : Nat
  counts : Nat → ℚ
  col_char : Nat → Nat → Nat

/-- The `MSA` of `msa.h`, as far as it is read here; `ss` is `none` for the C `NULL`. -/
structure MSA where
  ss : Option SuffStats
  is_missing : Nat → Bool
  inv_alphabet : Nat → Int

/-- Modelled from the spec: the macro `GAP_CHAR` of `msa.h` (absent), the gap character
`'-'`. -/
def GAP_CHAR : Nat := 45

/-- The field `id` of a tree node. -/
def TreeNode.id : TreeNode → Nat
  | .leaf id _ => id
  | .node id _ _ _ => id

/-- The field `dparent` of a tree node. -/
def TreeNode.dparent : TreeNode → ℚ
  | .leaf _ d => d
  | .node _ d _ _ => d

/-- Modelled from the spec: `tr_postorder` of `trees.c` (absent) lists the nodes with both
children before their parent: left subtree, right subtree, node. -/
def tr_postorder : TreeNode → List TreeNode
  | .leaf id d => [.leaf id d]
  | .node id d l r => tr_postorder l ++ tr_postorder r ++ [.node id d l r]

/-- The sum of the branch lengths of a subtree, the branch above its root included. -/
def subtreeLen : TreeNode → ℚ
  | .leaf _ d => d
  | .node _ d l r => d + subtreeLen l + subtreeLen r

/-- Modelled from the spec: `tr_total_len` of `trees.c` (absent) is the total branch
length of the tree: the sum of `dparent` over every node but the root. -/
def tr_total_len : TreeNode → ℚ
  | .leaf _ _ => 0
  | .node _ _ l r => subtreeLen l + subtreeLen r

/-- The trimming threshold `1e-10`. -/
def trimThreshold : ℚ := 1 / 10000000000

/-- The loop `for (n = k - 1; n >= 0 && data[n] < 1e-10; n--);` of line 279, returning
`n + 1`. -/
def trim_scan (data : Nat → ℚ) : Nat → Nat
  | 0 => 0
  | k + 1 => if data k < trimThreshold then trim_scan data k else k + 1

/-- The C loop `for (i = n - 1; i >= 0; i--) s = body i s`. -/
def forDown {σ : Type} : Nat → (Nat → σ → σ) → σ → σ
  | 0, _, s => s
  | k + 1, body, s => forDown k body (body k s)

/-- Modelled from the spec: `mat_resize` of `matrix.c` (absent) changes the dimensions and
keeps the entries of the retained block. -/
def mat_resize (M : Matrix) (nrows ncols : Nat) : Matrix :=
  { M with nrows := nrows, ncols := ncols }

/-- The per-node tables of the two site functions: `L` and `maxsubst`. -/
structure SiteState where
  L : MatrixArray
  maxsubst : IntArray

/-- The loop nest of lines 232-258 (the same text as lines 405-429): fills
`L[id]->data[a][n]` for `n <= maxsubst[id]` from the tables of the two children. -/
def combine_children (size : Nat) (L : MatrixArray) (maxsubst : IntArray) (id lid rid : Nat)
    (d_left d_right : MatrixArray) : MatrixArray :=
  forUpTo (maxsubst.get id + 1).toNat (fun n L =>
    forUpTo (n + 1) (fun j L =>
      let min_i : Int := max 0 ((j : Int) - (d_left.get 0).ncols + 1)
      let max_i : Int := min (j : Int) (maxsubst.get lid)
      let min_k : Int := max 0 ((n : Int) - j - (d_right.get 0).ncols + 1)
      let max_k : Int := min ((n : Int) - j) (maxsubst.get rid)
      forUpTo size (fun a L =>
        let left : ℚ :=
          forUpTo size (fun b left =>
            -- i goes from 0 to j, but we can trim off extreme vals
            forRange min_i.toNat (max_i + 1).toNat (fun i left =>
              left + (L.get lid).data b i * (d_left.get a).data b (j - i)) left) 0
        let right : ℚ :=
          forUpTo size (fun c right =>
            -- k goes from 0 to n-j, but we can trim off extreme vals
            forRange min_k.toNat (max_k + 1).toNat (fun k right =>
              right + (L.get rid).data c k * (d_right.get a).data c (n - j - k)) right) 0
        setEntry L id a n ((L.get id).data a n + left * right)) L) L) L

/-- The body of the traversal loop of `sub_posterior_distrib_site` (lines 203-266) for
one node; `none` is a failed assertion. -/
def posterior_node (pv_poisson : ℚ → Vector) (jp : JumpProcess) (msa : MSA) (ss : SuffStats)
    (msa_seq_idx : Nat → Nat) (tuple_idx : Nat) (st : SiteState) (node : TreeNode) :
    Option SiteState :=
  let size := jp.mod.rate_matrix.size
  let L := st.L.set node.id (mat_zero (mat_new size 500))
  match node with
  | .leaf id _ =>
    -- leaf -- base case
    let c := ss.col_char tuple_idx (msa_seq_idx id)
    if msa.is_missing c || c == GAP_CHAR then
      some ⟨forUpTo size (fun a L => setEntry L id a 0 1) L, st.maxsubst.set id 0⟩
    else if msa.inv_alphabet c ≥ 0 then
      some ⟨setEntry L id (msa.inv_alphabet c).toNat 0 1, st.maxsubst.set id 0⟩
    else none
  | .node id _ lchild rchild =>
    -- internal node -- recursive case
    match sub_distrib_branch_conditional pv_poisson jp lchild.dparent,
          sub_distrib_branch_conditional pv_poisson jp rchild.dparent with
    | some d_left, some d_right =>
      let maxsubst := st.maxsubst.set id
        (max (st.maxsubst.get lchild.id + (d_left.get 0).ncols - 1)
             (st.maxsubst.get rchild.id + (d_right.get 0).ncols - 1))
      some ⟨combine_children size L maxsubst id lchild.id rchild.id d_left d_right, maxsubst⟩
    | _, _ => none

/-- The root finalisation of `sub_posterior_distrib_site` (lines 269-288): the
background-weighted root vector, normalised, trimmed and normalised again. -/
def posterior_root (jp : JumpProcess) (st : SiteState) : Vector :=
  let size := jp.mod.rate_matrix.size
  let root := jp.mod.tree.id
  let retval := vec_zero (vec_new (st.maxsubst.get root + 1).toNat)
  let retval :=
    forUpTo (st.maxsubst.get root + 1).toNat (fun n retval =>
      forUpTo size (fun a retval =>
        retval.set n
          (retval.data n + (st.L.get root).data a n * jp.mod.backgd_freqs.data a))
        retval) retval
  let retval := pv_normalize retval
  -- trim off very small values
  let retval : Vector :=
    { retval with size := trim_scan retval.data (st.maxsubst.get root + 1).toNat }
  pv_normalize retval

/-- The traversal loop of `sub_posterior_distrib_site` (lines 202-267) over a list of
nodes, from a state that may already have failed. -/
def posterior_traversal (pv_poisson : ℚ → Vector) (jp : JumpProcess) (msa : MSA)
    (ss : SuffStats) (msa_seq_idx : Nat → Nat) (tuple_idx : Nat) (traversal : List TreeNode)
    (st : Option SiteState) : Option SiteState :=
  traversal.foldl
    (fun st node => st.bind
      (fun st => posterior_node pv_poisson jp msa ss msa_seq_idx tuple_idx st node)) st

/-- The sequence index of lines 199-200: `jp->mod->msa_seq_idx`, built by
`tm_build_seq_idx` (`tree_model.c`, absent; a parameter) when it is `NULL`. -/
def seq_idx (tm_build_seq_idx : TreeModel → MSA → Nat → Nat) (jp : JumpProcess) (msa : MSA) :
    Nat → Nat :=
  match jp.mod.msa_seq_idx with
  | none => tm_build_seq_idx jp.mod msa
  | some idx => idx

/-- The tables before the traversal: nothing allocated. -/
def SiteState.init : SiteState := ⟨MatrixArray.empty, ⟨fun _ => 0⟩⟩

/-- The function `sub_posterior_distrib_site` (lines 188-289); `none` is a failed
assertion. -/
def sub_posterior_distrib_site (pv_poisson : ℚ → Vector)
    (tm_build_seq_idx : TreeModel → MSA → Nat → Nat) (jp : JumpProcess) (msa : MSA)
    (tuple_idx : Nat) : Option Vector :=
  let traversal := tr_postorder jp.mod.tree
  if jp.mod.order ≠ 0 then none
  else
    match msa.ss with
    | none => none
    | some ss =>
      let msa_seq_idx := seq_idx tm_build_seq_idx jp msa
      let final := posterior_traversal pv_poisson jp msa ss msa_seq_idx tuple_idx traversal
        (some SiteState.init)
      final.map (posterior_root jp)

/-- The function `sub_prior_distrib_site` (lines 181-183). -/
def sub_prior_distrib_site (pv_poisson : ℚ → Vector) (jp : JumpProcess) : Option Vector :=
  sub_distrib_branch pv_poisson jp (tr_total_len jp.mod.tree)

/-- The loop state of `sub_joint_distrib_site`: the per-node tables and the saved table
sizes `n1_max`, `n2_max`. -/
structure JointState where
  L : MatrixArray
  maxsubst : IntArray
  n1_max : Int
  n2_max : Int

/-- The body of the traversal loop of `sub_joint_distrib_site` (lines 369-437) for one
node; `none` is a failed assertion, or the read of a character without sufficient
statistics. -/
def joint_node (pv_poisson : ℚ → Vector) (jp : JumpProcess) (msa : Option MSA)
    (msa_seq_idx : Nat → Nat) (tuple_idx : Nat) (st : JointState) (node : TreeNode) :
    Option JointState :=
  let size := jp.mod.rate_matrix.size
  let L := st.L.set node.id (mat_zero (mat_new size 500))
  match node with
  | .leaf id _ =>
    -- leaf -- base case
    match msa with
    | none =>
      some { st with L := forUpTo size (fun a L => setEntry L id a 0 1) L,
                     maxsubst := st.maxsubst.set id 0 }
    | some msa =>
      match msa.ss with
      | none => none
      | some ss =>
        let c := ss.col_char tuple_idx (msa_seq_idx id)
        if msa.is_missing c || c == GAP_CHAR then
          some { st with L := forUpTo size (fun a L => setEntry L id a 0 1) L,
                         maxsubst := st.maxsubst.set id 0 }
        else if msa.inv_alphabet c ≥ 0 then
          some { st with L := setEntry L id (msa.inv_alphabet c).toNat 0 1,
                         maxsubst := st.maxsubst.set id 0 }
        else none
  | .node id _ lchild rchild =>
    -- internal node -- recursive case
    match sub_distrib_branch_conditional pv_poisson jp lchild.dparent,
          sub_distrib_branch_conditional pv_poisson jp rchild.dparent with
    | some d_left, some d_right =>
      let maxsubst := st.maxsubst.set id
        (max (st.maxsubst.get lchild.id + (d_left.get 0).ncols - 1)
             (st.maxsubst.get rchild.id + (d_right.get 0).ncols - 1))
      let n1_max :=
        if node = jp.mod.tree then maxsubst.get lchild.id + (d_left.get 0).ncols
        else st.n1_max
      let n2_max :=
        if node = jp.mod.tree then maxsubst.get rchild.id + (d_right.get 0).ncols
        else st.n2_max
      some ⟨combine_children size L maxsubst id lchild.id rchild.id d_left d_right, maxsubst,
        n1_max, n2_max⟩
    | _, _ => none

/-- The first trimming pass of lines 462-468: the new `n1_max`. -/
def trim_rows (retval : Matrix) (n1_max n2_max : Nat) : Nat :=
  (forDown n1_max (fun n1 s =>
    forUpTo n2_max (fun n2 (s : Nat × Bool) =>
      if !s.2 then
        if retval.data n1 n2 ≥ trimThreshold then (n1 + 1, true) else s
      else s) s) (n1_max, false)).1

/-- The second trimming pass of lines 469-475: the new `n2_max`. -/
def trim_cols (retval : Matrix) (n1_max n2_max : Nat) : Nat :=
  (forDown n2_max (fun n2 s =>
    forUpTo n1_max (fun n1 (s : Nat × Bool) =>
      if !s.2 then
        if retval.data n1 n2 ≥ trimThreshold then (n2 + 1, true) else s
      else s) s) (n2_max, false)).1

/-- The root finalisation of `sub_joint_distrib_site` (lines 440-487) for a root with
children `lchild` and `rchild`: the joint table, normalised, trimmed on both axes and
normalised again; `none` is the failed assertion of `sub_distrib_branch_conditional`. -/
def joint_root (pv_poisson : ℚ → Vector) (jp : JumpProcess) (st : JointState)
    (lchild rchild : TreeNode) : Option Matrix :=
  let size := jp.mod.rate_matrix.size
  match sub_distrib_branch_conditional pv_poisson jp lchild.dparent with
  | some d_left =>
    let n1_max := st.n1_max.toNat
    let n2_max := st.n2_max.toNat
    let retval := mat_zero (mat_new n1_max n2_max)
    let acc : Matrix × ℚ :=
      forUpTo n1_max (fun n1 acc =>
        forUpTo n2_max (fun n2 (acc : Matrix × ℚ) =>
          let retval :=
            forUpTo size (fun a retval =>
              let min_i : Int := max 0 ((n1 : Int) - (d_left.get a).ncols + 1)
              let left : ℚ :=
                forUpTo size (fun b left =>
                  forRange min_i.toNat (n1 + 1) (fun i left =>
                    left + (st.L.get lchild.id).data b i * (d_left.get a).data b (n1 - i))
                    left) 0
              retval.set n1 n2
                (retval.data n1 n2 +
                  left * jp.mod.backgd_freqs.data a * (st.L.get rchild.id).data a n2))
              acc.1
          (retval, acc.2 + retval.data n1 n2)) acc) (retval, 0)
    -- normalize
    let retval := mat_scale acc.1 (1 / acc.2)
    -- trim off very small values
    let n1_max := trim_rows retval n1_max n2_max
    let n2_max := trim_cols retval n1_max n2_max
    let retval := mat_resize retval n1_max n2_max
    some (pm_normalize retval)
  | none => none

/-- The traversal loop of `sub_joint_distrib_site` (lines 368-438) over a list of nodes,
from a state that may already have failed. -/
def joint_traversal (pv_poisson : ℚ → Vector) (jp : JumpProcess) (msa : Option MSA)
    (msa_seq_idx : Nat → Nat) (tuple_idx : Nat) (traversal : List TreeNode)
    (st : Option JointState) : Option JointState :=
  traversal.foldl
    (fun st node => st.bind
      (fun st => joint_node pv_poisson jp msa msa_seq_idx tuple_idx st node)) st

/-- The sequence index of lines 365-366, used only when an alignment is given. -/
def joint_seq_idx (tm_build_seq_idx : TreeModel → MSA → Nat → Nat) (jp : JumpProcess)
    (msa : Option MSA) : Nat → Nat :=
  match msa, jp.mod.msa_seq_idx with
  | some msa, none => tm_build_seq_idx jp.mod msa
  | _, some idx => idx
  | none, none => fun _ => 0

/-- The tables before the traversal: nothing allocated, `n1_max = n2_max = 0`. -/
def JointState.init : JointState := ⟨MatrixArray.empty, ⟨fun _ => 0⟩, 0, 0⟩

/-- The function `sub_joint_distrib_site` (lines 353-488); `none` is a failed assertion or
a `NULL` dereference (a root without children). -/
def sub_joint_distrib_site (pv_poisson : ℚ → Vector)
    (tm_build_seq_idx : TreeModel → MSA → Nat → Nat) (jp : JumpProcess) (msa : Option MSA)
    (tuple_idx : Nat) : Option Matrix :=
  let traversal := tr_postorder jp.mod.tree
  if jp.mod.order ≠ 0 then none
  else
    let msa_seq_idx := joint_seq_idx tm_build_seq_idx jp msa
    let final := joint_traversal pv_poisson jp msa msa_seq_idx tuple_idx traversal
      (some JointState.init)
    match final, jp.mod.tree with
    | some st, .node _ _ lchild rchild => joint_root pv_poisson jp st lchild rchild
    | _, _ => none

/-! ## Auxiliary definitions used in the statements -/

/-- The loop of lines 66-69, run over the first `n` states. -/
def lambdaLoop (Q : MarkovMatrix) (n : Nat) : ℚ :=
  forUpTo n (fun j lambda =>
      let val := - Q.mm_get j j
      if val > lambda then val else lambda) 0

/-- The entry that lines 74-75 store at `R->data[i][j]`. -/
def jumpEntry (Q : MarkovMatrix) (lambda : ℚ) (i j : Nat) : ℚ :=
  if i = j then Q.mm_get i j / lambda + 1 else Q.mm_get i j / lambda

/-- The Poisson mixture of the tables `A`: the sum over `j < pois->size` and over the bases
`i` of `A[i]->data[n][j] * pois->data[j]`. -/
def branchMix (jp : JumpProcess) (pois : Vector) (n : Nat) : ℚ :=
  ∑ j in Finset.range pois.size, ∑ i in Finset.range jp.R.nrows,
    (jp.A.get i).data n j * pois.data j

/-- The Poisson mixture of the tables `B[a][b]`: the sum over `j < pois->size` of
`B[a][b]->data[n][j] * pois->data[j]`. -/
def condMix (jp : JumpProcess) (pois : Vector) (a b n : Nat) : ℚ :=
  ∑ j in Finset.range pois.size, ((jp.B.get a).get b).data n j * pois.data j

/-- The initial distribution of lines 33-37: the background frequencies when
`condition_on < 0`, the point mass at `condition_on` otherwise. -/
def initDist (jp : JumpProcess) (condition_on : Int) (i : Nat) : ℚ :=
  if condition_on < 0 then (if i < jp.R.nrows then jp.mod.backgd_freqs.data i else 0)
  else (if i = condition_on.toNat then 1 else 0)

/-- The recurrence of lines 40-51 read as a function of the jump count `j`, the final
base `i` and the substitution count `n`: the value the loop nest stores at
`A[i]->data[n][j]`. -/
def jumpTable (R : Matrix) (size : Nat) (init : Nat → ℚ) : Nat → Nat → Nat → ℚ
  | 0, i, n => if n = 0 then init i else 0
  | j + 1, i, n =>
    if i < size ∧ n ≤ j + 1 then
      jumpTable R size init j i n * R.data i i +
        (if n > 0 then
          ∑ k in Finset.range size,
            (if k = i then 0 else jumpTable R size init j k (n - 1) * R.data k i)
         else 0)
    else 0

/-- The lower end `min_i` (`min_k`) of the index window of lines 235 and 237, for a child
count total `tot` and a branch table with `ncols` columns. -/
def winLo (tot ncols : Nat) : Nat := (max 0 ((tot : Int) - ncols + 1)).toNat

/-- One past the upper end `max_i` (`max_k`) of the index window of lines 236 and 238. -/
def winHi (tot : Nat) (ms : Int) : Nat := (min (tot : Int) ms + 1).toNat

/-- The sums `left` and `right` of lines 243-253: over the labels `b < size` of the child
and the counts `i` in the window `[lo, hi)`, of `Lc->data[b][i] * D->data[b][tot - i]`. -/
def childSum (size : Nat) (Lc D : Matrix) (lo hi tot : Nat) : ℚ :=
  ∑ b in Finset.range size, ∑ i in Finset.Ico lo hi, Lc.data b i * D.data b (tot - i)

/-- The sum that lines 232-258 add to `L[node]->data[a][n]`: over the splits `j <= n`, the
product of the left sum at `j` and the right sum at `n - j`. -/
def splitSum (size : Nat) (Ll Lr : Matrix) (msl msr : Int) (d_left d_right : MatrixArray)
    (a n : Nat) : ℚ :=
  ∑ j in Finset.range (n + 1),
    childSum size Ll (d_left.get a) (winLo j (d_left.get 0).ncols) (winHi j msl) j *
    childSum size Lr (d_right.get a) (winLo (n - j) (d_right.get 0).ncols)
      (winHi (n - j) msr) (n - j)

/-- The unnormalised root vector of lines 269-274: entry `n <= maxsubst[root]` is the sum
over the labels `a` of `L[root]->data[a][n] * backgd_freqs[a]`; 0 beyond. -/
def rootVec (jp : JumpProcess) (st : SiteState) (n : Nat) : ℚ :=
  if n < (st.maxsubst.get jp.mod.tree.id + 1).toNat then
    ∑ a in Finset.range jp.mod.rate_matrix.size,
      (st.L.get jp.mod.tree.id).data a n * jp.mod.backgd_freqs.data a
  else 0

/-- The root vector after the first normalisation (line 276). -/
def rootVecNorm (jp : JumpProcess) (st : SiteState) (n : Nat) : ℚ :=
  rootVec jp st n /
    ∑ k in Finset.range (st.maxsubst.get jp.mod.tree.id + 1).toNat, rootVec jp st k

/-- The unnormalised entry `(n1, n2)` of the joint table of lines 444-455: the sum over
the root labels `a` of the left sum at `n1` (window from `min_i` to `n1`), times
`backgd_freqs[a]`, times `L[rchild]->data[a][n2]`. -/
def jointCell (jp : JumpProcess) (Ll Lr : Matrix) (d_left : MatrixArray) (n1 n2 : Nat) : ℚ :=
  ∑ a in Finset.range jp.mod.rate_matrix.size,
    childSum jp.mod.rate_matrix.size Ll (d_left.get a) (winLo n1 (d_left.get a).ncols)
      (n1 + 1) n1 * jp.mod.backgd_freqs.data a * Lr.data a n2

/-- The joint table after the first normalisation (line 459): `jointCell` divided by the
total of the table. -/
def jointScaled (jp : JumpProcess) (Ll Lr : Matrix) (d_left : MatrixArray) (N1 N2 : Nat) :
    Matrix :=
  ⟨N1, N2, fun r c =>
    (if r < N1 ∧ c < N2 then jointCell jp Ll Lr d_left r c else 0) *
      (1 / ∑ r in Finset.range N1, ∑ c in Finset.range N2, jointCell jp Ll Lr d_left r c)⟩

/-- The projection of the loop state of `sub_joint_distrib_site` on the tables shared
with `sub_posterior_distrib_site`. -/
def JointState.site (st : JointState) : SiteState := ⟨st.L, st.maxsubst⟩

/-- The marginal of a joint table over the total count: the sum of `data[n1][n2]` over all
`n1 + n2 = n`. -/
def margTot (M : Matrix) (n : Nat) : ℚ :=
  ∑ n1 in Finset.range M.nrows, ∑ n2 in Finset.range M.ncols,
    if n1 + n2 = n then M.data n1 n2 else 0

/-! ## Example inputs -/

/-- The symmetric 2-state rate matrix with off-diagonal rate 1. -/
def symQ2 : MarkovMatrix := ⟨2, fun i j => if i = j then -1 else 1⟩

/-- A tree model over `symQ2` with uniform background frequencies and the two-leaf tree
with both branch lengths 0. -/
def symMod : TreeModel :=
  { rate_matrix := symQ2, backgd_freqs := ⟨2, fun _ => 1 / 2⟩,
    tree := .node 2 0 (.leaf 0 0) (.leaf 1 0), order := 0, msa_seq_idx := none }

/-- A Poisson vector of length 1 with all of its mass at `j = 0`, for every rate. -/
def pointPois : ℚ → Vector := fun _ => ⟨1, fun j => if j = 0 then 1 else 0⟩

/-- The Poisson distribution of mean 1 cut to its first two entries and normalised,
for every rate. -/
def halfPois : ℚ → Vector := fun _ => ⟨2, fun _ => 1 / 2⟩

/-! ## Index traces

The index triples at which the loop nests read the tables `A` and `B`. -/

/-- The triples `(i, n, j)` at which lines 123-126 read `jp->A[i]->data[n][j]`, in the
order of the loop nest (latest first). -/
def sub_distrib_branch_reads (pv_poisson : ℚ → Vector) (jp : JumpProcess) (t : ℚ) :
    List (Nat × Nat × Nat) :=
  let pois := pv_poisson (jp.lambda * t)
  forUpTo pois.size (fun n log =>
    forUpTo pois.size (fun j log =>
      forUpTo jp.R.nrows (fun i log => (i, n, j) :: log) log) log) []

/-- The tuples `(k, i, n, j)` at which lines 163-167 read `jp->B[k][i]->data[n][j]`, in
the order of the loop nest (latest first). -/
def sub_distrib_branch_conditional_reads (pv_poisson : ℚ → Vector) (jp : JumpProcess) (t : ℚ) :
    List (Nat × Nat × Nat × Nat) :=
  let pois := pv_poisson (jp.lambda * t)
  let size := jp.mod.rate_matrix.size
  forUpTo size (fun k log =>
    forUpTo pois.size (fun n log =>
      forUpTo pois.size (fun j log =>
        forUpTo size (fun i log => (k, i, n, j) :: log) log) log) log) []

/-- A 2-state rate matrix with unequal exit rates: `Q = ((-2, 2), (1, -1))`; its
stationary distribution is `(1/3, 2/3)`. -/
def asymQ : MarkovMatrix :=
  ⟨2, fun i j => if i = 0 then (if j = 0 then -2 else 2) else (if j = 1 then -1 else 1)⟩

/-- A tree model over `asymQ` at stationarity, on the two-leaf tree with both branch
lengths 1. -/
def asymMod : TreeModel :=
  { rate_matrix := asymQ, backgd_freqs := ⟨2, fun i => if i = 0 then 1 / 3 else 2 / 3⟩,
    tree := .node 2 0 (.leaf 0 1) (.leaf 1 1), order := 0, msa_seq_idx := some id }

/-- The Poisson distribution of mean `mu` cut to its first two entries and normalised,
without trailing zeros: `(1)` for `mu = 0`, `(1, mu) / (1 + mu)` otherwise. -/
def cutPois : ℚ → Vector := fun mu =>
  if mu = 0 then ⟨1, fun _ => 1⟩
  else ⟨2, fun j => if j = 0 then 1 / (1 + mu) else mu / (1 + mu)⟩

/-- An alignment with one column in which every character is missing. -/
def missingMSA : MSA := ⟨some ⟨1, fun _ => 1, fun _ _ => 42⟩, fun _ => true, fun _ => -1⟩

/-- The tables after the two leaves (ids 0 and 1) of a two-leaf tree over a 2-letter
alphabet, when both characters are missing. -/
def cherryLeaves : SiteState :=
  ⟨forUpTo 2 (fun a L => setEntry L 1 a 0 1)
      ((forUpTo 2 (fun a L => setEntry L 0 a 0 1)
        (SiteState.init.L.set 0 (mat_zero (mat_new 2 500)))).set 1 (mat_zero (mat_new 2 500))),
    (SiteState.init.maxsubst.set 0 0).set 1 0⟩

/-- The tree model over `symQ2` with uniform background frequencies on a given tree. -/
def symTreeMod (tree : TreeNode) : TreeModel :=
  { rate_matrix := symQ2, backgd_freqs := ⟨2, fun _ => 1 / 2⟩, tree := tree,
    order := 0, msa_seq_idx := some id }

/-- The model `symTreeMod` on the three-leaf tree
`(leaf 0 : 1, (leaf 1 : 1, leaf 2 : 0) : 0)`: the root's right branch has length 0. -/
def triMod : TreeModel :=
  symTreeMod (.node 4 0 (.leaf 0 1) (.node 3 0 (.leaf 1 1) (.leaf 2 0)))

/-- The model `symTreeMod` on the two-leaf tree `(leaf 0 : 1, leaf 1 : 0)`: the root's right
child is a leaf on a branch of length 0. -/
def zeroRightMod : TreeModel := symTreeMod (.node 2 0 (.leaf 0 1) (.leaf 1 0))

/-- The triples `(i, n, j)` of the entries `A[i]->data[n][j]` that the recurrence of lines
40-51 of `get_substs_and_bases_given_jumps` reads, in the order of the loop nest (latest
first): line 43 reads `A[i]->data[n][j-1]`, line 47 reads `A[k]->data[n-1][j-1]` and, for
the `+=`, `A[i]->data[n][j]`. -/
def get_substs_reads (jp : JumpProcess) (jmax : Nat) : List (Nat × Nat × Nat) :=
  let size := jp.R.nrows
  forRange 1 jmax (fun j log =>
    forUpTo (j + 1) (fun n log =>
      forUpTo size (fun i log =>
        let log := (i, n, j - 1) :: log
        if n > 0 then
          forUpTo size (fun k log =>
            if k = i then log
            else (i, n, j) :: (k, n - 1, j - 1) :: log) log
        else log) log) log) []

/-- The triples `(i, n, j)` of the entries `A[i]->data[n][j]` that the recurrence of lines
40-51 writes (lines 43 and 47), in the order of the loop nest (latest first). -/
def get_substs_writes (jp : JumpProcess) (jmax : Nat) : List (Nat × Nat × Nat) :=
  let size := jp.R.nrows
  forRange 1 jmax (fun j log =>
    forUpTo (j + 1) (fun n log =>
      forUpTo size (fun i log =>
        let log := (i, n, j) :: log
        if n > 0 then
          forUpTo size (fun k log =>
            if k = i then log
            else (i, n, j) :: log) log
        else log) log) log) []

/-- An alignment with one column over the alphabet `A` (65, index 0), `C` (67, index 1):
sequence 0 has `A`, sequence 1 has `C`, every other sequence has `X` (88), which is
neither missing nor in the alphabet; only `N` (78) is a missing character. -/
def clashMSA : MSA :=
  ⟨some ⟨1, fun _ => 1, fun _ seq => if seq = 0 then 65 else if seq = 1 then 67 else 88⟩,
    fun c => c == 78,
    fun c => if c = 65 then 0 else if c = 67 then 1 else -1⟩

/-- The table of a child read as 0 beyond `maxsubst` of the child. -/
def tableZ (Lc : Matrix) (ms : Int) (b i : Nat) : ℚ :=
  if (i : Int) ≤ ms then Lc.data b i else 0

/-- A branch distribution read as 0 beyond its last column. -/
def distZ (D : Matrix) (b n : Nat) : ℚ :=
  if n < D.ncols then D.data b n else 0

/-- The internal rule as the specification writes it, with untightened index ranges: the
sum over `j = 0..n` of (the sum over `b` and `i = 0..j` of
`L[left][b][i] * D_left[a][b][j-i]`) times (the sum over `c` and `k = 0..n-j` of
`L[right][c][k] * D_right[a][c][n-j-k]`), the child tables being read as 0 beyond
`maxsubst` of the child and the branch distributions as 0 beyond their last column. -/
def fullSplitSum (size : Nat) (Ll Lr : Matrix) (msl msr : Int) (d_left d_right : MatrixArray)
    (a n : Nat) : ℚ :=
  ∑ j in Finset.range (n + 1),
    (∑ b in Finset.range size, ∑ i in Finset.range (j + 1),
      tableZ Ll msl b i * distZ (d_left.get a) b (j - i)) *
    (∑ c in Finset.range size, ∑ k in Finset.range (n - j + 1),
      tableZ Lr msr c k * distZ (d_right.get a) c (n - j - k))

/-- The model `symTreeMod` on the two-leaf tree `(leaf 0 : 0, leaf 1 : 0)`: both branches
have length 0. -/
def zeroMod : TreeModel := symTreeMod (.node 2 0 (.leaf 0 0) (.leaf 1 0))

/-- The table that lines 440-459 of `sub_joint_distrib_site` build before the trimming
passes: the cells accumulated over the root labels, divided by their total. -/
def joint_table (jp : JumpProcess) (st : JointState) (lchild rchild : TreeNode)
    (d_left : MatrixArray) : Matrix :=
  let size := jp.mod.rate_matrix.size
  let n1_max := st.n1_max.toNat
  let n2_max := st.n2_max.toNat
  let retval := mat_zero (mat_new n1_max n2_max)
  let acc : Matrix × ℚ :=
    forUpTo n1_max (fun n1 acc =>
      forUpTo n2_max (fun n2 (acc : Matrix × ℚ) =>
        let retval :=
          forUpTo size (fun a retval =>
            let min_i : Int := max 0 ((n1 : Int) - (d_left.get a).ncols + 1)
            let left : ℚ :=
              forUpTo size (fun b left =>
                forRange min_i.toNat (n1 + 1) (fun i left =>
                  left + (st.L.get lchild.id).data b i * (d_left.get a).data b (n1 - i))
                  left) 0
            retval.set n1 n2
              (retval.data n1 n2 +
                left * jp.mod.backgd_freqs.data a * (st.L.get rchild.id).data a n2))
            acc.1
        (retval, acc.2 + retval.data n1 n2)) acc) (retval, 0)
  -- normalize
  mat_scale acc.1 (1 / acc.2)

/-- The cell `(n1, n2)` of the joint table as the specification writes it: the sum over the
root labels `a` of `backgd_freqs[a]` times (the sum over `b` and `i <= n1` of
`L[lchild][b][i] * D_left[a][b][n1-i]`) times `L[rchild]->data[a][n2]`, the branch
distribution being read as 0 beyond its last column. -/
def jointFull (jp : JumpProcess) (Ll Lr : Matrix) (d_left : MatrixArray) (n1 n2 : Nat) : ℚ :=
  ∑ a in Finset.range jp.mod.rate_matrix.size,
    jp.mod.backgd_freqs.data a *
      (∑ b in Finset.range jp.mod.rate_matrix.size, ∑ i in Finset.range (n1 + 1),
        Ll.data b i * distZ (d_left.get a) b (n1 - i)) *
      Lr.data a n2

/-- A normalised 2 x 2 table whose only entry outside the top-left corner is `1e-11`. -/
def cornerTable : Matrix :=
  ⟨2, 2, fun x y =>
    if x = 0 ∧ y = 0 then 1 - 1 / 100000000000
    else if x = 1 ∧ y = 1 then 1 / 100000000000 else 0⟩

/-- The function `sub_posterior_stats_alignment` (lines 329-341), returning the final
values of `*mean` and `*variance`. The helper `pv_stats` (`prob_vector.c`, absent), which
returns the mean and the variance of a vector, is a parameter. The result is `none` when
`msa->ss` is `NULL` or when a call of `sub_posterior_distrib_site` fails an assertion. -/
def sub_posterior_stats_alignment (pv_poisson : ℚ → Vector)
    (tm_build_seq_idx : TreeModel → MSA → Nat → Nat) (pv_stats : Vector → ℚ × ℚ)
    (jp : JumpProcess) (msa : MSA) : Option (ℚ × ℚ) :=
  match msa.ss with
  | none => none
  | some ss =>
    forUpTo ss.ntuples (fun tup (acc : Option (ℚ × ℚ)) =>
      match acc with
      | none => none
      | some (mean, variance) =>
        match sub_posterior_distrib_site pv_poisson tm_build_seq_idx jp msa tup with
        | none => none
        | some p =>
          let this := pv_stats p
          some (mean + this.1 * ss.counts tup, variance + this.2 * ss.counts tup))
      (some (0, 0))

/-- The mean and the variance of the distribution held by a vector, an instance of the
parameter `pv_stats`. -/
def meanVar (v : Vector) : ℚ × ℚ :=
  let mean := ∑ n in Finset.range v.size, (n : ℚ) * v.data n
  (mean, ∑ n in Finset.range v.size, ((n : ℚ) - mean) ^ 2 * v.data n)

/-! ## The option `--indel-model` of `dmsProcessParallel.c` -/

/-- A C `double` as the comparisons of lines 109-112 see it: NaN, plus or minus infinity,
or a finite value, which is taken as an exact rational. -/
inductive CDouble where
  | nan
  | pinf
  | ninf
  | val (q : ℚ)
  deriving DecidableEq

/-- The C comparison `x <= c` with a finite constant `c`; false when `x` is NaN. -/
def CDouble.le (x : CDouble) (c : ℚ) : Bool :=
  match x with
  | .nan => false
  | .pinf => false
  | .ninf => true
  | .val q => decide (q ≤ c)

/-- The C comparison `x >= c` with a finite constant `c`; false when `x` is NaN. -/
def CDouble.ge (x : CDouble) (c : ℚ) : Bool :=
  match x with
  | .nan => false
  | .pinf => true
  | .ninf => false
  | .val q => decide (q ≥ c)

/-- The variables that the case `'I'` of the option loop of `main` assigns: the four
parameters of the conserved indel model, the four of the neutral one, and `do_ih`. -/
structure IndelArgs where
  alpha_c : CDouble
  beta_c : CDouble
  tau_c : CDouble
  epsilon_c : CDouble
  alpha_n : CDouble
  beta_n : CDouble
  tau_n : CDouble
  epsilon_n : CDouble
  do_ih : Int

/-- Modelled from the spec: `lst_size` of `lists.h` (absent) is the number of values of a
list. -/
def lst_size (l : List CDouble) : Nat := l.length

/-- Modelled from the spec: `lst_get_dbl` of `lists.h` (absent) returns the value at
position `i` of a list of doubles. -/
def lst_get_dbl (l : List CDouble) (i : Nat) : CDouble := l.getD i (.val 0)

/-- The case `'I'` of the option loop of `main` (`dmsProcessParallel.c`, lines 91-115),
run on the list `tmpl` that `get_arg_list_dbl` (absent) parsed from the argument. The first
component is the values of the variables after the case, `none` when the case ends in
`die`; the second lists the positions passed to `lst_get_dbl`, in the order of the
calls. -/
def main_indel_model (tmpl : List CDouble) : Option IndelArgs × List Nat :=
  if lst_size tmpl ≠ 4 ∧ lst_size tmpl ≠ 8 then (none, [])
  else
    let alpha_n := lst_get_dbl tmpl 0
    let beta_n := lst_get_dbl tmpl 1
    let tau_n := lst_get_dbl tmpl 2
    let epsilon_n := lst_get_dbl tmpl 3
    let reads : List Nat := [0, 1, 2, 3]
    let conserved : (CDouble × CDouble × CDouble × CDouble) × List Nat :=
      if lst_size tmpl = 6 then
        ((lst_get_dbl tmpl 4, lst_get_dbl tmpl 5, lst_get_dbl tmpl 6, lst_get_dbl tmpl 7),
          reads ++ [4, 5, 6, 7])
      else ((alpha_n, beta_n, tau_n, epsilon_n), reads)
    let alpha_c := conserved.1.1
    let beta_c := conserved.1.2.1
    let tau_c := conserved.1.2.2.1
    let epsilon_c := conserved.1.2.2.2
    if alpha_c.le 0 || alpha_c.ge 1 || beta_c.le 0 || beta_c.ge 1 ||
        tau_c.le 0 || tau_c.ge 1 || epsilon_c.le 0 || epsilon_c.ge 1 ||
        alpha_n.le 0 || alpha_n.ge 1 || beta_n.le 0 || beta_n.ge 1 ||
        tau_n.le 0 || tau_n.ge 1 || epsilon_n.le 0 || epsilon_n.ge 1 then
      (none, conserved.2)
    else
      (some ⟨alpha_c, beta_c, tau_c, epsilon_c, alpha_n, beta_n, tau_n, epsilon_n, 1⟩,
        conserved.2)

/-- The range test that the claim describes: a finite value strictly between 0 and 1. -/
def CDouble.inUnitInterval (x : CDouble) : Prop :=
  ∃ q, x = .val q ∧ 0 < q ∧ q < 1

/-! ## Column accesses of the dynamic program

The column indices that the traversal loops of `sub_posterior_distrib_site` and
`sub_joint_distrib_site` use on the per-node tables `L` and on the branch distributions
`d_left`, `d_right`, each with the number of columns of the matrix it is used on. -/

/-- The tables of the dynamic program whose columns are indexed. -/
inductive DPTable where
  | L
  | D_left
  | D_right
  deriving DecidableEq

/-- One use of a column index: the table, the index (a C `int`) and the number of columns
of the matrix that is indexed. -/
structure ColAccess where
  table : DPTable
  col : Int
  ncols : Nat

/-- The column accesses of the loop nest of lines 232-258 (the same text as lines 405-429),
latest first: `L[lchild]->data[b][i]` and `d_left[a]->data[b][j-i]` (lines 245-246),
`L[rchild]->data[c][k]` and `d_right[a]->data[c][n-j-k]` (lines 251-252),
`L[node]->data[a][n]` (line 254). The assignments of the loop nest do not change the
number of columns of a table, so these are read from the tables `L` at its start. -/
def combine_children_cols (size : Nat) (L : MatrixArray) (maxsubst : IntArray)
    (id lid rid : Nat) (d_left d_right : MatrixArray) : List ColAccess :=
  forUpTo (maxsubst.get id + 1).toNat (fun n log =>
    forUpTo (n + 1) (fun j log =>
      let min_i : Int := max 0 ((j : Int) - (d_left.get 0).ncols + 1)
      let max_i : Int := min (j : Int) (maxsubst.get lid)
      let min_k : Int := max 0 ((n : Int) - j - (d_right.get 0).ncols + 1)
      let max_k : Int := min ((n : Int) - j) (maxsubst.get rid)
      forUpTo size (fun a log =>
        let log :=
          forUpTo size (fun _b log =>
            forRange min_i.toNat (max_i + 1).toNat (fun i log =>
              ⟨.D_left, (j : Int) - i, (d_left.get a).ncols⟩ ::
                ⟨.L, (i : Int), (L.get lid).ncols⟩ :: log) log) log
        let log :=
          forUpTo size (fun _c log =>
            forRange min_k.toNat (max_k + 1).toNat (fun k log =>
              ⟨.D_right, (n : Int) - j - k, (d_right.get a).ncols⟩ ::
                ⟨.L, (k : Int), (L.get rid).ncols⟩ :: log) log) log
        ⟨.L, (n : Int), (L.get id).ncols⟩ :: log) log) log) []

/-- The column accesses of one step of the traversal loop of `sub_posterior_distrib_site`
(lines 203-266): column 0 of the fresh table at a leaf (lines 215, 218), the loop nest at
an internal node; none when the step fails. -/
def posterior_node_cols (pv_poisson : ℚ → Vector) (jp : JumpProcess) (msa : MSA)
    (ss : SuffStats) (msa_seq_idx : Nat → Nat) (tuple_idx : Nat) (st : SiteState)
    (node : TreeNode) : List ColAccess :=
  let size := jp.mod.rate_matrix.size
  let L := st.L.set node.id (mat_zero (mat_new size 500))
  match node with
  | .leaf id _ =>
    let c := ss.col_char tuple_idx (msa_seq_idx id)
    if msa.is_missing c || c == GAP_CHAR then
      forUpTo size (fun _a log => ⟨.L, 0, (L.get id).ncols⟩ :: log) []
    else if msa.inv_alphabet c ≥ 0 then [⟨.L, 0, (L.get id).ncols⟩]
    else []
  | .node id _ lchild rchild =>
    match sub_distrib_branch_conditional pv_poisson jp lchild.dparent,
          sub_distrib_branch_conditional pv_poisson jp rchild.dparent with
    | some d_left, some d_right =>
      let maxsubst := st.maxsubst.set id
        (max (st.maxsubst.get lchild.id + (d_left.get 0).ncols - 1)
             (st.maxsubst.get rchild.id + (d_right.get 0).ncols - 1))
      combine_children_cols size L maxsubst id lchild.id rchild.id d_left d_right
    | _, _ => []

/-- The column accesses of one step of the traversal loop of `sub_joint_distrib_site`
(lines 368-438); none when the step fails. -/
def joint_node_cols (pv_poisson : ℚ → Vector) (jp : JumpProcess) (msa : Option MSA)
    (msa_seq_idx : Nat → Nat) (tuple_idx : Nat) (st : JointState) (node : TreeNode) :
    List ColAccess :=
  let size := jp.mod.rate_matrix.size
  let L := st.L.set node.id (mat_zero (mat_new size 500))
  match node with
  | .leaf id _ =>
    match msa with
    | none => forUpTo size (fun _a log => ⟨.L, 0, (L.get id).ncols⟩ :: log) []
    | some msa =>
      match msa.ss with
      | none => []
      | some ss =>
        let c := ss.col_char tuple_idx (msa_seq_idx id)
        if msa.is_missing c || c == GAP_CHAR then
          forUpTo size (fun _a log => ⟨.L, 0, (L.get id).ncols⟩ :: log) []
        else if msa.inv_alphabet c ≥ 0 then [⟨.L, 0, (L.get id).ncols⟩]
        else []
  | .node id _ lchild rchild =>
    match sub_distrib_branch_conditional pv_poisson jp lchild.dparent,
          sub_distrib_branch_conditional pv_poisson jp rchild.dparent with
    | some d_left, some d_right =>
      let maxsubst := st.maxsubst.set id
        (max (st.maxsubst.get lchild.id + (d_left.get 0).ncols - 1)
             (st.maxsubst.get rchild.id + (d_right.get 0).ncols - 1))
      combine_children_cols size L maxsubst id lchild.id rchild.id d_left d_right
    | _, _ => []

/-- The column accesses of the loop nest of lines 444-456 that fills the joint table, latest
first: `L[lchild]->data[b][i]` and `d_left[a]->data[b][n1-i]` (lines 451-452),
`L[rchild]->data[a][n2]` (line 454). -/
def joint_root_cols (pv_poisson : ℚ → Vector) (jp : JumpProcess) (st : JointState)
    (lchild rchild : TreeNode) : List ColAccess :=
  let size := jp.mod.rate_matrix.size
  match sub_distrib_branch_conditional pv_poisson jp lchild.dparent with
  | some d_left =>
    let n1_max := st.n1_max.toNat
    let n2_max := st.n2_max.toNat
    forUpTo n1_max (fun n1 log =>
      forUpTo n2_max (fun n2 log =>
        forUpTo size (fun a log =>
          let min_i : Int := max 0 ((n1 : Int) - (d_left.get a).ncols + 1)
          let log :=
            forUpTo size (fun _b log =>
              forRange min_i.toNat (n1 + 1) (fun i log =>
                ⟨.D_left, (n1 : Int) - i, (d_left.get a).ncols⟩ ::
                  ⟨.L, (i : Int), (st.L.get lchild.id).ncols⟩ :: log) log) log
          ⟨.L, (n2 : Int), (st.L.get rchild.id).ncols⟩ :: log) log) log) []
  | none => []

/-- A trace collected over a traversal: the trace of each step, from the state in which
the step starts, until the list ends or a step fails. -/
def traversalTrace {σ α : Type} (step : σ → TreeNode → Option σ)
    (trace : σ → TreeNode → List α) : List TreeNode → Option σ → List α
  | [], _ => []
  | _ :: _, none => []
  | node :: rest, some st => trace st node ++ traversalTrace step trace rest (step st node)

/-- The value that a step of the traversal assigns to `maxsubst[node->id]`, for a step
`step` whose state holds the array `maxsubst`; none when the step fails. -/
def assignedMaxsubst {σ : Type} (step : σ → TreeNode → Option σ) (maxsubst : σ → IntArray)
    (st : σ) (node : TreeNode) : List Int :=
  match step st node with
  | some st' => [(maxsubst st').get node.id]
  | none => []

/-- The column accesses of `sub_posterior_distrib_site` on the tables `L`, `d_left` and
`d_right` (lines 202-267), in the order of the traversal. -/
def sub_posterior_distrib_site_cols (pv_poisson : ℚ → Vector)
    (tm_build_seq_idx : TreeModel → MSA → Nat → Nat) (jp : JumpProcess) (msa : MSA)
    (tuple_idx : Nat) : List ColAccess :=
  if jp.mod.order ≠ 0 then []
  else
    match msa.ss with
    | none => []
    | some ss =>
      let msa_seq_idx := seq_idx tm_build_seq_idx jp msa
      traversalTrace (posterior_node pv_poisson jp msa ss msa_seq_idx tuple_idx)
        (posterior_node_cols pv_poisson jp msa ss msa_seq_idx tuple_idx)
        (tr_postorder jp.mod.tree) (some SiteState.init)

/-- The values that `sub_posterior_distrib_site` assigns to `maxsubst[node->id]` (lines
221 and 229), one for each node of the traversal. -/
def sub_posterior_distrib_site_maxsubst (pv_poisson : ℚ → Vector)
    (tm_build_seq_idx : TreeModel → MSA → Nat → Nat) (jp : JumpProcess) (msa : MSA)
    (tuple_idx : Nat) : List Int :=
  if jp.mod.order ≠ 0 then []
  else
    match msa.ss with
    | none => []
    | some ss =>
      let msa_seq_idx := seq_idx tm_build_seq_idx jp msa
      traversalTrace (posterior_node pv_poisson jp msa ss msa_seq_idx tuple_idx)
        (assignedMaxsubst (posterior_node pv_poisson jp msa ss msa_seq_idx tuple_idx)
          SiteState.maxsubst)
        (tr_postorder jp.mod.tree) (some SiteState.init)

/-- The column accesses of `sub_joint_distrib_site` on the tables `L`, `d_left` and
`d_right`: those of the traversal (lines 368-438), then those of the loop nest that fills
the joint table (lines 444-456). -/
def sub_joint_distrib_site_cols (pv_poisson : ℚ → Vector)
    (tm_build_seq_idx : TreeModel → MSA → Nat → Nat) (jp : JumpProcess) (msa : Option MSA)
    (tuple_idx : Nat) : List ColAccess :=
  if jp.mod.order ≠ 0 then []
  else
    let msa_seq_idx := joint_seq_idx tm_build_seq_idx jp msa
    let final := joint_traversal pv_poisson jp msa msa_seq_idx tuple_idx
      (tr_postorder jp.mod.tree) (some JointState.init)
    traversalTrace (joint_node pv_poisson jp msa msa_seq_idx tuple_idx)
        (joint_node_cols pv_poisson jp msa msa_seq_idx tuple_idx)
        (tr_postorder jp.mod.tree) (some JointState.init)
      ++ (match final, jp.mod.tree with
          | some st, .node _ _ lchild rchild => joint_root_cols pv_poisson jp st lchild rchild
          | _, _ => [])

/-- The values that `sub_joint_distrib_site` assigns to `maxsubst[node->id]` (lines 389
and 395), one for each node of the traversal. -/
def sub_joint_distrib_site_maxsubst (pv_poisson : ℚ → Vector)
    (tm_build_seq_idx : TreeModel → MSA → Nat → Nat) (jp : JumpProcess) (msa : Option MSA)
    (tuple_idx : Nat) : List Int :=
  if jp.mod.order ≠ 0 then []
  else
    let msa_seq_idx := joint_seq_idx tm_build_seq_idx jp msa
    traversalTrace (joint_node pv_poisson jp msa msa_seq_idx tuple_idx)
      (assignedMaxsubst (joint_node pv_poisson jp msa msa_seq_idx tuple_idx)
        JointState.maxsubst)
      (tr_postorder jp.mod.tree) (some JointState.init)

/-- A column access is in bounds when the index is at least 0 and below the number of
columns of the indexed matrix; a table `L` has the fixed width 500. -/
def ColAccess.inBounds (x : ColAccess) : Prop :=
  0 ≤ x.col ∧ x.col < x.ncols ∧ (x.table = DPTable.L → x.ncols = 500)

/-- The traversal loop over a list of nodes for a step that may fail: the loop of
`posterior_traversal` and of `joint_traversal`. -/
def traversalRun {σ : Type} (step : σ → TreeNode → Option σ) (nodes : List TreeNode)
    (s : Option σ) : Option σ :=
  nodes.foldl (fun s node => s.bind (fun st => step st node)) s

theorem forUpTo_zero {σ : Type} (body : Nat → σ → σ) (s : σ) : forUpTo 0 body s = s := rfl

theorem forUpTo_succ {σ : Type} (n : Nat) (body : Nat → σ → σ) (s : σ) :
    forUpTo (n + 1) body s = body n (forUpTo n body s) := rfl

/-- Invariant rule for a counted loop. -/
theorem forUpTo_inv {σ : Type} (P : σ → Prop) (body : Nat → σ → σ) (n : Nat) (s : σ)
    (h0 : P s) (hs : ∀ i t, i < n → P t → P (body i t)) : P (forUpTo n body s) := by
  induction n with
  | zero => exact h0
  | succ k ih =>
    rw [forUpTo_succ]
    exact hs k _ (Nat.lt_succ_self k) (ih (fun i t hi ht => hs i t (Nat.lt_succ_of_lt hi) ht))

/-- A loop whose body adds, at every observation point, a quantity that does not depend
on the state, adds up those quantities. -/
theorem forUpTo_acc {σ ι : Type} (val : σ → ι → ℚ) (body : Nat → σ → σ) (g : Nat → ι → ℚ)
    (h : ∀ i s x, val (body i s) x = val s x + g i x) (n : Nat) (s : σ) (x : ι) :
    val (forUpTo n body s) x = val s x + ∑ i in Finset.range n, g i x := by
  induction n with
  | zero => simp [forUpTo]
  | succ k ih => rw [forUpTo_succ, h, ih, Finset.sum_range_succ, add_assoc]

/-- A loop whose body leaves an observation unchanged leaves it unchanged. -/
theorem forUpTo_frame {σ α : Type} (f : σ → α) (body : Nat → σ → σ)
    (h : ∀ i s, f (body i s) = f s) (n : Nat) (s : σ) : f (forUpTo n body s) = f s := by
  induction n with
  | zero => rfl
  | succ k ih => rw [forUpTo_succ, h, ih]

theorem vec_sum_eq (v : Vector) : vec_sum v = ∑ i in Finset.range v.size, v.data i := by
  have := forUpTo_acc (fun (s : ℚ) (_ : Unit) => s) (fun i s => s + v.data i)
    (fun i _ => v.data i) (fun _ _ _ => rfl) v.size 0 ()
  simpa [vec_sum] using this

theorem mat_sum_eq (M : Matrix) :
    mat_sum M = ∑ x in Finset.range M.nrows, ∑ y in Finset.range M.ncols, M.data x y := by
  have inner : ∀ x (s : ℚ), forUpTo M.ncols (fun y s => s + M.data x y) s
      = s + ∑ y in Finset.range M.ncols, M.data x y := fun x s =>
    forUpTo_acc (fun (s : ℚ) (_ : Unit) => s) (fun y s => s + M.data x y)
      (fun y _ => M.data x y) (fun _ _ _ => rfl) M.ncols s ()
  have := forUpTo_acc (fun (s : ℚ) (_ : Unit) => s)
    (fun x s => forUpTo M.ncols (fun y s => s + M.data x y) s)
    (fun x _ => ∑ y in Finset.range M.ncols, M.data x y) (fun x s _ => inner x s) M.nrows 0 ()
  simpa [mat_sum] using this

/-! ## The uniformisation rate and the jump matrix -/

theorem lambdaLoop_spec (Q : MarkovMatrix) (n : Nat) :
    0 ≤ lambdaLoop Q n ∧ (∀ i, i < n → - Q.mm_get i i ≤ lambdaLoop Q n) ∧
    (lambdaLoop Q n = 0 ∨ ∃ i, i < n ∧ lambdaLoop Q n = - Q.mm_get i i) := by
  induction n with
  | zero => simp [lambdaLoop, forUpTo]
  | succ k ih =>
    obtain ⟨h0, hub, hat⟩ := ih
    have hstep : lambdaLoop Q (k + 1) =
        if - Q.mm_get k k > lambdaLoop Q k then - Q.mm_get k k else lambdaLoop Q k := rfl
    rw [hstep]
    by_cases hc : - Q.mm_get k k > lambdaLoop Q k
    · rw [if_pos hc]
      refine ⟨le_trans h0 (le_of_lt hc), ?_, Or.inr ⟨k, Nat.lt_succ_self k, rfl⟩⟩
      intro i hi
      rcases Nat.lt_succ_iff_lt_or_eq.mp hi with h | h
      · exact le_trans (hub i h) (le_of_lt hc)
      · rw [h]
    · rw [if_neg hc]
      refine ⟨h0, ?_, ?_⟩
      · intro i hi
        rcases Nat.lt_succ_iff_lt_or_eq.mp hi with h | h
        · exact hub i h
        · rw [h]; exact not_lt.mp hc
      · rcases hat with h | ⟨i, hi, h⟩
        · exact Or.inl h
        · exact Or.inr ⟨i, Nat.lt_succ_of_lt hi, h⟩

theorem lambda_eq (mod : TreeModel) (njumps_max : Nat) :
    (sub_define_jump_process mod njumps_max).lambda
      = lambdaLoop mod.rate_matrix mod.rate_matrix.size := rfl


theorem matrix_set_data (M : Matrix) (r c : Nat) (x : ℚ) (r' c' : Nat) :
    (M.set r c x).data r' c' = if r' = r ∧ c' = c then x else M.data r' c' := rfl

theorem matrix_set_nrows (M : Matrix) (r c : Nat) (x : ℚ) : (M.set r c x).nrows = M.nrows := rfl

theorem matrix_set_ncols (M : Matrix) (r c : Nat) (x : ℚ) : (M.set r c x).ncols = M.ncols := rfl

/-- A loop whose iteration `j` overwrites the observation points in `W j` with values that
depend on the point only, and leaves every other point alone. -/
theorem forUpTo_fill {σ ι : Type} (val : σ → ι → ℚ) (body : Nat → σ → σ)
    (W : Nat → ι → Prop) (v : ι → ℚ)
    (hw : ∀ j s x, W j x → val (body j s) x = v x)
    (hf : ∀ j s x, ¬ W j x → val (body j s) x = val s x) (n : Nat) (s : σ) (x : ι) :
    ((∃ j, j < n ∧ W j x) → val (forUpTo n body s) x = v x) ∧
    ((¬ ∃ j, j < n ∧ W j x) → val (forUpTo n body s) x = val s x) := by
  induction n with
  | zero =>
    refine ⟨?_, fun _ => rfl⟩
    rintro ⟨j, hj, _⟩
    exact absurd hj (Nat.not_lt_zero j)
  | succ k ih =>
    rw [forUpTo_succ]
    by_cases hk : W k x
    · exact ⟨fun _ => hw k _ x hk, fun hn => absurd ⟨k, Nat.lt_succ_self k, hk⟩ hn⟩
    · rw [hf k _ x hk]
      constructor
      · rintro ⟨j, hj, hjx⟩
        rcases Nat.lt_succ_iff_lt_or_eq.mp hj with h | h
        · exact ih.1 ⟨j, h, hjx⟩
        · exact absurd (h ▸ hjx) hk
      · intro hn
        exact ih.2 (fun ⟨j, hj, hjx⟩ => hn ⟨j, Nat.lt_succ_of_lt hj, hjx⟩)

/-- The loop nest of lines 72-77 stores `jumpEntry` at every `(r, c)` with
`r, c < size` and nothing else. -/
theorem jumpMatrix_spec (Q : MarkovMatrix) (lam : ℚ) (size : Nat) (R : Matrix) (r c : Nat) :
    (forUpTo size (fun i R =>
      forUpTo size (fun j R =>
        let R := R.set i j (Q.mm_get i j / lam)
        if i = j then R.set i j (R.data i j + 1) else R) R) R).data r c
      = if r < size ∧ c < size then jumpEntry Q lam r c else R.data r c := by
  have inner : ∀ (i : Nat) (R : Matrix) (x : Nat × Nat),
      ((∃ j, j < size ∧ (x.1 = i ∧ x.2 = j)) →
        (forUpTo size (fun j R =>
          let R := R.set i j (Q.mm_get i j / lam)
          if i = j then R.set i j (R.data i j + 1) else R) R).data x.1 x.2
          = jumpEntry Q lam x.1 x.2) ∧
      ((¬ ∃ j, j < size ∧ (x.1 = i ∧ x.2 = j)) →
        (forUpTo size (fun j R =>
          let R := R.set i j (Q.mm_get i j / lam)
          if i = j then R.set i j (R.data i j + 1) else R) R).data x.1 x.2 = R.data x.1 x.2) := by
    intro i R x
    refine forUpTo_fill (fun (R : Matrix) (x : Nat × Nat) => R.data x.1 x.2) _
      (fun j x => x.1 = i ∧ x.2 = j) (fun x => jumpEntry Q lam x.1 x.2) ?_ ?_ size R x
    · rintro j s ⟨a, b⟩ ⟨h1, h2⟩
      simp only at h1 h2
      subst h1 h2
      by_cases hab : a = b
      · simp [hab, jumpEntry, matrix_set_data]
      · simp [hab, jumpEntry, matrix_set_data]
    · rintro j s ⟨a, b⟩ hn
      simp only at hn
      by_cases hij : i = j
      · simp only [hij, if_true, matrix_set_data]
        rw [hij] at hn
        simp [hn]
      · simp only [hij, if_false, matrix_set_data]
        simp [hn]
  have outer := forUpTo_fill (fun (R : Matrix) (x : Nat × Nat) => R.data x.1 x.2)
    (fun i R =>
      forUpTo size (fun j R =>
        let R := R.set i j (Q.mm_get i j / lam)
        if i = j then R.set i j (R.data i j + 1) else R) R)
    (fun i x => ∃ j, j < size ∧ (x.1 = i ∧ x.2 = j)) (fun x => jumpEntry Q lam x.1 x.2)
    (fun i s x h => (inner i s x).1 h) (fun i s x h => (inner i s x).2 h) size R (r, c)
  by_cases h : r < size ∧ c < size
  · rw [if_pos h]
    exact outer.1 ⟨r, h.1, c, h.2, rfl, rfl⟩
  · rw [if_neg h]
    refine outer.2 ?_
    rintro ⟨i, hi, j, hj, h1, h2⟩
    simp only at h1 h2
    exact h ⟨h1 ▸ hi, h2 ▸ hj⟩

theorem R_data_eq (mod : TreeModel) (njumps_max : Nat) (r c : Nat) :
    (sub_define_jump_process mod njumps_max).R.data r c
      = if r < mod.rate_matrix.size ∧ c < mod.rate_matrix.size then
          jumpEntry mod.rate_matrix (lambdaLoop mod.rate_matrix mod.rate_matrix.size) r c
        else 0 := by
  have := jumpMatrix_spec mod.rate_matrix (lambdaLoop mod.rate_matrix mod.rate_matrix.size)
    mod.rate_matrix.size (mat_new mod.rate_matrix.size mod.rate_matrix.size) r c
  exact this

theorem R_nrows_eq (mod : TreeModel) (njumps_max : Nat) :
    (sub_define_jump_process mod njumps_max).R.nrows = mod.rate_matrix.size := by
  have h1 : ∀ (i : Nat) (R : Matrix), (forUpTo mod.rate_matrix.size (fun j R =>
        let R := R.set i j (mod.rate_matrix.mm_get i j /
          lambdaLoop mod.rate_matrix mod.rate_matrix.size)
        if i = j then R.set i j (R.data i j + 1) else R) R).nrows = R.nrows := by
    intro i R
    refine forUpTo_frame (fun R : Matrix => R.nrows) _ ?_ _ R
    intro j s
    by_cases hij : i = j <;> simp [hij, matrix_set_nrows]
  exact forUpTo_frame (fun R : Matrix => R.nrows) _ (fun i s => h1 i s) _ _


theorem symMod_off : ∀ i j, i < symMod.rate_matrix.size → j < symMod.rate_matrix.size → i ≠ j →
    0 ≤ symMod.rate_matrix.mm_get i j := by
  intro i j _ _ hij
  simp [symMod, symQ2, hij]

theorem symMod_row : ∀ i, i < symMod.rate_matrix.size →
    ∑ j in Finset.range symMod.rate_matrix.size, symMod.rate_matrix.mm_get i j = 0 := by
  intro i hi
  have h2 : i < 2 := hi
  interval_cases i <;> simp [symMod, symQ2, Finset.sum_range_succ]

theorem lambdaLoop_pos (Q : MarkovMatrix) (n : Nat)
    (hpos : ∃ i, i < n ∧ 0 < - Q.mm_get i i) : 0 < lambdaLoop Q n := by
  obtain ⟨i, hi, h⟩ := hpos
  exact lt_of_lt_of_le h ((lambdaLoop_spec Q n).2.1 i hi)

/-- C9. With a strictly positive exit rate, `sub_define_jump_process` sets `lambda` to the
largest `-Q_ii`, `R_ij = Q_ij / lambda` off the diagonal and `R_ii = 1 + Q_ii / lambda`; for
the symmetric 2-state matrix with rate 1 this is `lambda = 1` and `R = Q + I`. -/
theorem C9_define_jump_process_lambda_R (mod : TreeModel) (njumps_max : Nat)
    (hpos : ∃ i, i < mod.rate_matrix.size ∧ 0 < - mod.rate_matrix.mm_get i i) :
    (∀ i, i < mod.rate_matrix.size →
      - mod.rate_matrix.mm_get i i ≤ (sub_define_jump_process mod njumps_max).lambda) ∧
    (∃ i, i < mod.rate_matrix.size ∧
      (sub_define_jump_process mod njumps_max).lambda = - mod.rate_matrix.mm_get i i) ∧
    (∀ i j, i < mod.rate_matrix.size → j < mod.rate_matrix.size → i ≠ j →
      (sub_define_jump_process mod njumps_max).R.data i j
        = mod.rate_matrix.mm_get i j / (sub_define_jump_process mod njumps_max).lambda) ∧
    (∀ i, i < mod.rate_matrix.size →
      (sub_define_jump_process mod njumps_max).R.data i i
        = 1 + mod.rate_matrix.mm_get i i / (sub_define_jump_process mod njumps_max).lambda) ∧
    (mod.rate_matrix = symQ2 →
      (sub_define_jump_process mod njumps_max).lambda = 1 ∧
      ∀ i j, i < 2 → j < 2 →
        (sub_define_jump_process mod njumps_max).R.data i j
          = symQ2.mm_get i j + (if i = j then 1 else 0)) := by
  have hspec := lambdaLoop_spec mod.rate_matrix mod.rate_matrix.size
  have hlpos := lambdaLoop_pos mod.rate_matrix mod.rate_matrix.size hpos
  have hmax : ∃ i, i < mod.rate_matrix.size ∧
      lambdaLoop mod.rate_matrix mod.rate_matrix.size = - mod.rate_matrix.mm_get i i := by
    rcases hspec.2.2 with h | h
    · exact absurd h (ne_of_gt hlpos)
    · exact h
  have hoff : ∀ i j, i < mod.rate_matrix.size → j < mod.rate_matrix.size → i ≠ j →
      (sub_define_jump_process mod njumps_max).R.data i j
        = mod.rate_matrix.mm_get i j / (sub_define_jump_process mod njumps_max).lambda := by
    intro i j hi hj hij
    rw [R_data_eq, if_pos ⟨hi, hj⟩, lambda_eq, jumpEntry, if_neg hij]
  have hdiag : ∀ i, i < mod.rate_matrix.size →
      (sub_define_jump_process mod njumps_max).R.data i i
        = 1 + mod.rate_matrix.mm_get i i / (sub_define_jump_process mod njumps_max).lambda := by
    intro i hi
    rw [R_data_eq, if_pos ⟨hi, hi⟩, lambda_eq, jumpEntry, if_pos rfl, add_comm]
  refine ⟨fun i hi => by rw [lambda_eq]; exact hspec.2.1 i hi, by rw [lambda_eq]; exact hmax,
    hoff, hdiag, ?_⟩
  intro hQ
  have hsize : mod.rate_matrix.size = 2 := by rw [hQ]; rfl
  have hget : ∀ i j, mod.rate_matrix.mm_get i j = if i = j then -1 else 1 := by
    intro i j; rw [hQ]; rfl
  have hlam : (sub_define_jump_process mod njumps_max).lambda = 1 := by
    obtain ⟨i, _, hi⟩ := hmax
    rw [lambda_eq, hi, hget, if_pos rfl, neg_neg]
  refine ⟨hlam, ?_⟩
  intro i j hi hj
  by_cases hij : i = j
  · subst hij
    rw [hdiag i (by omega), hlam, hget]
    simp [symQ2]
  · rw [hoff i j (by omega) (by omega) hij, hlam, hget]
    simp [symQ2, hij]

theorem symMod_pos : ∃ i, i < symMod.rate_matrix.size ∧ 0 < - symMod.rate_matrix.mm_get i i :=
  ⟨0, by decide, by simp [symMod, symQ2]⟩

theorem C9_define_jump_process_lambda_R_witness :
    (∃ i, i < symMod.rate_matrix.size ∧ 0 < - symMod.rate_matrix.mm_get i i) ∧
    (sub_define_jump_process symMod 3).lambda = 1 :=
  ⟨symMod_pos, ((C9_define_jump_process_lambda_R symMod 3 symMod_pos).2.2.2.2 rfl).1⟩

/-- Under the claim's hypotheses the diagonal of `Q` is minus the rest of its row. -/
theorem rate_row_split (Q : MarkovMatrix) (i : Nat) (hi : i < Q.size)
    (hrow : ∑ j in Finset.range Q.size, Q.mm_get i j = 0) :
    Q.mm_get i i = - ∑ j in (Finset.range Q.size).erase i, Q.mm_get i j := by
  have h := Finset.add_sum_erase (Finset.range Q.size) (fun j => Q.mm_get i j)
    (Finset.mem_range.mpr hi)
  simp only at h
  linarith

/-- C10. For a rate matrix with non-negative off-diagonal entries, rows summing to 0 and a
positive exit rate, the matrix `R` of `sub_define_jump_process` is stochastic. -/
theorem C10_jump_matrix_stochastic (mod : TreeModel) (njumps_max : Nat)
    (hoff : ∀ i j, i < mod.rate_matrix.size → j < mod.rate_matrix.size → i ≠ j →
      0 ≤ mod.rate_matrix.mm_get i j)
    (hrow : ∀ i, i < mod.rate_matrix.size →
      ∑ j in Finset.range mod.rate_matrix.size, mod.rate_matrix.mm_get i j = 0)
    (hpos : ∃ i, i < mod.rate_matrix.size ∧ 0 < - mod.rate_matrix.mm_get i i) :
    (∀ i j, i < mod.rate_matrix.size → j < mod.rate_matrix.size →
      0 ≤ (sub_define_jump_process mod njumps_max).R.data i j ∧
      (sub_define_jump_process mod njumps_max).R.data i j ≤ 1) ∧
    (∀ i, i < mod.rate_matrix.size →
      ∑ j in Finset.range mod.rate_matrix.size,
        (sub_define_jump_process mod njumps_max).R.data i j = 1) := by
  have hspec := lambdaLoop_spec mod.rate_matrix mod.rate_matrix.size
  have hlpos := lambdaLoop_pos mod.rate_matrix mod.rate_matrix.size hpos
  set lam := lambdaLoop mod.rate_matrix mod.rate_matrix.size with hlam
  have hdiag_le : ∀ i, i < mod.rate_matrix.size → mod.rate_matrix.mm_get i i ≤ 0 := by
    intro i hi
    rw [rate_row_split mod.rate_matrix i hi (hrow i hi)]
    have : 0 ≤ ∑ j in (Finset.range mod.rate_matrix.size).erase i, mod.rate_matrix.mm_get i j := by
      apply Finset.sum_nonneg
      intro j hj
      rw [Finset.mem_erase, Finset.mem_range] at hj
      exact hoff i j hi hj.2 (fun h => hj.1 h.symm)
    linarith
  have hoff_le : ∀ i j, i < mod.rate_matrix.size → j < mod.rate_matrix.size → i ≠ j →
      mod.rate_matrix.mm_get i j ≤ - mod.rate_matrix.mm_get i i := by
    intro i j hi hj hij
    rw [rate_row_split mod.rate_matrix i hi (hrow i hi), neg_neg]
    have hmem : j ∈ (Finset.range mod.rate_matrix.size).erase i := by
      rw [Finset.mem_erase, Finset.mem_range]
      exact ⟨fun h => hij h.symm, hj⟩
    refine Finset.single_le_sum (f := fun j => mod.rate_matrix.mm_get i j) ?_ hmem
    intro k hk
    rw [Finset.mem_erase, Finset.mem_range] at hk
    exact hoff i k hi hk.2 (fun h => hk.1 h.symm)
  constructor
  · intro i j hi hj
    rw [R_data_eq, if_pos ⟨hi, hj⟩, ← hlam, jumpEntry]
    by_cases hij : i = j
    · subst hij
      rw [if_pos rfl]
      have h1 : - mod.rate_matrix.mm_get i i ≤ lam := hspec.2.1 i hi
      have h2 := hdiag_le i hi
      have h3 : mod.rate_matrix.mm_get i i / lam ≤ 0 := div_nonpos_of_nonpos_of_nonneg h2 hlpos.le
      have h4 : -1 ≤ mod.rate_matrix.mm_get i i / lam := by
        rw [le_div_iff₀ hlpos]
        linarith
      constructor <;> linarith
    · rw [if_neg hij]
      have h1 : - mod.rate_matrix.mm_get i i ≤ lam := hspec.2.1 i hi
      have h2 := hoff_le i j hi hj hij
      constructor
      · exact div_nonneg (hoff i j hi hj hij) hlpos.le
      · rw [div_le_one hlpos]
        linarith
  · intro i hi
    have hsum : ∀ j ∈ Finset.range mod.rate_matrix.size,
        (sub_define_jump_process mod njumps_max).R.data i j
          = mod.rate_matrix.mm_get i j / lam + (if i = j then 1 else 0) := by
      intro j hj
      rw [Finset.mem_range] at hj
      rw [R_data_eq, if_pos ⟨hi, hj⟩, ← hlam, jumpEntry]
      by_cases hij : i = j <;> simp [hij]
    rw [Finset.sum_congr rfl hsum, Finset.sum_add_distrib, ← Finset.sum_div, hrow i hi,
      Finset.sum_ite_eq, if_pos (Finset.mem_range.mpr hi)]
    simp

theorem C10_jump_matrix_stochastic_witness :
    (∀ i j, i < symMod.rate_matrix.size → j < symMod.rate_matrix.size → i ≠ j →
      0 ≤ symMod.rate_matrix.mm_get i j) ∧
    (∀ i, i < symMod.rate_matrix.size →
      ∑ j in Finset.range symMod.rate_matrix.size, symMod.rate_matrix.mm_get i j = 0) ∧
    (∃ i, i < symMod.rate_matrix.size ∧ 0 < - symMod.rate_matrix.mm_get i i) ∧
    ((∀ i j, i < symMod.rate_matrix.size → j < symMod.rate_matrix.size →
      0 ≤ (sub_define_jump_process symMod 3).R.data i j ∧
      (sub_define_jump_process symMod 3).R.data i j ≤ 1) ∧
    (∀ i, i < symMod.rate_matrix.size →
      ∑ j in Finset.range symMod.rate_matrix.size,
        (sub_define_jump_process symMod 3).R.data i j = 1)) :=
  ⟨symMod_off, symMod_row, symMod_pos,
    C10_jump_matrix_stochastic symMod 3 symMod_off symMod_row symMod_pos⟩


/-! ## Branch distributions: closed forms -/

theorem sum_ite_const_zero (P : Prop) [Decidable P] (n : Nat) (f : Nat → ℚ) :
    ∑ i in Finset.range n, (if P then f i else 0) = if P then ∑ i in Finset.range n, f i else 0 := by
  by_cases h : P <;> simp [h]

theorem sum_ite_eq_range (n r : Nat) (f : Nat → ℚ) :
    ∑ i in Finset.range n, (if r = i then f i else 0) = if r < n then f r else 0 := by
  rw [Finset.sum_ite_eq]
  simp [Finset.mem_range]

theorem vector_set_data (v : Vector) (n : Nat) (x : ℚ) (n' : Nat) :
    (v.set n x).data n' = if n' = n then x else v.data n' := rfl

theorem vector_set_size (v : Vector) (n : Nat) (x : ℚ) : (v.set n x).size = v.size := rfl

/-- The marginalising loop nest of lines 123-126. -/
theorem marginal_M_data (A : MatrixArray) (size m : Nat) (M : Matrix) (r c : Nat) :
    (forUpTo m (fun n M =>
        forUpTo m (fun j M =>
          forUpTo size (fun i M =>
            M.set n j (M.data n j + (A.get i).data n j)) M) M) M).data r c
      = M.data r c +
        if r < m then if c < m then ∑ i in Finset.range size, (A.get i).data r c else 0 else 0 := by
  have l1 : ∀ (n j : Nat) (M : Matrix) (x : Nat × Nat),
      (forUpTo size (fun i M => M.set n j (M.data n j + (A.get i).data n j)) M).data x.1 x.2
        = M.data x.1 x.2 + ∑ i in Finset.range size,
            (if x.1 = n then if x.2 = j then (A.get i).data n j else 0 else 0) := by
    intro n j M x
    refine forUpTo_acc (fun (M : Matrix) (x : Nat × Nat) => M.data x.1 x.2) _
      (fun i x => if x.1 = n then if x.2 = j then (A.get i).data n j else 0 else 0) ?_ size M x
    intro i s y
    simp only [matrix_set_data]
    by_cases h1 : y.1 = n <;> by_cases h2 : y.2 = j <;> simp [h1, h2]
  have l2 : ∀ (n : Nat) (M : Matrix) (x : Nat × Nat),
      (forUpTo m (fun j M =>
          forUpTo size (fun i M => M.set n j (M.data n j + (A.get i).data n j)) M) M).data x.1 x.2
        = M.data x.1 x.2 + ∑ j in Finset.range m, ∑ i in Finset.range size,
            (if x.1 = n then if x.2 = j then (A.get i).data n j else 0 else 0) := by
    intro n M x
    exact forUpTo_acc (fun (M : Matrix) (x : Nat × Nat) => M.data x.1 x.2) _
      (fun j x => ∑ i in Finset.range size,
            (if x.1 = n then if x.2 = j then (A.get i).data n j else 0 else 0))
      (fun j s y => l1 n j s y) m M x
  have l3 := forUpTo_acc (fun (M : Matrix) (x : Nat × Nat) => M.data x.1 x.2)
      (fun n M => forUpTo m (fun j M =>
          forUpTo size (fun i M => M.set n j (M.data n j + (A.get i).data n j)) M) M)
      (fun n x => ∑ j in Finset.range m, ∑ i in Finset.range size,
            (if x.1 = n then if x.2 = j then (A.get i).data n j else 0 else 0))
      (fun n s y => l2 n s y) m M (r, c)
  simp only at l3
  rw [l3]
  congr 1
  simp only [sum_ite_const_zero, sum_ite_eq_range]

/-- The Poisson-mixing loop nest of lines 131-133. -/
theorem marginal_distrib_data (M : Matrix) (pois : Vector) (m : Nat) (d : Vector) (r : Nat) :
    (forUpTo m (fun n distrib =>
        forUpTo m (fun j distrib =>
          distrib.set n (distrib.data n + M.data n j * pois.data j)) distrib) d).data r
      = d.data r + if r < m then ∑ j in Finset.range m, M.data r j * pois.data j else 0 := by
  have l1 : ∀ (n : Nat) (d : Vector) (x : Nat),
      (forUpTo m (fun j distrib =>
          distrib.set n (distrib.data n + M.data n j * pois.data j)) d).data x
        = d.data x + ∑ j in Finset.range m, (if x = n then M.data n j * pois.data j else 0) := by
    intro n d x
    refine forUpTo_acc (fun (d : Vector) (x : Nat) => d.data x) _
      (fun j x => if x = n then M.data n j * pois.data j else 0) ?_ m d x
    intro j s y
    simp only [vector_set_data]
    by_cases h1 : y = n <;> simp [h1]
  have l2 := forUpTo_acc (fun (d : Vector) (x : Nat) => d.data x)
      (fun n distrib => forUpTo m (fun j distrib =>
          distrib.set n (distrib.data n + M.data n j * pois.data j)) distrib)
      (fun n x => ∑ j in Finset.range m, (if x = n then M.data n j * pois.data j else 0))
      (fun n s y => l1 n s y) m d r
  simp only at l2
  rw [l2]
  congr 1
  rw [Finset.sum_comm]
  simp only [sum_ite_eq_range]
  by_cases h1 : r < m <;> simp [h1]

theorem marginal_distrib_size (M : Matrix) (pois : Vector) (m : Nat) (d : Vector) :
    (forUpTo m (fun n distrib =>
        forUpTo m (fun j distrib =>
          distrib.set n (distrib.data n + M.data n j * pois.data j)) distrib) d).size = d.size := by
  refine forUpTo_frame (fun d : Vector => d.size) _ ?_ m d
  intro n s
  exact forUpTo_frame (fun d : Vector => d.size)
    (fun j distrib => distrib.set n (distrib.data n + M.data n j * pois.data j))
    (fun j s => rfl) m s

/-- The unnormalised entry `n` of `sub_distrib_branch`: the Poisson mixture of the
marginalised table. -/
theorem sub_distrib_branch_eq (pv_poisson : ℚ → Vector) (jp : JumpProcess) (t : ℚ)
    (h : (pv_poisson (jp.lambda * t)).size < jp.njumps_max) :
    ∃ v, sub_distrib_branch pv_poisson jp t = some v ∧
      v.size = (pv_poisson (jp.lambda * t)).size ∧
      ∀ n, n < v.size → v.data n =
        branchMix jp (pv_poisson (jp.lambda * t)) n /
          ∑ n' in Finset.range (pv_poisson (jp.lambda * t)).size,
            branchMix jp (pv_poisson (jp.lambda * t)) n' := by
  simp only [sub_distrib_branch, gt_iff_lt, h, if_true]
  refine ⟨_, rfl, ?_, ?_⟩
  · simp only [pv_normalize]
    rw [marginal_distrib_size]
    rfl
  · intro n hn
    have hsz : (pv_normalize (forUpTo (pv_poisson (jp.lambda * t)).size (fun n distrib =>
        forUpTo (pv_poisson (jp.lambda * t)).size (fun j distrib =>
          distrib.set n (distrib.data n +
            (forUpTo (pv_poisson (jp.lambda * t)).size (fun n M =>
              forUpTo (pv_poisson (jp.lambda * t)).size (fun j M =>
                forUpTo jp.R.nrows (fun i M =>
                  M.set n j (M.data n j + (jp.A.get i).data n j)) M) M)
              (mat_zero (mat_new (pv_poisson (jp.lambda * t)).size
                (pv_poisson (jp.lambda * t)).size))).data n j
            * (pv_poisson (jp.lambda * t)).data j)) distrib)
        (vec_zero (vec_new (pv_poisson (jp.lambda * t)).size)))).size
        = (pv_poisson (jp.lambda * t)).size := by
      simp only [pv_normalize]
      rw [marginal_distrib_size]
      rfl
    rw [hsz] at hn
    have key : ∀ r, r < (pv_poisson (jp.lambda * t)).size →
        (forUpTo (pv_poisson (jp.lambda * t)).size (fun n distrib =>
        forUpTo (pv_poisson (jp.lambda * t)).size (fun j distrib =>
          distrib.set n (distrib.data n +
            (forUpTo (pv_poisson (jp.lambda * t)).size (fun n M =>
              forUpTo (pv_poisson (jp.lambda * t)).size (fun j M =>
                forUpTo jp.R.nrows (fun i M =>
                  M.set n j (M.data n j + (jp.A.get i).data n j)) M) M)
              (mat_zero (mat_new (pv_poisson (jp.lambda * t)).size
                (pv_poisson (jp.lambda * t)).size))).data n j
            * (pv_poisson (jp.lambda * t)).data j)) distrib)
        (vec_zero (vec_new (pv_poisson (jp.lambda * t)).size))).data r
        = branchMix jp (pv_poisson (jp.lambda * t)) r := by
      intro r hr
      rw [marginal_distrib_data, if_pos hr]
      simp only [vec_zero, vec_new, zero_add, branchMix]
      apply Finset.sum_congr rfl
      intro j hj
      rw [Finset.mem_range] at hj
      rw [marginal_M_data, if_pos hr, if_pos hj]
      simp only [mat_zero, mat_new, zero_add]
      rw [Finset.sum_mul]
    simp only [pv_normalize]
    rw [vec_sum_eq, marginal_distrib_size, key n hn]
    congr 1
    apply Finset.sum_congr rfl
    intro r hr
    rw [Finset.mem_range] at hr
    exact key r hr


/-! ## The tables at jump count 0 -/

theorem setEntry_data (A : MatrixArray) (i r c : Nat) (x : ℚ) (i' r' c' : Nat) :
    ((setEntry A i r c x).get i').data r' c'
      = if i' = i ∧ r' = r ∧ c' = c then x else (A.get i').data r' c' := by
  simp only [setEntry, MatrixArray.set]
  by_cases h : i' = i
  · subst h
    simp [matrix_set_data]
  · simp [h]

theorem setEntry_nrows (A : MatrixArray) (i r c : Nat) (x : ℚ) (i' : Nat) :
    ((setEntry A i r c x).get i').nrows = (A.get i').nrows := by
  simp only [setEntry, MatrixArray.set]
  by_cases h : i' = i
  · subst h
    simp [matrix_set_nrows]
  · simp [h]

theorem setEntry_ncols (A : MatrixArray) (i r c : Nat) (x : ℚ) (i' : Nat) :
    ((setEntry A i r c x).get i').ncols = (A.get i').ncols := by
  simp only [setEntry, MatrixArray.set]
  by_cases h : i' = i
  · subst h
    simp [matrix_set_ncols]
  · simp [h]

/-- The allocation loop of lines 27-30 and of lines 153-156 leaves every entry 0. -/
theorem alloc_data (size nr nc : Nat) (i r c : Nat) :
    ((forUpTo size (fun i A => A.set i (mat_zero (mat_new nr nc))) MatrixArray.empty).get i).data
      r c = 0 := by
  refine forUpTo_inv (fun A : MatrixArray => (A.get i).data r c = 0) _ size _ rfl ?_
  intro k A _ hA
  simp only [MatrixArray.set]
  by_cases h : i = k
  · simp [h, mat_zero]
  · simp [h, hA]

/-- The initialisation of lines 33-37. -/
theorem init_data (jp : JumpProcess) (jmax : Nat) (condition_on : Int) (i r c : Nat) :
    ((if condition_on < 0 then
        forUpTo jp.R.nrows (fun i A => setEntry A i 0 0 (jp.mod.backgd_freqs.data i))
          (forUpTo jp.R.nrows (fun i A => A.set i (mat_zero (mat_new jmax jmax)))
            MatrixArray.empty)
      else
        setEntry (forUpTo jp.R.nrows (fun i A => A.set i (mat_zero (mat_new jmax jmax)))
            MatrixArray.empty) condition_on.toNat 0 0 1).get i).data r c
      = if r = 0 ∧ c = 0 then
          (if condition_on < 0 then
            (if i < jp.R.nrows then jp.mod.backgd_freqs.data i else 0)
           else (if i = condition_on.toNat then 1 else 0))
        else 0 := by
  by_cases hc : condition_on < 0
  · simp only [hc, if_true]
    have := forUpTo_fill (fun (A : MatrixArray) (x : Nat × Nat × Nat) => (A.get x.1).data x.2.1 x.2.2)
      (fun i A => setEntry A i 0 0 (jp.mod.backgd_freqs.data i))
      (fun k x => x.1 = k ∧ x.2.1 = 0 ∧ x.2.2 = 0) (fun x => jp.mod.backgd_freqs.data x.1)
      (by
        rintro j s ⟨a, b, d⟩ ⟨h1, h2, h3⟩
        simp only at h1 h2 h3
        simp [setEntry_data, h1, h2, h3])
      (by
        rintro j s ⟨a, b, d⟩ hn
        simp only at hn
        simp [setEntry_data, hn])
      jp.R.nrows (forUpTo jp.R.nrows (fun i A => A.set i (mat_zero (mat_new jmax jmax)))
            MatrixArray.empty) (i, r, c)
    simp only at this
    by_cases hrc : r = 0 ∧ c = 0
    · by_cases hi : i < jp.R.nrows
      · rw [if_pos hrc, if_pos hi]
        exact this.1 ⟨i, hi, rfl, hrc.1, hrc.2⟩
      · rw [if_pos hrc, if_neg hi, this.2 (fun ⟨k, hk, h1, _⟩ => hi (h1 ▸ hk)), alloc_data]
    · rw [if_neg hrc, this.2 (fun ⟨k, _, _, h2, h3⟩ => hrc ⟨h2, h3⟩), alloc_data]
  · simp only [hc, if_false, setEntry_data, alloc_data]
    by_cases hrc : r = 0 ∧ c = 0
    · by_cases hi : i = condition_on.toNat <;> simp [hrc, hi]
    · rw [if_neg hrc, if_neg (fun h => hrc h.2)]

/-- The recurrence of lines 40-51 writes only entries with a jump count `j >= 1`. -/
theorem recurrence_col0 (R : Matrix) (size jmax : Nat) (A1 : MatrixArray) (i n : Nat) :
    ((forRange 1 jmax (fun j A =>
      forUpTo (j + 1) (fun n A =>
        forUpTo size (fun i A =>
          let A := setEntry A i n j ((A.get i).data n (j - 1) * R.data i i)
          if n > 0 then
            forUpTo size (fun k A =>
              if k = i then A
              else setEntry A i n j
                ((A.get i).data n j + (A.get k).data (n - 1) (j - 1) * R.data k i))
              A
          else A) A) A) A1).get i).data n 0 = (A1.get i).data n 0 := by
  unfold forRange
  refine forUpTo_inv (fun A : MatrixArray => (A.get i).data n 0 = (A1.get i).data n 0)
    _ _ _ rfl ?_
  intro d A _ hA
  refine forUpTo_inv (fun A : MatrixArray => (A.get i).data n 0 = (A1.get i).data n 0)
    _ _ _ hA ?_
  intro n' A _ hA
  refine forUpTo_inv (fun A : MatrixArray => (A.get i).data n 0 = (A1.get i).data n 0)
    _ _ _ hA ?_
  intro i' A _ hA
  have h1 : ((setEntry A i' n' (1 + d) ((A.get i').data n' (1 + d - 1) * R.data i' i')).get i).data
      n 0 = (A1.get i).data n 0 := by
    rw [setEntry_data, if_neg (fun h => by omega), hA]
  simp only
  by_cases hn : n' > 0
  · rw [if_pos hn]
    refine forUpTo_inv (fun A : MatrixArray => (A.get i).data n 0 = (A1.get i).data n 0)
      _ _ _ h1 ?_
    intro k A _ hA
    by_cases hk : k = i'
    · rw [if_pos hk]; exact hA
    · rw [if_neg hk, setEntry_data, if_neg (fun h => by omega), hA]
  · rw [if_neg hn]; exact h1

/-- Column 0 of the tables of `get_substs_and_bases_given_jumps`: the initial
distribution at `n = 0`, and 0 below. -/
theorem get_substs_col0 (jp : JumpProcess) (jmax : Nat) (condition_on : Int) (i n : Nat) :
    ((get_substs_and_bases_given_jumps jp jmax condition_on).get i).data n 0
      = if n = 0 then
          (if condition_on < 0 then
            (if i < jp.R.nrows then jp.mod.backgd_freqs.data i else 0)
           else (if i = condition_on.toNat then 1 else 0))
        else 0 := by
  unfold get_substs_and_bases_given_jumps
  simp only
  rw [recurrence_col0, init_data]
  simp

theorem A_eq (mod : TreeModel) (njumps_max : Nat) :
    (sub_define_jump_process mod njumps_max).A
      = get_substs_and_bases_given_jumps
          { njumps_max := njumps_max, R := (sub_define_jump_process mod njumps_max).R,
            lambda := (sub_define_jump_process mod njumps_max).lambda, mod := mod,
            A := MatrixArray.empty, B := MatrixArray2.empty } njumps_max (-1) := rfl

theorem mod_eq (mod : TreeModel) (njumps_max : Nat) :
    (sub_define_jump_process mod njumps_max).mod = mod := rfl

/-- Column 0 of the unconditioned tables of a built jump process. -/
theorem A_col0 (mod : TreeModel) (njumps_max : Nat) (i n : Nat) :
    (((sub_define_jump_process mod njumps_max).A.get i).data n 0)
      = if n = 0 ∧ i < mod.rate_matrix.size then mod.backgd_freqs.data i else 0 := by
  rw [A_eq, get_substs_col0]
  simp only [R_nrows_eq]
  by_cases h0 : n = 0 <;> by_cases hi : i < mod.rate_matrix.size <;> simp [h0, hi]


/-! ## The marginal branch distribution -/

/-- With a Poisson vector concentrated at `j = 0`, only jump count 0 contributes. -/
theorem branchMix_point (jp : JumpProcess) (pois : Vector) (n : Nat) (hsize : 0 < pois.size)
    (hrest : ∀ j, 0 < j → j < pois.size → pois.data j = 0) :
    branchMix jp pois n = (∑ i in Finset.range jp.R.nrows, (jp.A.get i).data n 0) * pois.data 0 := by
  unfold branchMix
  rw [Finset.sum_eq_single_of_mem 0 (Finset.mem_range.mpr hsize), Finset.sum_mul]
  intro j hj hj0
  rw [Finset.mem_range] at hj
  rw [hrest j (Nat.pos_of_ne_zero hj0) hj]
  simp

/-- C3. When the Poisson vector is shorter than `njumps_max` and the mixture has a
non-zero total, `sub_distrib_branch` returns the vector of the mixture sums
`sum_j sum_i A[i]->data[n][j] * p[j]` divided by their total, and its entries sum to 1. -/
theorem C3_branch_marginal_normalised (pv_poisson : ℚ → Vector) (jp : JumpProcess) (t : ℚ)
    (hlt : (pv_poisson (jp.lambda * t)).size < jp.njumps_max)
    (hne : ∑ n in Finset.range (pv_poisson (jp.lambda * t)).size,
            ∑ j in Finset.range (pv_poisson (jp.lambda * t)).size,
              ∑ i in Finset.range jp.R.nrows,
                (jp.A.get i).data n j * (pv_poisson (jp.lambda * t)).data j ≠ 0) :
    ∃ v, sub_distrib_branch pv_poisson jp t = some v ∧
      v.size = (pv_poisson (jp.lambda * t)).size ∧
      (∀ n, n < v.size → v.data n =
        (∑ j in Finset.range (pv_poisson (jp.lambda * t)).size,
            ∑ i in Finset.range jp.R.nrows,
              (jp.A.get i).data n j * (pv_poisson (jp.lambda * t)).data j) /
        (∑ n' in Finset.range (pv_poisson (jp.lambda * t)).size,
          ∑ j in Finset.range (pv_poisson (jp.lambda * t)).size,
            ∑ i in Finset.range jp.R.nrows,
              (jp.A.get i).data n' j * (pv_poisson (jp.lambda * t)).data j)) ∧
      ∑ n in Finset.range v.size, v.data n = 1 := by
  obtain ⟨v, hv, hsz, hdata⟩ := sub_distrib_branch_eq pv_poisson jp t hlt
  refine ⟨v, hv, hsz, hdata, ?_⟩
  rw [Finset.sum_congr rfl (fun n hn => hdata n (Finset.mem_range.mp hn)), ← Finset.sum_div, hsz]
  exact div_self hne

/-- C1. For a built jump process whose background frequencies have a non-zero sum, and a
Poisson vector for rate `lambda * 0` that is concentrated at `j = 0` and shorter than
`njumps_max`, `sub_distrib_branch (jp, 0)` is the point mass at `n = 0`. -/
theorem C1_branch_marginal_zero_length (pv_poisson : ℚ → Vector) (mod : TreeModel)
    (njumps_max : Nat)
    (hfreq : ∑ i in Finset.range mod.rate_matrix.size, mod.backgd_freqs.data i ≠ 0)
    (hsize : 0 < (pv_poisson ((sub_define_jump_process mod njumps_max).lambda * 0)).size)
    (h0 : (pv_poisson ((sub_define_jump_process mod njumps_max).lambda * 0)).data 0 ≠ 0)
    (hrest : ∀ j, 0 < j →
      j < (pv_poisson ((sub_define_jump_process mod njumps_max).lambda * 0)).size →
      (pv_poisson ((sub_define_jump_process mod njumps_max).lambda * 0)).data j = 0)
    (hlt : (pv_poisson ((sub_define_jump_process mod njumps_max).lambda * 0)).size
      < njumps_max) :
    ∃ v, sub_distrib_branch pv_poisson (sub_define_jump_process mod njumps_max) 0 = some v ∧
      v.size = (pv_poisson ((sub_define_jump_process mod njumps_max).lambda * 0)).size ∧
      v.data 0 = 1 ∧ ∀ n, 0 < n → n < v.size → v.data n = 0 := by
  obtain ⟨v, hv, hsz, hdata⟩ :=
    sub_distrib_branch_eq pv_poisson (sub_define_jump_process mod njumps_max) 0 hlt
  have hmix : ∀ n, branchMix (sub_define_jump_process mod njumps_max)
      (pv_poisson ((sub_define_jump_process mod njumps_max).lambda * 0)) n
      = if n = 0 then (∑ i in Finset.range mod.rate_matrix.size, mod.backgd_freqs.data i) *
          (pv_poisson ((sub_define_jump_process mod njumps_max).lambda * 0)).data 0 else 0 := by
    intro n
    rw [branchMix_point _ _ n hsize hrest, R_nrows_eq]
    by_cases hn : n = 0
    · rw [if_pos hn]
      congr 1
      apply Finset.sum_congr rfl
      intro i hi
      rw [A_col0, if_pos ⟨hn, Finset.mem_range.mp hi⟩]
    · rw [if_neg hn]
      have : ∀ i ∈ Finset.range mod.rate_matrix.size,
          ((sub_define_jump_process mod njumps_max).A.get i).data n 0 = 0 := by
        intro i _
        rw [A_col0, if_neg (fun h => hn h.1)]
      rw [Finset.sum_congr rfl this]
      simp
  have htot : ∑ n' in Finset.range
        (pv_poisson ((sub_define_jump_process mod njumps_max).lambda * 0)).size,
        branchMix (sub_define_jump_process mod njumps_max)
          (pv_poisson ((sub_define_jump_process mod njumps_max).lambda * 0)) n'
      = (∑ i in Finset.range mod.rate_matrix.size, mod.backgd_freqs.data i) *
          (pv_poisson ((sub_define_jump_process mod njumps_max).lambda * 0)).data 0 := by
    rw [Finset.sum_eq_single_of_mem 0 (Finset.mem_range.mpr hsize), hmix, if_pos rfl]
    intro n _ hn
    rw [hmix, if_neg hn]
  refine ⟨v, hv, hsz, ?_, ?_⟩
  · rw [hdata 0 (hsz ▸ hsize), htot, hmix, if_pos rfl]
    exact div_self (mul_ne_zero hfreq h0)
  · intro n hn hnv
    rw [hdata n hnv, hmix, if_neg (Nat.pos_iff_ne_zero.mp hn)]
    simp

theorem symMod_freq : ∑ i in Finset.range symMod.rate_matrix.size, symMod.backgd_freqs.data i ≠ 0 := by
  simp [symMod, symQ2, Finset.sum_range_succ]

theorem C1_branch_marginal_zero_length_witness :
    (∑ i in Finset.range symMod.rate_matrix.size, symMod.backgd_freqs.data i ≠ 0) ∧
    ∃ v, sub_distrib_branch pointPois (sub_define_jump_process symMod 3) 0 = some v ∧
      v.size = (pointPois ((sub_define_jump_process symMod 3).lambda * 0)).size ∧
      v.data 0 = 1 ∧ ∀ n, 0 < n → n < v.size → v.data n = 0 :=
  ⟨symMod_freq,
    C1_branch_marginal_zero_length pointPois symMod 3 symMod_freq (by decide)
      (by simp [pointPois]) (fun j hj _ => by simp [pointPois, Nat.pos_iff_ne_zero.mp hj])
      (by decide)⟩

theorem symMod_mix_ne :
    ∑ n in Finset.range (pointPois ((sub_define_jump_process symMod 3).lambda * 0)).size,
      ∑ j in Finset.range (pointPois ((sub_define_jump_process symMod 3).lambda * 0)).size,
        ∑ i in Finset.range (sub_define_jump_process symMod 3).R.nrows,
          ((sub_define_jump_process symMod 3).A.get i).data n j *
            (pointPois ((sub_define_jump_process symMod 3).lambda * 0)).data j ≠ 0 := by
  have h1 : (pointPois ((sub_define_jump_process symMod 3).lambda * 0)).size = 1 := rfl
  rw [h1, R_nrows_eq]
  have h2 : symMod.rate_matrix.size = 2 := rfl
  simp [h2, Finset.sum_range_succ, A_col0, pointPois]
  simp [symMod]

theorem C3_branch_marginal_normalised_witness :
    (pointPois ((sub_define_jump_process symMod 3).lambda * 0)).size
      < (sub_define_jump_process symMod 3).njumps_max ∧
    ∃ v, sub_distrib_branch pointPois (sub_define_jump_process symMod 3) 0 = some v ∧
      ∑ n in Finset.range v.size, v.data n = 1 :=
  ⟨by decide,
    (C3_branch_marginal_normalised pointPois (sub_define_jump_process symMod 3) 0 (by decide)
      symMod_mix_ne).imp (fun _ h => ⟨h.1, h.2.2.2⟩)⟩


/-! ## The conditional branch distribution -/

theorem matrixArray_set_get (A : MatrixArray) (i : Nat) (M : Matrix) (i' : Nat) :
    (A.set i M).get i' = if i' = i then M else A.get i' := rfl

theorem alloc_get (size nr nc : Nat) (i : Nat) :
    (forUpTo size (fun i A => A.set i (mat_zero (mat_new nr nc))) MatrixArray.empty).get i
      = if i < size then mat_zero (mat_new nr nc) else mat_new 0 0 := by
  induction size with
  | zero => simp [forUpTo, MatrixArray.empty]
  | succ k ih =>
    rw [forUpTo_succ, matrixArray_set_get]
    by_cases h : i = k
    · simp [h]
    · rw [if_neg h, ih]
      by_cases h2 : i < k
      · rw [if_pos h2, if_pos (Nat.lt_succ_of_lt h2)]
      · rw [if_neg h2, if_neg (by omega)]

/-- The Poisson-mixing loop nest of lines 163-167 adds `condMix` to every cell. -/
theorem cond_loop_data (jp : JumpProcess) (pois : Vector) (size : Nat) (D : MatrixArray)
    (k i n : Nat) :
    ((forUpTo size (fun k D =>
        forUpTo pois.size (fun n D =>
          forUpTo pois.size (fun j D =>
            forUpTo size (fun i D =>
              setEntry D k i n
                ((D.get k).data i n + ((jp.B.get k).get i).data n j * pois.data j)) D) D) D)
        D).get k).data i n
      = (D.get k).data i n +
        if k < size then if n < pois.size then if i < size then condMix jp pois k i n
          else 0 else 0 else 0 := by
  have l1 : ∀ (k n j : Nat) (D : MatrixArray) (x : Nat × Nat × Nat),
      ((forUpTo size (fun i D =>
              setEntry D k i n
                ((D.get k).data i n + ((jp.B.get k).get i).data n j * pois.data j)) D).get
          x.1).data x.2.1 x.2.2
        = (D.get x.1).data x.2.1 x.2.2 +
            (if x.1 = k then if x.2.2 = n then if x.2.1 < size then
                ((jp.B.get k).get x.2.1).data n j * pois.data j else 0 else 0 else 0) := by
    intro k n j D x
    rw [forUpTo_acc
      (fun (D : MatrixArray) (x : Nat × Nat × Nat) => (D.get x.1).data x.2.1 x.2.2) _
      (fun i x => if x.2.1 = i then
              (if x.1 = k then if x.2.2 = n then
                ((jp.B.get k).get i).data n j * pois.data j else 0 else 0) else 0) ?_ size D x]
    · congr 1
      rw [sum_ite_eq_range]
      by_cases h1 : x.1 = k <;> by_cases h2 : x.2.1 < size <;> by_cases h3 : x.2.2 = n <;>
        simp [h1, h2, h3]
    · rintro i s ⟨a, b, c⟩
      simp only [setEntry_data]
      by_cases h1 : a = k <;> by_cases h2 : b = i <;> by_cases h3 : c = n <;> simp [h1, h2, h3]
  have l2 : ∀ (k n : Nat) (D : MatrixArray) (x : Nat × Nat × Nat),
      ((forUpTo pois.size (fun j D =>
            forUpTo size (fun i D =>
              setEntry D k i n
                ((D.get k).data i n + ((jp.B.get k).get i).data n j * pois.data j)) D) D).get
          x.1).data x.2.1 x.2.2
        = (D.get x.1).data x.2.1 x.2.2 +
            (if x.2.2 = n then (if x.1 = k then if x.2.1 < size then
                condMix jp pois k x.2.1 n else 0 else 0) else 0) := by
    intro k n D x
    rw [forUpTo_acc
      (fun (D : MatrixArray) (x : Nat × Nat × Nat) => (D.get x.1).data x.2.1 x.2.2) _
      (fun j x => if x.1 = k then if x.2.2 = n then if x.2.1 < size then
                ((jp.B.get k).get x.2.1).data n j * pois.data j else 0 else 0 else 0)
      (fun j s y => l1 k n j s y) pois.size D x]
    congr 1
    simp only [sum_ite_const_zero, condMix]
    by_cases h1 : x.1 = k <;> by_cases h2 : x.2.1 < size <;> by_cases h3 : x.2.2 = n <;>
      simp [h1, h2, h3]
  have l3 : ∀ (k : Nat) (D : MatrixArray) (x : Nat × Nat × Nat),
      ((forUpTo pois.size (fun n D =>
          forUpTo pois.size (fun j D =>
            forUpTo size (fun i D =>
              setEntry D k i n
                ((D.get k).data i n + ((jp.B.get k).get i).data n j * pois.data j)) D) D) D).get
          x.1).data x.2.1 x.2.2
        = (D.get x.1).data x.2.1 x.2.2 +
            (if x.1 = k then (if x.2.2 < pois.size then if x.2.1 < size then
                condMix jp pois k x.2.1 x.2.2 else 0 else 0) else 0) := by
    intro k D x
    rw [forUpTo_acc
      (fun (D : MatrixArray) (x : Nat × Nat × Nat) => (D.get x.1).data x.2.1 x.2.2) _
      (fun n x => if x.2.2 = n then (if x.1 = k then if x.2.1 < size then
                condMix jp pois k x.2.1 n else 0 else 0) else 0)
      (fun n s y => l2 k n s y) pois.size D x]
    congr 1
    rw [sum_ite_eq_range]
    by_cases h1 : x.1 = k <;> by_cases h2 : x.2.1 < size <;> by_cases h3 : x.2.2 < pois.size <;>
      simp [h1, h2, h3]
  rw [forUpTo_acc
      (fun (D : MatrixArray) (x : Nat × Nat × Nat) => (D.get x.1).data x.2.1 x.2.2)
      (fun k D =>
        forUpTo pois.size (fun n D =>
          forUpTo pois.size (fun j D =>
            forUpTo size (fun i D =>
              setEntry D k i n
                ((D.get k).data i n + ((jp.B.get k).get i).data n j * pois.data j)) D) D) D)
      (fun k x => if x.1 = k then (if x.2.2 < pois.size then if x.2.1 < size then
                condMix jp pois k x.2.1 x.2.2 else 0 else 0) else 0)
      (fun k s y => l3 k s y) size D (k, i, n)]
  congr 1
  exact sum_ite_eq_range size k
    (fun k => if n < pois.size then if i < size then condMix jp pois k i n else 0 else 0)

theorem cond_loop_dims (jp : JumpProcess) (pois : Vector) (size : Nat) (D : MatrixArray)
    (a : Nat) :
    ((forUpTo size (fun k D =>
        forUpTo pois.size (fun n D =>
          forUpTo pois.size (fun j D =>
            forUpTo size (fun i D =>
              setEntry D k i n
                ((D.get k).data i n + ((jp.B.get k).get i).data n j * pois.data j)) D) D) D)
        D).get a).nrows = (D.get a).nrows ∧
    ((forUpTo size (fun k D =>
        forUpTo pois.size (fun n D =>
          forUpTo pois.size (fun j D =>
            forUpTo size (fun i D =>
              setEntry D k i n
                ((D.get k).data i n + ((jp.B.get k).get i).data n j * pois.data j)) D) D) D)
        D).get a).ncols = (D.get a).ncols := by
  refine forUpTo_inv (fun D' : MatrixArray =>
    (D'.get a).nrows = (D.get a).nrows ∧ (D'.get a).ncols = (D.get a).ncols) _ _ _ ⟨rfl, rfl⟩ ?_
  intro k D1 _ h1
  refine forUpTo_inv (fun D' : MatrixArray =>
    (D'.get a).nrows = (D.get a).nrows ∧ (D'.get a).ncols = (D.get a).ncols) _ _ _ h1 ?_
  intro n D2 _ h2
  refine forUpTo_inv (fun D' : MatrixArray =>
    (D'.get a).nrows = (D.get a).nrows ∧ (D'.get a).ncols = (D.get a).ncols) _ _ _ h2 ?_
  intro j D3 _ h3
  refine forUpTo_inv (fun D' : MatrixArray =>
    (D'.get a).nrows = (D.get a).nrows ∧ (D'.get a).ncols = (D.get a).ncols) _ _ _ h3 ?_
  intro i D4 _ h4
  rw [setEntry_nrows, setEntry_ncols]
  exact h4

/-- The normalising loop of lines 172-173. -/
theorem normalise_loop_get (size : Nat) (D : MatrixArray) (a : Nat) :
    (forUpTo size (fun i D => D.set i (pm_normalize (D.get i))) D).get a
      = if a < size then pm_normalize (D.get a) else D.get a := by
  induction size with
  | zero => simp [forUpTo]
  | succ k ih =>
    rw [forUpTo_succ, matrixArray_set_get]
    by_cases h : a = k
    · subst h
      rw [if_pos rfl, if_pos (Nat.lt_succ_self a), ih, if_neg (Nat.lt_irrefl a)]
    · rw [if_neg h, ih]
      by_cases h2 : a < k
      · rw [if_pos h2, if_pos (Nat.lt_succ_of_lt h2)]
      · rw [if_neg h2, if_neg (by omega)]

/-- Closed form of `sub_distrib_branch_conditional`: for a start base `a`, the matrix
`D[a]` has `size` rows and `pois->size` columns and holds `condMix` divided by its total. -/
theorem sub_distrib_branch_conditional_eq (pv_poisson : ℚ → Vector) (jp : JumpProcess) (t : ℚ)
    (h : (pv_poisson (jp.lambda * t)).size < jp.njumps_max) :
    ∃ D, sub_distrib_branch_conditional pv_poisson jp t = some D ∧
      ∀ a, a < jp.mod.rate_matrix.size →
        (D.get a).nrows = jp.mod.rate_matrix.size ∧
        (D.get a).ncols = (pv_poisson (jp.lambda * t)).size ∧
        ∀ b n, b < jp.mod.rate_matrix.size → n < (pv_poisson (jp.lambda * t)).size →
          (D.get a).data b n = condMix jp (pv_poisson (jp.lambda * t)) a b n *
            (1 / ∑ b' in Finset.range jp.mod.rate_matrix.size,
              ∑ n' in Finset.range (pv_poisson (jp.lambda * t)).size,
                condMix jp (pv_poisson (jp.lambda * t)) a b' n') := by
  simp only [sub_distrib_branch_conditional, gt_iff_lt, h, if_true]
  refine ⟨_, rfl, ?_⟩
  intro a ha
  rw [normalise_loop_get, if_pos ha]
  have hd := cond_loop_dims jp (pv_poisson (jp.lambda * t)) jp.mod.rate_matrix.size
    (forUpTo jp.mod.rate_matrix.size (fun i D => D.set i (mat_zero (mat_new jp.mod.rate_matrix.size
      (pv_poisson (jp.lambda * t)).size))) MatrixArray.empty) a
  rw [alloc_get, if_pos ha] at hd
  have hdata : ∀ b n, b < jp.mod.rate_matrix.size → n < (pv_poisson (jp.lambda * t)).size →
      ((forUpTo jp.mod.rate_matrix.size (fun k D =>
        forUpTo (pv_poisson (jp.lambda * t)).size (fun n D =>
          forUpTo (pv_poisson (jp.lambda * t)).size (fun j D =>
            forUpTo jp.mod.rate_matrix.size (fun i D =>
              setEntry D k i n
                ((D.get k).data i n + ((jp.B.get k).get i).data n j *
                  (pv_poisson (jp.lambda * t)).data j)) D) D) D)
        (forUpTo jp.mod.rate_matrix.size (fun i D => D.set i (mat_zero
          (mat_new jp.mod.rate_matrix.size (pv_poisson (jp.lambda * t)).size)))
          MatrixArray.empty)).get a).data b n
        = condMix jp (pv_poisson (jp.lambda * t)) a b n := by
    intro b n hb hn
    rw [cond_loop_data, alloc_data, if_pos ha, if_pos hn, if_pos hb, zero_add]
  refine ⟨hd.1, hd.2, ?_⟩
  intro b n hb hn
  simp only [pm_normalize, mat_scale]
  rw [hdata b n hb hn, mat_sum_eq, hd.1, hd.2]
  congr 2
  apply Finset.sum_congr rfl
  intro b' hb'
  apply Finset.sum_congr rfl
  intro n' hn'
  exact hdata b' n' (Finset.mem_range.mp hb') (Finset.mem_range.mp hn')


theorem B_get (mod : TreeModel) (njumps_max : Nat) (a : Nat) :
    (sub_define_jump_process mod njumps_max).B.get a
      = if a < mod.rate_matrix.size then
          get_substs_and_bases_given_jumps
            { njumps_max := njumps_max, R := (sub_define_jump_process mod njumps_max).R,
              lambda := (sub_define_jump_process mod njumps_max).lambda, mod := mod,
              A := (sub_define_jump_process mod njumps_max).A, B := MatrixArray2.empty }
            njumps_max a
        else MatrixArray.empty := by
  have key : ∀ (f : Nat → MatrixArray) (size : Nat),
      (forUpTo size (fun i B => B.set i (f i)) MatrixArray2.empty).get a
        = if a < size then f a else MatrixArray.empty := by
    intro f size
    induction size with
    | zero => simp [forUpTo, MatrixArray2.empty]
    | succ k ih =>
      rw [forUpTo_succ]
      have hset : ∀ (B : MatrixArray2) (i : Nat) (A : MatrixArray),
          (B.set i A).get a = if a = i then A else B.get a := fun _ _ _ => rfl
      rw [hset]
      by_cases h : a = k
      · subst h
        rw [if_pos rfl, if_pos (Nat.lt_succ_self a)]
      · rw [if_neg h, ih]
        by_cases h2 : a < k
        · rw [if_pos h2, if_pos (Nat.lt_succ_of_lt h2)]
        · rw [if_neg h2, if_neg (by omega)]
  exact key _ _

/-- Column 0 of the conditioned tables of a built jump process. -/
theorem B_col0 (mod : TreeModel) (njumps_max : Nat) (a b n : Nat)
    (ha : a < mod.rate_matrix.size) :
    (((sub_define_jump_process mod njumps_max).B.get a).get b).data n 0
      = if n = 0 ∧ b = a then 1 else 0 := by
  rw [B_get, if_pos ha, get_substs_col0]
  have h1 : ¬ ((a : Int) < 0) := by omega
  have h2 : ((a : Int)).toNat = a := Int.toNat_natCast a
  rw [if_neg h1, h2]
  by_cases h0 : n = 0 <;> by_cases hb : b = a <;> simp [h0, hb]

/-- With a Poisson vector concentrated at `j = 0`, only jump count 0 contributes. -/
theorem condMix_point (jp : JumpProcess) (pois : Vector) (a b n : Nat) (hsize : 0 < pois.size)
    (hrest : ∀ j, 0 < j → j < pois.size → pois.data j = 0) :
    condMix jp pois a b n = ((jp.B.get a).get b).data n 0 * pois.data 0 := by
  unfold condMix
  rw [Finset.sum_eq_single_of_mem 0 (Finset.mem_range.mpr hsize)]
  intro j hj hj0
  rw [Finset.mem_range] at hj
  rw [hrest j (Nat.pos_of_ne_zero hj0) hj]
  simp

/-- The conditional branch distribution of a built jump process for branch length 0, when
the Poisson vector is concentrated at `j = 0` and shorter than `njumps_max`: every `D[a]`
is the point mass at `(a, 0)`. -/
theorem cond_zero_length_spec (pv_poisson : ℚ → Vector) (mod : TreeModel)
    (njumps_max : Nat)
    (hsize : 0 < (pv_poisson ((sub_define_jump_process mod njumps_max).lambda * 0)).size)
    (h0 : (pv_poisson ((sub_define_jump_process mod njumps_max).lambda * 0)).data 0 ≠ 0)
    (hrest : ∀ j, 0 < j →
      j < (pv_poisson ((sub_define_jump_process mod njumps_max).lambda * 0)).size →
      (pv_poisson ((sub_define_jump_process mod njumps_max).lambda * 0)).data j = 0)
    (hlt : (pv_poisson ((sub_define_jump_process mod njumps_max).lambda * 0)).size
      < njumps_max) :
    ∃ D, sub_distrib_branch_conditional pv_poisson (sub_define_jump_process mod njumps_max) 0
        = some D ∧
      ∀ a b, a < mod.rate_matrix.size → b < mod.rate_matrix.size →
        (D.get a).ncols
          = (pv_poisson ((sub_define_jump_process mod njumps_max).lambda * 0)).size ∧
        (D.get a).data b 0 = (if b = a then 1 else 0) ∧
        ∀ n, 0 < n → n < (D.get a).ncols → (D.get a).data b n = 0 := by
  obtain ⟨D, hD, hspec⟩ :=
    sub_distrib_branch_conditional_eq pv_poisson (sub_define_jump_process mod njumps_max) 0 hlt
  rw [mod_eq] at hspec
  have hmix : ∀ a b n, a < mod.rate_matrix.size →
      condMix (sub_define_jump_process mod njumps_max)
        (pv_poisson ((sub_define_jump_process mod njumps_max).lambda * 0)) a b n
      = if n = 0 ∧ b = a then
          (pv_poisson ((sub_define_jump_process mod njumps_max).lambda * 0)).data 0 else 0 := by
    intro a b n ha
    rw [condMix_point _ _ a b n hsize hrest, B_col0 mod njumps_max a b n ha]
    by_cases h : n = 0 ∧ b = a <;> simp [h]
  have htot : ∀ a, a < mod.rate_matrix.size →
      ∑ b' in Finset.range mod.rate_matrix.size,
        ∑ n' in Finset.range (pv_poisson ((sub_define_jump_process mod njumps_max).lambda * 0)).size,
          condMix (sub_define_jump_process mod njumps_max)
            (pv_poisson ((sub_define_jump_process mod njumps_max).lambda * 0)) a b' n'
      = (pv_poisson ((sub_define_jump_process mod njumps_max).lambda * 0)).data 0 := by
    intro a ha
    rw [Finset.sum_eq_single_of_mem a (Finset.mem_range.mpr ha),
      Finset.sum_eq_single_of_mem 0 (Finset.mem_range.mpr hsize), hmix a a 0 ha,
      if_pos ⟨rfl, rfl⟩]
    · intro n _ hn
      rw [hmix a a n ha, if_neg (fun h => hn h.1)]
    · intro b _ hb
      apply Finset.sum_eq_zero
      intro n _
      rw [hmix a b n ha, if_neg (fun h => hb h.2)]
  refine ⟨D, hD, ?_⟩
  intro a b ha hb
  obtain ⟨_, hnc, hdata⟩ := hspec a ha
  refine ⟨hnc, ?_, ?_⟩
  · rw [hdata b 0 hb hsize, htot a ha, hmix a b 0 ha]
    by_cases hba : b = a
    · rw [if_pos ⟨rfl, hba⟩, if_pos hba, mul_one_div]
      exact div_self h0
    · rw [if_neg (fun h => hba h.2), if_neg hba]
      simp
  · intro n hn hnc'
    rw [hnc] at hnc'
    rw [hdata b n hb hnc', hmix a b n ha, if_neg (fun h => (Nat.pos_iff_ne_zero.mp hn) h.1)]
    simp

/-- C2 (as amended). For a built jump process and a Poisson vector for branch length 0
that is concentrated at `j = 0` and shorter than `njumps_max`,
`sub_distrib_branch_conditional (jp, 0)` returns matrices with `D[a]->data[b][0] = 1` if
`b == a` and 0 otherwise, and `D[a]->data[b][n] = 0` for `n > 0`. -/
theorem C2_branch_conditional_zero_length (pv_poisson : ℚ → Vector) (mod : TreeModel)
    (njumps_max : Nat)
    (hsize : 0 < (pv_poisson ((sub_define_jump_process mod njumps_max).lambda * 0)).size)
    (h0 : (pv_poisson ((sub_define_jump_process mod njumps_max).lambda * 0)).data 0 ≠ 0)
    (hrest : ∀ j, 0 < j →
      j < (pv_poisson ((sub_define_jump_process mod njumps_max).lambda * 0)).size →
      (pv_poisson ((sub_define_jump_process mod njumps_max).lambda * 0)).data j = 0)
    (hlt : (pv_poisson ((sub_define_jump_process mod njumps_max).lambda * 0)).size
      < njumps_max) :
    ∃ D, sub_distrib_branch_conditional pv_poisson (sub_define_jump_process mod njumps_max) 0
        = some D ∧
      ∀ a b, a < mod.rate_matrix.size → b < mod.rate_matrix.size →
        (D.get a).data b 0 = (if b = a then 1 else 0) ∧
        ∀ n, 0 < n → n < (D.get a).ncols → (D.get a).data b n = 0 := by
  obtain ⟨D, hD, hspec⟩ := cond_zero_length_spec pv_poisson mod njumps_max hsize h0 hrest hlt
  exact ⟨D, hD, fun a b ha hb => (hspec a b ha hb).2⟩

theorem C2_branch_conditional_zero_length_witness :
    (pointPois ((sub_define_jump_process symMod 3).lambda * 0)).size < 3 ∧
    ∃ D, sub_distrib_branch_conditional pointPois (sub_define_jump_process symMod 3) 0
        = some D ∧
      ∀ a b, a < symMod.rate_matrix.size → b < symMod.rate_matrix.size →
        (D.get a).data b 0 = (if b = a then 1 else 0) ∧
        ∀ n, 0 < n → n < (D.get a).ncols → (D.get a).data b n = 0 :=
  ⟨by decide,
    C2_branch_conditional_zero_length pointPois symMod 3 (by decide)
      (by simp [pointPois]) (fun j hj _ => by simp [pointPois, Nat.pos_iff_ne_zero.mp hj])
      (by decide)⟩

/-- C2 (as stated) fails: with `njumps_max = 1` the Poisson vector for branch length 0 is
the point mass at `j = 0`, yet the assertion `njumps_max > pois->size` fails and no
matrices are returned. -/
theorem C2_counterexample :
    (pointPois ((sub_define_jump_process symMod 1).lambda * 0)).data 0 = 1 ∧
    (∀ j, 0 < j → (pointPois ((sub_define_jump_process symMod 1).lambda * 0)).data j = 0) ∧
    sub_distrib_branch_conditional pointPois (sub_define_jump_process symMod 1) 0 = none := by
  refine ⟨rfl, ?_, ?_⟩
  · intro j hj
    simp [pointPois, Nat.pos_iff_ne_zero.mp hj]
  · have h : ¬ ((sub_define_jump_process symMod 1).njumps_max
        > (pointPois ((sub_define_jump_process symMod 1).lambda * 0)).size) := by decide
    simp only [sub_distrib_branch_conditional, h, if_false]

/-- The conditional branch distribution for any jump process: when the Poisson vector is
shorter than `njumps_max` and the mixture of the tables `B[a]` has a non-zero total, `D[a]`
has `size` rows and `pois->size` columns, `D[a]->data[b][n]` is
`sum_j B[a][b]->data[n][j] * p[j]` divided by that total, and the entries of `D[a]` sum
to 1. -/
theorem branch_conditional_of_total (pv_poisson : ℚ → Vector) (jp : JumpProcess) (t : ℚ)
    (a : Nat) (ha : a < jp.mod.rate_matrix.size)
    (hlt : (pv_poisson (jp.lambda * t)).size < jp.njumps_max)
    (hne : ∑ b in Finset.range jp.mod.rate_matrix.size,
            ∑ n in Finset.range (pv_poisson (jp.lambda * t)).size,
              ∑ j in Finset.range (pv_poisson (jp.lambda * t)).size,
                ((jp.B.get a).get b).data n j * (pv_poisson (jp.lambda * t)).data j ≠ 0) :
    ∃ D, sub_distrib_branch_conditional pv_poisson jp t = some D ∧
      (D.get a).nrows = jp.mod.rate_matrix.size ∧
      (D.get a).ncols = (pv_poisson (jp.lambda * t)).size ∧
      (∀ b n, b < jp.mod.rate_matrix.size → n < (pv_poisson (jp.lambda * t)).size →
        (D.get a).data b n =
          (∑ j in Finset.range (pv_poisson (jp.lambda * t)).size,
            ((jp.B.get a).get b).data n j * (pv_poisson (jp.lambda * t)).data j) /
          (∑ b' in Finset.range jp.mod.rate_matrix.size,
            ∑ n' in Finset.range (pv_poisson (jp.lambda * t)).size,
              ∑ j in Finset.range (pv_poisson (jp.lambda * t)).size,
                ((jp.B.get a).get b').data n' j * (pv_poisson (jp.lambda * t)).data j)) ∧
      ∑ b in Finset.range (D.get a).nrows, ∑ n in Finset.range (D.get a).ncols,
        (D.get a).data b n = 1 := by
  obtain ⟨D, hD, hspec⟩ := sub_distrib_branch_conditional_eq pv_poisson jp t hlt
  obtain ⟨hnr, hnc, hdata⟩ := hspec a ha
  have hdata' : ∀ b n, b < jp.mod.rate_matrix.size → n < (pv_poisson (jp.lambda * t)).size →
        (D.get a).data b n =
          condMix jp (pv_poisson (jp.lambda * t)) a b n /
          (∑ b' in Finset.range jp.mod.rate_matrix.size,
            ∑ n' in Finset.range (pv_poisson (jp.lambda * t)).size,
              condMix jp (pv_poisson (jp.lambda * t)) a b' n') := by
    intro b n hb hn
    rw [hdata b n hb hn, mul_one_div]
  refine ⟨D, hD, hnr, hnc, hdata', ?_⟩
  rw [hnr, hnc]
  have : ∀ b ∈ Finset.range jp.mod.rate_matrix.size,
      ∑ n in Finset.range (pv_poisson (jp.lambda * t)).size, (D.get a).data b n
        = (∑ n in Finset.range (pv_poisson (jp.lambda * t)).size,
            condMix jp (pv_poisson (jp.lambda * t)) a b n) /
          (∑ b' in Finset.range jp.mod.rate_matrix.size,
            ∑ n' in Finset.range (pv_poisson (jp.lambda * t)).size,
              condMix jp (pv_poisson (jp.lambda * t)) a b' n') := by
    intro b hb
    rw [Finset.sum_div]
    apply Finset.sum_congr rfl
    intro n hn
    exact hdata' b n (Finset.mem_range.mp hb) (Finset.mem_range.mp hn)
  rw [Finset.sum_congr rfl this, ← Finset.sum_div]
  exact div_self hne

theorem symMod_condMix_ne :
    ∑ b in Finset.range (sub_define_jump_process symMod 3).mod.rate_matrix.size,
      ∑ n in Finset.range (pointPois ((sub_define_jump_process symMod 3).lambda * 0)).size,
        ∑ j in Finset.range (pointPois ((sub_define_jump_process symMod 3).lambda * 0)).size,
          (((sub_define_jump_process symMod 3).B.get 0).get b).data n j *
            (pointPois ((sub_define_jump_process symMod 3).lambda * 0)).data j ≠ 0 := by
  have h1 : (pointPois ((sub_define_jump_process symMod 3).lambda * 0)).size = 1 := rfl
  have h2 : (sub_define_jump_process symMod 3).mod.rate_matrix.size = 2 := rfl
  have h3 : (0 : Nat) < symMod.rate_matrix.size := by decide
  rw [h1, h2]
  simp only [Finset.sum_range_succ, Finset.sum_range_zero, B_col0 symMod 3 0 _ _ h3, pointPois]
  norm_num

/-! ## The assertion and the table reads -/

theorem sub_distrib_branch_none_iff (pv_poisson : ℚ → Vector) (jp : JumpProcess) (t : ℚ) :
    sub_distrib_branch pv_poisson jp t = none ↔
      ¬ (jp.njumps_max > (pv_poisson (jp.lambda * t)).size) := by
  by_cases h : jp.njumps_max > (pv_poisson (jp.lambda * t)).size
  · simp only [sub_distrib_branch, h, if_true, not_true_eq_false, iff_false]
    exact fun h => Option.noConfusion h
  · simp only [sub_distrib_branch, h, if_false, not_false_eq_true]

theorem sub_distrib_branch_conditional_none_iff (pv_poisson : ℚ → Vector) (jp : JumpProcess)
    (t : ℚ) :
    sub_distrib_branch_conditional pv_poisson jp t = none ↔
      ¬ (jp.njumps_max > (pv_poisson (jp.lambda * t)).size) := by
  by_cases h : jp.njumps_max > (pv_poisson (jp.lambda * t)).size
  · simp only [sub_distrib_branch_conditional, h, if_true, not_true_eq_false, iff_false]
    exact fun h => Option.noConfusion h
  · simp only [sub_distrib_branch_conditional, h, if_false, not_false_eq_true]

theorem sub_distrib_branch_reads_lt (pv_poisson : ℚ → Vector) (jp : JumpProcess) (t : ℚ)
    (x : Nat × Nat × Nat) (hx : x ∈ sub_distrib_branch_reads pv_poisson jp t) :
    x.2.1 < (pv_poisson (jp.lambda * t)).size ∧ x.2.2 < (pv_poisson (jp.lambda * t)).size := by
  revert x
  unfold sub_distrib_branch_reads
  refine forUpTo_inv (fun log : List (Nat × Nat × Nat) => ∀ x ∈ log,
    x.2.1 < (pv_poisson (jp.lambda * t)).size ∧ x.2.2 < (pv_poisson (jp.lambda * t)).size)
    _ _ _ (fun x hx => absurd hx (List.not_mem_nil x)) ?_
  intro n log1 hn h1
  refine forUpTo_inv (fun log : List (Nat × Nat × Nat) => ∀ x ∈ log,
    x.2.1 < (pv_poisson (jp.lambda * t)).size ∧ x.2.2 < (pv_poisson (jp.lambda * t)).size)
    _ _ _ h1 ?_
  intro j log2 hj h2
  refine forUpTo_inv (fun log : List (Nat × Nat × Nat) => ∀ x ∈ log,
    x.2.1 < (pv_poisson (jp.lambda * t)).size ∧ x.2.2 < (pv_poisson (jp.lambda * t)).size)
    _ _ _ h2 ?_
  intro i log3 _ h3 x hx
  rcases List.mem_cons.mp hx with h | h
  · rw [h]
    exact ⟨hn, hj⟩
  · exact h3 x h

theorem sub_distrib_branch_conditional_reads_lt (pv_poisson : ℚ → Vector) (jp : JumpProcess)
    (t : ℚ) (x : Nat × Nat × Nat × Nat)
    (hx : x ∈ sub_distrib_branch_conditional_reads pv_poisson jp t) :
    x.2.2.1 < (pv_poisson (jp.lambda * t)).size ∧
    x.2.2.2 < (pv_poisson (jp.lambda * t)).size := by
  revert x
  unfold sub_distrib_branch_conditional_reads
  refine forUpTo_inv (fun log : List (Nat × Nat × Nat × Nat) => ∀ x ∈ log,
    x.2.2.1 < (pv_poisson (jp.lambda * t)).size ∧ x.2.2.2 < (pv_poisson (jp.lambda * t)).size)
    _ _ _ (fun x hx => absurd hx (List.not_mem_nil x)) ?_
  intro k log0 _ h0
  refine forUpTo_inv (fun log : List (Nat × Nat × Nat × Nat) => ∀ x ∈ log,
    x.2.2.1 < (pv_poisson (jp.lambda * t)).size ∧ x.2.2.2 < (pv_poisson (jp.lambda * t)).size)
    _ _ _ h0 ?_
  intro n log1 hn h1
  refine forUpTo_inv (fun log : List (Nat × Nat × Nat × Nat) => ∀ x ∈ log,
    x.2.2.1 < (pv_poisson (jp.lambda * t)).size ∧ x.2.2.2 < (pv_poisson (jp.lambda * t)).size)
    _ _ _ h1 ?_
  intro j log2 hj h2
  refine forUpTo_inv (fun log : List (Nat × Nat × Nat × Nat) => ∀ x ∈ log,
    x.2.2.1 < (pv_poisson (jp.lambda * t)).size ∧ x.2.2.2 < (pv_poisson (jp.lambda * t)).size)
    _ _ _ h2 ?_
  intro i log3 _ h3 x hx
  rcases List.mem_cons.mp hx with h | h
  · rw [h]
    exact ⟨hn, hj⟩
  · exact h3 x h

/-- C5. `sub_distrib_branch` and `sub_distrib_branch_conditional` fail exactly when
`njumps_max` is not strictly greater than the length of the Poisson vector for
`lambda * t`; when they do not fail, every read `A[i]->data[n][j]` and
`B[k][i]->data[n][j]` has `n` and `j` strictly below `njumps_max`. -/
theorem C5_assertion_and_read_bounds (pv_poisson : ℚ → Vector) (jp : JumpProcess) (t : ℚ) :
    (sub_distrib_branch pv_poisson jp t = none ↔
      ¬ (jp.njumps_max > (pv_poisson (jp.lambda * t)).size)) ∧
    (sub_distrib_branch_conditional pv_poisson jp t = none ↔
      ¬ (jp.njumps_max > (pv_poisson (jp.lambda * t)).size)) ∧
    (sub_distrib_branch pv_poisson jp t ≠ none →
      ∀ x ∈ sub_distrib_branch_reads pv_poisson jp t,
        x.2.1 < jp.njumps_max ∧ x.2.2 < jp.njumps_max) ∧
    (sub_distrib_branch_conditional pv_poisson jp t ≠ none →
      ∀ x ∈ sub_distrib_branch_conditional_reads pv_poisson jp t,
        x.2.2.1 < jp.njumps_max ∧ x.2.2.2 < jp.njumps_max) := by
  refine ⟨sub_distrib_branch_none_iff pv_poisson jp t,
    sub_distrib_branch_conditional_none_iff pv_poisson jp t, ?_, ?_⟩
  · intro hne x hx
    have hgt : jp.njumps_max > (pv_poisson (jp.lambda * t)).size :=
      not_not.mp (fun h => hne ((sub_distrib_branch_none_iff pv_poisson jp t).mpr h))
    have := sub_distrib_branch_reads_lt pv_poisson jp t x hx
    exact ⟨lt_trans this.1 hgt, lt_trans this.2 hgt⟩
  · intro hne x hx
    have hgt : jp.njumps_max > (pv_poisson (jp.lambda * t)).size :=
      not_not.mp (fun h => hne ((sub_distrib_branch_conditional_none_iff pv_poisson jp t).mpr h))
    have := sub_distrib_branch_conditional_reads_lt pv_poisson jp t x hx
    exact ⟨lt_trans this.1 hgt, lt_trans this.2 hgt⟩

theorem C5_assertion_and_read_bounds_witness :
    sub_distrib_branch halfPois (sub_define_jump_process symMod 3) 1 ≠ none ∧
    (1, 1, 1) ∈ sub_distrib_branch_reads halfPois (sub_define_jump_process symMod 3) 1 ∧
    ∀ x ∈ sub_distrib_branch_reads halfPois (sub_define_jump_process symMod 3) 1,
        x.2.1 < (sub_define_jump_process symMod 3).njumps_max ∧
        x.2.2 < (sub_define_jump_process symMod 3).njumps_max :=
  have hne : sub_distrib_branch halfPois (sub_define_jump_process symMod 3) 1 ≠ none :=
    fun h => (sub_distrib_branch_none_iff halfPois (sub_define_jump_process symMod 3) 1).mp h
      (by decide)
  ⟨hne, by
    have h1 : (halfPois ((sub_define_jump_process symMod 3).lambda * 1)).size = 2 := rfl
    have h2 : (sub_define_jump_process symMod 3).R.nrows = 2 := R_nrows_eq symMod 3
    simp [sub_distrib_branch_reads, h1, h2, forUpTo],
    (C5_assertion_and_read_bounds halfPois (sub_define_jump_process symMod 3) 1).2.2.1 hne⟩


/-! ## The assertions of the site functions -/

/-- C6. `sub_posterior_distrib_site` and `sub_joint_distrib_site` fail for every model
whose order is not 0, and `sub_posterior_distrib_site` also fails when the alignment has
no sufficient statistics. -/
theorem C6_site_assertions (pv_poisson : ℚ → Vector)
    (tm_build_seq_idx : TreeModel → MSA → Nat → Nat) (jp : JumpProcess) (msa : MSA)
    (jmsa : Option MSA) (tuple_idx : Nat) :
    (jp.mod.order ≠ 0 →
      sub_posterior_distrib_site pv_poisson tm_build_seq_idx jp msa tuple_idx = none ∧
      sub_joint_distrib_site pv_poisson tm_build_seq_idx jp jmsa tuple_idx = none) ∧
    (msa.ss = none →
      sub_posterior_distrib_site pv_poisson tm_build_seq_idx jp msa tuple_idx = none) := by
  constructor
  · intro h
    constructor
    · unfold sub_posterior_distrib_site
      rw [if_pos h]
    · unfold sub_joint_distrib_site
      rw [if_pos h]
  · intro h
    unfold sub_posterior_distrib_site
    by_cases ho : jp.mod.order ≠ 0
    · rw [if_pos ho]
    · rw [if_neg ho, h]

theorem C6_site_assertions_witness :
    ({ symMod with order := 1 } : TreeModel).order ≠ 0 ∧
    sub_posterior_distrib_site pointPois (fun _ _ => id)
      (sub_define_jump_process { symMod with order := 1 } 3)
      ⟨some ⟨1, fun _ => 1, fun _ _ => 42⟩, fun _ => true, fun _ => -1⟩ 0 = none ∧
    sub_joint_distrib_site pointPois (fun _ _ => id)
      (sub_define_jump_process { symMod with order := 1 } 3) none 0 = none :=
  ⟨by decide,
    (C6_site_assertions pointPois (fun _ _ => id)
      (sub_define_jump_process { symMod with order := 1 } 3)
      ⟨some ⟨1, fun _ => 1, fun _ _ => 42⟩, fun _ => true, fun _ => -1⟩ none 0).1
      (by decide)⟩


/-! ## The tables of `get_substs_and_bases_given_jumps` -/

/-- Accumulation rule under an invariant of the loop. -/
theorem forUpTo_acc_inv {σ ι : Type} (val : σ → ι → ℚ) (body : Nat → σ → σ) (g : Nat → ι → ℚ)
    (P : σ → Prop) (hP : ∀ i s, P s → P (body i s))
    (h : ∀ i s x, P s → val (body i s) x = val s x + g i x) (n : Nat) (s : σ) (h0 : P s) :
    P (forUpTo n body s) ∧
    ∀ x, val (forUpTo n body s) x = val s x + ∑ i in Finset.range n, g i x := by
  induction n with
  | zero => exact ⟨h0, fun x => by simp [forUpTo]⟩
  | succ k ih =>
    rw [forUpTo_succ]
    refine ⟨hP k _ ih.1, fun x => ?_⟩
    rw [h k _ x ih.1, ih.2 x, Finset.sum_range_succ, add_assoc]

/-- Overwriting rule under an invariant of the loop. -/
theorem forUpTo_fill_inv {σ ι : Type} (val : σ → ι → ℚ) (body : Nat → σ → σ)
    (W : Nat → ι → Prop) (v : ι → ℚ) (P : σ → Prop) (hP : ∀ j s, P s → P (body j s))
    (hw : ∀ j s x, P s → W j x → val (body j s) x = v x)
    (hf : ∀ j s x, P s → ¬ W j x → val (body j s) x = val s x) (n : Nat) (s : σ) (h0 : P s) :
    P (forUpTo n body s) ∧
    ∀ x, ((∃ j, j < n ∧ W j x) → val (forUpTo n body s) x = v x) ∧
      ((¬ ∃ j, j < n ∧ W j x) → val (forUpTo n body s) x = val s x) := by
  induction n with
  | zero =>
    refine ⟨h0, fun x => ⟨?_, fun _ => rfl⟩⟩
    rintro ⟨j, hj, _⟩
    exact absurd hj (Nat.not_lt_zero j)
  | succ k ih =>
    rw [forUpTo_succ]
    refine ⟨hP k _ ih.1, fun x => ?_⟩
    by_cases hk : W k x
    · exact ⟨fun _ => hw k _ x ih.1 hk, fun hn => absurd ⟨k, Nat.lt_succ_self k, hk⟩ hn⟩
    · rw [hf k _ x ih.1 hk]
      constructor
      · rintro ⟨j, hj, hjx⟩
        rcases Nat.lt_succ_iff_lt_or_eq.mp hj with h | h
        · exact (ih.2 x).1 ⟨j, h, hjx⟩
        · exact absurd (h ▸ hjx) hk
      · intro hn
        exact (ih.2 x).2 (fun ⟨j, hj, hjx⟩ => hn ⟨j, Nat.lt_succ_of_lt hj, hjx⟩)

/-- The value that lines 43-48 store at `A[i]->data[n][j]`, from the column `j - 1` of the
current tables. -/
theorem cell_step (R : Matrix) (size : Nat) (A : MatrixArray) (i n j : Nat) (hj : 1 ≤ j)
    (i' n' j' : Nat) :
    (((fun (A : MatrixArray) =>
        let A := setEntry A i n j ((A.get i).data n (j - 1) * R.data i i)
        if n > 0 then
          forUpTo size (fun k A =>
            if k = i then A
            else setEntry A i n j
              ((A.get i).data n j + (A.get k).data (n - 1) (j - 1) * R.data k i))
            A
        else A) A).get i').data n' j'
      = if i' = i ∧ n' = n ∧ j' = j then
          (A.get i).data n (j - 1) * R.data i i +
            (if n > 0 then
              ∑ k in Finset.range size,
                (if k = i then 0 else (A.get k).data (n - 1) (j - 1) * R.data k i)
             else 0)
        else (A.get i').data n' j' := by
  simp only
  by_cases hn : n > 0
  · rw [if_pos hn, if_pos hn]
    have key := forUpTo_acc_inv
      (fun (s : MatrixArray) (x : Nat × Nat × Nat) => (s.get x.1).data x.2.1 x.2.2)
      (fun k A =>
            if k = i then A
            else setEntry A i n j
              ((A.get i).data n j + (A.get k).data (n - 1) (j - 1) * R.data k i))
      (fun k x => if x.1 = i ∧ x.2.1 = n ∧ x.2.2 = j then
          (if k = i then 0 else (A.get k).data (n - 1) (j - 1) * R.data k i) else 0)
      (fun s => ∀ k m, (s.get k).data m (j - 1) = (A.get k).data m (j - 1))
      (by
        intro k s hs k' m
        beta_reduce
        by_cases hk : k = i
        · rw [if_pos hk]; exact hs k' m
        · rw [if_neg hk, setEntry_data, if_neg (fun h => by omega)]
          exact hs k' m)
      (by
        rintro k s ⟨a, b, c⟩ hs
        by_cases hk : k = i
        · simp [hk]
        · simp only [if_neg hk, setEntry_data]
          by_cases hx : a = i ∧ b = n ∧ c = j
          · rw [if_pos hx, if_pos hx, hs k (n - 1), hx.1, hx.2.1, hx.2.2]
          · rw [if_neg hx, if_neg hx, add_zero])
      size (setEntry A i n j ((A.get i).data n (j - 1) * R.data i i))
      (by
        intro k m
        rw [setEntry_data, if_neg (fun h => by omega)])
    have := key.2 (i', n', j')
    simp only at this
    rw [this, setEntry_data]
    by_cases hx : i' = i ∧ n' = n ∧ j' = j
    · simp only [hx, and_self, if_true]
    · simp only [if_neg hx, Finset.sum_const_zero, add_zero]
  · rw [if_neg hn, if_neg hn, setEntry_data, add_zero]


/-- The loops over `n` and `i` of lines 41-49 for one jump count `j >= 1`: column `j` is
filled from column `j - 1`, every other column is left alone. -/
theorem column_step (R : Matrix) (size : Nat) (A : MatrixArray) (j : Nat) (hj : 1 ≤ j)
    (i' n' j' : Nat) :
    ((forUpTo (j + 1) (fun n A =>
        forUpTo size (fun i A =>
          let A := setEntry A i n j ((A.get i).data n (j - 1) * R.data i i)
          if n > 0 then
            forUpTo size (fun k A =>
              if k = i then A
              else setEntry A i n j
                ((A.get i).data n j + (A.get k).data (n - 1) (j - 1) * R.data k i))
              A
          else A) A) A).get i').data n' j'
      = if j' = j ∧ i' < size ∧ n' ≤ j then
          (A.get i').data n' (j - 1) * R.data i' i' +
            (if n' > 0 then
              ∑ k in Finset.range size,
                (if k = i' then 0 else (A.get k).data (n' - 1) (j - 1) * R.data k i')
             else 0)
        else (A.get i').data n' j' := by
  have hinner : ∀ (n : Nat) (s : MatrixArray),
      (∀ k m, (s.get k).data m (j - 1) = (A.get k).data m (j - 1)) →
      (∀ k m, ((forUpTo size (fun i A =>
          let A := setEntry A i n j ((A.get i).data n (j - 1) * R.data i i)
          if n > 0 then
            forUpTo size (fun k A =>
              if k = i then A
              else setEntry A i n j
                ((A.get i).data n j + (A.get k).data (n - 1) (j - 1) * R.data k i))
              A
          else A) s).get k).data m (j - 1) = (A.get k).data m (j - 1)) ∧
      ∀ x : Nat × Nat × Nat,
        ((∃ i, i < size ∧ (x.1 = i ∧ x.2.1 = n ∧ x.2.2 = j)) →
          ((forUpTo size (fun i A =>
          let A := setEntry A i n j ((A.get i).data n (j - 1) * R.data i i)
          if n > 0 then
            forUpTo size (fun k A =>
              if k = i then A
              else setEntry A i n j
                ((A.get i).data n j + (A.get k).data (n - 1) (j - 1) * R.data k i))
              A
          else A) s).get x.1).data x.2.1 x.2.2 =
            (A.get x.1).data x.2.1 (j - 1) * R.data x.1 x.1 +
              (if x.2.1 > 0 then
                ∑ k in Finset.range size,
                  (if k = x.1 then 0 else (A.get k).data (x.2.1 - 1) (j - 1) * R.data k x.1)
               else 0)) ∧
        ((¬ ∃ i, i < size ∧ (x.1 = i ∧ x.2.1 = n ∧ x.2.2 = j)) →
          ((forUpTo size (fun i A =>
          let A := setEntry A i n j ((A.get i).data n (j - 1) * R.data i i)
          if n > 0 then
            forUpTo size (fun k A =>
              if k = i then A
              else setEntry A i n j
                ((A.get i).data n j + (A.get k).data (n - 1) (j - 1) * R.data k i))
              A
          else A) s).get x.1).data x.2.1 x.2.2 = (s.get x.1).data x.2.1 x.2.2) := by
    intro n s hs
    refine forUpTo_fill_inv
      (fun (s : MatrixArray) (x : Nat × Nat × Nat) => (s.get x.1).data x.2.1 x.2.2) _
      (fun i x => x.1 = i ∧ x.2.1 = n ∧ x.2.2 = j)
      (fun x => (A.get x.1).data x.2.1 (j - 1) * R.data x.1 x.1 +
              (if x.2.1 > 0 then
                ∑ k in Finset.range size,
                  (if k = x.1 then 0 else (A.get k).data (x.2.1 - 1) (j - 1) * R.data k x.1)
               else 0))
      (fun s => ∀ k m, (s.get k).data m (j - 1) = (A.get k).data m (j - 1)) ?_ ?_ ?_ size s hs
    · intro i t ht k m
      have := cell_step R size t i n j hj k m (j - 1)
      rw [if_neg (fun h => by omega), ht k m] at this
      exact this
    · rintro i t ⟨a, b, c⟩ ht ⟨h1, h2, h3⟩
      simp only at h1 h2 h3
      subst h1 h2 h3
      have := cell_step R size t a b c hj a b c
      rw [if_pos ⟨rfl, rfl, rfl⟩] at this
      refine this.trans ?_
      simp only [ht]
    · rintro i t ⟨a, b, c⟩ _ hn
      have := cell_step R size t i n j hj a b c
      rw [if_neg hn] at this
      exact this
  have houter := forUpTo_fill_inv
      (fun (s : MatrixArray) (x : Nat × Nat × Nat) => (s.get x.1).data x.2.1 x.2.2)
      (fun n A =>
        forUpTo size (fun i A =>
          let A := setEntry A i n j ((A.get i).data n (j - 1) * R.data i i)
          if n > 0 then
            forUpTo size (fun k A =>
              if k = i then A
              else setEntry A i n j
                ((A.get i).data n j + (A.get k).data (n - 1) (j - 1) * R.data k i))
              A
          else A) A)
      (fun n x => ∃ i, i < size ∧ (x.1 = i ∧ x.2.1 = n ∧ x.2.2 = j))
      (fun x => (A.get x.1).data x.2.1 (j - 1) * R.data x.1 x.1 +
              (if x.2.1 > 0 then
                ∑ k in Finset.range size,
                  (if k = x.1 then 0 else (A.get k).data (x.2.1 - 1) (j - 1) * R.data k x.1)
               else 0))
      (fun s => ∀ k m, (s.get k).data m (j - 1) = (A.get k).data m (j - 1))
      (fun n s hs => (hinner n s hs).1)
      (fun n s x hs hw => ((hinner n s hs).2 x).1 hw)
      (fun n s x hs hw => ((hinner n s hs).2 x).2 hw)
      (j + 1) A (fun _ _ => rfl)
  have h := houter.2 (i', n', j')
  simp only at h
  by_cases hc : j' = j ∧ i' < size ∧ n' ≤ j
  · rw [if_pos hc]
    exact h.1 ⟨n', Nat.lt_succ_of_le hc.2.2, i', hc.2.1, rfl, rfl, hc.1⟩
  · rw [if_neg hc]
    refine h.2 ?_
    rintro ⟨n, hn, i, hi, h1, h2, h3⟩
    exact hc ⟨h3, h1 ▸ hi, by omega⟩

theorem jumpTable_zero_above (R : Matrix) (size : Nat) (init : Nat → ℚ) (j i n : Nat)
    (h : j < n) : jumpTable R size init j i n = 0 := by
  cases j with
  | zero => simp [jumpTable, Nat.pos_iff_ne_zero.mp h]
  | succ k =>
    rw [jumpTable, if_neg (fun hc => absurd hc.2 (by omega))]

/-- The recurrence of lines 40-51 stores `jumpTable` in every column `j < jmax`, provided
the tables hold the initial distribution in column 0 and zeros elsewhere. -/
theorem recurrence_spec (R : Matrix) (size jmax : Nat) (init : Nat → ℚ) (A1 : MatrixArray)
    (h1 : ∀ i n j, (A1.get i).data n j = if n = 0 ∧ j = 0 then init i else 0)
    (i n j : Nat) :
    ((forRange 1 jmax (fun j A =>
      forUpTo (j + 1) (fun n A =>
        forUpTo size (fun i A =>
          let A := setEntry A i n j ((A.get i).data n (j - 1) * R.data i i)
          if n > 0 then
            forUpTo size (fun k A =>
              if k = i then A
              else setEntry A i n j
                ((A.get i).data n j + (A.get k).data (n - 1) (j - 1) * R.data k i))
              A
          else A) A) A) A1).get i).data n j
      = if j < jmax ∨ j = 0 then jumpTable R size init j i n else 0 := by
  unfold forRange
  have key : ∀ d, ∀ i n j,
      ((forUpTo d (fun d A =>
      forUpTo (1 + d + 1) (fun n A =>
        forUpTo size (fun i A =>
          let A := setEntry A i n (1 + d) ((A.get i).data n (1 + d - 1) * R.data i i)
          if n > 0 then
            forUpTo size (fun k A =>
              if k = i then A
              else setEntry A i n (1 + d)
                ((A.get i).data n (1 + d) + (A.get k).data (n - 1) (1 + d - 1) * R.data k i))
              A
          else A) A) A) A1).get i).data n j
      = if j ≤ d then jumpTable R size init j i n else 0 := by
    intro d
    induction d with
    | zero =>
      intro i n j
      rw [forUpTo_zero, h1]
      by_cases hj : j = 0
      · subst hj
        simp [jumpTable]
      · simp [hj]
    | succ d ih =>
      intro i n j
      rw [forUpTo_succ, column_step R size _ (1 + d) (by omega) i n j]
      have e : 1 + d - 1 = d := by omega
      have e2 : 1 + d = d + 1 := by omega
      by_cases hj : j = 1 + d
      · subst hj
        by_cases hc : i < size ∧ n ≤ 1 + d
        · rw [if_pos (show 1 + d = 1 + d ∧ i < size ∧ n ≤ 1 + d from ⟨rfl, hc⟩),
            if_pos (show 1 + d ≤ d + 1 by omega), e]
          simp only [ih, le_refl, if_true]
          rw [e2, jumpTable, if_pos (show i < size ∧ n ≤ d + 1 from ⟨hc.1, by omega⟩)]
        · rw [if_neg (show ¬ (1 + d = 1 + d ∧ i < size ∧ n ≤ 1 + d) from fun h => hc h.2),
            if_pos (show 1 + d ≤ d + 1 by omega), ih,
            if_neg (show ¬ (1 + d ≤ d) by omega), e2, jumpTable]
          rw [e2] at hc
          rw [if_neg hc]
      · rw [if_neg (show ¬ (j = 1 + d ∧ i < size ∧ n ≤ 1 + d) from fun h => hj h.1), ih]
        by_cases hjd : j ≤ d
        · rw [if_pos hjd, if_pos (show j ≤ d + 1 by omega)]
        · rw [if_neg hjd, if_neg (show ¬ (j ≤ d + 1) by omega)]
  rw [key (jmax - 1) i n j]
  by_cases hj : j ≤ jmax - 1
  · rw [if_pos hj]
    by_cases hj0 : j = 0
    · rw [if_pos (Or.inr hj0)]
    · rw [if_pos (Or.inl (by omega))]
  · rw [if_neg hj, if_neg (fun h => by rcases h with h | h <;> omega)]

/-- The tables returned by `get_substs_and_bases_given_jumps` hold `jumpTable` in every
column `j < jmax`. -/
theorem get_substs_eq (jp : JumpProcess) (jmax : Nat) (condition_on : Int) (i n j : Nat)
    (hj : j < jmax) :
    ((get_substs_and_bases_given_jumps jp jmax condition_on).get i).data n j
      = jumpTable jp.R jp.R.nrows (initDist jp condition_on) j i n := by
  unfold get_substs_and_bases_given_jumps
  simp only
  rw [recurrence_spec jp.R jp.R.nrows jmax (initDist jp condition_on), if_pos (Or.inl hj)]
  intro i n j
  rw [init_data]
  by_cases h : n = 0 ∧ j = 0
  · rw [if_pos h, if_pos h]; rfl
  · rw [if_neg h, if_neg h]


theorem initDist_neg_one (jp : JumpProcess) :
    initDist jp (-1) = fun i => if i < jp.R.nrows then jp.mod.backgd_freqs.data i else 0 := by
  funext i
  simp [initDist]

theorem initDist_natCast (jp : JumpProcess) (a : Nat) :
    initDist jp (a : Int) = fun i => if i = a then 1 else 0 := by
  funext i
  have h1 : ¬ ((a : Int) < 0) := by omega
  simp only [initDist, if_neg h1, Int.toNat_natCast]

/-- The unconditioned tables of a built jump process. -/
theorem A_data (mod : TreeModel) (njumps_max : Nat) (i n j : Nat) (hj : j < njumps_max) :
    ((sub_define_jump_process mod njumps_max).A.get i).data n j
      = jumpTable (sub_define_jump_process mod njumps_max).R mod.rate_matrix.size
          (fun i => if i < mod.rate_matrix.size then mod.backgd_freqs.data i else 0) j i n := by
  rw [A_eq, get_substs_eq _ _ _ _ _ _ hj, initDist_neg_one]
  simp only [R_nrows_eq]

/-- The conditioned tables of a built jump process. -/
theorem B_data (mod : TreeModel) (njumps_max : Nat) (a b n j : Nat) (hj : j < njumps_max)
    (ha : a < mod.rate_matrix.size) :
    (((sub_define_jump_process mod njumps_max).B.get a).get b).data n j
      = jumpTable (sub_define_jump_process mod njumps_max).R mod.rate_matrix.size
          (fun i => if i = a then 1 else 0) j b n := by
  rw [B_get, if_pos ha, get_substs_eq _ _ _ _ _ _ hj, initDist_natCast]
  simp only [R_nrows_eq]

theorem asym_lambda (njumps_max : Nat) :
    (sub_define_jump_process asymMod njumps_max).lambda = 2 := by
  simp [sub_define_jump_process, forUpTo, asymMod, asymQ]

theorem asym_R (njumps_max : Nat) (i j : Nat) (hi : i < 2) (hj : j < 2) :
    (sub_define_jump_process asymMod njumps_max).R.data i j
      = if i = 0 then (if j = 0 then 0 else 1) else (if j = 0 then 1 / 2 else 1 / 2) := by
  have hl : lambdaLoop asymMod.rate_matrix asymMod.rate_matrix.size = 2 := asym_lambda njumps_max
  rw [R_data_eq, if_pos ⟨hi, hj⟩, hl]
  interval_cases i <;> interval_cases j <;> norm_num [jumpEntry, asymMod, asymQ]


/-! ## The tree dynamic program: closed forms of the loop nests -/

theorem forRange_acc (lo hi : Nat) (f : Nat → ℚ) (s : ℚ) :
    forRange lo hi (fun i s => s + f i) s = s + ∑ i in Finset.Ico lo hi, f i := by
  unfold forRange
  have := forUpTo_acc (fun (s : ℚ) (_ : Unit) => s) (fun d s => s + f (lo + d))
    (fun d _ => f (lo + d)) (fun _ _ _ => rfl) (hi - lo) s ()
  simp only at this
  rw [this, Finset.sum_Ico_eq_sum_range]

/-- The loops of lines 243-247 (and 249-253) compute `childSum`. -/
theorem childSum_loop (size : Nat) (Lc D : Matrix) (lo hi tot : Nat) :
    forUpTo size (fun b left =>
      forRange lo hi (fun i left => left + Lc.data b i * D.data b (tot - i)) left) 0
      = childSum size Lc D lo hi tot := by
  have := forUpTo_acc (fun (s : ℚ) (_ : Unit) => s)
    (fun b left => forRange lo hi (fun i left => left + Lc.data b i * D.data b (tot - i)) left)
    (fun b _ => ∑ i in Finset.Ico lo hi, Lc.data b i * D.data b (tot - i))
    (fun b s _ => forRange_acc lo hi (fun i => Lc.data b i * D.data b (tot - i)) s) size 0 ()
  simp only [zero_add] at this
  exact this

theorem matrixArray_ext_get (A B : MatrixArray) (h : ∀ i, A.get i = B.get i) : A = B := by
  cases A; cases B
  simp only [MatrixArray.mk.injEq]
  funext i
  exact h i

theorem setEntry_get_ne (A : MatrixArray) (i r c : Nat) (x : ℚ) (i' : Nat) (h : i' ≠ i) :
    (setEntry A i r c x).get i' = A.get i' := by
  simp only [setEntry, matrixArray_set_get, if_neg h]

/-- The loop nest of lines 232-258 leaves the tables of the other nodes alone. -/
theorem combine_children_get_ne (size : Nat) (L : MatrixArray) (maxsubst : IntArray)
    (id lid rid : Nat) (d_left d_right : MatrixArray) (x : Nat) (hx : x ≠ id) :
    (combine_children size L maxsubst id lid rid d_left d_right).get x = L.get x := by
  unfold combine_children
  refine forUpTo_inv (fun L' : MatrixArray => L'.get x = L.get x) _ _ _ rfl ?_
  intro n L1 _ h1
  refine forUpTo_inv (fun L' : MatrixArray => L'.get x = L.get x) _ _ _ h1 ?_
  intro j L2 _ h2
  refine forUpTo_inv (fun L' : MatrixArray => L'.get x = L.get x) _ _ _ h2 ?_
  intro a L3 _ h3
  simp only
  rw [setEntry_get_ne _ _ _ _ _ _ hx]
  exact h3

theorem int_sub_natCast (n j : Nat) (h : j ≤ n) : ((n : Int) - (j : Int)) = ((n - j : Nat) : Int) := by
  omega

/-- The loop nest of lines 232-258 adds `splitSum` to every entry `L[id]->data[a][n]` with
`a < size` and `n <= maxsubst[id]`, when `id` differs from the ids of both children. -/
theorem combine_children_data (size : Nat) (L : MatrixArray) (maxsubst : IntArray)
    (id lid rid : Nat) (d_left d_right : MatrixArray) (hl : lid ≠ id) (hr : rid ≠ id)
    (a n : Nat) :
    ((combine_children size L maxsubst id lid rid d_left d_right).get id).data a n
      = (L.get id).data a n +
        if n < (maxsubst.get id + 1).toNat then
          if a < size then
            splitSum size (L.get lid) (L.get rid) (maxsubst.get lid) (maxsubst.get rid)
              d_left d_right a n
          else 0
        else 0 := by
  have la : ∀ (n j : Nat) (s : MatrixArray), j ≤ n →
      (s.get lid = L.get lid ∧ s.get rid = L.get rid) →
      ((forUpTo size (fun a L =>
        let left : ℚ :=
          forUpTo size (fun b left =>
            forRange (max 0 ((j : Int) - (d_left.get 0).ncols + 1)).toNat
              (min (j : Int) (maxsubst.get lid) + 1).toNat (fun i left =>
              left + (L.get lid).data b i * (d_left.get a).data b (j - i)) left) 0
        let right : ℚ :=
          forUpTo size (fun c right =>
            forRange (max 0 ((n : Int) - j - (d_right.get 0).ncols + 1)).toNat
              (min ((n : Int) - j) (maxsubst.get rid) + 1).toNat (fun k right =>
              right + (L.get rid).data c k * (d_right.get a).data c (n - j - k)) right) 0
        setEntry L id a n ((L.get id).data a n + left * right)) s).get lid = L.get lid ∧
       (forUpTo size (fun a L =>
        let left : ℚ :=
          forUpTo size (fun b left =>
            forRange (max 0 ((j : Int) - (d_left.get 0).ncols + 1)).toNat
              (min (j : Int) (maxsubst.get lid) + 1).toNat (fun i left =>
              left + (L.get lid).data b i * (d_left.get a).data b (j - i)) left) 0
        let right : ℚ :=
          forUpTo size (fun c right =>
            forRange (max 0 ((n : Int) - j - (d_right.get 0).ncols + 1)).toNat
              (min ((n : Int) - j) (maxsubst.get rid) + 1).toNat (fun k right =>
              right + (L.get rid).data c k * (d_right.get a).data c (n - j - k)) right) 0
        setEntry L id a n ((L.get id).data a n + left * right)) s).get rid = L.get rid) ∧
      ∀ x : Nat × Nat,
        ((forUpTo size (fun a L =>
        let left : ℚ :=
          forUpTo size (fun b left =>
            forRange (max 0 ((j : Int) - (d_left.get 0).ncols + 1)).toNat
              (min (j : Int) (maxsubst.get lid) + 1).toNat (fun i left =>
              left + (L.get lid).data b i * (d_left.get a).data b (j - i)) left) 0
        let right : ℚ :=
          forUpTo size (fun c right =>
            forRange (max 0 ((n : Int) - j - (d_right.get 0).ncols + 1)).toNat
              (min ((n : Int) - j) (maxsubst.get rid) + 1).toNat (fun k right =>
              right + (L.get rid).data c k * (d_right.get a).data c (n - j - k)) right) 0
        setEntry L id a n ((L.get id).data a n + left * right)) s).get id).data x.1 x.2
        = (s.get id).data x.1 x.2 +
          if x.2 = n then if x.1 < size then
            childSum size (L.get lid) (d_left.get x.1) (winLo j (d_left.get 0).ncols)
              (winHi j (maxsubst.get lid)) j *
            childSum size (L.get rid) (d_right.get x.1) (winLo (n - j) (d_right.get 0).ncols)
              (winHi (n - j) (maxsubst.get rid)) (n - j)
          else 0 else 0 := by
    intro n j s hjn hs
    have key := forUpTo_acc_inv
      (fun (s : MatrixArray) (x : Nat × Nat) => (s.get id).data x.1 x.2)
      (fun a L =>
        let left : ℚ :=
          forUpTo size (fun b left =>
            forRange (max 0 ((j : Int) - (d_left.get 0).ncols + 1)).toNat
              (min (j : Int) (maxsubst.get lid) + 1).toNat (fun i left =>
              left + (L.get lid).data b i * (d_left.get a).data b (j - i)) left) 0
        let right : ℚ :=
          forUpTo size (fun c right =>
            forRange (max 0 ((n : Int) - j - (d_right.get 0).ncols + 1)).toNat
              (min ((n : Int) - j) (maxsubst.get rid) + 1).toNat (fun k right =>
              right + (L.get rid).data c k * (d_right.get a).data c (n - j - k)) right) 0
        setEntry L id a n ((L.get id).data a n + left * right))
      (fun a x => if x.1 = a then (if x.2 = n then
            childSum size (L.get lid) (d_left.get a) (winLo j (d_left.get 0).ncols)
              (winHi j (maxsubst.get lid)) j *
            childSum size (L.get rid) (d_right.get a) (winLo (n - j) (d_right.get 0).ncols)
              (winHi (n - j) (maxsubst.get rid)) (n - j) else 0) else 0)
      (fun s => s.get lid = L.get lid ∧ s.get rid = L.get rid)
      (by
        intro a t ht
        simp only
        rw [setEntry_get_ne _ _ _ _ _ _ hl, setEntry_get_ne _ _ _ _ _ _ hr]
        exact ht)
      (by
        rintro a t ⟨r, c⟩ ht
        simp only
        rw [setEntry_data, ht.1, ht.2, childSum_loop, childSum_loop, int_sub_natCast n j hjn]
        by_cases h1 : r = a <;> by_cases h2 : c = n <;> simp [h1, h2, winLo, winHi])
      size s hs
    refine ⟨key.1, fun x => (key.2 x).trans ?_⟩
    beta_reduce
    rw [sum_ite_eq_range]
    by_cases h1 : x.1 < size <;> by_cases h2 : x.2 = n <;> simp [h1, h2]
  have lj : ∀ (n : Nat) (s : MatrixArray),
      (s.get lid = L.get lid ∧ s.get rid = L.get rid) →
      ((forUpTo (n + 1) (fun j L =>
      let min_i : Int := max 0 ((j : Int) - (d_left.get 0).ncols + 1)
      let max_i : Int := min (j : Int) (maxsubst.get lid)
      let min_k : Int := max 0 ((n : Int) - j - (d_right.get 0).ncols + 1)
      let max_k : Int := min ((n : Int) - j) (maxsubst.get rid)
      forUpTo size (fun a L =>
        let left : ℚ :=
          forUpTo size (fun b left =>
            forRange min_i.toNat (max_i + 1).toNat (fun i left =>
              left + (L.get lid).data b i * (d_left.get a).data b (j - i)) left) 0
        let right : ℚ :=
          forUpTo size (fun c right =>
            forRange min_k.toNat (max_k + 1).toNat (fun k right =>
              right + (L.get rid).data c k * (d_right.get a).data c (n - j - k)) right) 0
        setEntry L id a n ((L.get id).data a n + left * right)) L) s).get lid = L.get lid ∧
       (forUpTo (n + 1) (fun j L =>
      let min_i : Int := max 0 ((j : Int) - (d_left.get 0).ncols + 1)
      let max_i : Int := min (j : Int) (maxsubst.get lid)
      let min_k : Int := max 0 ((n : Int) - j - (d_right.get 0).ncols + 1)
      let max_k : Int := min ((n : Int) - j) (maxsubst.get rid)
      forUpTo size (fun a L =>
        let left : ℚ :=
          forUpTo size (fun b left =>
            forRange min_i.toNat (max_i + 1).toNat (fun i left =>
              left + (L.get lid).data b i * (d_left.get a).data b (j - i)) left) 0
        let right : ℚ :=
          forUpTo size (fun c right =>
            forRange min_k.toNat (max_k + 1).toNat (fun k right =>
              right + (L.get rid).data c k * (d_right.get a).data c (n - j - k)) right) 0
        setEntry L id a n ((L.get id).data a n + left * right)) L) s).get rid = L.get rid) ∧
      ∀ x : Nat × Nat,
        ((forUpTo (n + 1) (fun j L =>
      let min_i : Int := max 0 ((j : Int) - (d_left.get 0).ncols + 1)
      let max_i : Int := min (j : Int) (maxsubst.get lid)
      let min_k : Int := max 0 ((n : Int) - j - (d_right.get 0).ncols + 1)
      let max_k : Int := min ((n : Int) - j) (maxsubst.get rid)
      forUpTo size (fun a L =>
        let left : ℚ :=
          forUpTo size (fun b left =>
            forRange min_i.toNat (max_i + 1).toNat (fun i left =>
              left + (L.get lid).data b i * (d_left.get a).data b (j - i)) left) 0
        let right : ℚ :=
          forUpTo size (fun c right =>
            forRange min_k.toNat (max_k + 1).toNat (fun k right =>
              right + (L.get rid).data c k * (d_right.get a).data c (n - j - k)) right) 0
        setEntry L id a n ((L.get id).data a n + left * right)) L) s).get id).data x.1 x.2
        = (s.get id).data x.1 x.2 +
          if x.2 = n then if x.1 < size then
            splitSum size (L.get lid) (L.get rid) (maxsubst.get lid) (maxsubst.get rid)
              d_left d_right x.1 n
          else 0 else 0 := by
    intro n s hs
    have key : ∀ m, m ≤ n + 1 →
        ((forUpTo m (fun j L =>
      let min_i : Int := max 0 ((j : Int) - (d_left.get 0).ncols + 1)
      let max_i : Int := min (j : Int) (maxsubst.get lid)
      let min_k : Int := max 0 ((n : Int) - j - (d_right.get 0).ncols + 1)
      let max_k : Int := min ((n : Int) - j) (maxsubst.get rid)
      forUpTo size (fun a L =>
        let left : ℚ :=
          forUpTo size (fun b left =>
            forRange min_i.toNat (max_i + 1).toNat (fun i left =>
              left + (L.get lid).data b i * (d_left.get a).data b (j - i)) left) 0
        let right : ℚ :=
          forUpTo size (fun c right =>
            forRange min_k.toNat (max_k + 1).toNat (fun k right =>
              right + (L.get rid).data c k * (d_right.get a).data c (n - j - k)) right) 0
        setEntry L id a n ((L.get id).data a n + left * right)) L) s).get lid = L.get lid ∧
        (forUpTo m (fun j L =>
      let min_i : Int := max 0 ((j : Int) - (d_left.get 0).ncols + 1)
      let max_i : Int := min (j : Int) (maxsubst.get lid)
      let min_k : Int := max 0 ((n : Int) - j - (d_right.get 0).ncols + 1)
      let max_k : Int := min ((n : Int) - j) (maxsubst.get rid)
      forUpTo size (fun a L =>
        let left : ℚ :=
          forUpTo size (fun b left =>
            forRange min_i.toNat (max_i + 1).toNat (fun i left =>
              left + (L.get lid).data b i * (d_left.get a).data b (j - i)) left) 0
        let right : ℚ :=
          forUpTo size (fun c right =>
            forRange min_k.toNat (max_k + 1).toNat (fun k right =>
              right + (L.get rid).data c k * (d_right.get a).data c (n - j - k)) right) 0
        setEntry L id a n ((L.get id).data a n + left * right)) L) s).get rid = L.get rid) ∧
        ∀ x : Nat × Nat,
        ((forUpTo m (fun j L =>
      let min_i : Int := max 0 ((j : Int) - (d_left.get 0).ncols + 1)
      let max_i : Int := min (j : Int) (maxsubst.get lid)
      let min_k : Int := max 0 ((n : Int) - j - (d_right.get 0).ncols + 1)
      let max_k : Int := min ((n : Int) - j) (maxsubst.get rid)
      forUpTo size (fun a L =>
        let left : ℚ :=
          forUpTo size (fun b left =>
            forRange min_i.toNat (max_i + 1).toNat (fun i left =>
              left + (L.get lid).data b i * (d_left.get a).data b (j - i)) left) 0
        let right : ℚ :=
          forUpTo size (fun c right =>
            forRange min_k.toNat (max_k + 1).toNat (fun k right =>
              right + (L.get rid).data c k * (d_right.get a).data c (n - j - k)) right) 0
        setEntry L id a n ((L.get id).data a n + left * right)) L) s).get id).data x.1 x.2
        = (s.get id).data x.1 x.2 + ∑ j in Finset.range m,
          (if x.2 = n then if x.1 < size then
            childSum size (L.get lid) (d_left.get x.1) (winLo j (d_left.get 0).ncols)
              (winHi j (maxsubst.get lid)) j *
            childSum size (L.get rid) (d_right.get x.1) (winLo (n - j) (d_right.get 0).ncols)
              (winHi (n - j) (maxsubst.get rid)) (n - j)
          else 0 else 0) := by
      intro m
      induction m with
      | zero => intro _; exact ⟨hs, fun x => by simp [forUpTo]⟩
      | succ k ih =>
        intro hk
        have ihk := ih (by omega)
        rw [forUpTo_succ]
        have step := la n k _ (by omega) ihk.1
        refine ⟨step.1, fun x => (step.2 x).trans ?_⟩
        rw [ihk.2 x, Finset.sum_range_succ, add_assoc]
    have := key (n + 1) (le_refl _)
    refine ⟨this.1, fun x => (this.2 x).trans ?_⟩
    congr 1
    simp only [sum_ite_const_zero, splitSum]
  unfold combine_children
  have top := forUpTo_acc_inv
      (fun (s : MatrixArray) (x : Nat × Nat) => (s.get id).data x.1 x.2)
      (fun n L =>
    forUpTo (n + 1) (fun j L =>
      let min_i : Int := max 0 ((j : Int) - (d_left.get 0).ncols + 1)
      let max_i : Int := min (j : Int) (maxsubst.get lid)
      let min_k : Int := max 0 ((n : Int) - j - (d_right.get 0).ncols + 1)
      let max_k : Int := min ((n : Int) - j) (maxsubst.get rid)
      forUpTo size (fun a L =>
        let left : ℚ :=
          forUpTo size (fun b left =>
            forRange min_i.toNat (max_i + 1).toNat (fun i left =>
              left + (L.get lid).data b i * (d_left.get a).data b (j - i)) left) 0
        let right : ℚ :=
          forUpTo size (fun c right =>
            forRange min_k.toNat (max_k + 1).toNat (fun k right =>
              right + (L.get rid).data c k * (d_right.get a).data c (n - j - k)) right) 0
        setEntry L id a n ((L.get id).data a n + left * right)) L) L)
      (fun n x => if x.2 = n then (if x.1 < size then
            splitSum size (L.get lid) (L.get rid) (maxsubst.get lid) (maxsubst.get rid)
              d_left d_right x.1 n
          else 0) else 0)
      (fun s => s.get lid = L.get lid ∧ s.get rid = L.get rid)
      (fun n s hs => (lj n s hs).1)
      (fun n s x hs => (lj n s hs).2 x)
      (maxsubst.get id + 1).toNat L ⟨rfl, rfl⟩
  refine (top.2 (a, n)).trans ?_
  beta_reduce
  congr 1
  exact sum_ite_eq_range _ n (fun n => if a < size then
            splitSum size (L.get lid) (L.get rid) (maxsubst.get lid) (maxsubst.get rid)
              d_left d_right a n
          else 0)


/-- The loop of lines 214-215 sets `L[id]->data[a][0] = 1` for every `a < size`. -/
theorem leaf_fill_data (size : Nat) (L : MatrixArray) (id : Nat) (x a n : Nat) :
    ((forUpTo size (fun a L => setEntry L id a 0 1) L).get x).data a n
      = if x = id ∧ a < size ∧ n = 0 then 1 else (L.get x).data a n := by
  have := forUpTo_fill (fun (L : MatrixArray) (y : Nat × Nat × Nat) => (L.get y.1).data y.2.1 y.2.2)
    (fun a L => setEntry L id a 0 1)
    (fun a y => y.1 = id ∧ y.2.1 = a ∧ y.2.2 = 0) (fun _ => 1)
    (by
      rintro j s ⟨p, q, r⟩ ⟨h1, h2, h3⟩
      simp only at h1 h2 h3
      simp [setEntry_data, h1, h2, h3])
    (by
      rintro j s ⟨p, q, r⟩ hn
      simp only at hn
      simp [setEntry_data, hn])
    size L (x, a, n)
  simp only at this
  by_cases h : x = id ∧ a < size ∧ n = 0
  · rw [if_pos h]
    exact this.1 ⟨a, h.2.1, h.1, rfl, h.2.2⟩
  · rw [if_neg h]
    refine this.2 ?_
    rintro ⟨j, hj, h1, h2, h3⟩
    exact h ⟨h1, h2 ▸ hj, h3⟩

/-- The loop nest of lines 271-274. -/
theorem root_loop_data (size N : Nat) (Lr : Matrix) (freq : Vector) (v : Vector) (r : Nat) :
    (forUpTo N (fun n retval =>
      forUpTo size (fun a retval =>
        retval.set n (retval.data n + Lr.data a n * freq.data a)) retval) v).data r
      = v.data r + if r < N then ∑ a in Finset.range size, Lr.data a r * freq.data a else 0 := by
  have l1 : ∀ (n : Nat) (v : Vector) (x : Nat),
      (forUpTo size (fun a retval =>
        retval.set n (retval.data n + Lr.data a n * freq.data a)) v).data x
        = v.data x + (if x = n then ∑ a in Finset.range size, Lr.data a n * freq.data a else 0) := by
    intro n v x
    rw [forUpTo_acc (fun (d : Vector) (x : Nat) => d.data x) _
      (fun a x => if x = n then Lr.data a n * freq.data a else 0) ?_ size v x]
    · rw [sum_ite_const_zero]
    · intro a s y
      simp only [vector_set_data]
      by_cases h1 : y = n <;> simp [h1]
  rw [forUpTo_acc (fun (d : Vector) (x : Nat) => d.data x)
      (fun n retval => forUpTo size (fun a retval =>
        retval.set n (retval.data n + Lr.data a n * freq.data a)) retval)
      (fun n x => if x = n then ∑ a in Finset.range size, Lr.data a n * freq.data a else 0)
      (fun n s y => l1 n s y) N v r]
  congr 1
  exact sum_ite_eq_range N r (fun n => ∑ a in Finset.range size, Lr.data a n * freq.data a)

theorem root_loop_size (size N : Nat) (Lr : Matrix) (freq : Vector) (v : Vector) :
    (forUpTo N (fun n retval =>
      forUpTo size (fun a retval =>
        retval.set n (retval.data n + Lr.data a n * freq.data a)) retval) v).size = v.size := by
  refine forUpTo_frame (fun d : Vector => d.size) _ ?_ N v
  intro n s
  exact forUpTo_frame (fun d : Vector => d.size)
    (fun a retval => retval.set n (retval.data n + Lr.data a n * freq.data a))
    (fun j s => rfl) size s

/-- Closed form of the root finalisation of `sub_posterior_distrib_site`: the length is
found by the trimming scan of the normalised root vector, and the entries are the
normalised root vector divided by the total of the kept entries. -/
theorem posterior_root_spec (jp : JumpProcess) (st : SiteState) :
    (posterior_root jp st).size
      = trim_scan (rootVecNorm jp st) (st.maxsubst.get jp.mod.tree.id + 1).toNat ∧
    ∀ n, (posterior_root jp st).data n
      = rootVecNorm jp st n /
        ∑ k in Finset.range (trim_scan (rootVecNorm jp st)
            (st.maxsubst.get jp.mod.tree.id + 1).toNat), rootVecNorm jp st k := by
  have hraw : ∀ r, (forUpTo (st.maxsubst.get jp.mod.tree.id + 1).toNat (fun n retval =>
      forUpTo jp.mod.rate_matrix.size (fun a retval =>
        retval.set n
          (retval.data n + (st.L.get jp.mod.tree.id).data a n * jp.mod.backgd_freqs.data a))
        retval) (vec_zero (vec_new (st.maxsubst.get jp.mod.tree.id + 1).toNat))).data r
      = rootVec jp st r := by
    intro r
    rw [root_loop_data]
    simp only [vec_zero, vec_new, zero_add, rootVec]
  have hnorm : (pv_normalize (forUpTo (st.maxsubst.get jp.mod.tree.id + 1).toNat (fun n retval =>
      forUpTo jp.mod.rate_matrix.size (fun a retval =>
        retval.set n
          (retval.data n + (st.L.get jp.mod.tree.id).data a n * jp.mod.backgd_freqs.data a))
        retval) (vec_zero (vec_new (st.maxsubst.get jp.mod.tree.id + 1).toNat)))).data
      = rootVecNorm jp st := by
    funext n
    simp only [pv_normalize]
    rw [vec_sum_eq, root_loop_size, hraw]
    simp only [vec_zero, vec_new, rootVecNorm]
    congr 1
    exact Finset.sum_congr rfl (fun k _ => hraw k)
  unfold posterior_root
  simp only
  rw [hnorm]
  refine ⟨rfl, fun n => ?_⟩
  simp only [pv_normalize]
  rw [vec_sum_eq]


/-! ## A two-leaf tree with branch lengths 1 under `asymQ` -/

theorem asym_pois (njumps_max : Nat) (t : ℚ) (ht : t ≠ 0) :
    cutPois ((sub_define_jump_process asymMod njumps_max).lambda * t)
      = ⟨2, fun j => if j = 0 then 1 / (1 + 2 * t) else 2 * t / (1 + 2 * t)⟩ := by
  rw [asym_lambda]
  have h : (2 : ℚ) * t ≠ 0 := mul_ne_zero (by norm_num) ht
  simp only [cutPois, if_neg h]

theorem asym_condMix (a b n : Nat) (ha : a < 2) (hb : b < 2) (hn : n < 2) :
    condMix (sub_define_jump_process asymMod 3)
        ⟨2, fun j => if j = 0 then 1 / (1 + 2 * 1) else 2 * 1 / (1 + 2 * 1)⟩ a b n
      = if a = 0 then (if b = 0 then (if n = 0 then 1 / 3 else 0) else (if n = 0 then 0 else 2 / 3))
        else (if b = 0 then (if n = 0 then 0 else 1 / 3) else (if n = 0 then 2 / 3 else 0)) := by
  have hs : asymMod.rate_matrix.size = 2 := rfl
  have hB : ∀ a b n j, a < 2 → j < 2 →
      (((sub_define_jump_process asymMod 3).B.get a).get b).data n j
        = jumpTable (sub_define_jump_process asymMod 3).R 2 (fun i => if i = a then 1 else 0)
            j b n := by
    intro a b n j ha hj
    exact B_data asymMod 3 a b n j (by omega) (by rw [hs]; exact ha)
  unfold condMix
  simp only [Finset.sum_range_succ, Finset.sum_range_zero, zero_add]
  rw [hB a b n 0 ha (by decide), hB a b n 1 ha (by decide)]
  interval_cases a <;> interval_cases b <;> interval_cases n <;>
    norm_num [jumpTable, Finset.sum_range_succ, asym_R]

/-- The conditional branch distribution of `asymMod` for branch length 1. -/
theorem asym_D1 :
    ∃ D, sub_distrib_branch_conditional cutPois (sub_define_jump_process asymMod 3) 1 = some D ∧
      (D.get 0).ncols = 2 ∧ (D.get 1).ncols = 2 ∧
      ∀ a b n, a < 2 → b < 2 → n < 2 → (D.get a).data b n =
        if a = 0 then (if b = 0 then (if n = 0 then 1 / 3 else 0) else (if n = 0 then 0 else 2 / 3))
        else (if b = 0 then (if n = 0 then 0 else 1 / 3) else (if n = 0 then 2 / 3 else 0)) := by
  have hp := asym_pois 3 1 one_ne_zero
  have hlt : (cutPois ((sub_define_jump_process asymMod 3).lambda * 1)).size
      < (sub_define_jump_process asymMod 3).njumps_max := by
    rw [hp]; decide
  obtain ⟨D, hD, hspec⟩ := sub_distrib_branch_conditional_eq cutPois
    (sub_define_jump_process asymMod 3) 1 hlt
  rw [hp] at hspec
  have hs : (sub_define_jump_process asymMod 3).mod.rate_matrix.size = 2 := rfl
  rw [hs] at hspec
  refine ⟨D, hD, (hspec 0 (by decide)).2.1, (hspec 1 (by decide)).2.1, ?_⟩
  intro a b n ha hb hn
  rw [(hspec a ha).2.2 b n hb hn]
  simp only [Finset.sum_range_succ, Finset.sum_range_zero, zero_add]
  rw [asym_condMix a b n ha hb hn, asym_condMix a 0 0 ha (by decide) (by decide),
    asym_condMix a 0 1 ha (by decide) (by decide), asym_condMix a 1 0 ha (by decide) (by decide),
    asym_condMix a 1 1 ha (by decide) (by decide)]
  interval_cases a <;> interval_cases b <;> interval_cases n <;> norm_num


/-! ## The traversal -/

theorem posterior_traversal_nil (pv_poisson : ℚ → Vector) (jp : JumpProcess) (msa : MSA)
    (ss : SuffStats) (idx : Nat → Nat) (tuple_idx : Nat) (st : Option SiteState) :
    posterior_traversal pv_poisson jp msa ss idx tuple_idx [] st = st := rfl

theorem posterior_traversal_cons (pv_poisson : ℚ → Vector) (jp : JumpProcess) (msa : MSA)
    (ss : SuffStats) (idx : Nat → Nat) (tuple_idx : Nat) (node : TreeNode)
    (rest : List TreeNode) (st : Option SiteState) :
    posterior_traversal pv_poisson jp msa ss idx tuple_idx (node :: rest) st
      = posterior_traversal pv_poisson jp msa ss idx tuple_idx rest
          (st.bind (fun st => posterior_node pv_poisson jp msa ss idx tuple_idx st node)) := rfl

theorem posterior_traversal_append (pv_poisson : ℚ → Vector) (jp : JumpProcess) (msa : MSA)
    (ss : SuffStats) (idx : Nat → Nat) (tuple_idx : Nat) (xs ys : List TreeNode)
    (st : Option SiteState) :
    posterior_traversal pv_poisson jp msa ss idx tuple_idx (xs ++ ys) st
      = posterior_traversal pv_poisson jp msa ss idx tuple_idx ys
          (posterior_traversal pv_poisson jp msa ss idx tuple_idx xs st) := by
  unfold posterior_traversal
  rw [List.foldl_append]

/-- The leaf rule for a missing or gap character (lines 213-215, 221). -/
theorem posterior_node_leaf_missing (pv_poisson : ℚ → Vector) (jp : JumpProcess) (msa : MSA)
    (ss : SuffStats) (idx : Nat → Nat) (tuple_idx : Nat) (st : SiteState) (id : Nat) (d : ℚ)
    (h : (msa.is_missing (ss.col_char tuple_idx (idx id))
      || ss.col_char tuple_idx (idx id) == GAP_CHAR) = true) :
    posterior_node pv_poisson jp msa ss idx tuple_idx st (.leaf id d)
      = some ⟨forUpTo jp.mod.rate_matrix.size (fun a L => setEntry L id a 0 1)
          (st.L.set id (mat_zero (mat_new jp.mod.rate_matrix.size 500))),
          st.maxsubst.set id 0⟩ := by
  simp only [posterior_node, TreeNode.id, h, if_true]

/-- The internal rule when both branch distributions are returned (lines 226-258). -/
theorem posterior_node_internal (pv_poisson : ℚ → Vector) (jp : JumpProcess) (msa : MSA)
    (ss : SuffStats) (idx : Nat → Nat) (tuple_idx : Nat) (st : SiteState) (id : Nat) (d : ℚ)
    (lchild rchild : TreeNode) (d_left d_right : MatrixArray)
    (hl : sub_distrib_branch_conditional pv_poisson jp lchild.dparent = some d_left)
    (hr : sub_distrib_branch_conditional pv_poisson jp rchild.dparent = some d_right) :
    posterior_node pv_poisson jp msa ss idx tuple_idx st (.node id d lchild rchild)
      = some ⟨combine_children jp.mod.rate_matrix.size
          (st.L.set id (mat_zero (mat_new jp.mod.rate_matrix.size 500)))
          (st.maxsubst.set id
            (max (st.maxsubst.get lchild.id + (d_left.get 0).ncols - 1)
                 (st.maxsubst.get rchild.id + (d_right.get 0).ncols - 1)))
          id lchild.id rchild.id d_left d_right,
          st.maxsubst.set id
            (max (st.maxsubst.get lchild.id + (d_left.get 0).ncols - 1)
                 (st.maxsubst.get rchild.id + (d_right.get 0).ncols - 1))⟩ := by
  simp only [posterior_node, TreeNode.id, hl, hr]

theorem sub_posterior_distrib_site_some (pv_poisson : ℚ → Vector)
    (tm_build_seq_idx : TreeModel → MSA → Nat → Nat) (jp : JumpProcess) (msa : MSA)
    (tuple_idx : Nat) (ss : SuffStats) (st : SiteState) (ho : jp.mod.order = 0)
    (hss : msa.ss = some ss)
    (ht : posterior_traversal pv_poisson jp msa ss (seq_idx tm_build_seq_idx jp msa) tuple_idx
      (tr_postorder jp.mod.tree) (some SiteState.init) = some st) :
    sub_posterior_distrib_site pv_poisson tm_build_seq_idx jp msa tuple_idx
      = some (posterior_root jp st) := by
  unfold sub_posterior_distrib_site
  rw [if_neg (fun h => h ho)]
  simp only [hss, ht, Option.map_some']

theorem intArray_set_get (a : IntArray) (i : Nat) (x : Int) (i' : Nat) :
    (a.set i x).get i' = if i' = i then x else a.get i' := rfl

/-- The root finalisation when the root vector has two entries and the second survives
the trimming. -/
theorem posterior_root_two (jp : JumpProcess) (st : SiteState) (w0 w1 : ℚ)
    (hN : (st.maxsubst.get jp.mod.tree.id + 1).toNat = 2)
    (h0 : rootVec jp st 0 = w0) (h1 : rootVec jp st 1 = w1) (hs : w0 + w1 ≠ 0)
    (hthr : trimThreshold ≤ w1 / (w0 + w1)) :
    (posterior_root jp st).size = 2 ∧ (posterior_root jp st).data 0 = w0 / (w0 + w1) ∧
    (posterior_root jp st).data 1 = w1 / (w0 + w1) := by
  have hsum : ∑ k in Finset.range 2, rootVec jp st k = w0 + w1 := by
    rw [Finset.sum_range_succ, Finset.sum_range_succ, Finset.sum_range_zero, zero_add, h0, h1]
  have hn0 : rootVecNorm jp st 0 = w0 / (w0 + w1) := by
    unfold rootVecNorm; rw [hN, hsum, h0]
  have hn1 : rootVecNorm jp st 1 = w1 / (w0 + w1) := by
    unfold rootVecNorm; rw [hN, hsum, h1]
  have htrim : trim_scan (rootVecNorm jp st) 2 = 2 := by
    have : ¬ (rootVecNorm jp st 1 < trimThreshold) := by
      rw [hn1]; exact not_lt.mpr hthr
    simp only [trim_scan, this, if_false]
  have hspec := posterior_root_spec jp st
  rw [hN, htrim] at hspec
  have htot : ∑ k in Finset.range 2, rootVecNorm jp st k = 1 := by
    rw [Finset.sum_range_succ, Finset.sum_range_succ, Finset.sum_range_zero, zero_add, hn0, hn1,
      ← add_div]
    exact div_self hs
  refine ⟨hspec.1, ?_, ?_⟩
  · rw [hspec.2 0, htot, hn0, div_one]
  · rw [hspec.2 1, htot, hn1, div_one]

/-- The root table of a two-leaf tree (leaf ids 0, 1; root id 2) with all-missing leaves
over `asymMod`. -/
theorem asym_root_table (D : MatrixArray) (hc0 : (D.get 0).ncols = 2)
    (hdata : ∀ a b n, a < 2 → b < 2 → n < 2 → (D.get a).data b n =
        if a = 0 then (if b = 0 then (if n = 0 then 1 / 3 else 0) else (if n = 0 then 0 else 2 / 3))
        else (if b = 0 then (if n = 0 then 0 else 1 / 3) else (if n = 0 then 2 / 3 else 0)))
    (a n : Nat) (ha : a < 2) (hn : n < 2) :
    ((combine_children 2 (cherryLeaves.L.set 2 (mat_zero (mat_new 2 500)))
        (cherryLeaves.maxsubst.set 2
          (max (cherryLeaves.maxsubst.get 0 + (D.get 0).ncols - 1)
            (cherryLeaves.maxsubst.get 1 + (D.get 0).ncols - 1)))
        2 0 1 D D).get 2).data a n
      = if a = 0 then (if n = 0 then 1 / 9 else 4 / 9) else 4 / 9 := by
  rw [combine_children_data _ _ _ _ _ _ _ _ (by decide) (by decide)]
  simp only [cherryLeaves, intArray_set_get, hc0, matrixArray_set_get]
  have e1 : ∀ k, k < 2 → winLo k 2 = 0 := by
    intro k hk; interval_cases k <;> rfl
  have e2 : ∀ k, k < 2 → winHi k 0 = 1 := by
    intro k hk; interval_cases k <;> rfl
  interval_cases a <;> interval_cases n <;>
    norm_num [splitSum, childSum, Finset.sum_range_succ, hc0, e1, e2, leaf_fill_data,
      matrixArray_set_get, mat_zero, mat_new, hdata]

/-- The posterior of `asymMod` for the all-missing column: `(3/7, 4/7)`. -/
theorem asym_posterior :
    ∃ v, sub_posterior_distrib_site cutPois (fun _ _ => id)
        (sub_define_jump_process asymMod 3) missingMSA 0 = some v ∧
      v.size = 2 ∧ v.data 0 = 3 / 7 ∧ v.data 1 = 4 / 7 := by
  obtain ⟨D, hD, hc0, _, hdata⟩ := asym_D1
  have hsize : (sub_define_jump_process asymMod 3).mod.rate_matrix.size = 2 := rfl
  have hss : missingMSA.ss = some ⟨1, fun _ => 1, fun _ _ => 42⟩ := rfl
  have htree : (sub_define_jump_process asymMod 3).mod.tree
      = .node 2 0 (.leaf 0 1) (.leaf 1 1) := rfl
  have hmiss : ∀ i, (missingMSA.is_missing
      ((⟨1, fun _ => 1, fun _ _ => 42⟩ : SuffStats).col_char 0 i)
      || (⟨1, fun _ => 1, fun _ _ => 42⟩ : SuffStats).col_char 0 i == GAP_CHAR) = true := by
    intro i; rfl
  have ht := posterior_node_internal cutPois (sub_define_jump_process asymMod 3) missingMSA
    ⟨1, fun _ => 1, fun _ _ => 42⟩ (seq_idx (fun _ _ => id) (sub_define_jump_process asymMod 3)
      missingMSA) 0 cherryLeaves 2 0 (.leaf 0 1) (.leaf 1 1) D D hD hD
  have hrun := sub_posterior_distrib_site_some cutPois (fun _ _ => id)
    (sub_define_jump_process asymMod 3) missingMSA 0 ⟨1, fun _ => 1, fun _ _ => 42⟩ _ rfl hss
    (by
      rw [htree]
      simp only [tr_postorder, List.cons_append, List.nil_append, posterior_traversal_cons,
        posterior_traversal_nil, Option.bind_some,
        posterior_node_leaf_missing _ _ _ _ _ _ _ _ _ (hmiss _), hsize]
      exact ht)
  refine ⟨_, hrun, ?_⟩
  have hN : ((cherryLeaves.maxsubst.set 2
        (max (cherryLeaves.maxsubst.get 0 + (D.get 0).ncols - 1)
          (cherryLeaves.maxsubst.get 1 + (D.get 0).ncols - 1))).get 2 + 1).toNat = 2 := by
    rw [intArray_set_get, if_pos rfl, hc0]
    rfl
  have hvec : ∀ n, rootVec (sub_define_jump_process asymMod 3)
      ⟨combine_children 2 (cherryLeaves.L.set 2 (mat_zero (mat_new 2 500)))
        (cherryLeaves.maxsubst.set 2
          (max (cherryLeaves.maxsubst.get 0 + (D.get 0).ncols - 1)
            (cherryLeaves.maxsubst.get 1 + (D.get 0).ncols - 1)))
        2 0 1 D D,
       cherryLeaves.maxsubst.set 2
          (max (cherryLeaves.maxsubst.get 0 + (D.get 0).ncols - 1)
            (cherryLeaves.maxsubst.get 1 + (D.get 0).ncols - 1))⟩ n
      = if n = 0 then 1 / 3 else if n = 1 then 4 / 9 else 0 := by
    intro n
    unfold rootVec
    simp only [htree, TreeNode.id, hsize, hN]
    by_cases hn : n < 2
    · rw [if_pos hn]
      simp only [Finset.sum_range_succ, Finset.sum_range_zero, zero_add]
      rw [asym_root_table D hc0 hdata 0 n (by decide) hn,
        asym_root_table D hc0 hdata 1 n (by decide) hn]
      interval_cases n <;> norm_num [sub_define_jump_process, asymMod]
    · rw [if_neg hn, if_neg (by omega), if_neg (by omega)]
  have h2 := posterior_root_two (sub_define_jump_process asymMod 3) _ (1 / 3) (4 / 9) hN
    (hvec 0) (hvec 1) (by norm_num) (by norm_num [trimThreshold])
  exact ⟨h2.1, h2.2.1.trans (by norm_num), h2.2.2.trans (by norm_num)⟩


theorem asym_branchMix (n : Nat) (hn : n < 2) :
    branchMix (sub_define_jump_process asymMod 3)
        ⟨2, fun j => if j = 0 then 1 / (1 + 2 * 2) else 2 * 2 / (1 + 2 * 2)⟩ n
      = if n = 0 then 7 / 15 else 8 / 15 := by
  have hs : asymMod.rate_matrix.size = 2 := rfl
  have hA : ∀ i n j, j < 2 →
      ((sub_define_jump_process asymMod 3).A.get i).data n j
        = jumpTable (sub_define_jump_process asymMod 3).R 2
            (fun i => if i < 2 then asymMod.backgd_freqs.data i else 0) j i n := by
    intro i n j hj
    exact A_data asymMod 3 i n j (by omega)
  have hf : ∀ i, asymMod.backgd_freqs.data i = if i = 0 then 1 / 3 else 2 / 3 := fun _ => rfl
  unfold branchMix
  rw [R_nrows_eq, hs]
  simp only [Finset.sum_range_succ, Finset.sum_range_zero, zero_add]
  rw [hA 0 n 0 (by decide), hA 1 n 0 (by decide), hA 0 n 1 (by decide), hA 1 n 1 (by decide)]
  interval_cases n <;> norm_num [jumpTable, Finset.sum_range_succ, asym_R, hf]

/-- The prior of `asymMod` (total branch length 2): `(7/15, 8/15)`. -/
theorem asym_prior :
    ∃ w, sub_prior_distrib_site cutPois (sub_define_jump_process asymMod 3) = some w ∧
      w.size = 2 ∧ w.data 0 = 7 / 15 ∧ w.data 1 = 8 / 15 := by
  have hlen : tr_total_len (sub_define_jump_process asymMod 3).mod.tree = 2 := by
    have : (sub_define_jump_process asymMod 3).mod.tree = .node 2 0 (.leaf 0 1) (.leaf 1 1) := rfl
    rw [this]
    norm_num [tr_total_len, subtreeLen]
  have hp := asym_pois 3 2 (by norm_num)
  have hlt : (cutPois ((sub_define_jump_process asymMod 3).lambda * 2)).size
      < (sub_define_jump_process asymMod 3).njumps_max := by
    rw [hp]; decide
  obtain ⟨w, hw, hsz, hdata⟩ := sub_distrib_branch_eq cutPois
    (sub_define_jump_process asymMod 3) 2 hlt
  rw [hp] at hsz hdata
  have hsz2 : w.size = 2 := hsz
  refine ⟨w, by unfold sub_prior_distrib_site; rw [hlen]; exact hw, hsz2, ?_, ?_⟩
  · rw [hdata 0 (by omega)]
    simp only [Finset.sum_range_succ, Finset.sum_range_zero, zero_add]
    rw [asym_branchMix 0 (by decide), asym_branchMix 1 (by decide)]
    norm_num
  · rw [hdata 1 (by omega)]
    simp only [Finset.sum_range_succ, Finset.sum_range_zero, zero_add]
    rw [asym_branchMix 0 (by decide), asym_branchMix 1 (by decide)]
    norm_num

/-- On the two-leaf tree with both branch lengths 1 under the rate matrix
`((-2, 2), (1, -1))` at stationarity, with every leaf character missing, the posterior
is `(3/7, 4/7)` while the prior is `(7/15, 8/15)`. Two things act here: the root table is
cut at `maxsubst[root] = max(1, 1) = 1` although two substitutions have mass, and the
two-entry Poisson vector of the prior is that of the total length. -/
theorem asym_posterior_differs_from_prior :
    (∀ seq, missingMSA.is_missing
      ((⟨1, fun _ => 1, fun _ _ => 42⟩ : SuffStats).col_char 0 seq) = true) ∧
    ∃ v w,
      sub_posterior_distrib_site cutPois (fun _ _ => id)
        (sub_define_jump_process asymMod 3) missingMSA 0 = some v ∧
      sub_prior_distrib_site cutPois (sub_define_jump_process asymMod 3) = some w ∧
      v.size = w.size ∧ v.data 0 ≠ w.data 0 := by
  obtain ⟨v, hv, hvs, hv0, _⟩ := asym_posterior
  obtain ⟨w, hw, hws, hw0, _⟩ := asym_prior
  refine ⟨fun _ => rfl, v, w, hv, hw, by rw [hvs, hws], ?_⟩
  rw [hv0, hw0]
  norm_num


/-! ## Step specifications of the traversal -/

/-- The leaf rule for a missing or gap character, as a specification of the new state. -/
theorem posterior_leaf_missing_spec (pv_poisson : ℚ → Vector) (jp : JumpProcess) (msa : MSA)
    (ss : SuffStats) (idx : Nat → Nat) (tuple_idx : Nat) (st : SiteState) (id : Nat) (d : ℚ)
    (h : (msa.is_missing (ss.col_char tuple_idx (idx id))
      || ss.col_char tuple_idx (idx id) == GAP_CHAR) = true) :
    ∃ st', posterior_node pv_poisson jp msa ss idx tuple_idx st (.leaf id d) = some st' ∧
      st'.maxsubst.get id = 0 ∧
      (∀ x, x ≠ id → st'.maxsubst.get x = st.maxsubst.get x) ∧
      (∀ x, x ≠ id → st'.L.get x = st.L.get x) ∧
      ∀ a n, (st'.L.get id).data a n
        = if a < jp.mod.rate_matrix.size ∧ n = 0 then 1 else 0 := by
  refine ⟨_, posterior_node_leaf_missing pv_poisson jp msa ss idx tuple_idx st id d h, ?_, ?_,
    ?_, ?_⟩
  · simp only [intArray_set_get, if_true]
  · intro x hx
    simp only [intArray_set_get, if_neg hx]
  · intro x hx
    refine (forUpTo_inv (fun L' : MatrixArray => L'.get x
      = (st.L.set id (mat_zero (mat_new jp.mod.rate_matrix.size 500))).get x) _ _ _ rfl ?_).trans ?_
    · intro a L1 _ h1
      rw [setEntry_get_ne _ _ _ _ _ _ hx]
      exact h1
    · rw [matrixArray_set_get, if_neg hx]
  · intro a n
    simp only
    rw [leaf_fill_data, matrixArray_set_get, if_pos rfl]
    by_cases hc : a < jp.mod.rate_matrix.size ∧ n = 0
    · rw [if_pos ⟨rfl, hc⟩, if_pos hc]
    · rw [if_neg (fun hh => hc hh.2), if_neg hc]
      rfl

/-- The internal rule, as a specification of the new state, for a node whose id differs
from the ids of its children. -/
theorem posterior_internal_spec (pv_poisson : ℚ → Vector) (jp : JumpProcess) (msa : MSA)
    (ss : SuffStats) (idx : Nat → Nat) (tuple_idx : Nat) (st : SiteState) (id : Nat) (d : ℚ)
    (lchild rchild : TreeNode) (d_left d_right : MatrixArray)
    (hl : sub_distrib_branch_conditional pv_poisson jp lchild.dparent = some d_left)
    (hr : sub_distrib_branch_conditional pv_poisson jp rchild.dparent = some d_right)
    (hidl : lchild.id ≠ id) (hidr : rchild.id ≠ id) :
    ∃ st', posterior_node pv_poisson jp msa ss idx tuple_idx st (.node id d lchild rchild)
        = some st' ∧
      st'.maxsubst.get id
        = max (st.maxsubst.get lchild.id + (d_left.get 0).ncols - 1)
              (st.maxsubst.get rchild.id + (d_right.get 0).ncols - 1) ∧
      (∀ x, x ≠ id → st'.maxsubst.get x = st.maxsubst.get x) ∧
      (∀ x, x ≠ id → st'.L.get x = st.L.get x) ∧
      ∀ a n, (st'.L.get id).data a n
        = if n < (max (st.maxsubst.get lchild.id + (d_left.get 0).ncols - 1)
              (st.maxsubst.get rchild.id + (d_right.get 0).ncols - 1) + 1).toNat then
            if a < jp.mod.rate_matrix.size then
              splitSum jp.mod.rate_matrix.size (st.L.get lchild.id) (st.L.get rchild.id)
                (st.maxsubst.get lchild.id) (st.maxsubst.get rchild.id) d_left d_right a n
            else 0
          else 0 := by
  refine ⟨_, posterior_node_internal pv_poisson jp msa ss idx tuple_idx st id d lchild rchild
    d_left d_right hl hr, ?_, ?_, ?_, ?_⟩
  · simp only [intArray_set_get, if_true]
  · intro x hx
    simp only [intArray_set_get, if_neg hx]
  · intro x hx
    simp only
    rw [combine_children_get_ne _ _ _ _ _ _ _ _ _ hx, matrixArray_set_get, if_neg hx]
  · intro a n
    simp only
    rw [combine_children_data _ _ _ _ _ _ _ _ hidl hidr]
    simp only [matrixArray_set_get, if_true, if_neg hidl, if_neg hidr, intArray_set_get]
    simp only [mat_zero, mat_new, zero_add]


/-! ## The joint table -/

/-- The loop over the root labels of lines 446-455 adds `jointCell` to the entry
`(n1, n2)`. -/
theorem joint_cell_loop (jp : JumpProcess) (Ll Lr : Matrix) (d_left : MatrixArray)
    (n1 n2 : Nat) (M : Matrix) :
    (∀ r c, (forUpTo jp.mod.rate_matrix.size (fun a retval =>
        let min_i : Int := max 0 ((n1 : Int) - (d_left.get a).ncols + 1)
        let left : ℚ :=
          forUpTo jp.mod.rate_matrix.size (fun b left =>
            forRange min_i.toNat (n1 + 1) (fun i left =>
              left + Ll.data b i * (d_left.get a).data b (n1 - i)) left) 0
        retval.set n1 n2
          (retval.data n1 n2 + left * jp.mod.backgd_freqs.data a * Lr.data a n2)) M).data r c
      = M.data r c + if r = n1 ∧ c = n2 then jointCell jp Ll Lr d_left n1 n2 else 0) ∧
    (forUpTo jp.mod.rate_matrix.size (fun a retval =>
        let min_i : Int := max 0 ((n1 : Int) - (d_left.get a).ncols + 1)
        let left : ℚ :=
          forUpTo jp.mod.rate_matrix.size (fun b left =>
            forRange min_i.toNat (n1 + 1) (fun i left =>
              left + Ll.data b i * (d_left.get a).data b (n1 - i)) left) 0
        retval.set n1 n2
          (retval.data n1 n2 + left * jp.mod.backgd_freqs.data a * Lr.data a n2)) M).nrows
      = M.nrows ∧
    (forUpTo jp.mod.rate_matrix.size (fun a retval =>
        let min_i : Int := max 0 ((n1 : Int) - (d_left.get a).ncols + 1)
        let left : ℚ :=
          forUpTo jp.mod.rate_matrix.size (fun b left =>
            forRange min_i.toNat (n1 + 1) (fun i left =>
              left + Ll.data b i * (d_left.get a).data b (n1 - i)) left) 0
        retval.set n1 n2
          (retval.data n1 n2 + left * jp.mod.backgd_freqs.data a * Lr.data a n2)) M).ncols
      = M.ncols := by
  refine ⟨fun r c => ?_, ?_, ?_⟩
  · refine (forUpTo_acc (fun (M : Matrix) (x : Nat × Nat) => M.data x.1 x.2) _
      (fun a x => if x.1 = n1 ∧ x.2 = n2 then
        childSum jp.mod.rate_matrix.size Ll (d_left.get a) (winLo n1 (d_left.get a).ncols)
          (n1 + 1) n1 * jp.mod.backgd_freqs.data a * Lr.data a n2 else 0) ?_
      jp.mod.rate_matrix.size M (r, c)).trans ?_
    · rintro a s ⟨p, q⟩
      simp only
      rw [matrix_set_data, childSum_loop]
      by_cases h : p = n1 ∧ q = n2
      · rw [if_pos h, if_pos h, h.1, h.2]
        rfl
      · rw [if_neg h, if_neg h, add_zero]
    · simp only [sum_ite_const_zero, jointCell]
  · refine forUpTo_frame (fun M : Matrix => M.nrows) _ ?_ _ M
    intro a s
    rfl
  · refine forUpTo_frame (fun M : Matrix => M.ncols) _ ?_ _ M
    intro a s
    rfl

/-- Closed form of the loop nest of lines 444-458 from the zero table: the table holds
`jointCell` and `sum` is the total of the table. -/
theorem joint_acc_spec (jp : JumpProcess) (Ll Lr : Matrix) (d_left : MatrixArray)
    (N1 N2 : Nat) :
    (∀ r c, (forUpTo N1 (fun n1 acc =>
        forUpTo N2 (fun n2 (acc : Matrix × ℚ) =>
          let retval :=
            forUpTo jp.mod.rate_matrix.size (fun a retval =>
              let min_i : Int := max 0 ((n1 : Int) - (d_left.get a).ncols + 1)
              let left : ℚ :=
                forUpTo jp.mod.rate_matrix.size (fun b left =>
                  forRange min_i.toNat (n1 + 1) (fun i left =>
                    left + Ll.data b i * (d_left.get a).data b (n1 - i)) left) 0
              retval.set n1 n2
                (retval.data n1 n2 + left * jp.mod.backgd_freqs.data a * Lr.data a n2))
              acc.1
          (retval, acc.2 + retval.data n1 n2)) acc) (mat_zero (mat_new N1 N2), 0)).1.data r c
      = if r < N1 ∧ c < N2 then jointCell jp Ll Lr d_left r c else 0) ∧
    (forUpTo N1 (fun n1 acc =>
        forUpTo N2 (fun n2 (acc : Matrix × ℚ) =>
          let retval :=
            forUpTo jp.mod.rate_matrix.size (fun a retval =>
              let min_i : Int := max 0 ((n1 : Int) - (d_left.get a).ncols + 1)
              let left : ℚ :=
                forUpTo jp.mod.rate_matrix.size (fun b left =>
                  forRange min_i.toNat (n1 + 1) (fun i left =>
                    left + Ll.data b i * (d_left.get a).data b (n1 - i)) left) 0
              retval.set n1 n2
                (retval.data n1 n2 + left * jp.mod.backgd_freqs.data a * Lr.data a n2))
              acc.1
          (retval, acc.2 + retval.data n1 n2)) acc) (mat_zero (mat_new N1 N2), 0)).2
      = ∑ r in Finset.range N1, ∑ c in Finset.range N2, jointCell jp Ll Lr d_left r c := by
  -- the inner loop over `n2`, run for `k` iterations from a state whose row `n1` is zero
  have inner : ∀ (n1 k : Nat) (acc : Matrix × ℚ), (∀ c, acc.1.data n1 c = 0) →
      (∀ r c, (forUpTo k (fun n2 (acc : Matrix × ℚ) =>
          let retval :=
            forUpTo jp.mod.rate_matrix.size (fun a retval =>
              let min_i : Int := max 0 ((n1 : Int) - (d_left.get a).ncols + 1)
              let left : ℚ :=
                forUpTo jp.mod.rate_matrix.size (fun b left =>
                  forRange min_i.toNat (n1 + 1) (fun i left =>
                    left + Ll.data b i * (d_left.get a).data b (n1 - i)) left) 0
              retval.set n1 n2
                (retval.data n1 n2 + left * jp.mod.backgd_freqs.data a * Lr.data a n2))
              acc.1
          (retval, acc.2 + retval.data n1 n2)) acc).1.data r c
        = if r = n1 ∧ c < k then jointCell jp Ll Lr d_left n1 c else acc.1.data r c) ∧
      (forUpTo k (fun n2 (acc : Matrix × ℚ) =>
          let retval :=
            forUpTo jp.mod.rate_matrix.size (fun a retval =>
              let min_i : Int := max 0 ((n1 : Int) - (d_left.get a).ncols + 1)
              let left : ℚ :=
                forUpTo jp.mod.rate_matrix.size (fun b left =>
                  forRange min_i.toNat (n1 + 1) (fun i left =>
                    left + Ll.data b i * (d_left.get a).data b (n1 - i)) left) 0
              retval.set n1 n2
                (retval.data n1 n2 + left * jp.mod.backgd_freqs.data a * Lr.data a n2))
              acc.1
          (retval, acc.2 + retval.data n1 n2)) acc).2
        = acc.2 + ∑ c in Finset.range k, jointCell jp Ll Lr d_left n1 c := by
    intro n1 k acc hz
    induction k with
    | zero =>
      refine ⟨fun r c => ?_, ?_⟩
      · rw [forUpTo_zero, if_neg (fun h => Nat.not_lt_zero c h.2)]
      · simp [forUpTo]
    | succ k ih =>
      rw [forUpTo_succ]
      have hc := (joint_cell_loop jp Ll Lr d_left n1 k
        (forUpTo k (fun n2 (acc : Matrix × ℚ) =>
          let retval :=
            forUpTo jp.mod.rate_matrix.size (fun a retval =>
              let min_i : Int := max 0 ((n1 : Int) - (d_left.get a).ncols + 1)
              let left : ℚ :=
                forUpTo jp.mod.rate_matrix.size (fun b left =>
                  forRange min_i.toNat (n1 + 1) (fun i left =>
                    left + Ll.data b i * (d_left.get a).data b (n1 - i)) left) 0
              retval.set n1 n2
                (retval.data n1 n2 + left * jp.mod.backgd_freqs.data a * Lr.data a n2))
              acc.1
          (retval, acc.2 + retval.data n1 n2)) acc).1).1
      refine ⟨fun r c => (hc r c).trans ?_, ?_⟩
      · rw [ih.1 r c]
        by_cases h1 : r = n1 ∧ c = k
        · rw [if_pos h1, if_neg (fun h => by omega), h1.1, hz c,
            if_pos (show n1 = n1 ∧ c < k + 1 from ⟨rfl, by omega⟩), zero_add, h1.2]
        · rw [if_neg h1, add_zero]
          by_cases h2 : r = n1 ∧ c < k
          · rw [if_pos h2, if_pos (show r = n1 ∧ c < k + 1 from ⟨h2.1, by omega⟩)]
          · rw [if_neg h2, if_neg (show ¬ (r = n1 ∧ c < k + 1) from fun h =>
              (Nat.lt_succ_iff_lt_or_eq.mp h.2).elim (fun h3 => h2 ⟨h.1, h3⟩)
                (fun h3 => h1 ⟨h.1, h3⟩))]
      · refine (congrArg (fun x => _ + x) (hc n1 k)).trans ?_
        rw [ih.2, ih.1 n1 k, if_neg (fun h => by omega), hz k, zero_add, if_pos ⟨rfl, rfl⟩,
          Finset.sum_range_succ, add_assoc]
  -- the outer loop over `n1`
  have outer : ∀ k,
      (∀ r c, (forUpTo k (fun n1 acc =>
        forUpTo N2 (fun n2 (acc : Matrix × ℚ) =>
          let retval :=
            forUpTo jp.mod.rate_matrix.size (fun a retval =>
              let min_i : Int := max 0 ((n1 : Int) - (d_left.get a).ncols + 1)
              let left : ℚ :=
                forUpTo jp.mod.rate_matrix.size (fun b left =>
                  forRange min_i.toNat (n1 + 1) (fun i left =>
                    left + Ll.data b i * (d_left.get a).data b (n1 - i)) left) 0
              retval.set n1 n2
                (retval.data n1 n2 + left * jp.mod.backgd_freqs.data a * Lr.data a n2))
              acc.1
          (retval, acc.2 + retval.data n1 n2)) acc) (mat_zero (mat_new N1 N2), 0)).1.data r c
        = if r < k ∧ c < N2 then jointCell jp Ll Lr d_left r c else 0) ∧
      (forUpTo k (fun n1 acc =>
        forUpTo N2 (fun n2 (acc : Matrix × ℚ) =>
          let retval :=
            forUpTo jp.mod.rate_matrix.size (fun a retval =>
              let min_i : Int := max 0 ((n1 : Int) - (d_left.get a).ncols + 1)
              let left : ℚ :=
                forUpTo jp.mod.rate_matrix.size (fun b left =>
                  forRange min_i.toNat (n1 + 1) (fun i left =>
                    left + Ll.data b i * (d_left.get a).data b (n1 - i)) left) 0
              retval.set n1 n2
                (retval.data n1 n2 + left * jp.mod.backgd_freqs.data a * Lr.data a n2))
              acc.1
          (retval, acc.2 + retval.data n1 n2)) acc) (mat_zero (mat_new N1 N2), 0)).2
        = ∑ r in Finset.range k, ∑ c in Finset.range N2, jointCell jp Ll Lr d_left r c := by
    intro k
    induction k with
    | zero =>
      refine ⟨fun r c => ?_, ?_⟩
      · rw [forUpTo_zero, if_neg (fun h => Nat.not_lt_zero r h.1)]
        rfl
      · simp [forUpTo]
    | succ k ih =>
      rw [forUpTo_succ]
      have hz : ∀ c, (forUpTo k (fun n1 acc =>
        forUpTo N2 (fun n2 (acc : Matrix × ℚ) =>
          let retval :=
            forUpTo jp.mod.rate_matrix.size (fun a retval =>
              let min_i : Int := max 0 ((n1 : Int) - (d_left.get a).ncols + 1)
              let left : ℚ :=
                forUpTo jp.mod.rate_matrix.size (fun b left =>
                  forRange min_i.toNat (n1 + 1) (fun i left =>
                    left + Ll.data b i * (d_left.get a).data b (n1 - i)) left) 0
              retval.set n1 n2
                (retval.data n1 n2 + left * jp.mod.backgd_freqs.data a * Lr.data a n2))
              acc.1
          (retval, acc.2 + retval.data n1 n2)) acc) (mat_zero (mat_new N1 N2), 0)).1.data k c
          = 0 := by
        intro c
        rw [ih.1 k c, if_neg (fun h => by omega)]
      have hin := inner k N2 _ hz
      refine ⟨fun r c => (hin.1 r c).trans ?_, hin.2.trans ?_⟩
      · rw [ih.1 r c]
        by_cases h1 : r = k ∧ c < N2
        · rw [if_pos h1, if_pos (show r < k + 1 ∧ c < N2 from ⟨by omega, h1.2⟩), h1.1]
        · rw [if_neg h1]
          by_cases h2 : r < k ∧ c < N2
          · rw [if_pos h2, if_pos (show r < k + 1 ∧ c < N2 from ⟨by omega, h2.2⟩)]
          · rw [if_neg h2, if_neg (show ¬ (r < k + 1 ∧ c < N2) from fun h =>
              (Nat.lt_succ_iff_lt_or_eq.mp h.1).elim (fun h3 => h2 ⟨h3, h.2⟩)
                (fun h3 => h1 ⟨h3, h.2⟩))]
      · rw [ih.2, Finset.sum_range_succ]
  exact outer N1


theorem joint_acc_dims (jp : JumpProcess) (Ll Lr : Matrix) (d_left : MatrixArray)
    (N1 N2 : Nat) :
    (forUpTo N1 (fun n1 acc =>
        forUpTo N2 (fun n2 (acc : Matrix × ℚ) =>
          let retval :=
            forUpTo jp.mod.rate_matrix.size (fun a retval =>
              let min_i : Int := max 0 ((n1 : Int) - (d_left.get a).ncols + 1)
              let left : ℚ :=
                forUpTo jp.mod.rate_matrix.size (fun b left =>
                  forRange min_i.toNat (n1 + 1) (fun i left =>
                    left + Ll.data b i * (d_left.get a).data b (n1 - i)) left) 0
              retval.set n1 n2
                (retval.data n1 n2 + left * jp.mod.backgd_freqs.data a * Lr.data a n2))
              acc.1
          (retval, acc.2 + retval.data n1 n2)) acc) (mat_zero (mat_new N1 N2), 0)).1.nrows = N1 ∧
    (forUpTo N1 (fun n1 acc =>
        forUpTo N2 (fun n2 (acc : Matrix × ℚ) =>
          let retval :=
            forUpTo jp.mod.rate_matrix.size (fun a retval =>
              let min_i : Int := max 0 ((n1 : Int) - (d_left.get a).ncols + 1)
              let left : ℚ :=
                forUpTo jp.mod.rate_matrix.size (fun b left =>
                  forRange min_i.toNat (n1 + 1) (fun i left =>
                    left + Ll.data b i * (d_left.get a).data b (n1 - i)) left) 0
              retval.set n1 n2
                (retval.data n1 n2 + left * jp.mod.backgd_freqs.data a * Lr.data a n2))
              acc.1
          (retval, acc.2 + retval.data n1 n2)) acc) (mat_zero (mat_new N1 N2), 0)).1.ncols
      = N2 := by
  refine forUpTo_inv (fun acc : Matrix × ℚ => acc.1.nrows = N1 ∧ acc.1.ncols = N2) _ _ _
    ⟨rfl, rfl⟩ ?_
  intro n1 acc _ h1
  refine forUpTo_inv (fun acc : Matrix × ℚ => acc.1.nrows = N1 ∧ acc.1.ncols = N2) _ _ _ h1 ?_
  intro n2 acc2 _ h2
  have hc := joint_cell_loop jp Ll Lr d_left n1 n2 acc2.1
  exact ⟨hc.2.1.trans h2.1, hc.2.2.trans h2.2⟩

/-- Closed form of the root finalisation of `sub_joint_distrib_site`. -/
theorem joint_root_spec (pv_poisson : ℚ → Vector) (jp : JumpProcess) (st : JointState)
    (lchild rchild : TreeNode) (d_left : MatrixArray)
    (hD : sub_distrib_branch_conditional pv_poisson jp lchild.dparent = some d_left) :
    joint_root pv_poisson jp st lchild rchild
      = some (pm_normalize (mat_resize
          (jointScaled jp (st.L.get lchild.id) (st.L.get rchild.id) d_left
            st.n1_max.toNat st.n2_max.toNat)
          (trim_rows (jointScaled jp (st.L.get lchild.id) (st.L.get rchild.id) d_left
            st.n1_max.toNat st.n2_max.toNat) st.n1_max.toNat st.n2_max.toNat)
          (trim_cols (jointScaled jp (st.L.get lchild.id) (st.L.get rchild.id) d_left
            st.n1_max.toNat st.n2_max.toNat)
            (trim_rows (jointScaled jp (st.L.get lchild.id) (st.L.get rchild.id) d_left
              st.n1_max.toNat st.n2_max.toNat) st.n1_max.toNat st.n2_max.toNat)
            st.n2_max.toNat))) := by
  have hspec := joint_acc_spec jp (st.L.get lchild.id) (st.L.get rchild.id) d_left
    st.n1_max.toNat st.n2_max.toNat
  have hdims := joint_acc_dims jp (st.L.get lchild.id) (st.L.get rchild.id) d_left
    st.n1_max.toNat st.n2_max.toNat
  have hscaled : mat_scale (forUpTo st.n1_max.toNat (fun n1 acc =>
        forUpTo st.n2_max.toNat (fun n2 (acc : Matrix × ℚ) =>
          let retval :=
            forUpTo jp.mod.rate_matrix.size (fun a retval =>
              let min_i : Int := max 0 ((n1 : Int) - (d_left.get a).ncols + 1)
              let left : ℚ :=
                forUpTo jp.mod.rate_matrix.size (fun b left =>
                  forRange min_i.toNat (n1 + 1) (fun i left =>
                    left + (st.L.get lchild.id).data b i * (d_left.get a).data b (n1 - i))
                    left) 0
              retval.set n1 n2
                (retval.data n1 n2 +
                  left * jp.mod.backgd_freqs.data a * (st.L.get rchild.id).data a n2))
              acc.1
          (retval, acc.2 + retval.data n1 n2)) acc)
          (mat_zero (mat_new st.n1_max.toNat st.n2_max.toNat), 0)).1
        (1 / (forUpTo st.n1_max.toNat (fun n1 acc =>
        forUpTo st.n2_max.toNat (fun n2 (acc : Matrix × ℚ) =>
          let retval :=
            forUpTo jp.mod.rate_matrix.size (fun a retval =>
              let min_i : Int := max 0 ((n1 : Int) - (d_left.get a).ncols + 1)
              let left : ℚ :=
                forUpTo jp.mod.rate_matrix.size (fun b left =>
                  forRange min_i.toNat (n1 + 1) (fun i left =>
                    left + (st.L.get lchild.id).data b i * (d_left.get a).data b (n1 - i))
                    left) 0
              retval.set n1 n2
                (retval.data n1 n2 +
                  left * jp.mod.backgd_freqs.data a * (st.L.get rchild.id).data a n2))
              acc.1
          (retval, acc.2 + retval.data n1 n2)) acc)
          (mat_zero (mat_new st.n1_max.toNat st.n2_max.toNat), 0)).2)
      = jointScaled jp (st.L.get lchild.id) (st.L.get rchild.id) d_left
          st.n1_max.toNat st.n2_max.toNat := by
    simp only [mat_scale, jointScaled]
    rw [hdims.1, hdims.2, hspec.2]
    congr 1
    funext r c
    rw [hspec.1 r c]
  unfold joint_root
  simp only [hD]
  rw [hscaled]


/-! ## The two traversals build the same tables -/

theorem joint_node_sim (pv_poisson : ℚ → Vector) (jp : JumpProcess) (msa : MSA)
    (ss : SuffStats) (idx : Nat → Nat) (tuple_idx : Nat) (hss : msa.ss = some ss)
    (jst : JointState) (node : TreeNode) :
    (joint_node pv_poisson jp (some msa) idx tuple_idx jst node).map JointState.site
      = posterior_node pv_poisson jp msa ss idx tuple_idx jst.site node := by
  cases node with
  | leaf id d =>
    simp only [joint_node, posterior_node, hss, JointState.site, TreeNode.id]
    by_cases h1 : (msa.is_missing (ss.col_char tuple_idx (idx id))
        || ss.col_char tuple_idx (idx id) == GAP_CHAR) = true
    · simp only [h1, if_true, Option.map_some', JointState.site]
    · simp only [h1, if_false]
      by_cases h2 : msa.inv_alphabet (ss.col_char tuple_idx (idx id)) ≥ 0
      · simp only [h2, if_true, Bool.false_eq_true, if_false, Option.map_some',
          JointState.site]
      · simp only [h2, if_false, Bool.false_eq_true, Option.map_none']
  | node id d l r =>
    simp only [joint_node, posterior_node, JointState.site, TreeNode.id]
    cases sub_distrib_branch_conditional pv_poisson jp l.dparent with
    | none => rfl
    | some dl =>
      cases sub_distrib_branch_conditional pv_poisson jp r.dparent with
      | none => rfl
      | some dr => rfl

theorem joint_traversal_sim (pv_poisson : ℚ → Vector) (jp : JumpProcess) (msa : MSA)
    (ss : SuffStats) (idx : Nat → Nat) (tuple_idx : Nat) (hss : msa.ss = some ss)
    (nodes : List TreeNode) (s : Option JointState) :
    (joint_traversal pv_poisson jp (some msa) idx tuple_idx nodes s).map JointState.site
      = posterior_traversal pv_poisson jp msa ss idx tuple_idx nodes (s.map JointState.site) := by
  induction nodes generalizing s with
  | nil => rfl
  | cons node rest ih =>
    have hstep : (s.bind (fun st => joint_node pv_poisson jp (some msa) idx tuple_idx st node)).map
        JointState.site
        = (s.map JointState.site).bind
            (fun st => posterior_node pv_poisson jp msa ss idx tuple_idx st node) := by
      cases s with
      | none => rfl
      | some jst => exact joint_node_sim pv_poisson jp msa ss idx tuple_idx hss jst node
    have := ih (s.bind (fun st => joint_node pv_poisson jp (some msa) idx tuple_idx st node))
    rw [hstep] at this
    exact this

theorem joint_traversal_append (pv_poisson : ℚ → Vector) (jp : JumpProcess) (msa : Option MSA)
    (idx : Nat → Nat) (tuple_idx : Nat) (xs ys : List TreeNode) (st : Option JointState) :
    joint_traversal pv_poisson jp msa idx tuple_idx (xs ++ ys) st
      = joint_traversal pv_poisson jp msa idx tuple_idx ys
          (joint_traversal pv_poisson jp msa idx tuple_idx xs st) := by
  unfold joint_traversal
  rw [List.foldl_append]

theorem joint_seq_idx_some (tm_build_seq_idx : TreeModel → MSA → Nat → Nat) (jp : JumpProcess)
    (msa : MSA) : joint_seq_idx tm_build_seq_idx jp (some msa) = seq_idx tm_build_seq_idx jp msa := by
  unfold joint_seq_idx seq_idx
  cases jp.mod.msa_seq_idx <;> rfl

/-- The internal rule of the joint traversal at the root: the tables of the posterior
traversal, with `n1_max` and `n2_max` saved (lines 399-403). -/
theorem joint_node_root (pv_poisson : ℚ → Vector) (jp : JumpProcess) (msa : Option MSA)
    (idx : Nat → Nat) (tuple_idx : Nat) (jst : JointState) (id : Nat) (d : ℚ)
    (lchild rchild : TreeNode) (d_left d_right : MatrixArray)
    (hroot : jp.mod.tree = .node id d lchild rchild)
    (hl : sub_distrib_branch_conditional pv_poisson jp lchild.dparent = some d_left)
    (hr : sub_distrib_branch_conditional pv_poisson jp rchild.dparent = some d_right) :
    joint_node pv_poisson jp msa idx tuple_idx jst (.node id d lchild rchild)
      = some ⟨combine_children jp.mod.rate_matrix.size
          (jst.L.set id (mat_zero (mat_new jp.mod.rate_matrix.size 500)))
          (jst.maxsubst.set id
            (max (jst.maxsubst.get lchild.id + (d_left.get 0).ncols - 1)
                 (jst.maxsubst.get rchild.id + (d_right.get 0).ncols - 1)))
          id lchild.id rchild.id d_left d_right,
          jst.maxsubst.set id
            (max (jst.maxsubst.get lchild.id + (d_left.get 0).ncols - 1)
                 (jst.maxsubst.get rchild.id + (d_right.get 0).ncols - 1)),
          (jst.maxsubst.set id
            (max (jst.maxsubst.get lchild.id + (d_left.get 0).ncols - 1)
                 (jst.maxsubst.get rchild.id + (d_right.get 0).ncols - 1))).get lchild.id
            + (d_left.get 0).ncols,
          (jst.maxsubst.set id
            (max (jst.maxsubst.get lchild.id + (d_left.get 0).ncols - 1)
                 (jst.maxsubst.get rchild.id + (d_right.get 0).ncols - 1))).get rchild.id
            + (d_right.get 0).ncols⟩ := by
  simp only [joint_node, TreeNode.id, hl, hr, hroot, if_true]

/-- Both site functions on a tree with an internal root, from the tables of the posterior
traversal of the two subtrees. -/
theorem site_functions_at_root (pv_poisson : ℚ → Vector)
    (tm_build_seq_idx : TreeModel → MSA → Nat → Nat) (jp : JumpProcess) (msa : MSA)
    (ss : SuffStats) (tuple_idx : Nat) (id : Nat) (d : ℚ) (lchild rchild : TreeNode)
    (d_left d_right : MatrixArray) (st2 : SiteState)
    (ho : jp.mod.order = 0) (hss : msa.ss = some ss)
    (hroot : jp.mod.tree = .node id d lchild rchild)
    (hpre : posterior_traversal pv_poisson jp msa ss (seq_idx tm_build_seq_idx jp msa) tuple_idx
      (tr_postorder lchild ++ tr_postorder rchild) (some SiteState.init) = some st2)
    (hl : sub_distrib_branch_conditional pv_poisson jp lchild.dparent = some d_left)
    (hr : sub_distrib_branch_conditional pv_poisson jp rchild.dparent = some d_right) :
    sub_posterior_distrib_site pv_poisson tm_build_seq_idx jp msa tuple_idx
      = some (posterior_root jp
          ⟨combine_children jp.mod.rate_matrix.size
            (st2.L.set id (mat_zero (mat_new jp.mod.rate_matrix.size 500)))
            (st2.maxsubst.set id
              (max (st2.maxsubst.get lchild.id + (d_left.get 0).ncols - 1)
                   (st2.maxsubst.get rchild.id + (d_right.get 0).ncols - 1)))
            id lchild.id rchild.id d_left d_right,
           st2.maxsubst.set id
              (max (st2.maxsubst.get lchild.id + (d_left.get 0).ncols - 1)
                   (st2.maxsubst.get rchild.id + (d_right.get 0).ncols - 1))⟩) ∧
    sub_joint_distrib_site pv_poisson tm_build_seq_idx jp (some msa) tuple_idx
      = joint_root pv_poisson jp
          ⟨combine_children jp.mod.rate_matrix.size
            (st2.L.set id (mat_zero (mat_new jp.mod.rate_matrix.size 500)))
            (st2.maxsubst.set id
              (max (st2.maxsubst.get lchild.id + (d_left.get 0).ncols - 1)
                   (st2.maxsubst.get rchild.id + (d_right.get 0).ncols - 1)))
            id lchild.id rchild.id d_left d_right,
           st2.maxsubst.set id
              (max (st2.maxsubst.get lchild.id + (d_left.get 0).ncols - 1)
                   (st2.maxsubst.get rchild.id + (d_right.get 0).ncols - 1)),
           (st2.maxsubst.set id
              (max (st2.maxsubst.get lchild.id + (d_left.get 0).ncols - 1)
                   (st2.maxsubst.get rchild.id + (d_right.get 0).ncols - 1))).get lchild.id
              + (d_left.get 0).ncols,
           (st2.maxsubst.set id
              (max (st2.maxsubst.get lchild.id + (d_left.get 0).ncols - 1)
                   (st2.maxsubst.get rchild.id + (d_right.get 0).ncols - 1))).get rchild.id
              + (d_right.get 0).ncols⟩ lchild rchild := by
  constructor
  · refine sub_posterior_distrib_site_some pv_poisson tm_build_seq_idx jp msa tuple_idx ss _ ho
      hss ?_
    rw [hroot]
    simp only [tr_postorder]
    rw [posterior_traversal_append, hpre, posterior_traversal_cons, posterior_traversal_nil,
      Option.some_bind]
    exact posterior_node_internal pv_poisson jp msa ss _ tuple_idx st2 id d lchild rchild
      d_left d_right hl hr
  · have hsim := joint_traversal_sim pv_poisson jp msa ss (seq_idx tm_build_seq_idx jp msa)
      tuple_idx hss (tr_postorder lchild ++ tr_postorder rchild) (some JointState.init)
    have hinit : (some JointState.init).map JointState.site = some SiteState.init := rfl
    rw [hinit, hpre] at hsim
    obtain ⟨jst2, hj2, hsite⟩ := Option.map_eq_some'.mp hsim
    have hL : jst2.L = st2.L := congrArg SiteState.L hsite
    have hM : jst2.maxsubst = st2.maxsubst := congrArg SiteState.maxsubst hsite
    unfold sub_joint_distrib_site
    rw [if_neg (fun h => h ho)]
    simp only [joint_seq_idx_some]
    have htrav : joint_traversal pv_poisson jp (some msa) (seq_idx tm_build_seq_idx jp msa)
        tuple_idx (tr_postorder jp.mod.tree) (some JointState.init)
        = some ⟨combine_children jp.mod.rate_matrix.size
            (st2.L.set id (mat_zero (mat_new jp.mod.rate_matrix.size 500)))
            (st2.maxsubst.set id
              (max (st2.maxsubst.get lchild.id + (d_left.get 0).ncols - 1)
                   (st2.maxsubst.get rchild.id + (d_right.get 0).ncols - 1)))
            id lchild.id rchild.id d_left d_right,
           st2.maxsubst.set id
              (max (st2.maxsubst.get lchild.id + (d_left.get 0).ncols - 1)
                   (st2.maxsubst.get rchild.id + (d_right.get 0).ncols - 1)),
           (st2.maxsubst.set id
              (max (st2.maxsubst.get lchild.id + (d_left.get 0).ncols - 1)
                   (st2.maxsubst.get rchild.id + (d_right.get 0).ncols - 1))).get lchild.id
              + (d_left.get 0).ncols,
           (st2.maxsubst.set id
              (max (st2.maxsubst.get lchild.id + (d_left.get 0).ncols - 1)
                   (st2.maxsubst.get rchild.id + (d_right.get 0).ncols - 1))).get rchild.id
              + (d_right.get 0).ncols⟩ := by
      rw [hroot]
      simp only [tr_postorder]
      rw [joint_traversal_append, hj2]
      have := joint_node_root pv_poisson jp (some msa) (seq_idx tm_build_seq_idx jp msa)
        tuple_idx jst2 id d lchild rchild d_left d_right hroot hl hr
      rw [hL, hM] at this
      exact this
    rw [htrav, hroot]



/-! ## A three-leaf tree under `symQ2` -/

theorem symTree_lambda (tree : TreeNode) (njumps_max : Nat) :
    (sub_define_jump_process (symTreeMod tree) njumps_max).lambda = 1 := by
  simp [sub_define_jump_process, forUpTo, symTreeMod, symQ2]

theorem symTree_R (tree : TreeNode) (njumps_max : Nat) (i j : Nat) (hi : i < 2) (hj : j < 2) :
    (sub_define_jump_process (symTreeMod tree) njumps_max).R.data i j
      = if i = j then 0 else 1 := by
  have hl : lambdaLoop (symTreeMod tree).rate_matrix (symTreeMod tree).rate_matrix.size = 1 :=
    symTree_lambda tree njumps_max
  rw [R_data_eq, if_pos ⟨hi, hj⟩, hl]
  interval_cases i <;> interval_cases j <;> norm_num [jumpEntry, symTreeMod, symQ2]

theorem symTree_condMix (tree : TreeNode) (a b n : Nat) (ha : a < 2) (hb : b < 2) (hn : n < 2) :
    condMix (sub_define_jump_process (symTreeMod tree) 3)
        ⟨2, fun j => if j = 0 then 1 / (1 + 1) else 1 / (1 + 1)⟩ a b n
      = if n = 0 then (if a = b then 1 / 2 else 0) else (if a = b then 0 else 1 / 2) := by
  have hs : (symTreeMod tree).rate_matrix.size = 2 := rfl
  have hB : ∀ a b n j, a < 2 → j < 2 →
      (((sub_define_jump_process (symTreeMod tree) 3).B.get a).get b).data n j
        = jumpTable (sub_define_jump_process (symTreeMod tree) 3).R 2
            (fun i => if i = a then 1 else 0) j b n := by
    intro a b n j ha hj
    exact B_data (symTreeMod tree) 3 a b n j (by omega) (by rw [hs]; exact ha)
  unfold condMix
  simp only [Finset.sum_range_succ, Finset.sum_range_zero, zero_add]
  rw [hB a b n 0 ha (by decide), hB a b n 1 ha (by decide)]
  interval_cases a <;> interval_cases b <;> interval_cases n <;>
    norm_num [jumpTable, Finset.sum_range_succ, symTree_R]

/-- The conditional branch distribution of `symTreeMod tree` for branch length 1. -/
theorem symTree_D1 (tree : TreeNode) :
    ∃ D, sub_distrib_branch_conditional cutPois (sub_define_jump_process (symTreeMod tree) 3) 1
        = some D ∧
      (D.get 0).ncols = 2 ∧ (D.get 1).ncols = 2 ∧
      ∀ a b n, a < 2 → b < 2 → n < 2 → (D.get a).data b n =
        if n = 0 then (if a = b then 1 / 2 else 0) else (if a = b then 0 else 1 / 2) := by
  have hp : cutPois ((sub_define_jump_process (symTreeMod tree) 3).lambda * 1)
      = ⟨2, fun j => if j = 0 then 1 / (1 + 1) else 1 / (1 + 1)⟩ := by
    rw [symTree_lambda]
    simp [cutPois]
  have hlt : (cutPois ((sub_define_jump_process (symTreeMod tree) 3).lambda * 1)).size
      < (sub_define_jump_process (symTreeMod tree) 3).njumps_max := by
    rw [hp]; exact (by decide : (2 : Nat) < 3)
  obtain ⟨D, hD, hspec⟩ := sub_distrib_branch_conditional_eq cutPois
    (sub_define_jump_process (symTreeMod tree) 3) 1 hlt
  rw [hp] at hspec
  have hs : (sub_define_jump_process (symTreeMod tree) 3).mod.rate_matrix.size = 2 := rfl
  rw [hs] at hspec
  refine ⟨D, hD, (hspec 0 (by decide)).2.1, (hspec 1 (by decide)).2.1, ?_⟩
  intro a b n ha hb hn
  rw [(hspec a ha).2.2 b n hb hn]
  simp only [Finset.sum_range_succ, Finset.sum_range_zero, zero_add]
  rw [symTree_condMix tree a b n ha hb hn, symTree_condMix tree a 0 0 ha (by decide) (by decide),
    symTree_condMix tree a 0 1 ha (by decide) (by decide), symTree_condMix tree a 1 0 ha (by decide) (by decide),
    symTree_condMix tree a 1 1 ha (by decide) (by decide)]
  interval_cases a <;> interval_cases b <;> interval_cases n <;> norm_num

/-- The conditional branch distribution of `symTreeMod tree` for branch length 0. -/
theorem symTree_D0 (tree : TreeNode) :
    ∃ D, sub_distrib_branch_conditional cutPois (sub_define_jump_process (symTreeMod tree) 3) 0
        = some D ∧
      (D.get 0).ncols = 1 ∧ (D.get 1).ncols = 1 ∧
      ∀ a b, a < 2 → b < 2 → (D.get a).data b 0 = if b = a then 1 else 0 := by
  have hp : cutPois ((sub_define_jump_process (symTreeMod tree) 3).lambda * 0)
      = ⟨1, fun _ => 1⟩ := by
    simp [cutPois]
  obtain ⟨D, hD, hspec⟩ := cond_zero_length_spec cutPois (symTreeMod tree) 3
    (by rw [hp]; decide)
    (by rw [hp]; norm_num) (fun j hj hlt => by rw [hp] at hlt; exact absurd hlt (by
      have : (⟨1, fun _ => 1⟩ : Vector).size = 1 := rfl
      omega))
    (by rw [hp]; decide)
  have hs : (symTreeMod tree).rate_matrix.size = 2 := rfl
  rw [hs, hp] at hspec
  exact ⟨D, hD, (hspec 0 0 (by decide) (by decide)).1, (hspec 1 0 (by decide) (by decide)).1,
    fun a b ha hb => (hspec a b ha hb).2.1⟩


/-- The conditional branch distribution of `triMod` for branch length 1. -/
theorem tri_D1 :
    ∃ D, sub_distrib_branch_conditional cutPois (sub_define_jump_process triMod 3) 1 = some D ∧
      (D.get 0).ncols = 2 ∧ (D.get 1).ncols = 2 ∧
      ∀ a b n, a < 2 → b < 2 → n < 2 → (D.get a).data b n =
        if n = 0 then (if a = b then 1 / 2 else 0) else (if a = b then 0 else 1 / 2) :=
  symTree_D1 _

/-- The conditional branch distribution of `triMod` for branch length 0. -/
theorem tri_D0 :
    ∃ D, sub_distrib_branch_conditional cutPois (sub_define_jump_process triMod 3) 0 = some D ∧
      (D.get 0).ncols = 1 ∧ (D.get 1).ncols = 1 ∧
      ∀ a b, a < 2 → b < 2 → (D.get a).data b 0 = if b = a then 1 else 0 :=
  symTree_D0 _

theorem missing_all (i : Nat) : (missingMSA.is_missing
      ((⟨1, fun _ => 1, fun _ _ => 42⟩ : SuffStats).col_char 0 i)
      || (⟨1, fun _ => 1, fun _ _ => 42⟩ : SuffStats).col_char 0 i == GAP_CHAR) = true := rfl

theorem win_values :
    winLo 0 2 = 0 ∧ winLo 1 2 = 0 ∧ winLo 0 1 = 0 ∧ winLo 1 1 = 1 ∧
    winHi 0 0 = 1 ∧ winHi 1 0 = 1 ∧ winHi 0 1 = 1 ∧ winHi 1 1 = 2 := by
  refine ⟨rfl, rfl, rfl, rfl, rfl, rfl, rfl, rfl⟩

/-- The tables of `triMod` after the two subtrees of the root, every leaf missing. -/
theorem tri_subtrees (D1 D0 : MatrixArray)
    (hD1 : sub_distrib_branch_conditional cutPois (sub_define_jump_process triMod 3) 1 = some D1)
    (hD0 : sub_distrib_branch_conditional cutPois (sub_define_jump_process triMod 3) 0 = some D0)
    (hc1 : (D1.get 0).ncols = 2) (hc0 : (D0.get 0).ncols = 1)
    (hd1 : ∀ a b n, a < 2 → b < 2 → n < 2 → (D1.get a).data b n =
        if n = 0 then (if a = b then 1 / 2 else 0) else (if a = b then 0 else 1 / 2))
    (hd0 : ∀ a b, a < 2 → b < 2 → (D0.get a).data b 0 = if b = a then 1 else 0) :
    ∃ st2, posterior_traversal cutPois (sub_define_jump_process triMod 3) missingMSA
        ⟨1, fun _ => 1, fun _ _ => 42⟩
        (seq_idx (fun _ _ => id) (sub_define_jump_process triMod 3) missingMSA) 0
        (tr_postorder (.leaf 0 1) ++ tr_postorder (.node 3 0 (.leaf 1 1) (.leaf 2 0)))
        (some SiteState.init) = some st2 ∧
      st2.maxsubst.get 0 = 0 ∧ st2.maxsubst.get 3 = 1 ∧
      (∀ a n, (st2.L.get 0).data a n = if a < 2 ∧ n = 0 then 1 else 0) ∧
      (∀ a n, (st2.L.get 3).data a n = if n < 2 then (if a < 2 then 1 / 2 else 0) else 0) := by
  have hsize : (sub_define_jump_process triMod 3).mod.rate_matrix.size = 2 := rfl
  obtain ⟨s1, h1, m1, fm1, fl1, d1⟩ := posterior_leaf_missing_spec cutPois
    (sub_define_jump_process triMod 3) missingMSA ⟨1, fun _ => 1, fun _ _ => 42⟩
    (seq_idx (fun _ _ => id) (sub_define_jump_process triMod 3) missingMSA) 0 SiteState.init 0 1
    (missing_all _)
  obtain ⟨s2, h2, m2, fm2, fl2, d2⟩ := posterior_leaf_missing_spec cutPois
    (sub_define_jump_process triMod 3) missingMSA ⟨1, fun _ => 1, fun _ _ => 42⟩
    (seq_idx (fun _ _ => id) (sub_define_jump_process triMod 3) missingMSA) 0 s1 1 1
    (missing_all _)
  obtain ⟨s3, h3, m3, fm3, fl3, d3⟩ := posterior_leaf_missing_spec cutPois
    (sub_define_jump_process triMod 3) missingMSA ⟨1, fun _ => 1, fun _ _ => 42⟩
    (seq_idx (fun _ _ => id) (sub_define_jump_process triMod 3) missingMSA) 0 s2 2 0
    (missing_all _)
  obtain ⟨s4, h4, m4, fm4, fl4, d4⟩ := posterior_internal_spec cutPois
    (sub_define_jump_process triMod 3) missingMSA ⟨1, fun _ => 1, fun _ _ => 42⟩
    (seq_idx (fun _ _ => id) (sub_define_jump_process triMod 3) missingMSA) 0 s3 3 0
    (.leaf 1 1) (.leaf 2 0) D1 D0 hD1 hD0 (by decide) (by decide)
  simp only [TreeNode.id, hsize, hc1, hc0] at m4 d4
  have e31 : s3.maxsubst.get 1 = 0 := by rw [fm3 1 (by decide), m2]
  have e32 : s3.maxsubst.get 2 = 0 := m3
  have eL1 : ∀ a n, (s3.L.get 1).data a n = if a < 2 ∧ n = 0 then 1 else 0 := by
    intro a n; rw [fl3 1 (by decide), d2]; rfl
  have eL2 : ∀ a n, (s3.L.get 2).data a n = if a < 2 ∧ n = 0 then 1 else 0 := by
    intro a n; rw [d3]; rfl
  rw [e31, e32] at m4 d4
  refine ⟨s4, ?_, ?_, ?_, ?_, ?_⟩
  · simp only [tr_postorder, List.cons_append, List.nil_append, posterior_traversal_cons,
      posterior_traversal_nil, Option.some_bind, h1, h2, h3, h4]
  · rw [fm4 0 (by decide), fm3 0 (by decide), fm2 0 (by decide), m1]
  · rw [m4]; rfl
  · intro a n
    rw [fl4 0 (by decide), fl3 0 (by decide), fl2 0 (by decide), d1]
    rfl
  · intro a n
    rw [d4]
    have hN : ((max ((0 : Int) + ((2 : Nat) : Int) - 1) (0 + ((1 : Nat) : Int) - 1)) + 1).toNat = 2 := rfl
    rw [hN]
    by_cases hn : n < 2
    · rw [if_pos hn, if_pos hn]
      by_cases ha : a < 2
      · rw [if_pos ha, if_pos ha]
        obtain ⟨w1, w2, w3, w4, w5, w6, w7, w8⟩ := win_values
        interval_cases a <;> interval_cases n <;>
          norm_num [splitSum, childSum, Finset.sum_range_succ, hc1, hc0, w1, w2, w3, w4, w5,
            w6, w7, w8, eL1, eL2, hd1, hd0]
      · rw [if_neg ha, if_neg ha]
    · rw [if_neg hn, if_neg hn]


/-- The root table of `triMod` from the tables of its two subtrees. -/
theorem tri_root_table (st2 : SiteState) (D1 D0 : MatrixArray)
    (hc1 : (D1.get 0).ncols = 2) (hc0 : (D0.get 0).ncols = 1)
    (hd1 : ∀ a b n, a < 2 → b < 2 → n < 2 → (D1.get a).data b n =
        if n = 0 then (if a = b then 1 / 2 else 0) else (if a = b then 0 else 1 / 2))
    (hd0 : ∀ a b, a < 2 → b < 2 → (D0.get a).data b 0 = if b = a then 1 else 0)
    (hm0 : st2.maxsubst.get 0 = 0) (hm3 : st2.maxsubst.get 3 = 1)
    (hL0 : ∀ a n, (st2.L.get 0).data a n = if a < 2 ∧ n = 0 then 1 else 0)
    (hL3 : ∀ a n, (st2.L.get 3).data a n = if n < 2 then (if a < 2 then 1 / 2 else 0) else 0)
    (a n : Nat) (ha : a < 2) (hn : n < 2) :
    ((combine_children 2 (st2.L.set 4 (mat_zero (mat_new 2 500)))
        (st2.maxsubst.set 4
          (max (st2.maxsubst.get 0 + (D1.get 0).ncols - 1)
            (st2.maxsubst.get 3 + (D0.get 0).ncols - 1)))
        4 0 3 D1 D0).get 4).data a n
      = if n = 0 then 1 / 4 else 1 / 2 := by
  rw [combine_children_data _ _ _ _ _ _ _ _ (by decide) (by decide)]
  have hN : ((1 : Int) + 1).toNat = 2 := rfl
  have hmax : max ((0 : Int) + ((2 : Nat) : Int) - 1) (1 + ((1 : Nat) : Int) - 1) = 1 := rfl
  have e4 : ((4 : Nat) = 4) = True := eq_self 4
  have e0 : ((0 : Nat) = 4) = False := by decide
  have e3 : ((3 : Nat) = 4) = False := by decide
  simp only [intArray_set_get, matrixArray_set_get, e4, e0, e3, if_true, if_false, hm0, hm3,
    hc1, hc0, hmax, hN, hn, ha]
  obtain ⟨w1, w2, w3, w4, w5, w6, w7, w8⟩ := win_values
  interval_cases a <;> interval_cases n <;>
    norm_num [splitSum, childSum, Finset.sum_range_succ, hc1, hc0, w1, w2, w3, w4, w5,
      w6, w7, w8, hL0, hL3, hd1, hd0, mat_zero, mat_new]


/-- Entries and dimensions of a resized and renormalised matrix. -/
theorem pm_normalize_resize (J : Matrix) (nr nc : Nat) :
    (pm_normalize (mat_resize J nr nc)).nrows = nr ∧
    (pm_normalize (mat_resize J nr nc)).ncols = nc ∧
    ∀ r c, (pm_normalize (mat_resize J nr nc)).data r c
      = J.data r c * (1 / ∑ x in Finset.range nr, ∑ y in Finset.range nc, J.data x y) := by
  refine ⟨rfl, rfl, fun r c => ?_⟩
  have h := mat_sum_eq (mat_resize J nr nc)
  simp only [pm_normalize, mat_scale, h]
  rfl

/-- The posterior and the joint table of `triMod` for the all-missing column. -/
theorem tri_site_functions :
    ∃ v M,
      sub_posterior_distrib_site cutPois (fun _ _ => id) (sub_define_jump_process triMod 3)
        missingMSA 0 = some v ∧
      sub_joint_distrib_site cutPois (fun _ _ => id) (sub_define_jump_process triMod 3)
        (some missingMSA) 0 = some M ∧
      v.size = 2 ∧ v.data 0 = 1 / 3 ∧ v.data 1 = 2 / 3 ∧ M.nrows = 2 ∧ M.ncols = 2 ∧
      ∀ r c, r < 2 → c < 2 → M.data r c = 1 / 4 := by
  obtain ⟨D1, hD1, hc1, hc1b, hd1⟩ := tri_D1
  obtain ⟨D0, hD0, hc0, _, hd0⟩ := tri_D0
  obtain ⟨st2, hpre, hm0, hm3, hL0, hL3⟩ := tri_subtrees D1 D0 hD1 hD0 hc1 hc0 hd1 hd0
  have hsize : (sub_define_jump_process triMod 3).mod.rate_matrix.size = 2 := rfl
  have hroot : (sub_define_jump_process triMod 3).mod.tree
      = .node 4 0 (.leaf 0 1) (.node 3 0 (.leaf 1 1) (.leaf 2 0)) := rfl
  have hfreq : ∀ a, (sub_define_jump_process triMod 3).mod.backgd_freqs.data a = 1 / 2 :=
    fun _ => rfl
  obtain ⟨hpost, hjoint⟩ := site_functions_at_root cutPois (fun _ _ => id)
    (sub_define_jump_process triMod 3) missingMSA ⟨1, fun _ => 1, fun _ _ => 42⟩ 0 4 0
    (.leaf 0 1) (.node 3 0 (.leaf 1 1) (.leaf 2 0)) D1 D0 st2 rfl rfl hroot hpre hD1 hD0
  rw [joint_root_spec cutPois _ _ _ _ D1 hD1] at hjoint
  simp only [TreeNode.id, hsize] at hpost hjoint
  have hT := tri_root_table st2 D1 D0 hc1 hc0 hd1 hd0 hm0 hm3 hL0 hL3
  have hG0 := combine_children_get_ne 2 (st2.L.set 4 (mat_zero (mat_new 2 500)))
    (st2.maxsubst.set 4
      (max (st2.maxsubst.get 0 + (D1.get 0).ncols - 1)
        (st2.maxsubst.get 3 + (D0.get 0).ncols - 1))) 4 0 3 D1 D0 0 (by decide)
  have hG3 := combine_children_get_ne 2 (st2.L.set 4 (mat_zero (mat_new 2 500)))
    (st2.maxsubst.set 4
      (max (st2.maxsubst.get 0 + (D1.get 0).ncols - 1)
        (st2.maxsubst.get 3 + (D0.get 0).ncols - 1))) 4 0 3 D1 D0 3 (by decide)
  rw [matrixArray_set_get, if_neg (by decide)] at hG0 hG3
  have hms : ∀ x, (st2.maxsubst.set 4
          (max (st2.maxsubst.get 0 + (D1.get 0).ncols - 1)
            (st2.maxsubst.get 3 + (D0.get 0).ncols - 1))).get x
      = if x = 4 then 1 else st2.maxsubst.get x := by
    intro x; rw [intArray_set_get, hm0, hm3, hc1, hc0]; rfl
  have hms4 := (hms 4).trans (if_pos rfl)
  have hms0 := (hms 0).trans ((if_neg (by decide)).trans hm0)
  have hms3 := (hms 3).trans ((if_neg (by decide)).trans hm3)
  clear hms
  generalize combine_children 2 (st2.L.set 4 (mat_zero (mat_new 2 500)))
    (st2.maxsubst.set 4
      (max (st2.maxsubst.get 0 + (D1.get 0).ncols - 1)
        (st2.maxsubst.get 3 + (D0.get 0).ncols - 1))) 4 0 3 D1 D0 = L4
    at hpost hjoint hT hG0 hG3
  generalize st2.maxsubst.set 4
      (max (st2.maxsubst.get 0 + (D1.get 0).ncols - 1)
        (st2.maxsubst.get 3 + (D0.get 0).ncols - 1)) = ms4
    at hpost hjoint hms4 hms0 hms3
  refine ⟨_, _, hpost, hjoint, ?_⟩
  -- the posterior
  have hN : (ms4.get (sub_define_jump_process triMod 3).mod.tree.id + 1).toNat = 2 := by
    rw [hroot]; simp only [TreeNode.id]; rw [hms4]; rfl
  have hvec : ∀ n, n < 2 → rootVec (sub_define_jump_process triMod 3) ⟨L4, ms4⟩ n
      = if n = 0 then 1 / 4 else 1 / 2 := by
    intro n hn
    unfold rootVec
    rw [hN, if_pos hn, hsize, hroot]
    simp only [TreeNode.id, Finset.sum_range_succ, Finset.sum_range_zero, zero_add, hfreq]
    rw [hT 0 n (by decide) hn, hT 1 n (by decide) hn]
    interval_cases n <;> norm_num
  have h2 := posterior_root_two (sub_define_jump_process triMod 3) ⟨L4, ms4⟩ (1 / 4) (1 / 2) hN
    (hvec 0 (by decide)) (hvec 1 (by decide)) (by norm_num) (by norm_num [trimThreshold])
  refine ⟨h2.1, h2.2.1.trans (by norm_num), h2.2.2.trans (by norm_num), ?_⟩
  -- the joint table
  have hN1 : (ms4.get 0 + ((D1.get 0).ncols : Int)).toNat = 2 := by rw [hms0, hc1]; rfl
  have hN2 : (ms4.get 3 + ((D0.get 0).ncols : Int)).toNat = 2 := by rw [hms3, hc0]; rfl
  rw [hN1, hN2, hG0, hG3]
  have hcell : ∀ r c, r < 2 → c < 2 →
      jointCell (sub_define_jump_process triMod 3) (st2.L.get 0) (st2.L.get 3) D1 r c
        = 1 / 4 := by
    intro r c hr hc
    have e1 : winLo 0 2 = 0 := rfl
    have e2 : winLo 1 2 = 0 := rfl
    unfold jointCell
    rw [hsize]
    interval_cases r <;> interval_cases c <;>
      norm_num [childSum, Finset.sum_range_succ, hc1, hc1b, e1, e2, hL0, hL3, hd1, hfreq]
  have hJ : ∀ r c, r < 2 → c < 2 →
      (jointScaled (sub_define_jump_process triMod 3) (st2.L.get 0) (st2.L.get 3) D1 2 2).data
        r c = 1 / 4 := by
    intro r c hr hc
    simp only [jointScaled, Finset.sum_range_succ, Finset.sum_range_zero, zero_add]
    rw [if_pos ⟨hr, hc⟩, hcell r c hr hc, hcell 0 0 (by decide) (by decide),
      hcell 0 1 (by decide) (by decide), hcell 1 0 (by decide) (by decide),
      hcell 1 1 (by decide) (by decide)]
    norm_num
  have hthr : (1 : ℚ) / 4 ≥ trimThreshold := by norm_num [trimThreshold]
  have hrows : trim_rows (jointScaled (sub_define_jump_process triMod 3) (st2.L.get 0)
      (st2.L.get 3) D1 2 2) 2 2 = 2 := by
    simp only [trim_rows, forDown, forUpTo, hJ 1 0 (by decide) (by decide),
      hJ 1 1 (by decide) (by decide), hJ 0 0 (by decide) (by decide),
      hJ 0 1 (by decide) (by decide), hthr, if_true, Bool.not_false, Bool.not_true,
      Bool.false_eq_true, if_false]
  rw [hrows]
  have hcols : trim_cols (jointScaled (sub_define_jump_process triMod 3) (st2.L.get 0)
      (st2.L.get 3) D1 2 2) 2 2 = 2 := by
    simp only [trim_cols, forDown, forUpTo, hJ 1 0 (by decide) (by decide),
      hJ 1 1 (by decide) (by decide), hJ 0 0 (by decide) (by decide),
      hJ 0 1 (by decide) (by decide), hthr, if_true, Bool.not_false, Bool.not_true,
      Bool.false_eq_true, if_false]
  rw [hcols]
  obtain ⟨hr, hc, hd⟩ := pm_normalize_resize (jointScaled (sub_define_jump_process triMod 3)
    (st2.L.get 0) (st2.L.get 3) D1 2 2) 2 2
  refine ⟨hr, hc, fun r c hr2 hc2 => ?_⟩
  rw [hd]
  simp only [Finset.sum_range_succ, Finset.sum_range_zero, zero_add]
  rw [hJ r c hr2 hc2, hJ 0 0 (by decide) (by decide),
      hJ 0 1 (by decide) (by decide), hJ 1 0 (by decide) (by decide),
      hJ 1 1 (by decide) (by decide)]
  norm_num

/-- Claim C8 evaluated on the three-leaf tree `(leaf 0 : 1, (leaf 1 : 1, leaf 2 : 0) : 0)`,
whose root's right branch has length 0, with every character missing: the joint table is
the 2 x 2 table of quarters, whose marginal over the total count is `(1/4, 1/2, 1/4)`,
while `sub_posterior_distrib_site` returns `(1/3, 2/3)`, which is that distribution cut
after `maxsubst[root] = 1` and renormalised. The two functions disagree at every total. -/
theorem C8_posterior_cut_at_maxsubst :
    (match (sub_define_jump_process triMod 3).mod.tree with
      | .node _ _ _ rchild => rchild.dparent = 0
      | .leaf _ _ => False) ∧
    ∃ v M,
      sub_posterior_distrib_site cutPois (fun _ _ => id) (sub_define_jump_process triMod 3)
        missingMSA 0 = some v ∧
      sub_joint_distrib_site cutPois (fun _ _ => id) (sub_define_jump_process triMod 3)
        (some missingMSA) 0 = some M ∧
      v.size = 2 ∧ v.data 0 = 1 / 3 ∧ v.data 1 = 2 / 3 ∧
      margTot M 0 = 1 / 4 ∧ margTot M 1 = 1 / 2 ∧ margTot M 2 = 1 / 4 := by
  obtain ⟨v, M, hv, hM, hvs, hv0, hv1, hMr, hMc, hMd⟩ := tri_site_functions
  refine ⟨rfl, v, M, hv, hM, hvs, hv0, hv1, ?_, ?_, ?_⟩
  · unfold margTot
    rw [hMr, hMc]
    simp only [Finset.sum_range_succ, Finset.sum_range_zero, zero_add]
    rw [hMd 0 0 (by decide) (by decide)]
    norm_num
  · unfold margTot
    rw [hMr, hMc]
    simp only [Finset.sum_range_succ, Finset.sum_range_zero, zero_add]
    rw [hMd 0 1 (by decide) (by decide), hMd 1 0 (by decide) (by decide)]
    norm_num
  · unfold margTot
    rw [hMr, hMc]
    simp only [Finset.sum_range_succ, Finset.sum_range_zero, zero_add]
    rw [hMd 1 1 (by decide) (by decide)]
    norm_num


/-! ## Tables of a node beyond its largest count -/

/-- The loop nest of lines 232-258 writes no entry of `L[id]` beyond column
`maxsubst[id]`. -/
theorem combine_children_beyond (size : Nat) (L : MatrixArray) (maxsubst : IntArray)
    (id lid rid : Nat) (d_left d_right : MatrixArray) (a n : Nat)
    (hn : (maxsubst.get id + 1).toNat ≤ n) :
    ((combine_children size L maxsubst id lid rid d_left d_right).get id).data a n
      = (L.get id).data a n := by
  unfold combine_children
  refine forUpTo_inv (fun L' : MatrixArray => (L'.get id).data a n = (L.get id).data a n)
    _ _ _ rfl ?_
  intro n' L1 hn' h1
  refine forUpTo_inv (fun L' : MatrixArray => (L'.get id).data a n = (L.get id).data a n)
    _ _ _ h1 ?_
  intro j L2 _ h2
  refine forUpTo_inv (fun L' : MatrixArray => (L'.get id).data a n = (L.get id).data a n)
    _ _ _ h2 ?_
  intro a' L3 _ h3
  simp only
  rw [setEntry_data, if_neg (fun h => absurd h.2.2 (by omega))]
  exact h3

/-- The leaf fill of lines 213-221 writes column 0 only. -/
theorem leaf_fill_beyond (size : Nat) (L : MatrixArray) (id a n : Nat) (hn : 0 < n) :
    ((forUpTo size (fun a L => setEntry L id a 0 1) L).get id).data a n
      = (L.get id).data a n := by
  refine forUpTo_inv (fun L' : MatrixArray => (L'.get id).data a n = (L.get id).data a n)
    _ _ _ rfl ?_
  intro a' L1 _ h1
  rw [setEntry_data, if_neg (fun h => absurd h.2.2 (by omega))]
  exact h1

/-- After a node is processed its table is 0 beyond column `maxsubst` of the node. -/
theorem posterior_node_beyond (pv_poisson : ℚ → Vector) (jp : JumpProcess) (msa : MSA)
    (ss : SuffStats) (idx : Nat → Nat) (tuple_idx : Nat) (st st' : SiteState)
    (node : TreeNode)
    (h : posterior_node pv_poisson jp msa ss idx tuple_idx st node = some st')
    (a n : Nat) (hn : (st'.maxsubst.get node.id + 1).toNat ≤ n) :
    (st'.L.get node.id).data a n = 0 := by
  cases node with
  | leaf id d =>
    simp only [posterior_node, TreeNode.id] at h
    simp only [TreeNode.id] at hn
    by_cases h1 : (msa.is_missing (ss.col_char tuple_idx (idx id))
        || ss.col_char tuple_idx (idx id) == GAP_CHAR) = true
    · rw [if_pos h1] at h
      cases h
      simp only [intArray_set_get, if_true] at hn
      have hn0 : 0 < n := hn
      simp only [TreeNode.id]
      rw [leaf_fill_beyond _ _ _ _ _ hn0, matrixArray_set_get, if_pos rfl]
      rfl
    · rw [if_neg h1] at h
      by_cases h2 : msa.inv_alphabet (ss.col_char tuple_idx (idx id)) ≥ 0
      · rw [if_pos h2] at h
        cases h
        simp only [intArray_set_get, if_true] at hn
        have hn0 : 0 < n := hn
        simp only [TreeNode.id]
        rw [setEntry_data, if_neg (fun h => absurd h.2.2 (by omega)), matrixArray_set_get,
          if_pos rfl]
        rfl
      · rw [if_neg h2] at h
        cases h
  | node id d lchild rchild =>
    simp only [posterior_node, TreeNode.id] at h
    simp only [TreeNode.id] at hn ⊢
    cases hl : sub_distrib_branch_conditional pv_poisson jp lchild.dparent with
    | none => rw [hl] at h; cases h
    | some d_left =>
      cases hr : sub_distrib_branch_conditional pv_poisson jp rchild.dparent with
      | none => rw [hl, hr] at h; cases h
      | some d_right =>
        rw [hl, hr] at h
        cases h
        simp only at hn ⊢
        rw [combine_children_beyond _ _ _ _ _ _ _ _ _ _ hn, matrixArray_set_get, if_pos rfl]
        rfl


/-! ## Inversion of the traversal -/

theorem posterior_traversal_none (pv_poisson : ℚ → Vector) (jp : JumpProcess) (msa : MSA)
    (ss : SuffStats) (idx : Nat → Nat) (tuple_idx : Nat) (xs : List TreeNode) :
    posterior_traversal pv_poisson jp msa ss idx tuple_idx xs none = none := by
  induction xs with
  | nil => rfl
  | cons x rest ih => rw [posterior_traversal_cons]; exact ih

/-- A traversal that succeeds on `xs ++ ys` succeeds on `xs`. -/
theorem posterior_traversal_split (pv_poisson : ℚ → Vector) (jp : JumpProcess) (msa : MSA)
    (ss : SuffStats) (idx : Nat → Nat) (tuple_idx : Nat) (xs ys : List TreeNode)
    (s : Option SiteState) (s' : SiteState)
    (h : posterior_traversal pv_poisson jp msa ss idx tuple_idx (xs ++ ys) s = some s') :
    ∃ s1, posterior_traversal pv_poisson jp msa ss idx tuple_idx xs s = some s1 ∧
      posterior_traversal pv_poisson jp msa ss idx tuple_idx ys (some s1) = some s' := by
  rw [posterior_traversal_append] at h
  cases h1 : posterior_traversal pv_poisson jp msa ss idx tuple_idx xs s with
  | none => rw [h1, posterior_traversal_none] at h; cases h
  | some s1 => rw [h1] at h; exact ⟨s1, rfl, h⟩

theorem posterior_traversal_single (pv_poisson : ℚ → Vector) (jp : JumpProcess) (msa : MSA)
    (ss : SuffStats) (idx : Nat → Nat) (tuple_idx : Nat) (node : TreeNode) (s : SiteState) :
    posterior_traversal pv_poisson jp msa ss idx tuple_idx [node] (some s)
      = posterior_node pv_poisson jp msa ss idx tuple_idx s node := rfl

/-- The last step of the traversal of a subtree is the step of its root. -/
theorem posterior_traversal_last (pv_poisson : ℚ → Vector) (jp : JumpProcess) (msa : MSA)
    (ss : SuffStats) (idx : Nat → Nat) (tuple_idx : Nat) (t : TreeNode) (s s' : SiteState)
    (h : posterior_traversal pv_poisson jp msa ss idx tuple_idx (tr_postorder t) (some s)
      = some s') :
    ∃ s0, posterior_node pv_poisson jp msa ss idx tuple_idx s0 t = some s' := by
  cases t with
  | leaf id d => exact ⟨s, h⟩
  | node id d l r =>
    simp only [tr_postorder] at h
    obtain ⟨s1, _, h2⟩ := posterior_traversal_split _ _ _ _ _ _ _ _ _ _ h
    exact ⟨s1, h2⟩

/-- The leaf rule sets `maxsubst` of the leaf to 0 and leaves the other nodes alone. -/
theorem posterior_node_leaf_frame (pv_poisson : ℚ → Vector) (jp : JumpProcess) (msa : MSA)
    (ss : SuffStats) (idx : Nat → Nat) (tuple_idx : Nat) (st st' : SiteState) (id : Nat)
    (d : ℚ)
    (h : posterior_node pv_poisson jp msa ss idx tuple_idx st (.leaf id d) = some st') :
    st'.maxsubst.get id = 0 ∧
    (∀ x, x ≠ id → st'.maxsubst.get x = st.maxsubst.get x) ∧
    (∀ x, x ≠ id → st'.L.get x = st.L.get x) := by
  simp only [posterior_node, TreeNode.id] at h
  by_cases h1 : (msa.is_missing (ss.col_char tuple_idx (idx id))
      || ss.col_char tuple_idx (idx id) == GAP_CHAR) = true
  · rw [if_pos h1] at h
    cases h
    refine ⟨by simp only [intArray_set_get, if_true],
      fun x hx => by simp only [intArray_set_get, if_neg hx], fun x hx => ?_⟩
    refine (forUpTo_inv (fun L' : MatrixArray => L'.get x
      = (st.L.set id (mat_zero (mat_new jp.mod.rate_matrix.size 500))).get x) _ _ _ rfl ?_).trans
      ?_
    · intro a L1 _ h1
      rw [setEntry_get_ne _ _ _ _ _ _ hx]
      exact h1
    · rw [matrixArray_set_get, if_neg hx]
  · rw [if_neg h1] at h
    by_cases h2 : msa.inv_alphabet (ss.col_char tuple_idx (idx id)) ≥ 0
    · rw [if_pos h2] at h
      cases h
      refine ⟨by simp only [intArray_set_get, if_true],
        fun x hx => by simp only [intArray_set_get, if_neg hx], fun x hx => ?_⟩
      simp only
      rw [setEntry_get_ne _ _ _ _ _ _ hx, matrixArray_set_get, if_neg hx]
    · rw [if_neg h2] at h
      cases h

/-- An internal step that succeeds has both branch distributions. -/
theorem posterior_node_internal_inv (pv_poisson : ℚ → Vector) (jp : JumpProcess) (msa : MSA)
    (ss : SuffStats) (idx : Nat → Nat) (tuple_idx : Nat) (st st' : SiteState) (id : Nat)
    (d : ℚ) (lchild rchild : TreeNode)
    (h : posterior_node pv_poisson jp msa ss idx tuple_idx st (.node id d lchild rchild)
      = some st') :
    ∃ d_left d_right,
      sub_distrib_branch_conditional pv_poisson jp lchild.dparent = some d_left ∧
      sub_distrib_branch_conditional pv_poisson jp rchild.dparent = some d_right := by
  simp only [posterior_node] at h
  cases hl : sub_distrib_branch_conditional pv_poisson jp lchild.dparent with
  | none => rw [hl] at h; cases h
  | some d_left =>
    cases hr : sub_distrib_branch_conditional pv_poisson jp rchild.dparent with
    | none => rw [hl, hr] at h; cases h
    | some d_right => exact ⟨d_left, d_right, rfl, rfl⟩

/-- A returned posterior comes from a completed traversal. -/
theorem sub_posterior_distrib_site_inv (pv_poisson : ℚ → Vector)
    (tm_build_seq_idx : TreeModel → MSA → Nat → Nat) (jp : JumpProcess) (msa : MSA)
    (tuple_idx : Nat) (v : Vector)
    (h : sub_posterior_distrib_site pv_poisson tm_build_seq_idx jp msa tuple_idx = some v) :
    jp.mod.order = 0 ∧ ∃ ss st, msa.ss = some ss ∧
      posterior_traversal pv_poisson jp msa ss (seq_idx tm_build_seq_idx jp msa) tuple_idx
        (tr_postorder jp.mod.tree) (some SiteState.init) = some st ∧
      v = posterior_root jp st := by
  unfold sub_posterior_distrib_site at h
  by_cases ho : jp.mod.order = 0
  · refine ⟨ho, ?_⟩
    rw [if_neg (fun hne => hne ho)] at h
    cases hss : msa.ss with
    | none => rw [hss] at h; cases h
    | some ss =>
      rw [hss] at h
      simp only at h
      obtain ⟨st, hst, hv⟩ := Option.map_eq_some'.mp h
      exact ⟨ss, st, rfl, hst, hv.symm⟩
  · rw [if_pos ho] at h
    cases h


/-! ## A right child that is a leaf on a branch of length 0 -/

/-- When the right branch distribution is the point mass of a branch of length 0 and the
right child has `maxsubst` 0, the sum over the splits keeps the split `j = n` only. -/
theorem splitSum_zero_right (size : Nat) (Ll Lr : Matrix) (msl : Int)
    (d_left d_right : MatrixArray) (a n : Nat) (ha : a < size)
    (hc : (d_right.get 0).ncols = 1)
    (hd : ∀ b, b < size → (d_right.get a).data b 0 = if b = a then 1 else 0) :
    splitSum size Ll Lr msl 0 d_left d_right a n
      = childSum size Ll (d_left.get a) (winLo n (d_left.get 0).ncols) (winHi n msl) n
          * Lr.data a 0 := by
  unfold splitSum
  rw [Finset.sum_eq_single n]
  · rw [Nat.sub_self, hc]
    congr 1
    have e1 : winLo 0 1 = 0 := rfl
    have e2 : winHi 0 0 = 1 := rfl
    rw [e1, e2]
    unfold childSum
    rw [Finset.sum_eq_single a]
    · simp only [Finset.sum_Ico_eq_sum_range, Nat.sub_zero, Finset.sum_range_one, Nat.add_zero,
        hd a ha, if_true, mul_one]
    · intro b hb hne
      simp only [Finset.sum_Ico_eq_sum_range, Nat.sub_zero, Finset.sum_range_one, Nat.add_zero,
        hd b (Finset.mem_range.mp hb), if_neg hne, mul_zero]
    · intro h
      exact absurd (Finset.mem_range.mpr ha) h
  · intro j hj hne
    have hjn : j < n := by
      have := Finset.mem_range.mp hj
      omega
    have hempty : Finset.Ico (winLo (n - j) (d_right.get 0).ncols) (winHi (n - j) 0) = ∅ := by
      rw [hc]
      apply Finset.Ico_eq_empty
      unfold winLo winHi
      omega
    unfold childSum
    rw [hempty]
    simp only [Finset.sum_empty, Finset.sum_const_zero, mul_zero]
  · intro h
    exact absurd (Finset.mem_range.mpr (Nat.lt_succ_self n)) h

/-- When the table of a child is 0 beyond its `maxsubst`, the window of lines 236/238 may
be extended to the whole range up to `n`. -/
theorem childSum_extend (size : Nat) (Lc D : Matrix) (lo n : Nat) (ms : Int)
    (hz : ∀ b i, (ms + 1).toNat ≤ i → Lc.data b i = 0) :
    childSum size Lc D lo (winHi n ms) n = childSum size Lc D lo (n + 1) n := by
  unfold childSum
  refine Finset.sum_congr rfl (fun b _ => ?_)
  refine Finset.sum_subset ?_ ?_
  · intro i hi
    rw [Finset.mem_Ico] at hi ⊢
    have : winHi n ms ≤ n + 1 := by unfold winHi; omega
    omega
  · intro i hi hni
    rw [Finset.mem_Ico] at hi hni
    have : (ms + 1).toNat ≤ i := by unfold winHi at hni; omega
    rw [hz b i this, zero_mul]

theorem trim_scan_le (f : Nat → ℚ) (k : Nat) : trim_scan f k ≤ k := by
  induction k with
  | zero => exact Nat.le_refl 0
  | succ k ih =>
    simp only [trim_scan]
    by_cases h : f k < trimThreshold
    · rw [if_pos h]; exact Nat.le_succ_of_le ih
    · rw [if_neg h]

theorem trim_scan_zero (f : Nat → ℚ) (k : Nat) (h : ∀ i, i < k → f i < trimThreshold) :
    trim_scan f k = 0 := by
  induction k with
  | zero => rfl
  | succ k ih =>
    simp only [trim_scan]
    rw [if_pos (h k (Nat.lt_succ_self k))]
    exact ih (fun i hi => h i (Nat.lt_succ_of_lt hi))

theorem trim_scan_congr (f g : Nat → ℚ) (k : Nat) (h : ∀ i, i < k → f i = g i) :
    trim_scan f k = trim_scan g k := by
  induction k with
  | zero => rfl
  | succ k ih =>
    simp only [trim_scan]
    rw [h k (Nat.lt_succ_self k), ih (fun i hi => h i (Nat.lt_succ_of_lt hi))]

/-- Once an entry has been found the downward scan changes nothing. -/
theorem forDown_trim_done (J : Matrix) (m k x : Nat) :
    forDown k (fun n1 s =>
      forUpTo m (fun n2 (s : Nat × Bool) =>
        if !s.2 then
          if J.data n1 n2 ≥ trimThreshold then (n1 + 1, true) else s
        else s) s) (x, true) = (x, true) := by
  induction k with
  | zero => rfl
  | succ k ih =>
    simp only [forDown]
    have : forUpTo m (fun n2 (s : Nat × Bool) =>
        if !s.2 then
          if J.data k n2 ≥ trimThreshold then (k + 1, true) else s
        else s) (x, true) = (x, true) := by
      refine forUpTo_inv (fun s : Nat × Bool => s = (x, true)) _ _ _ rfl ?_
      intro i t _ ht
      rw [ht]
      rfl
    rw [this]
    exact ih

/-- The first trimming pass on a table with one column is the scan of that column. -/
theorem trim_rows_one (J : Matrix) (k : Nat) :
    trim_rows J k 1
      = if trim_scan (fun r => J.data r 0) k = 0 then k
        else trim_scan (fun r => J.data r 0) k := by
  have key : ∀ k x, forDown k (fun n1 s =>
      forUpTo 1 (fun n2 (s : Nat × Bool) =>
        if !s.2 then
          if J.data n1 n2 ≥ trimThreshold then (n1 + 1, true) else s
        else s) s) (x, false)
      = if trim_scan (fun r => J.data r 0) k = 0 then (x, false)
        else (trim_scan (fun r => J.data r 0) k, true) := by
    intro k
    induction k with
    | zero => intro x; rfl
    | succ k ih =>
      intro x
      simp only [forDown, trim_scan]
      by_cases h : J.data k 0 < trimThreshold
      · have hstep : forUpTo 1 (fun n2 (s : Nat × Bool) =>
            if !s.2 then
              if J.data k n2 ≥ trimThreshold then (k + 1, true) else s
            else s) (x, false) = (x, false) := by
          simp only [forUpTo, Bool.not_false, if_true, ge_iff_le, not_le.mpr h, if_false]
        rw [hstep, if_pos h]
        exact ih x
      · have hstep : forUpTo 1 (fun n2 (s : Nat × Bool) =>
            if !s.2 then
              if J.data k n2 ≥ trimThreshold then (k + 1, true) else s
            else s) (x, false) = (k + 1, true) := by
          simp only [forUpTo, Bool.not_false, if_true, ge_iff_le, not_lt.mp h]
        rw [hstep, if_neg h, forDown_trim_done, if_neg (Nat.succ_ne_zero k)]
  unfold trim_rows
  rw [key k k]
  by_cases h : trim_scan (fun r => J.data r 0) k = 0
  · rw [if_pos h, if_pos h]
  · rw [if_neg h, if_neg h]

/-- The second trimming pass keeps the single column of a table with one column. -/
theorem trim_cols_one (J : Matrix) (k : Nat) : trim_cols J k 1 = 1 := by
  unfold trim_cols
  simp only [forDown]
  refine forUpTo_inv (fun s : Nat × Bool => s.1 = 1) _ _ _ rfl ?_
  intro i t _ ht
  by_cases h1 : (!t.2) = true
  · rw [if_pos h1]
    by_cases h2 : J.data i 0 ≥ trimThreshold
    · rw [if_pos h2]
    · rw [if_neg h2]; exact ht
  · rw [if_neg h1]; exact ht


/-- A returned conditional branch distribution means that the assertion of line 151
held. -/
theorem cond_some_lt (pv_poisson : ℚ → Vector) (jp : JumpProcess) (t : ℚ) (D : MatrixArray)
    (h : sub_distrib_branch_conditional pv_poisson jp t = some D) :
    (pv_poisson (jp.lambda * t)).size < jp.njumps_max := by
  by_contra hc
  rw [(sub_distrib_branch_conditional_none_iff pv_poisson jp t).mpr hc] at h
  cases h

/-- The window of the left sum at total 0 is empty when `maxsubst + ncols <= 0`. -/
theorem childSum_empty_window (size : Nat) (Lc D : Matrix) (c : Nat) (ms : Int)
    (h : ms + c ≤ 0) : childSum size Lc D (winLo 0 c) (winHi 0 ms) 0 = 0 := by
  have hempty : Finset.Ico (winLo 0 c) (winHi 0 ms) = ∅ := by
    apply Finset.Ico_eq_empty
    unfold winLo winHi
    omega
  unfold childSum
  rw [hempty]
  simp only [Finset.sum_empty, Finset.sum_const_zero]

/-- With a right child that is a leaf on a branch of length 0, the unnormalised root
vector of the posterior is column 0 of the unnormalised joint table. -/
theorem rootVec_eq_jointCell (jp : JumpProcess) (st : SiteState) (id : Nat)
    (d_left d_right : MatrixArray) (Ll Lr : Matrix) (msl : Int)
    (hid : jp.mod.tree.id = id)
    (hdata : ∀ a n, (st.L.get id).data a n
      = if n < (st.maxsubst.get id + 1).toNat then
          if a < jp.mod.rate_matrix.size then
            splitSum jp.mod.rate_matrix.size Ll Lr msl 0 d_left d_right a n
          else 0
        else 0)
    (hc : (d_right.get 0).ncols = 1)
    (hd : ∀ a b, a < jp.mod.rate_matrix.size → b < jp.mod.rate_matrix.size →
      (d_right.get a).data b 0 = if b = a then 1 else 0)
    (hcl : ∀ a, a < jp.mod.rate_matrix.size → (d_left.get a).ncols = (d_left.get 0).ncols)
    (hz : ∀ b i, (msl + 1).toNat ≤ i → Ll.data b i = 0)
    (n : Nat) (hn : n < (st.maxsubst.get id + 1).toNat) :
    rootVec jp st n = jointCell jp Ll Lr d_left n 0 := by
  unfold rootVec jointCell
  rw [hid, if_pos hn]
  refine Finset.sum_congr rfl (fun a ha => ?_)
  have ha2 := Finset.mem_range.mp ha
  rw [hdata, if_pos hn, if_pos ha2, splitSum_zero_right _ _ _ _ _ _ _ _ ha2 hc
      (fun b hb => hd a b ha2 hb),
    childSum_extend _ _ _ _ _ _ hz, hcl a ha2]
  ring


theorem trimThreshold_pos : 0 < trimThreshold := by norm_num [trimThreshold]

/-- The marginal over the total count of a table with one column is its column 0. -/
theorem margTot_one_col (M : Matrix) (hc : M.ncols = 1) (n : Nat) (hn : n < M.nrows) :
    margTot M n = M.data n 0 := by
  unfold margTot
  rw [hc]
  simp only [Finset.sum_range_one, Nat.add_zero]
  rw [Finset.sum_eq_single n]
  · rw [if_pos rfl]
  · intro b _ hne
    rw [if_neg hne]
  · intro h
    exact absurd (Finset.mem_range.mpr hn) h

/-- A root vector that vanishes identically is trimmed to length 0. -/
theorem posterior_root_size_zero (jp : JumpProcess) (st : SiteState)
    (h : ∀ n, n < (st.maxsubst.get jp.mod.tree.id + 1).toNat → rootVec jp st n = 0) :
    (posterior_root jp st).size = 0 := by
  rw [(posterior_root_spec jp st).1]
  apply trim_scan_zero
  intro i hi
  unfold rootVecNorm
  rw [h i hi, zero_div]
  exact trimThreshold_pos


theorem treeNode_leaf_id (id : Nat) (d : ℚ) : (TreeNode.leaf id d).id = id := rfl

theorem treeNode_node_id (id : Nat) (d : ℚ) (l r : TreeNode) :
    (TreeNode.node id d l r).id = id := rfl

/-- For a root whose right child is a leaf on a branch of length 0 (with the point-mass
branch distribution of one column), the joint table has one column, which is the
posterior vector. -/
theorem zero_right_leaf_joint (pv_poisson : ℚ → Vector)
    (tm_build_seq_idx : TreeModel → MSA → Nat → Nat) (jp : JumpProcess) (msa : MSA)
    (tuple_idx : Nat) (id : Nat) (d : ℚ) (lchild : TreeNode) (rid : Nat) (v : Vector)
    (hroot : jp.mod.tree = .node id d lchild (.leaf rid 0))
    (hidl : lchild.id ≠ id) (hidr : rid ≠ id) (hlr : rid ≠ lchild.id)
    (hD0 : ∀ D, sub_distrib_branch_conditional pv_poisson jp 0 = some D →
      ∀ a b, a < jp.mod.rate_matrix.size → b < jp.mod.rate_matrix.size →
        (D.get a).ncols = 1 ∧ (D.get a).data b 0 = if b = a then 1 else 0)
    (hv : sub_posterior_distrib_site pv_poisson tm_build_seq_idx jp msa tuple_idx = some v) :
    ∃ M, sub_joint_distrib_site pv_poisson tm_build_seq_idx jp (some msa) tuple_idx = some M ∧
      (0 < v.size → M.nrows = v.size ∧ M.ncols = 1) ∧
      ∀ n, n < v.size → margTot M n = v.data n := by
  obtain ⟨ho, ss, st, hss, htrav, hvdef⟩ := sub_posterior_distrib_site_inv _ _ _ _ _ _ hv
  rw [hroot] at htrav
  simp only [tr_postorder] at htrav
  obtain ⟨s2, hpre, hlast⟩ := posterior_traversal_split _ _ _ _ _ _ _ _ _ _ htrav
  obtain ⟨s1, h1, h12⟩ := posterior_traversal_split _ _ _ _ _ _ _ _ _ _ hpre
  rw [posterior_traversal_single] at hlast h12
  obtain ⟨s0, hs0⟩ := posterior_traversal_last _ _ _ _ _ _ _ _ _ h1
  have hz1 := posterior_node_beyond _ _ _ _ _ _ _ _ _ hs0
  obtain ⟨hmr, hfm, hfl⟩ := posterior_node_leaf_frame _ _ _ _ _ _ _ _ _ _ h12
  obtain ⟨d_left, d_right, hl, hr⟩ := posterior_node_internal_inv _ _ _ _ _ _ _ _ _ _ _ _ hlast
  have hr0 : sub_distrib_branch_conditional pv_poisson jp 0 = some d_right := hr
  obtain ⟨st', hst', hms, hfm3, hfl3, hdata⟩ := posterior_internal_spec pv_poisson jp msa ss
    (seq_idx tm_build_seq_idx jp msa) tuple_idx s2 id d lchild (.leaf rid 0) d_left d_right
    hl hr hidl hidr
  have hst : st' = st := Option.some.inj (hst'.symm.trans hlast)
  subst hst
  obtain ⟨_, hjoint⟩ := site_functions_at_root pv_poisson tm_build_seq_idx jp msa ss tuple_idx
    id d lchild (.leaf rid 0) d_left d_right s2 ho hss hroot hpre hl hr
  have hstate := posterior_node_internal pv_poisson jp msa ss (seq_idx tm_build_seq_idx jp msa)
    tuple_idx s2 id d lchild (.leaf rid 0) d_left d_right hl hr
  have hpair := Option.some.inj (hstate.symm.trans hst')
  have hL := congrArg SiteState.L hpair
  have hM := congrArg SiteState.maxsubst hpair
  simp only at hL hM
  rw [hL, hM, joint_root_spec pv_poisson jp _ lchild (.leaf rid 0) d_left hl] at hjoint
  simp only [treeNode_leaf_id] at hjoint hms hdata
  clear hstate hpair hL hM
  by_cases hvs : 0 < v.size
  swap
  · exact ⟨_, hjoint, fun h => absurd h hvs,
      fun n hn => absurd (Nat.lt_of_le_of_lt (Nat.zero_le n) hn) hvs⟩
  have hid : jp.mod.tree.id = id := by rw [hroot]; rfl
  have hspec := posterior_root_spec jp st'
  rw [hid, ← hvdef] at hspec
  -- the alphabet is not empty
  have hsize : 0 < jp.mod.rate_matrix.size := by
    by_contra hs
    have hs0 : jp.mod.rate_matrix.size = 0 := Nat.eq_zero_of_not_pos hs
    have := posterior_root_size_zero jp st' (fun n _ => by
      unfold rootVec
      rw [hs0]
      simp only [Finset.range_zero, Finset.sum_empty, ite_self])
    rw [← hvdef] at this
    omega
  -- the two branch distributions
  have hc : (d_right.get 0).ncols = 1 := (hD0 d_right hr0 0 0 hsize hsize).1
  have hd : ∀ a b, a < jp.mod.rate_matrix.size → b < jp.mod.rate_matrix.size →
      (d_right.get a).data b 0 = if b = a then 1 else 0 :=
    fun a b ha hb => (hD0 d_right hr0 a b ha hb).2
  have hcl : ∀ a, a < jp.mod.rate_matrix.size → (d_left.get a).ncols = (d_left.get 0).ncols := by
    obtain ⟨D, hD, hDs⟩ := sub_distrib_branch_conditional_eq pv_poisson jp lchild.dparent
      (cond_some_lt pv_poisson jp _ d_left hl)
    have hDD : D = d_left := Option.some.inj (hD.symm.trans hl)
    subst hDD
    intro a ha
    rw [(hDs a ha).2.1, (hDs 0 hsize).2.1]
  -- the tables of the two children
  have hz2 : ∀ b i, (s2.maxsubst.get lchild.id + 1).toNat ≤ i →
      (s2.L.get lchild.id).data b i = 0 := by
    intro b i hi
    rw [hfm lchild.id (fun h => hlr h.symm)] at hi
    rw [hfl lchild.id (fun h => hlr h.symm)]
    exact hz1 b i hi
  rw [hmr] at hms hdata
  rw [← hms] at hdata
  rw [hfm3 lchild.id hidl, hfm3 rid hidr, hmr, hfl3 lchild.id hidl, hfl3 rid hidr, hc]
    at hjoint
  have e2 : ((0 : Int) + ((1 : Nat) : Int)).toNat = 1 := rfl
  rw [e2] at hjoint
  have hcell : ∀ n, n < (st'.maxsubst.get id + 1).toNat →
      rootVec jp st' n = jointCell jp (s2.L.get lchild.id) (s2.L.get rid) d_left n 0 :=
    fun n hn => rootVec_eq_jointCell jp st' id d_left d_right _ _ _ hid hdata hc hd hcl hz2 n hn
  -- both tables have the same number of rows
  have hN : (s2.maxsubst.get lchild.id + ((d_left.get 0).ncols : Int)).toNat
      = (st'.maxsubst.get id + 1).toNat := by
    by_cases hpos : 1 ≤ s2.maxsubst.get lchild.id + ((d_left.get 0).ncols : Int)
    · rw [hms, hc]
      omega
    · exfalso
      have hle : s2.maxsubst.get lchild.id + ((d_left.get 0).ncols : Int) ≤ 0 := by omega
      have hN1 : (st'.maxsubst.get id + 1).toNat = 1 := by
        rw [hms, hc]
        omega
      have h0 : rootVec jp st' 0 = 0 := by
        unfold rootVec
        rw [hid, hN1, if_pos Nat.zero_lt_one]
        apply Finset.sum_eq_zero
        intro a ha
        have ha2 := Finset.mem_range.mp ha
        rw [hdata, hN1, if_pos Nat.zero_lt_one, if_pos ha2,
          splitSum_zero_right _ _ _ _ _ _ _ _ ha2 hc (fun b hb => hd a b ha2 hb),
          childSum_empty_window _ _ _ _ _ hle, zero_mul, zero_mul]
      have := posterior_root_size_zero jp st' (fun n hn => by
        rw [hid, hN1] at hn
        have : n = 0 := by omega
        rw [this]
        exact h0)
      rw [← hvdef] at this
      omega
  rw [hN] at hjoint
  have hJ : ∀ r, (jointScaled jp (s2.L.get lchild.id) (s2.L.get rid) d_left
      (st'.maxsubst.get id + 1).toNat 1).data r 0 = rootVecNorm jp st' r := by
    intro r
    have hsum : ∑ x in Finset.range (st'.maxsubst.get id + 1).toNat, ∑ c in Finset.range 1,
          jointCell jp (s2.L.get lchild.id) (s2.L.get rid) d_left x c
        = ∑ k in Finset.range (st'.maxsubst.get id + 1).toNat, rootVec jp st' k := by
      refine Finset.sum_congr rfl (fun x hx => ?_)
      rw [Finset.sum_range_one, hcell x (Finset.mem_range.mp hx)]
    unfold rootVecNorm
    rw [hid]
    simp only [jointScaled]
    rw [hsum]
    by_cases hr : r < (st'.maxsubst.get id + 1).toNat
    · rw [if_pos ⟨hr, Nat.zero_lt_one⟩, hcell r hr, mul_one_div]
    · rw [if_neg (fun h => hr h.1)]
      have : rootVec jp st' r = 0 := by
        unfold rootVec
        rw [hid, if_neg hr]
      rw [this, zero_mul, zero_div]
  -- the trimming passes
  have hrows : trim_rows (jointScaled jp (s2.L.get lchild.id) (s2.L.get rid) d_left
      (st'.maxsubst.get id + 1).toNat 1) (st'.maxsubst.get id + 1).toNat 1 = v.size := by
    rw [trim_rows_one, funext hJ, ← hspec.1, if_neg (by omega)]
  rw [hrows, trim_cols_one] at hjoint
  obtain ⟨hr, hc2, hd2⟩ := pm_normalize_resize (jointScaled jp (s2.L.get lchild.id)
    (s2.L.get rid) d_left (st'.maxsubst.get id + 1).toNat 1) v.size 1
  refine ⟨_, hjoint, fun _ => ⟨hr, hc2⟩, fun n hn => ?_⟩
  rw [margTot_one_col _ hc2 n (by rw [hr]; exact hn), hd2, hspec.2 n]
  simp only [Finset.sum_range_one, hJ]
  rw [← hspec.1, mul_one_div]


/-- The posterior of `zeroRightMod` for the all-missing column: `(1/2, 1/2)`. -/
theorem zeroRight_posterior :
    ∃ v, sub_posterior_distrib_site cutPois (fun _ _ => id)
        (sub_define_jump_process zeroRightMod 3) missingMSA 0 = some v ∧
      v.size = 2 ∧ v.data 0 = 1 / 2 ∧ v.data 1 = 1 / 2 := by
  obtain ⟨D1, hD1, hc1, _, hd1⟩ := symTree_D1 (.node 2 0 (.leaf 0 1) (.leaf 1 0))
  obtain ⟨D0, hD0, hc0, _, hd0⟩ := symTree_D0 (.node 2 0 (.leaf 0 1) (.leaf 1 0))
  have hsize : (sub_define_jump_process zeroRightMod 3).mod.rate_matrix.size = 2 := rfl
  have hroot : (sub_define_jump_process zeroRightMod 3).mod.tree
      = .node 2 0 (.leaf 0 1) (.leaf 1 0) := rfl
  have hfreq : ∀ a, (sub_define_jump_process zeroRightMod 3).mod.backgd_freqs.data a = 1 / 2 :=
    fun _ => rfl
  obtain ⟨s1, h1, m1, fm1, fl1, d1⟩ := posterior_leaf_missing_spec cutPois
    (sub_define_jump_process zeroRightMod 3) missingMSA ⟨1, fun _ => 1, fun _ _ => 42⟩
    (seq_idx (fun _ _ => id) (sub_define_jump_process zeroRightMod 3) missingMSA) 0
    SiteState.init 0 1 (missing_all _)
  obtain ⟨s2, h2, m2, fm2, fl2, d2⟩ := posterior_leaf_missing_spec cutPois
    (sub_define_jump_process zeroRightMod 3) missingMSA ⟨1, fun _ => 1, fun _ _ => 42⟩
    (seq_idx (fun _ _ => id) (sub_define_jump_process zeroRightMod 3) missingMSA) 0 s1 1 0
    (missing_all _)
  obtain ⟨s3, h3, m3, fm3, fl3, d3⟩ := posterior_internal_spec cutPois
    (sub_define_jump_process zeroRightMod 3) missingMSA ⟨1, fun _ => 1, fun _ _ => 42⟩
    (seq_idx (fun _ _ => id) (sub_define_jump_process zeroRightMod 3) missingMSA) 0 s2 2 0
    (.leaf 0 1) (.leaf 1 0) D1 D0 hD1 hD0 (by decide) (by decide)
  simp only [treeNode_leaf_id, hsize, hc1, hc0] at m3 d3
  have e20 : s2.maxsubst.get 0 = 0 := by rw [fm2 0 (by decide), m1]
  have eL0 : ∀ a n, (s2.L.get 0).data a n = if a < 2 ∧ n = 0 then 1 else 0 := by
    intro a n; rw [fl2 0 (by decide), d1]; rfl
  have eL1 : ∀ a n, (s2.L.get 1).data a n = if a < 2 ∧ n = 0 then 1 else 0 := by
    intro a n; rw [d2]; rfl
  rw [e20, m2] at m3 d3
  have hmax : max ((0 : Int) + ((2 : Nat) : Int) - 1) (0 + ((1 : Nat) : Int) - 1) = 1 := rfl
  rw [hmax] at m3 d3
  have hrun := sub_posterior_distrib_site_some cutPois (fun _ _ => id)
    (sub_define_jump_process zeroRightMod 3) missingMSA 0 ⟨1, fun _ => 1, fun _ _ => 42⟩ s3 rfl
    rfl (by
      rw [hroot]
      simp only [tr_postorder, List.cons_append, List.nil_append, posterior_traversal_cons,
        posterior_traversal_nil, Option.some_bind, h1, h2, h3])
  refine ⟨_, hrun, ?_⟩
  have hN : (s3.maxsubst.get (sub_define_jump_process zeroRightMod 3).mod.tree.id + 1).toNat
      = 2 := by
    rw [hroot]
    show (s3.maxsubst.get 2 + 1).toNat = 2
    rw [m3]
    rfl
  have hvec : ∀ n, n < 2 → rootVec (sub_define_jump_process zeroRightMod 3) s3 n = 1 / 2 := by
    intro n hn
    unfold rootVec
    rw [hN, if_pos hn, hsize, hroot]
    have hN2 : ((1 : Int) + 1).toNat = 2 := rfl
    have w1 : winLo 0 2 = 0 := rfl
    have w2 : winLo 1 2 = 0 := rfl
    have w3 : winHi 0 0 = 1 := rfl
    have w4 : winHi 1 0 = 1 := rfl
    simp only [treeNode_node_id, Finset.sum_range_succ, Finset.sum_range_zero, zero_add, hfreq,
      d3, hN2, hn, if_true]
    rw [splitSum_zero_right 2 _ _ _ _ _ 0 n (by decide) hc0 (fun b hb => hd0 0 b (by decide) hb),
      splitSum_zero_right 2 _ _ _ _ _ 1 n (by decide) hc0 (fun b hb => hd0 1 b (by decide) hb)]
    interval_cases n <;>
      norm_num [childSum, Finset.sum_range_succ, hc1, w1, w2, w3, w4, eL0, eL1, hd1]
  have h2 := posterior_root_two (sub_define_jump_process zeroRightMod 3) s3 (1 / 2) (1 / 2) hN
    (hvec 0 (by decide)) (hvec 1 (by decide)) (by norm_num) (by norm_num [trimThreshold])
  exact ⟨h2.1, h2.2.1.trans (by norm_num), h2.2.2.trans (by norm_num)⟩

/-- Where the bound `maxsubst[root]` is exact the two site functions agree: for a jump
process built by `sub_define_jump_process` on a tree whose root's right child is a leaf on
a branch of length 0 (the root and its two children having three distinct ids), when the
Poisson vector of a branch of length 0 has exactly one entry, which is not 0, and
`sub_posterior_distrib_site` returns the vector `v` for a column: `sub_joint_distrib_site`
returns a matrix for the same column, and for every `n < v.size` the sum of `data[n1][n2]`
over `n1 + n2 = n` is `v.data[n]`; when `v` is not empty the matrix has `v.size` rows and
one column. For a column of likelihood 0 the vector `v` of the model is empty and nothing
is said. -/
theorem joint_marginal_zero_right_leaf (pv_poisson : ℚ → Vector)
    (tm_build_seq_idx : TreeModel → MSA → Nat → Nat) (mod : TreeModel) (njumps_max : Nat)
    (msa : MSA) (tuple_idx : Nat) (id : Nat) (d : ℚ) (lchild : TreeNode) (rid : Nat)
    (v : Vector)
    (hroot : mod.tree = .node id d lchild (.leaf rid 0))
    (hidl : lchild.id ≠ id) (hidr : rid ≠ id) (hlr : rid ≠ lchild.id)
    (hp1 : (pv_poisson ((sub_define_jump_process mod njumps_max).lambda * 0)).size = 1)
    (hp0 : (pv_poisson ((sub_define_jump_process mod njumps_max).lambda * 0)).data 0 ≠ 0)
    (hv : sub_posterior_distrib_site pv_poisson tm_build_seq_idx
      (sub_define_jump_process mod njumps_max) msa tuple_idx = some v) :
    ∃ M, sub_joint_distrib_site pv_poisson tm_build_seq_idx
        (sub_define_jump_process mod njumps_max) (some msa) tuple_idx = some M ∧
      (0 < v.size → M.nrows = v.size ∧ M.ncols = 1) ∧
      ∀ n, n < v.size → margTot M n = v.data n := by
  refine zero_right_leaf_joint pv_poisson tm_build_seq_idx _ msa tuple_idx id d lchild rid v
    hroot hidl hidr hlr ?_ hv
  intro D hD a b ha hb
  have hlt := cond_some_lt _ _ _ _ hD
  obtain ⟨D2, hD2, hspec⟩ := cond_zero_length_spec pv_poisson mod njumps_max
    (by rw [hp1]; exact Nat.zero_lt_one) hp0
    (fun j hj hjlt => by rw [hp1] at hjlt; omega) hlt
  have hDD : D2 = D := Option.some.inj (hD2.symm.trans hD)
  subst hDD
  have h := hspec a b ha hb
  exact ⟨h.1.trans hp1, h.2.1⟩

/-- The agreement of the two site functions on `zeroRightMod` for the all-missing
column. -/
theorem joint_marginal_zero_right_leaf_example :
    ∃ v M,
      sub_posterior_distrib_site cutPois (fun _ _ => id)
        (sub_define_jump_process zeroRightMod 3) missingMSA 0 = some v ∧
      v.size = 2 ∧
      sub_joint_distrib_site cutPois (fun _ _ => id)
        (sub_define_jump_process zeroRightMod 3) (some missingMSA) 0 = some M ∧
      (0 < v.size → M.nrows = v.size ∧ M.ncols = 1) ∧
      ∀ n, n < v.size → margTot M n = v.data n := by
  obtain ⟨v, hv, hvs, _, _⟩ := zeroRight_posterior
  obtain ⟨M, hM, h1, h2⟩ := joint_marginal_zero_right_leaf cutPois (fun _ _ => id)
    zeroRightMod 3 missingMSA 0 2 0 (.leaf 0 1) 1 v rfl (by decide) (by decide) (by decide)
    (by simp [cutPois]) (by simp [cutPois]) hv
  exact ⟨v, M, hv, hvs, hM, h1, h2⟩


/-! ## Linearity and conservation of mass of the recurrence -/

/-- The rows of the jump matrix sum to 1 when the rows of the rate matrix sum to 0. -/
theorem R_row_sum (mod : TreeModel) (njumps_max : Nat) (i : Nat) (hi : i < mod.rate_matrix.size)
    (hrow : ∑ j in Finset.range mod.rate_matrix.size, mod.rate_matrix.mm_get i j = 0) :
    ∑ j in Finset.range mod.rate_matrix.size,
      (sub_define_jump_process mod njumps_max).R.data i j = 1 := by
  have h1 : ∀ j, j ∈ Finset.range mod.rate_matrix.size →
      (sub_define_jump_process mod njumps_max).R.data i j
        = mod.rate_matrix.mm_get i j / lambdaLoop mod.rate_matrix mod.rate_matrix.size
          + (if i = j then 1 else 0) := by
    intro j hj
    rw [R_data_eq, if_pos ⟨hi, Finset.mem_range.mp hj⟩]
    unfold jumpEntry
    by_cases hij : i = j
    · rw [if_pos hij, if_pos hij]
    · rw [if_neg hij, if_neg hij, add_zero]
  rw [Finset.sum_congr rfl h1, Finset.sum_add_distrib, ← Finset.sum_div, hrow, zero_div,
    zero_add, Finset.sum_ite_eq, if_pos (Finset.mem_range.mpr hi)]

/-- The recurrence is linear in the initial distribution. -/
theorem jumpTable_linear (R : Matrix) (size : Nat) (c : Nat → ℚ) (j : Nat) :
    ∀ i n, jumpTable R size (fun i => if i < size then c i else 0) j i n
      = ∑ a in Finset.range size,
          c a * jumpTable R size (fun i => if i = a then 1 else 0) j i n := by
  induction j with
  | zero =>
    intro i n
    simp only [jumpTable]
    by_cases hn : n = 0
    · simp only [hn, if_true, mul_ite, mul_one, mul_zero]
      rw [Finset.sum_ite_eq]
      simp only [Finset.mem_range]
    · simp only [hn, if_false, mul_zero, Finset.sum_const_zero]
  | succ j ih =>
    intro i n
    simp only [jumpTable]
    by_cases hc : i < size ∧ n ≤ j + 1
    · simp only [hc, and_self, if_true]
      rw [ih i n]
      by_cases hn : n > 0
      · simp only [hn, if_true]
        simp only [mul_add, Finset.sum_add_distrib, Finset.sum_mul, Finset.mul_sum]
        congr 1
        · refine Finset.sum_congr rfl (fun a _ => ?_)
          ring
        · rw [Finset.sum_comm]
          refine Finset.sum_congr rfl (fun k _ => ?_)
          by_cases hk : k = i
          · simp only [hk, if_true, mul_zero, Finset.sum_const_zero]
          · simp only [hk, if_false]
            rw [ih k (n - 1), Finset.sum_mul]
            refine Finset.sum_congr rfl (fun a _ => ?_)
            ring
      · simp only [hn, if_false, add_zero, Finset.sum_mul]
        refine Finset.sum_congr rfl (fun a _ => ?_)
        ring
    · simp only [hc, if_false, mul_zero, Finset.sum_const_zero]


/-- One step of the recurrence for a base `i < size`, without the bound on `n`. -/
theorem jumpTable_step (R : Matrix) (size : Nat) (init : Nat → ℚ) (j i n : Nat)
    (hi : i < size) :
    jumpTable R size init (j + 1) i n
      = jumpTable R size init j i n * R.data i i +
        (if n > 0 then
          ∑ k in Finset.range size,
            (if k = i then 0 else jumpTable R size init j k (n - 1) * R.data k i)
         else 0) := by
  rw [jumpTable]
  by_cases hn : n ≤ j + 1
  · rw [if_pos ⟨hi, hn⟩]
  · rw [if_neg (fun h => hn h.2), jumpTable_zero_above R size init j i n (by omega), zero_mul,
      zero_add, if_pos (by omega)]
    symm
    apply Finset.sum_eq_zero
    intro k _
    rw [jumpTable_zero_above R size init j k (n - 1) (by omega), zero_mul, ite_self]

/-- Summed over the final base, one step of the recurrence shifts the substitution count
by at most one and keeps the mass, when the rows of `R` sum to 1. -/
theorem jumpTable_step_sum (R : Matrix) (size : Nat) (init : Nat → ℚ)
    (hR : ∀ k, k < size → ∑ i in Finset.range size, R.data k i = 1) (j n : Nat) :
    ∑ i in Finset.range size,
        (jumpTable R size init j i n * R.data i i +
          ∑ k in Finset.range size,
            (if k = i then 0 else jumpTable R size init j k n * R.data k i))
      = ∑ k in Finset.range size, jumpTable R size init j k n := by
  rw [Finset.sum_add_distrib, Finset.sum_comm, ← Finset.sum_add_distrib]
  refine Finset.sum_congr rfl (fun k hk => ?_)
  have hk2 := Finset.mem_range.mp hk
  have hsplit : ∑ i in Finset.range size, R.data k i
      = R.data k k + ∑ i in Finset.range size, (if k = i then 0 else R.data k i) := by
    have h1 : ∀ i, i ∈ Finset.range size →
        R.data k i = (if k = i then R.data k i else 0) + (if k = i then 0 else R.data k i) := by
      intro i _
      by_cases hki : k = i
      · rw [if_pos hki, if_pos hki, add_zero]
      · rw [if_neg hki, if_neg hki, zero_add]
    rw [Finset.sum_congr rfl h1, Finset.sum_add_distrib, Finset.sum_ite_eq, if_pos hk]
  have hmul : ∑ i in Finset.range size,
        (if k = i then 0 else jumpTable R size init j k n * R.data k i)
      = jumpTable R size init j k n
          * ∑ i in Finset.range size, (if k = i then 0 else R.data k i) := by
    rw [Finset.mul_sum]
    refine Finset.sum_congr rfl (fun i _ => ?_)
    by_cases hki : k = i
    · rw [if_pos hki, if_pos hki, mul_zero]
    · rw [if_neg hki, if_neg hki]
  rw [hmul, ← mul_add, ← hsplit, hR k hk2, mul_one]

/-- Summed over the substitution counts below `K + 1`, with `j < K`, one step of the
recurrence for the base `i`. -/
theorem jumpTable_step_counts (R : Matrix) (size : Nat) (init : Nat → ℚ) (j i K : Nat)
    (hi : i < size) (hK : j < K) :
    ∑ n in Finset.range (K + 1), jumpTable R size init (j + 1) i n
      = ∑ n in Finset.range K,
          (jumpTable R size init j i n * R.data i i +
            ∑ k in Finset.range size,
              (if k = i then 0 else jumpTable R size init j k n * R.data k i)) := by
  rw [Finset.sum_congr rfl (fun n _ => jumpTable_step R size init j i n hi),
    Finset.sum_add_distrib, Finset.sum_add_distrib, Finset.sum_range_succ,
    jumpTable_zero_above R size init j i K hK, zero_mul, add_zero, Finset.sum_range_succ']
  congr 1
  rw [if_neg (by omega), add_zero]
  refine Finset.sum_congr rfl (fun n _ => ?_)
  rw [if_pos (by omega), Nat.add_sub_cancel]

/-- Conservation of mass: over all final bases and all substitution counts the table of
`j` jumps sums to the mass of the initial distribution. -/
theorem jumpTable_mass (R : Matrix) (size : Nat) (init : Nat → ℚ)
    (hR : ∀ k, k < size → ∑ i in Finset.range size, R.data k i = 1) (j : Nat) :
    ∀ K, j < K → ∑ i in Finset.range size, ∑ n in Finset.range K, jumpTable R size init j i n
      = ∑ i in Finset.range size, init i := by
  induction j with
  | zero =>
    intro K hK
    refine Finset.sum_congr rfl (fun i _ => ?_)
    simp only [jumpTable]
    rw [Finset.sum_ite_eq', if_pos (Finset.mem_range.mpr hK)]
  | succ j ih =>
    intro K hK
    obtain ⟨K2, rfl⟩ : ∃ K2, K = K2 + 1 := ⟨K - 1, by omega⟩
    have hK2 : j < K2 := by omega
    rw [← ih K2 hK2,
      Finset.sum_congr rfl (fun i hi =>
        jumpTable_step_counts R size init j i K2 (Finset.mem_range.mp hi) hK2),
      Finset.sum_comm,
      Finset.sum_congr rfl (fun n _ => jumpTable_step_sum R size init hR j n),
      Finset.sum_comm]

/-- The total of the conditional mixture for a start base is the total of the Poisson
vector, when the rows of the rate matrix sum to 0. -/
theorem condMix_total (mod : TreeModel) (njumps_max : Nat) (pois : Vector)
    (hrow : ∀ i, i < mod.rate_matrix.size →
      ∑ j in Finset.range mod.rate_matrix.size, mod.rate_matrix.mm_get i j = 0)
    (hlt : pois.size < njumps_max) (a : Nat) (ha : a < mod.rate_matrix.size) :
    ∑ b in Finset.range mod.rate_matrix.size, ∑ n in Finset.range pois.size,
        condMix (sub_define_jump_process mod njumps_max) pois a b n
      = ∑ j in Finset.range pois.size, pois.data j := by
  have hB : ∀ b n j, j ∈ Finset.range pois.size →
      (((sub_define_jump_process mod njumps_max).B.get a).get b).data n j * pois.data j
        = jumpTable (sub_define_jump_process mod njumps_max).R mod.rate_matrix.size
            (fun i => if i = a then 1 else 0) j b n * pois.data j := by
    intro b n j hj
    rw [B_data mod njumps_max a b n j (by have := Finset.mem_range.mp hj; omega) ha]
  unfold condMix
  simp only [Finset.sum_congr rfl (hB _ _)]
  have hswap : ∀ b, b ∈ Finset.range mod.rate_matrix.size →
      ∑ n in Finset.range pois.size, ∑ j in Finset.range pois.size,
        jumpTable (sub_define_jump_process mod njumps_max).R mod.rate_matrix.size
            (fun i => if i = a then 1 else 0) j b n * pois.data j
      = ∑ j in Finset.range pois.size, ∑ n in Finset.range pois.size,
        jumpTable (sub_define_jump_process mod njumps_max).R mod.rate_matrix.size
            (fun i => if i = a then 1 else 0) j b n * pois.data j :=
    fun b _ => Finset.sum_comm
  rw [Finset.sum_congr rfl hswap, Finset.sum_comm]
  refine Finset.sum_congr rfl (fun j hj => ?_)
  simp only [← Finset.sum_mul]
  rw [jumpTable_mass _ _ _ (fun k hk => R_row_sum mod njumps_max k hk (hrow k hk)) j pois.size
    (Finset.mem_range.mp hj), Finset.sum_ite_eq', if_pos (Finset.mem_range.mpr ha), one_mul]

/-- A sum over the indices other than `i`, written with a guard. -/
theorem sum_erase_eq_ite (s : Finset Nat) (i : Nat) (f : Nat → ℚ) :
    ∑ k in s.erase i, f k = ∑ k in s, (if k = i then 0 else f k) := by
  rw [← Finset.sum_erase s (f := fun k => if k = i then 0 else f k) (a := i) (if_pos rfl)]
  refine Finset.sum_congr rfl (fun k hk => ?_)
  rw [if_neg (Finset.ne_of_mem_erase hk)]

/-- C11. For every `jmax` (so also for `jmax >= 1`) the tables returned by `get_substs_and_bases_given_jumps` hold the
base case at `[0][0]` (the background frequency of the base when unconditioned; 1 for the
table of the start base and 0 for every other table when conditioned) and satisfy, for
`1 <= j < jmax`, `n <= j` and every base `i`, the recurrence
`A[i][n][j] = A[i][n][j-1] * R_ii + sum over k != i of A[k][n-1][j-1] * R_ki`, the sum
being absent for `n = 0`. -/
theorem C11_tables_base_case_and_recurrence (jp : JumpProcess) (jmax : Nat)
    (condition_on : Int) :
    (condition_on < 0 → ∀ i, i < jp.R.nrows →
      ((get_substs_and_bases_given_jumps jp jmax condition_on).get i).data 0 0
        = jp.mod.backgd_freqs.data i) ∧
    (0 ≤ condition_on → ∀ i,
      ((get_substs_and_bases_given_jumps jp jmax condition_on).get i).data 0 0
        = if i = condition_on.toNat then 1 else 0) ∧
    (∀ j n i, 1 ≤ j → j < jmax → n ≤ j → i < jp.R.nrows →
      ((get_substs_and_bases_given_jumps jp jmax condition_on).get i).data n j
        = ((get_substs_and_bases_given_jumps jp jmax condition_on).get i).data n (j - 1)
            * jp.R.data i i
          + (if n > 0 then
              ∑ k in (Finset.range jp.R.nrows).erase i,
                ((get_substs_and_bases_given_jumps jp jmax condition_on).get k).data (n - 1)
                  (j - 1) * jp.R.data k i
             else 0)) := by
  refine ⟨?_, ?_, ?_⟩
  · intro hc i hi
    rw [get_substs_col0, if_pos rfl, if_pos hc, if_pos hi]
  · intro hc i
    rw [get_substs_col0, if_pos rfl, if_neg (not_lt.mpr hc)]
  · intro j n i hj1 hj hn hi
    obtain ⟨j2, rfl⟩ : ∃ j2, j = j2 + 1 := ⟨j - 1, by omega⟩
    have hj2 : j2 < jmax := by omega
    rw [get_substs_eq jp jmax condition_on i n (j2 + 1) hj, Nat.add_sub_cancel,
      get_substs_eq jp jmax condition_on i n j2 hj2, jumpTable, if_pos ⟨hi, hn⟩,
      sum_erase_eq_ite]
    congr 1
    by_cases hn0 : n > 0
    · rw [if_pos hn0, if_pos hn0]
      refine Finset.sum_congr rfl (fun k _ => ?_)
      rw [get_substs_eq jp jmax condition_on k (n - 1) j2 hj2]
    · rw [if_neg hn0, if_neg hn0]

theorem C11_tables_base_case_and_recurrence_witness :
    ((get_substs_and_bases_given_jumps (sub_define_jump_process symMod 3) 3 (-1)).get 0).data
        0 0 = (sub_define_jump_process symMod 3).mod.backgd_freqs.data 0 ∧
    ((get_substs_and_bases_given_jumps (sub_define_jump_process symMod 3) 3 1).get 1).data
        0 0 = 1 ∧
    ((get_substs_and_bases_given_jumps (sub_define_jump_process symMod 3) 3 (-1)).get 0).data
          1 2
        = ((get_substs_and_bases_given_jumps (sub_define_jump_process symMod 3) 3
            (-1)).get 0).data 1 (2 - 1) * (sub_define_jump_process symMod 3).R.data 0 0
          + (if 1 > 0 then
              ∑ k in (Finset.range (sub_define_jump_process symMod 3).R.nrows).erase 0,
                ((get_substs_and_bases_given_jumps (sub_define_jump_process symMod 3) 3
                  (-1)).get k).data (1 - 1) (2 - 1)
                  * (sub_define_jump_process symMod 3).R.data k 0
             else 0) := by
  have hn : 0 < (sub_define_jump_process symMod 3).R.nrows := by
    rw [R_nrows_eq]
    decide
  exact ⟨(C11_tables_base_case_and_recurrence (sub_define_jump_process symMod 3) 3 (-1)).1
      (by decide) 0 hn,
    (C11_tables_base_case_and_recurrence (sub_define_jump_process symMod 3) 3 1).2.1
      (by decide) 1,
    (C11_tables_base_case_and_recurrence (sub_define_jump_process symMod 3) 3 (-1)).2.2 2 1 0
      (by decide) (by decide) (by decide) hn⟩

/-! ## The triangle of the tables and the indices of the recurrence -/

/-- Every write of the recurrence is on or below the diagonal `n = j`, in a column
`1 <= j < jmax`. -/
theorem get_substs_writes_le (jp : JumpProcess) (jmax : Nat) (x : Nat × Nat × Nat)
    (hx : x ∈ get_substs_writes jp jmax) :
    x.2.1 ≤ x.2.2 ∧ 1 ≤ x.2.2 ∧ x.2.2 < jmax := by
  revert x
  unfold get_substs_writes forRange
  refine forUpTo_inv (fun log : List (Nat × Nat × Nat) => ∀ x ∈ log,
    x.2.1 ≤ x.2.2 ∧ 1 ≤ x.2.2 ∧ x.2.2 < jmax) _ _ _
    (fun x hx => absurd hx (List.not_mem_nil x)) ?_
  intro d log1 hd h1
  refine forUpTo_inv (fun log : List (Nat × Nat × Nat) => ∀ x ∈ log,
    x.2.1 ≤ x.2.2 ∧ 1 ≤ x.2.2 ∧ x.2.2 < jmax) _ _ _ h1 ?_
  intro n log2 hn h2
  refine forUpTo_inv (fun log : List (Nat × Nat × Nat) => ∀ x ∈ log,
    x.2.1 ≤ x.2.2 ∧ 1 ≤ x.2.2 ∧ x.2.2 < jmax) _ _ _ h2 ?_
  intro i log3 _ h3
  have hnew : ∀ x ∈ (i, n, 1 + d) :: log3, x.2.1 ≤ x.2.2 ∧ 1 ≤ x.2.2 ∧ x.2.2 < jmax := by
    intro x hx
    rcases List.mem_cons.mp hx with h | h
    · rw [h]
      refine ⟨?_, ?_, ?_⟩ <;> dsimp only <;> omega
    · exact h3 x h
  simp only
  by_cases hn0 : n > 0
  · rw [if_pos hn0]
    refine forUpTo_inv (fun log : List (Nat × Nat × Nat) => ∀ x ∈ log,
      x.2.1 ≤ x.2.2 ∧ 1 ≤ x.2.2 ∧ x.2.2 < jmax) _ _ _ hnew ?_
    intro k log4 _ h4
    by_cases hk : k = i
    · rw [if_pos hk]
      exact h4
    · rw [if_neg hk]
      intro x hx
      rcases List.mem_cons.mp hx with h | h
      · rw [h]
        refine ⟨?_, ?_, ?_⟩ <;> dsimp only <;> omega
      · exact h4 x h
  · rw [if_neg hn0]
    exact hnew

/-- Every read of the recurrence is at most one row above the diagonal, inside the
`jmax` x `jmax` table. -/
theorem get_substs_reads_le (jp : JumpProcess) (jmax : Nat) (x : Nat × Nat × Nat)
    (hx : x ∈ get_substs_reads jp jmax) :
    x.2.1 ≤ x.2.2 + 1 ∧ x.2.1 < jmax ∧ x.2.2 < jmax := by
  revert x
  unfold get_substs_reads forRange
  refine forUpTo_inv (fun log : List (Nat × Nat × Nat) => ∀ x ∈ log,
    x.2.1 ≤ x.2.2 + 1 ∧ x.2.1 < jmax ∧ x.2.2 < jmax) _ _ _
    (fun x hx => absurd hx (List.not_mem_nil x)) ?_
  intro d log1 hd h1
  refine forUpTo_inv (fun log : List (Nat × Nat × Nat) => ∀ x ∈ log,
    x.2.1 ≤ x.2.2 + 1 ∧ x.2.1 < jmax ∧ x.2.2 < jmax) _ _ _ h1 ?_
  intro n log2 hn h2
  refine forUpTo_inv (fun log : List (Nat × Nat × Nat) => ∀ x ∈ log,
    x.2.1 ≤ x.2.2 + 1 ∧ x.2.1 < jmax ∧ x.2.2 < jmax) _ _ _ h2 ?_
  intro i log3 _ h3
  have hnew : ∀ x ∈ (i, n, 1 + d - 1) :: log3,
      x.2.1 ≤ x.2.2 + 1 ∧ x.2.1 < jmax ∧ x.2.2 < jmax := by
    intro x hx
    rcases List.mem_cons.mp hx with h | h
    · rw [h]
      refine ⟨?_, ?_, ?_⟩ <;> dsimp only <;> omega
    · exact h3 x h
  simp only
  by_cases hn0 : n > 0
  · rw [if_pos hn0]
    refine forUpTo_inv (fun log : List (Nat × Nat × Nat) => ∀ x ∈ log,
      x.2.1 ≤ x.2.2 + 1 ∧ x.2.1 < jmax ∧ x.2.2 < jmax) _ _ _ hnew ?_
    intro k log4 _ h4
    by_cases hk : k = i
    · rw [if_pos hk]
      exact h4
    · rw [if_neg hk]
      intro x hx
      rcases List.mem_cons.mp hx with h | h
      · rw [h]
        refine ⟨?_, ?_, ?_⟩ <;> dsimp only <;> omega
      · rcases List.mem_cons.mp h with h | h
        · rw [h]
          refine ⟨?_, ?_, ?_⟩ <;> dsimp only <;> omega
        · exact h4 x h
  · rw [if_neg hn0]
    exact hnew


theorem get_substs_reads_symMod :
    (0, 1, 0) ∈ get_substs_reads (sub_define_jump_process symMod 3) 3 := by
  unfold get_substs_reads
  simp only [R_nrows_eq]
  decide

/-- C12 (as stated) fails: building the tables of the 2-state symmetric model with
`njumps_max = 3`, the recurrence reads `A[0]->data[1][0]` (line 43 at `j = 1`, `n = 1`), an
entry with `n > j`. -/
theorem C12_counterexample :
    ∃ x ∈ get_substs_reads (sub_define_jump_process symMod 3) 3, ¬ (x.2.1 ≤ x.2.2) :=
  ⟨(0, 1, 0), get_substs_reads_symMod, by decide⟩

/-- C12 (amended). In every table `A[b]` and `B[a][b]` built by `sub_define_jump_process`
the entry at `(n, j)` is 0 whenever `n > j`, for `j < njumps_max`; the recurrence writes
only entries with `n <= j < njumps_max`, and reads only entries with `n <= j + 1` whose
row and column are both below `njumps_max`. -/
theorem C12_triangular_tables_and_recurrence_indices (mod : TreeModel) (njumps_max : Nat) :
    (∀ b n j, j < njumps_max → j < n →
      ((sub_define_jump_process mod njumps_max).A.get b).data n j = 0) ∧
    (∀ a b n j, a < mod.rate_matrix.size → j < njumps_max → j < n →
      (((sub_define_jump_process mod njumps_max).B.get a).get b).data n j = 0) ∧
    (∀ x ∈ get_substs_writes (sub_define_jump_process mod njumps_max) njumps_max,
      x.2.1 ≤ x.2.2 ∧ x.2.2 < njumps_max) ∧
    (∀ x ∈ get_substs_reads (sub_define_jump_process mod njumps_max) njumps_max,
      x.2.1 ≤ x.2.2 + 1 ∧ x.2.1 < njumps_max ∧ x.2.2 < njumps_max) := by
  refine ⟨?_, ?_, ?_, ?_⟩
  · intro b n j hj hn
    rw [A_data mod njumps_max b n j hj]
    exact jumpTable_zero_above _ _ _ _ _ _ hn
  · intro a b n j ha hj hn
    rw [B_data mod njumps_max a b n j hj ha]
    exact jumpTable_zero_above _ _ _ _ _ _ hn
  · intro x hx
    have h := get_substs_writes_le _ _ x hx
    exact ⟨h.1, h.2.2⟩
  · intro x hx
    exact get_substs_reads_le _ _ x hx

theorem C12_triangular_tables_and_recurrence_indices_witness :
    ((sub_define_jump_process symMod 3).A.get 0).data 2 1 = 0 ∧
    (((sub_define_jump_process symMod 3).B.get 1).get 0).data 2 1 = 0 ∧
    ((0, 1, 0) ∈ get_substs_reads (sub_define_jump_process symMod 3) 3 ∧
      (1 : Nat) ≤ 0 + 1 ∧ 1 < 3 ∧ 0 < 3) :=
  ⟨(C12_triangular_tables_and_recurrence_indices symMod 3).1 0 2 1 (by decide) (by decide),
    (C12_triangular_tables_and_recurrence_indices symMod 3).2.1 1 0 2 1 (by decide) (by decide)
      (by decide),
    get_substs_reads_symMod,
    (C12_triangular_tables_and_recurrence_indices symMod 3).2.2.2 (0, 1, 0)
      get_substs_reads_symMod⟩

/-! ## The leaf rule -/

/-- The leaf rule for an observed character with a valid alphabet index (lines 216-219),
as a specification of the new state. -/
theorem posterior_leaf_observed_spec (pv_poisson : ℚ → Vector) (jp : JumpProcess) (msa : MSA)
    (ss : SuffStats) (idx : Nat → Nat) (tuple_idx : Nat) (st : SiteState) (id : Nat) (d : ℚ)
    (h1 : ¬ (msa.is_missing (ss.col_char tuple_idx (idx id))
      || ss.col_char tuple_idx (idx id) == GAP_CHAR) = true)
    (h2 : 0 ≤ msa.inv_alphabet (ss.col_char tuple_idx (idx id))) :
    ∃ st', posterior_node pv_poisson jp msa ss idx tuple_idx st (.leaf id d) = some st' ∧
      st'.maxsubst.get id = 0 ∧
      ∀ a n, (st'.L.get id).data a n
        = if a = (msa.inv_alphabet (ss.col_char tuple_idx (idx id))).toNat ∧ n = 0 then 1
          else 0 := by
  have hnode : posterior_node pv_poisson jp msa ss idx tuple_idx st (.leaf id d)
      = some ⟨setEntry (st.L.set id (mat_zero (mat_new jp.mod.rate_matrix.size 500))) id
          (msa.inv_alphabet (ss.col_char tuple_idx (idx id))).toNat 0 1,
          st.maxsubst.set id 0⟩ := by
    simp only [posterior_node, TreeNode.id]
    rw [if_neg h1, if_pos h2]
  refine ⟨_, hnode, ?_, ?_⟩
  · simp only [intArray_set_get, if_true]
  · intro a n
    simp only
    rw [setEntry_data, matrixArray_set_get, if_pos rfl]
    by_cases hc : a = (msa.inv_alphabet (ss.col_char tuple_idx (idx id))).toNat ∧ n = 0
    · rw [if_pos ⟨rfl, hc⟩, if_pos hc]
    · rw [if_neg (fun h => hc h.2), if_neg hc]
      rfl

/-- The leaf rule for an observed character without an alphabet index: the assertion of
line 217 fails. -/
theorem posterior_leaf_invalid (pv_poisson : ℚ → Vector) (jp : JumpProcess) (msa : MSA)
    (ss : SuffStats) (idx : Nat → Nat) (tuple_idx : Nat) (st : SiteState) (id : Nat) (d : ℚ)
    (h1 : ¬ (msa.is_missing (ss.col_char tuple_idx (idx id))
      || ss.col_char tuple_idx (idx id) == GAP_CHAR) = true)
    (h2 : msa.inv_alphabet (ss.col_char tuple_idx (idx id)) < 0) :
    posterior_node pv_poisson jp msa ss idx tuple_idx st (.leaf id d) = none := by
  simp only [posterior_node, TreeNode.id]
  rw [if_neg h1, if_neg (not_le.mpr h2)]

/-- A step of the joint traversal that mirrors a successful posterior step. -/
theorem joint_node_of_posterior (pv_poisson : ℚ → Vector) (jp : JumpProcess) (msa : MSA)
    (ss : SuffStats) (idx : Nat → Nat) (tuple_idx : Nat) (hss : msa.ss = some ss)
    (jst : JointState) (node : TreeNode) (st' : SiteState)
    (h : posterior_node pv_poisson jp msa ss idx tuple_idx jst.site node = some st') :
    ∃ jst', joint_node pv_poisson jp (some msa) idx tuple_idx jst node = some jst' ∧
      jst'.L = st'.L ∧ jst'.maxsubst = st'.maxsubst := by
  have hsim := joint_node_sim pv_poisson jp msa ss idx tuple_idx hss jst node
  rw [h] at hsim
  obtain ⟨jst', hj, hsite⟩ := Option.map_eq_some'.mp hsim
  exact ⟨jst', hj, congrArg SiteState.L hsite, congrArg SiteState.maxsubst hsite⟩


/-- The leaf rule of `sub_joint_distrib_site` when no alignment is given (lines 381-383,
389). -/
theorem joint_leaf_no_msa (pv_poisson : ℚ → Vector) (jp : JumpProcess) (idx : Nat → Nat)
    (tuple_idx : Nat) (jst : JointState) (id : Nat) (d : ℚ) :
    ∃ jst', joint_node pv_poisson jp none idx tuple_idx jst (.leaf id d) = some jst' ∧
      jst'.maxsubst.get id = 0 ∧
      ∀ a n, (jst'.L.get id).data a n
        = if a < jp.mod.rate_matrix.size ∧ n = 0 then 1 else 0 := by
  refine ⟨_, rfl, ?_, ?_⟩
  · simp only [intArray_set_get, if_true]
  · intro a n
    simp only [TreeNode.id]
    rw [leaf_fill_data, matrixArray_set_get, if_pos rfl]
    by_cases hc : a < jp.mod.rate_matrix.size ∧ n = 0
    · rw [if_pos ⟨rfl, hc⟩, if_pos hc]
    · rw [if_neg (fun h => hc h.2), if_neg hc]
      rfl

/-- C13. For a leaf visited by `sub_posterior_distrib_site` or `sub_joint_distrib_site`:
when the character is missing or the gap character (or, in the joint function, when no
alignment is given) `L[leaf]->data[a][0] = 1` for every base `a`; otherwise
`L[leaf]->data[a][0] = 1` exactly for the alphabet index of the character, and the step
fails when that index is negative; every entry with `n > 0` is 0 and `maxsubst[leaf] = 0`. -/
theorem C13_leaf_tables (pv_poisson : ℚ → Vector) (jp : JumpProcess) (msa : MSA)
    (ss : SuffStats) (idx : Nat → Nat) (tuple_idx : Nat) (st : SiteState) (jst : JointState)
    (id : Nat) (d : ℚ) (hss : msa.ss = some ss) :
    ((msa.is_missing (ss.col_char tuple_idx (idx id))
        || ss.col_char tuple_idx (idx id) == GAP_CHAR) = true →
      (∃ st', posterior_node pv_poisson jp msa ss idx tuple_idx st (.leaf id d) = some st' ∧
        st'.maxsubst.get id = 0 ∧
        ∀ a n, (st'.L.get id).data a n
          = if a < jp.mod.rate_matrix.size ∧ n = 0 then 1 else 0) ∧
      (∃ jst', joint_node pv_poisson jp (some msa) idx tuple_idx jst (.leaf id d)
          = some jst' ∧
        jst'.maxsubst.get id = 0 ∧
        ∀ a n, (jst'.L.get id).data a n
          = if a < jp.mod.rate_matrix.size ∧ n = 0 then 1 else 0)) ∧
    (¬ (msa.is_missing (ss.col_char tuple_idx (idx id))
        || ss.col_char tuple_idx (idx id) == GAP_CHAR) = true →
      0 ≤ msa.inv_alphabet (ss.col_char tuple_idx (idx id)) →
      (∃ st', posterior_node pv_poisson jp msa ss idx tuple_idx st (.leaf id d) = some st' ∧
        st'.maxsubst.get id = 0 ∧
        ∀ a n, (st'.L.get id).data a n
          = if a = (msa.inv_alphabet (ss.col_char tuple_idx (idx id))).toNat ∧ n = 0 then 1
            else 0) ∧
      (∃ jst', joint_node pv_poisson jp (some msa) idx tuple_idx jst (.leaf id d)
          = some jst' ∧
        jst'.maxsubst.get id = 0 ∧
        ∀ a n, (jst'.L.get id).data a n
          = if a = (msa.inv_alphabet (ss.col_char tuple_idx (idx id))).toNat ∧ n = 0 then 1
            else 0)) ∧
    (¬ (msa.is_missing (ss.col_char tuple_idx (idx id))
        || ss.col_char tuple_idx (idx id) == GAP_CHAR) = true →
      msa.inv_alphabet (ss.col_char tuple_idx (idx id)) < 0 →
      posterior_node pv_poisson jp msa ss idx tuple_idx st (.leaf id d) = none ∧
      joint_node pv_poisson jp (some msa) idx tuple_idx jst (.leaf id d) = none) ∧
    (∃ jst', joint_node pv_poisson jp none idx tuple_idx jst (.leaf id d) = some jst' ∧
      jst'.maxsubst.get id = 0 ∧
      ∀ a n, (jst'.L.get id).data a n
        = if a < jp.mod.rate_matrix.size ∧ n = 0 then 1 else 0) := by
  refine ⟨?_, ?_, ?_, joint_leaf_no_msa pv_poisson jp idx tuple_idx jst id d⟩
  · intro h
    obtain ⟨st', h1, h2, _, _, h3⟩ := posterior_leaf_missing_spec pv_poisson jp msa ss idx
      tuple_idx st id d h
    obtain ⟨st2, g1, g2, _, _, g3⟩ := posterior_leaf_missing_spec pv_poisson jp msa ss idx
      tuple_idx jst.site id d h
    obtain ⟨jst', hj, hL, hM⟩ := joint_node_of_posterior pv_poisson jp msa ss idx tuple_idx
      hss jst _ st2 g1
    exact ⟨⟨st', h1, h2, h3⟩, ⟨jst', hj, by rw [hM]; exact g2, by rw [hL]; exact g3⟩⟩
  · intro h hi
    obtain ⟨st', h1, h2, h3⟩ := posterior_leaf_observed_spec pv_poisson jp msa ss idx
      tuple_idx st id d h hi
    obtain ⟨st2, g1, g2, g3⟩ := posterior_leaf_observed_spec pv_poisson jp msa ss idx
      tuple_idx jst.site id d h hi
    obtain ⟨jst', hj, hL, hM⟩ := joint_node_of_posterior pv_poisson jp msa ss idx tuple_idx
      hss jst _ st2 g1
    exact ⟨⟨st', h1, h2, h3⟩, ⟨jst', hj, by rw [hM]; exact g2, by rw [hL]; exact g3⟩⟩
  · intro h hi
    refine ⟨posterior_leaf_invalid pv_poisson jp msa ss idx tuple_idx st id d h hi, ?_⟩
    have hsim := joint_node_sim pv_poisson jp msa ss idx tuple_idx hss jst (.leaf id d)
    rw [posterior_leaf_invalid pv_poisson jp msa ss idx tuple_idx jst.site id d h hi] at hsim
    exact Option.map_eq_none'.mp hsim

theorem C13_leaf_tables_witness :
    (∃ st', posterior_node cutPois (sub_define_jump_process symMod 3) missingMSA
        ⟨1, fun _ => 1, fun _ _ => 42⟩ id 0 SiteState.init (.leaf 0 0) = some st' ∧
      st'.maxsubst.get 0 = 0 ∧
      ∀ a n, (st'.L.get 0).data a n
        = if a < (sub_define_jump_process symMod 3).mod.rate_matrix.size ∧ n = 0 then 1
          else 0) ∧
    (∃ jst', joint_node cutPois (sub_define_jump_process symMod 3) (some clashMSA) id 0
        JointState.init (.leaf 1 0) = some jst' ∧
      jst'.maxsubst.get 1 = 0 ∧
      ∀ a n, (jst'.L.get 1).data a n = if a = 1 ∧ n = 0 then 1 else 0) ∧
    posterior_node cutPois (sub_define_jump_process symMod 3) clashMSA
      ⟨1, fun _ => 1, fun _ seq => if seq = 0 then 65 else if seq = 1 then 67 else 88⟩ id 0
      SiteState.init (.leaf 2 0) = none :=
  ⟨((C13_leaf_tables cutPois (sub_define_jump_process symMod 3) missingMSA
      ⟨1, fun _ => 1, fun _ _ => 42⟩ id 0 SiteState.init JointState.init 0 0 rfl).1 rfl).1,
    ((C13_leaf_tables cutPois (sub_define_jump_process symMod 3) clashMSA
      ⟨1, fun _ => 1, fun _ seq => if seq = 0 then 65 else if seq = 1 then 67 else 88⟩ id 0
      SiteState.init JointState.init 1 0 rfl).2.1 (by decide) (by decide)).2,
    ((C13_leaf_tables cutPois (sub_define_jump_process symMod 3) clashMSA
      ⟨1, fun _ => 1, fun _ seq => if seq = 0 then 65 else if seq = 1 then 67 else 88⟩ id 0
      SiteState.init JointState.init 2 0 rfl).2.2.1 (by decide) (by decide)).1⟩

/-! ## The internal rule with untightened index ranges -/

/-- The tightened sum over one child equals the untightened one. -/
theorem childSum_eq_full (size : Nat) (Lc D : Matrix) (ms : Int) (tot : Nat) :
    childSum size Lc D (winLo tot D.ncols) (winHi tot ms) tot
      = ∑ b in Finset.range size, ∑ i in Finset.range (tot + 1),
          tableZ Lc ms b i * distZ D b (tot - i) := by
  unfold childSum
  refine Finset.sum_congr rfl (fun b _ => ?_)
  have hsub : Finset.Ico (winLo tot D.ncols) (winHi tot ms) ⊆ Finset.range (tot + 1) := by
    intro i hi
    rw [Finset.mem_Ico] at hi
    rw [Finset.mem_range]
    unfold winHi at hi
    omega
  rw [← Finset.sum_subset hsub]
  · refine Finset.sum_congr rfl (fun i hi => ?_)
    rw [Finset.mem_Ico] at hi
    unfold winLo winHi at hi
    unfold tableZ distZ
    rw [if_pos (by omega), if_pos (by omega)]
  · intro i hi hni
    rw [Finset.mem_range] at hi
    rw [Finset.mem_Ico] at hni
    unfold winLo winHi at hni
    unfold tableZ distZ
    by_cases h1 : (i : Int) ≤ ms
    · have h2 : ¬ (tot - i < D.ncols) := by omega
      rw [if_pos h1, if_neg h2, mul_zero]
    · rw [if_neg h1, zero_mul]

/-- The tightened sum over the splits equals the untightened one, when the branch
distributions of all start bases have as many columns as that of start base 0. -/
theorem splitSum_eq_full (size : Nat) (Ll Lr : Matrix) (msl msr : Int)
    (d_left d_right : MatrixArray) (a n : Nat)
    (hcl : (d_left.get a).ncols = (d_left.get 0).ncols)
    (hcr : (d_right.get a).ncols = (d_right.get 0).ncols) :
    splitSum size Ll Lr msl msr d_left d_right a n
      = fullSplitSum size Ll Lr msl msr d_left d_right a n := by
  unfold splitSum fullSplitSum
  refine Finset.sum_congr rfl (fun j _ => ?_)
  rw [← hcl, ← hcr, childSum_eq_full, childSum_eq_full]


/-- The branch distributions returned by `sub_distrib_branch_conditional` all have as many
columns as the Poisson vector has entries. -/
theorem cond_ncols (pv_poisson : ℚ → Vector) (jp : JumpProcess) (t : ℚ) (D : MatrixArray)
    (h : sub_distrib_branch_conditional pv_poisson jp t = some D) (a : Nat)
    (ha : a < jp.mod.rate_matrix.size) :
    (D.get a).ncols = (pv_poisson (jp.lambda * t)).size := by
  obtain ⟨D2, hD2, hspec⟩ := sub_distrib_branch_conditional_eq pv_poisson jp t
    (cond_some_lt pv_poisson jp t D h)
  have hDD : D2 = D := Option.some.inj (hD2.symm.trans h)
  subst hDD
  exact (hspec a ha).2.1

/-- The loop nest of lines 232-258 adds the untightened sum to `L[id]->data[a][n]`, for
every base `a` and `n <= maxsubst[id]`. -/
theorem combine_children_full (size : Nat) (L : MatrixArray) (maxsubst : IntArray)
    (id lid rid : Nat) (d_left d_right : MatrixArray) (hl : lid ≠ id) (hr : rid ≠ id)
    (a n : Nat) (ha : a < size) (hn : (n : Int) ≤ maxsubst.get id)
    (hcl : (d_left.get a).ncols = (d_left.get 0).ncols)
    (hcr : (d_right.get a).ncols = (d_right.get 0).ncols) :
    ((combine_children size L maxsubst id lid rid d_left d_right).get id).data a n
      = (L.get id).data a n +
        fullSplitSum size (L.get lid) (L.get rid) (maxsubst.get lid) (maxsubst.get rid)
          d_left d_right a n := by
  rw [combine_children_data size L maxsubst id lid rid d_left d_right hl hr a n,
    if_pos (by omega), if_pos ha, splitSum_eq_full _ _ _ _ _ _ _ _ _ hcl hcr]

/-- The internal step of the joint traversal, for any alignment argument. -/
theorem joint_node_internal (pv_poisson : ℚ → Vector) (jp : JumpProcess) (msa : Option MSA)
    (idx : Nat → Nat) (tuple_idx : Nat) (jst : JointState) (id : Nat) (d : ℚ)
    (lchild rchild : TreeNode) (d_left d_right : MatrixArray)
    (hl : sub_distrib_branch_conditional pv_poisson jp lchild.dparent = some d_left)
    (hr : sub_distrib_branch_conditional pv_poisson jp rchild.dparent = some d_right) :
    ∃ jst', joint_node pv_poisson jp msa idx tuple_idx jst (.node id d lchild rchild)
        = some jst' ∧
      jst'.L = combine_children jp.mod.rate_matrix.size
          (jst.L.set id (mat_zero (mat_new jp.mod.rate_matrix.size 500)))
          (jst.maxsubst.set id
            (max (jst.maxsubst.get lchild.id + (d_left.get 0).ncols - 1)
                 (jst.maxsubst.get rchild.id + (d_right.get 0).ncols - 1)))
          id lchild.id rchild.id d_left d_right ∧
      jst'.maxsubst = jst.maxsubst.set id
            (max (jst.maxsubst.get lchild.id + (d_left.get 0).ncols - 1)
                 (jst.maxsubst.get rchild.id + (d_right.get 0).ncols - 1)) := by
  simp only [joint_node, treeNode_node_id, hl, hr]
  exact ⟨_, rfl, rfl, rfl⟩


/-- The table of an internal node after its step, from the tables of the state before. -/
theorem internal_table_full (size : Nat) (L : MatrixArray) (maxsubst : IntArray)
    (id lid rid : Nat) (d_left d_right : MatrixArray) (v : Int) (hl : lid ≠ id)
    (hr : rid ≠ id) (a n : Nat) (ha : a < size) (hn : (n : Int) ≤ v)
    (hcl : (d_left.get a).ncols = (d_left.get 0).ncols)
    (hcr : (d_right.get a).ncols = (d_right.get 0).ncols) :
    ((combine_children size (L.set id (mat_zero (mat_new size 500))) (maxsubst.set id v)
        id lid rid d_left d_right).get id).data a n
      = fullSplitSum size (L.get lid) (L.get rid) (maxsubst.get lid) (maxsubst.get rid)
          d_left d_right a n := by
  rw [combine_children_full size _ _ id lid rid d_left d_right hl hr a n ha
      (by rw [intArray_set_get, if_pos rfl]; exact hn) hcl hcr,
    matrixArray_set_get, if_pos rfl, matrixArray_set_get, if_neg hl, matrixArray_set_get,
    if_neg hr, intArray_set_get, if_neg hl, intArray_set_get, if_neg hr]
  exact zero_add _

/-- C14. For an internal node whose id differs from the ids of its children, every base
`a` and every `n <= maxsubst[node]`, the value `L[node]->data[a][n]` that
`sub_posterior_distrib_site` and `sub_joint_distrib_site` compute with the tightened index
ranges equals the untightened sum `fullSplitSum`, in which the child tables are read as 0
beyond `maxsubst` of the child and the branch distributions as 0 beyond their last
column. -/
theorem C14_internal_rule_untightened (pv_poisson : ℚ → Vector) (jp : JumpProcess)
    (msa : MSA) (ss : SuffStats) (omsa : Option MSA) (idx : Nat → Nat) (tuple_idx : Nat)
    (st : SiteState) (jst : JointState) (id : Nat) (d : ℚ) (lchild rchild : TreeNode)
    (d_left d_right : MatrixArray)
    (hl : sub_distrib_branch_conditional pv_poisson jp lchild.dparent = some d_left)
    (hr : sub_distrib_branch_conditional pv_poisson jp rchild.dparent = some d_right)
    (hidl : lchild.id ≠ id) (hidr : rchild.id ≠ id) :
    (∃ st', posterior_node pv_poisson jp msa ss idx tuple_idx st (.node id d lchild rchild)
        = some st' ∧
      st'.maxsubst.get id
        = max (st.maxsubst.get lchild.id + (d_left.get 0).ncols - 1)
              (st.maxsubst.get rchild.id + (d_right.get 0).ncols - 1) ∧
      ∀ (a n : Nat), a < jp.mod.rate_matrix.size → (n : Int) ≤ st'.maxsubst.get id →
        (st'.L.get id).data a n
          = fullSplitSum jp.mod.rate_matrix.size (st.L.get lchild.id) (st.L.get rchild.id)
              (st.maxsubst.get lchild.id) (st.maxsubst.get rchild.id) d_left d_right a n) ∧
    (∃ jst', joint_node pv_poisson jp omsa idx tuple_idx jst (.node id d lchild rchild)
        = some jst' ∧
      jst'.maxsubst.get id
        = max (jst.maxsubst.get lchild.id + (d_left.get 0).ncols - 1)
              (jst.maxsubst.get rchild.id + (d_right.get 0).ncols - 1) ∧
      ∀ (a n : Nat), a < jp.mod.rate_matrix.size → (n : Int) ≤ jst'.maxsubst.get id →
        (jst'.L.get id).data a n
          = fullSplitSum jp.mod.rate_matrix.size (jst.L.get lchild.id)
              (jst.L.get rchild.id) (jst.maxsubst.get lchild.id)
              (jst.maxsubst.get rchild.id) d_left d_right a n) := by
  have hcl : ∀ a, a < jp.mod.rate_matrix.size →
      (d_left.get a).ncols = (d_left.get 0).ncols := by
    intro a ha
    rw [cond_ncols pv_poisson jp _ d_left hl a ha,
      cond_ncols pv_poisson jp _ d_left hl 0 (by omega)]
  have hcr : ∀ a, a < jp.mod.rate_matrix.size →
      (d_right.get a).ncols = (d_right.get 0).ncols := by
    intro a ha
    rw [cond_ncols pv_poisson jp _ d_right hr a ha,
      cond_ncols pv_poisson jp _ d_right hr 0 (by omega)]
  constructor
  · refine ⟨_, posterior_node_internal pv_poisson jp msa ss idx tuple_idx st id d lchild
      rchild d_left d_right hl hr, ?_, ?_⟩
    · simp only [intArray_set_get, if_true]
    · intro a n ha hn
      simp only [intArray_set_get, if_true] at hn
      exact internal_table_full _ _ _ _ _ _ _ _ _ hidl hidr a n ha hn (hcl a ha) (hcr a ha)
  · obtain ⟨jst', hj, hL, hM⟩ := joint_node_internal pv_poisson jp omsa idx tuple_idx jst id d
      lchild rchild d_left d_right hl hr
    refine ⟨jst', hj, ?_, ?_⟩
    · rw [hM, intArray_set_get, if_pos rfl]
    · intro a n ha hn
      rw [hM, intArray_set_get, if_pos rfl] at hn
      rw [hL]
      exact internal_table_full _ _ _ _ _ _ _ _ _ hidl hidr a n ha hn (hcl a ha) (hcr a ha)

theorem C14_internal_rule_untightened_witness :
    ∃ D st',
      sub_distrib_branch_conditional cutPois (sub_define_jump_process asymMod 3) 1 = some D ∧
      posterior_node cutPois (sub_define_jump_process asymMod 3) missingMSA
        ⟨1, fun _ => 1, fun _ _ => 42⟩ id 0 cherryLeaves (.node 2 0 (.leaf 0 1) (.leaf 1 1))
        = some st' ∧
      ∀ (a n : Nat), a < (sub_define_jump_process asymMod 3).mod.rate_matrix.size →
        (n : Int) ≤ st'.maxsubst.get 2 →
        (st'.L.get 2).data a n
          = fullSplitSum (sub_define_jump_process asymMod 3).mod.rate_matrix.size
              (cherryLeaves.L.get 0) (cherryLeaves.L.get 1) (cherryLeaves.maxsubst.get 0)
              (cherryLeaves.maxsubst.get 1) D D a n := by
  obtain ⟨D, hD, _⟩ := asym_D1
  obtain ⟨st', h1, _, h3⟩ := (C14_internal_rule_untightened cutPois
    (sub_define_jump_process asymMod 3) missingMSA ⟨1, fun _ => 1, fun _ _ => 42⟩ none id 0
    cherryLeaves JointState.init 2 0 (.leaf 0 1) (.leaf 1 1) D D hD hD (by decide)
    (by decide)).1
  exact ⟨D, st', hD, h1, h3⟩

/-! ## The bound `maxsubst` of an internal node -/

/-- C15 evaluated on the two-leaf tree with branch lengths 1 under the rate matrix
`((-2, 2), (1, -1))`, both characters missing: at the end of the traversal of
`sub_posterior_distrib_site` the root has `maxsubst = 1`, while the sum of the internal
rule over the splits of the total count `n = 2`, for the root label 0, is `4/9`: one
substitution on each branch. -/
theorem C15_maxsubst_discards_mass :
    ∃ D st',
      sub_distrib_branch_conditional cutPois (sub_define_jump_process asymMod 3) 1 = some D ∧
      posterior_traversal cutPois (sub_define_jump_process asymMod 3) missingMSA
        ⟨1, fun _ => 1, fun _ _ => 42⟩
        (seq_idx (fun _ _ => id) (sub_define_jump_process asymMod 3) missingMSA) 0
        (tr_postorder (sub_define_jump_process asymMod 3).mod.tree) (some SiteState.init)
        = some st' ∧
      st'.maxsubst.get 2
        = max (st'.maxsubst.get 0 + (D.get 0).ncols - 1)
            (st'.maxsubst.get 1 + (D.get 0).ncols - 1) ∧
      st'.maxsubst.get 2 = 1 ∧
      fullSplitSum 2 (st'.L.get 0) (st'.L.get 1) (st'.maxsubst.get 0) (st'.maxsubst.get 1)
        D D 0 2 = 4 / 9 := by
  obtain ⟨D, hD, hc0, hc1, hdata⟩ := asym_D1
  have hsize : (sub_define_jump_process asymMod 3).mod.rate_matrix.size = 2 := rfl
  have htree : (sub_define_jump_process asymMod 3).mod.tree
      = .node 2 0 (.leaf 0 1) (.leaf 1 1) := rfl
  obtain ⟨s3, h3, m3, fm3, fl3, _⟩ := posterior_internal_spec cutPois
    (sub_define_jump_process asymMod 3) missingMSA ⟨1, fun _ => 1, fun _ _ => 42⟩
    (seq_idx (fun _ _ => id) (sub_define_jump_process asymMod 3) missingMSA) 0 cherryLeaves 2 0
    (.leaf 0 1) (.leaf 1 1) D D hD hD (by decide) (by decide)
  simp only [treeNode_leaf_id] at m3
  have htrav : posterior_traversal cutPois (sub_define_jump_process asymMod 3) missingMSA
        ⟨1, fun _ => 1, fun _ _ => 42⟩
        (seq_idx (fun _ _ => id) (sub_define_jump_process asymMod 3) missingMSA) 0
        (tr_postorder (sub_define_jump_process asymMod 3).mod.tree) (some SiteState.init)
      = some s3 := by
    rw [htree]
    simp only [tr_postorder, List.cons_append, List.nil_append, posterior_traversal_cons,
      posterior_traversal_nil, Option.some_bind,
      posterior_node_leaf_missing _ _ _ _ _ _ _ _ _ (missing_all _), hsize]
    exact h3
  have e0 : ∀ b i, (cherryLeaves.L.get 0).data b i = if b < 2 ∧ i = 0 then 1 else 0 := by
    intro b i
    unfold cherryLeaves
    simp only
    rw [leaf_fill_data, if_neg (fun h => absurd h.1 (by decide)), matrixArray_set_get,
      if_neg (by decide), leaf_fill_data, matrixArray_set_get, if_pos rfl]
    by_cases hc : b < 2 ∧ i = 0
    · rw [if_pos ⟨rfl, hc⟩, if_pos hc]
    · rw [if_neg (fun h => hc h.2), if_neg hc]
      rfl
  have e1 : ∀ b i, (cherryLeaves.L.get 1).data b i = if b < 2 ∧ i = 0 then 1 else 0 := by
    intro b i
    unfold cherryLeaves
    simp only
    rw [leaf_fill_data, matrixArray_set_get, if_pos rfl]
    by_cases hc : b < 2 ∧ i = 0
    · rw [if_pos ⟨rfl, hc⟩, if_pos hc]
    · rw [if_neg (fun h => hc h.2), if_neg hc]
      rfl
  have m0 : cherryLeaves.maxsubst.get 0 = 0 := rfl
  have m1 : cherryLeaves.maxsubst.get 1 = 0 := rfl
  refine ⟨D, s3, hD, htrav, ?_, ?_, ?_⟩
  · rw [m3, fm3 0 (by decide), fm3 1 (by decide)]
  · rw [m3, m0, m1, hc0]
    rfl
  · rw [fm3 0 (by decide), fm3 1 (by decide), fl3 0 (by decide), fl3 1 (by decide)]
    norm_num [fullSplitSum, tableZ, distZ, Finset.sum_range_succ, hc0, e0, e1, m0, m1, hdata]

/-- The untightened sum over one side vanishes above `maxsubst + ncols - 1` of that
side. -/
theorem side_sum_zero (size : Nat) (Lc D : Matrix) (ms : Int) (tot : Nat)
    (h : ms + D.ncols - 1 < tot) :
    ∑ b in Finset.range size, ∑ i in Finset.range (tot + 1),
      tableZ Lc ms b i * distZ D b (tot - i) = 0 := by
  refine Finset.sum_eq_zero (fun b _ => Finset.sum_eq_zero (fun i hi => ?_))
  rw [Finset.mem_range] at hi
  unfold tableZ distZ
  by_cases h1 : (i : Int) ≤ ms
  · have h2 : ¬ (tot - i < D.ncols) := by omega
    rw [if_pos h1, if_neg h2, mul_zero]
  · rw [if_neg h1, zero_mul]

/-- The untightened sum of the internal rule vanishes above the SUM of the bounds of the
two sides: the largest total count with non-zero mass beneath an internal node is at most
`(maxsubst[left] + ncols(D_left) - 1) + (maxsubst[right] + ncols(D_right) - 1)`. -/
theorem fullSplitSum_zero_above_sum (size : Nat) (Ll Lr : Matrix) (msl msr : Int)
    (d_left d_right : MatrixArray) (a n : Nat)
    (h : (msl + (d_left.get a).ncols - 1) + (msr + (d_right.get a).ncols - 1) < n) :
    fullSplitSum size Ll Lr msl msr d_left d_right a n = 0 := by
  unfold fullSplitSum
  refine Finset.sum_eq_zero (fun j hj => ?_)
  rw [Finset.mem_range] at hj
  by_cases hl : msl + (d_left.get a).ncols - 1 < j
  · rw [side_sum_zero size Ll (d_left.get a) msl j hl, zero_mul]
  · rw [side_sum_zero size Lr (d_right.get a) msr (n - j) (by omega), mul_zero]

/-! ## The root vector of the posterior: normalisation and trimming -/

/-- The scan of line 279 stops at the last entry that is at least `1e-10`, when there is
one. -/
theorem trim_scan_spec (f : Nat → ℚ) (k : Nat) (h : ∃ i, i < k ∧ trimThreshold ≤ f i) :
    0 < trim_scan f k ∧ trim_scan f k ≤ k ∧ trimThreshold ≤ f (trim_scan f k - 1) ∧
    ∀ n, trim_scan f k ≤ n → n < k → f n < trimThreshold := by
  induction k with
  | zero =>
    obtain ⟨i, hi, _⟩ := h
    exact absurd hi (Nat.not_lt_zero i)
  | succ k ih =>
    simp only [trim_scan]
    by_cases hk : f k < trimThreshold
    · rw [if_pos hk]
      have h2 : ∃ i, i < k ∧ trimThreshold ≤ f i := by
        obtain ⟨i, hi, hf⟩ := h
        refine ⟨i, ?_, hf⟩
        rcases Nat.lt_succ_iff_lt_or_eq.mp hi with h1 | h1
        · exact h1
        · rw [h1] at hf
          exact absurd hk (not_lt.mpr hf)
      obtain ⟨a1, a2, a3, a4⟩ := ih h2
      refine ⟨a1, Nat.le_succ_of_le a2, a3, fun n hn hnk => ?_⟩
      rcases Nat.lt_succ_iff_lt_or_eq.mp hnk with h1 | h1
      · exact a4 n hn h1
      · rw [h1]
        exact hk
    · rw [if_neg hk]
      refine ⟨Nat.succ_pos k, Nat.le_refl _, ?_, fun n hn hnk => ?_⟩
      · rw [Nat.add_sub_cancel]
        exact not_lt.mp hk
      · omega

/-- Fewer than `10^10` entries that sum to 1 cannot all be below `1e-10`. -/
theorem exists_entry_ge (f : Nat → ℚ) (N : Nat) (hN : N ≤ 500)
    (hsum : ∑ k in Finset.range N, f k = 1) : ∃ i, i < N ∧ trimThreshold ≤ f i := by
  by_contra hno
  have hall : ∀ k, k ∈ Finset.range N → f k ≤ trimThreshold := by
    intro k hk
    by_contra hc
    exact hno ⟨k, Finset.mem_range.mp hk, le_of_lt (not_le.mp hc)⟩
  have hle := Finset.sum_le_sum hall
  rw [hsum, Finset.sum_const, Finset.card_range, nsmul_eq_mul] at hle
  have hN2 : (N : ℚ) ≤ 500 := by exact_mod_cast hN
  unfold trimThreshold at hle
  nlinarith

/-- The entries that the scan keeps have a positive sum, when there are at most 500
entries and they sum to 1. -/
theorem kept_sum_pos (f : Nat → ℚ) (N m : Nat) (hN : N ≤ 500) (hm : m ≤ N)
    (hsum : ∑ k in Finset.range N, f k = 1)
    (hcut : ∀ n, m ≤ n → n < N → f n < trimThreshold) :
    0 < ∑ k in Finset.range m, f k := by
  have hsplit := Finset.sum_range_add_sum_Ico f hm
  have hall : ∀ k, k ∈ Finset.Ico m N → f k ≤ trimThreshold := by
    intro k hk
    rw [Finset.mem_Ico] at hk
    exact le_of_lt (hcut k hk.1 hk.2)
  have hle := Finset.sum_le_sum hall
  rw [Finset.sum_const, Nat.card_Ico, nsmul_eq_mul] at hle
  have hN2 : ((N - m : Nat) : ℚ) ≤ 500 := by
    have : N - m ≤ 500 := by omega
    exact_mod_cast this
  unfold trimThreshold at hle
  nlinarith


/-- The root finalisation of lines 269-288 when the root vector has a non-zero total and
at most 500 entries. -/
theorem posterior_root_trim (jp : JumpProcess) (st : SiteState)
    (htot : ∑ k in Finset.range (st.maxsubst.get jp.mod.tree.id + 1).toNat, rootVec jp st k ≠ 0)
    (hN : (st.maxsubst.get jp.mod.tree.id + 1).toNat ≤ 500) :
    0 < (posterior_root jp st).size ∧
    (posterior_root jp st).size ≤ (st.maxsubst.get jp.mod.tree.id + 1).toNat ∧
    trimThreshold ≤ rootVecNorm jp st ((posterior_root jp st).size - 1) ∧
    (∀ n, (posterior_root jp st).size ≤ n → n < (st.maxsubst.get jp.mod.tree.id + 1).toNat →
      rootVecNorm jp st n < trimThreshold) ∧
    (∀ n, n < (posterior_root jp st).size →
      (posterior_root jp st).data n
        = rootVecNorm jp st n /
          ∑ k in Finset.range (posterior_root jp st).size, rootVecNorm jp st k) ∧
    ∑ n in Finset.range (posterior_root jp st).size, (posterior_root jp st).data n = 1 := by
  have hone : ∑ k in Finset.range (st.maxsubst.get jp.mod.tree.id + 1).toNat,
      rootVecNorm jp st k = 1 := by
    unfold rootVecNorm
    rw [← Finset.sum_div]
    exact div_self htot
  obtain ⟨a1, a2, a3, a4⟩ := trim_scan_spec (rootVecNorm jp st) _
    (exists_entry_ge (rootVecNorm jp st) _ hN hone)
  have hpos := kept_sum_pos (rootVecNorm jp st) _ _ hN a2 hone a4
  obtain ⟨hsz, hdata⟩ := posterior_root_spec jp st
  rw [← hsz] at a1 a2 a3 a4 hpos hdata
  refine ⟨a1, a2, a3, a4, fun n _ => hdata n, ?_⟩
  rw [Finset.sum_congr rfl (fun n _ => hdata n), ← Finset.sum_div]
  exact div_self (ne_of_gt hpos)


/-- C16 (amended). When the traversal of `sub_posterior_distrib_site` ends in the tables
`st`, the root vector `v[n] = sum over a of L[root]->data[a][n] * backgd_freqs[a]`,
`n = 0..maxsubst[root]`, has a non-zero total and `maxsubst[root] < 500`: the function
returns that vector normalised, cut after the last entry that is at least `1e-10` and
normalised again; the returned vector is not empty, only trailing entries are removed, the
last kept entry was at least `1e-10` before the final normalisation, and the returned
entries sum to 1. -/
theorem C16_posterior_vector_normalised_trimmed (pv_poisson : ℚ → Vector)
    (tm_build_seq_idx : TreeModel → MSA → Nat → Nat) (jp : JumpProcess) (msa : MSA)
    (ss : SuffStats) (tuple_idx : Nat) (st : SiteState)
    (ho : jp.mod.order = 0) (hss : msa.ss = some ss)
    (htrav : posterior_traversal pv_poisson jp msa ss (seq_idx tm_build_seq_idx jp msa)
      tuple_idx (tr_postorder jp.mod.tree) (some SiteState.init) = some st)
    (htot : ∑ k in Finset.range (st.maxsubst.get jp.mod.tree.id + 1).toNat,
      rootVec jp st k ≠ 0)
    (hms : st.maxsubst.get jp.mod.tree.id < 500) :
    ∃ v, sub_posterior_distrib_site pv_poisson tm_build_seq_idx jp msa tuple_idx = some v ∧
      (∀ n : Nat, (n : Int) ≤ st.maxsubst.get jp.mod.tree.id →
        rootVec jp st n = ∑ a in Finset.range jp.mod.rate_matrix.size,
          (st.L.get jp.mod.tree.id).data a n * jp.mod.backgd_freqs.data a) ∧
      (∀ n, rootVecNorm jp st n = rootVec jp st n /
        ∑ k in Finset.range (st.maxsubst.get jp.mod.tree.id + 1).toNat, rootVec jp st k) ∧
      0 < v.size ∧ v.size ≤ (st.maxsubst.get jp.mod.tree.id + 1).toNat ∧
      trimThreshold ≤ rootVecNorm jp st (v.size - 1) ∧
      (∀ n, v.size ≤ n → n < (st.maxsubst.get jp.mod.tree.id + 1).toNat →
        rootVecNorm jp st n < trimThreshold) ∧
      (∀ n, n < v.size →
        v.data n = rootVecNorm jp st n / ∑ k in Finset.range v.size, rootVecNorm jp st k) ∧
      ∑ n in Finset.range v.size, v.data n = 1 := by
  obtain ⟨a1, a2, a3, a4, a5, a6⟩ := posterior_root_trim jp st htot (by omega)
  refine ⟨_, sub_posterior_distrib_site_some pv_poisson tm_build_seq_idx jp msa tuple_idx ss st
    ho hss htrav, ?_, fun _ => rfl, a1, a2, a3, a4, a5, a6⟩
  intro n hn
  unfold rootVec
  rw [if_pos (by omega)]

/-- The tables of `zeroRightMod` at the end of the traversal, for the all-missing column:
`maxsubst[root] = 1` and the root vector is `(1/2, 1/2)`. -/
theorem zeroRight_state :
    ∃ s3, posterior_traversal cutPois (sub_define_jump_process zeroRightMod 3) missingMSA
        ⟨1, fun _ => 1, fun _ _ => 42⟩
        (seq_idx (fun _ _ => id) (sub_define_jump_process zeroRightMod 3) missingMSA) 0
        (tr_postorder (sub_define_jump_process zeroRightMod 3).mod.tree)
        (some SiteState.init) = some s3 ∧
      s3.maxsubst.get (sub_define_jump_process zeroRightMod 3).mod.tree.id = 1 ∧
      rootVec (sub_define_jump_process zeroRightMod 3) s3 0 = 1 / 2 ∧
      rootVec (sub_define_jump_process zeroRightMod 3) s3 1 = 1 / 2 := by
  obtain ⟨D1, hD1, hc1, _, hd1⟩ := symTree_D1 (.node 2 0 (.leaf 0 1) (.leaf 1 0))
  obtain ⟨D0, hD0, hc0, _, hd0⟩ := symTree_D0 (.node 2 0 (.leaf 0 1) (.leaf 1 0))
  have hsize : (sub_define_jump_process zeroRightMod 3).mod.rate_matrix.size = 2 := rfl
  have hroot : (sub_define_jump_process zeroRightMod 3).mod.tree
      = .node 2 0 (.leaf 0 1) (.leaf 1 0) := rfl
  have hfreq : ∀ a, (sub_define_jump_process zeroRightMod 3).mod.backgd_freqs.data a = 1 / 2 :=
    fun _ => rfl
  obtain ⟨s1, h1, m1, fm1, fl1, d1⟩ := posterior_leaf_missing_spec cutPois
    (sub_define_jump_process zeroRightMod 3) missingMSA ⟨1, fun _ => 1, fun _ _ => 42⟩
    (seq_idx (fun _ _ => id) (sub_define_jump_process zeroRightMod 3) missingMSA) 0
    SiteState.init 0 1 (missing_all _)
  obtain ⟨s2, h2, m2, fm2, fl2, d2⟩ := posterior_leaf_missing_spec cutPois
    (sub_define_jump_process zeroRightMod 3) missingMSA ⟨1, fun _ => 1, fun _ _ => 42⟩
    (seq_idx (fun _ _ => id) (sub_define_jump_process zeroRightMod 3) missingMSA) 0 s1 1 0
    (missing_all _)
  obtain ⟨s3, h3, m3, fm3, fl3, d3⟩ := posterior_internal_spec cutPois
    (sub_define_jump_process zeroRightMod 3) missingMSA ⟨1, fun _ => 1, fun _ _ => 42⟩
    (seq_idx (fun _ _ => id) (sub_define_jump_process zeroRightMod 3) missingMSA) 0 s2 2 0
    (.leaf 0 1) (.leaf 1 0) D1 D0 hD1 hD0 (by decide) (by decide)
  simp only [treeNode_leaf_id, hsize, hc1, hc0] at m3 d3
  have e20 : s2.maxsubst.get 0 = 0 := by rw [fm2 0 (by decide), m1]
  have eL0 : ∀ a n, (s2.L.get 0).data a n = if a < 2 ∧ n = 0 then 1 else 0 := by
    intro a n; rw [fl2 0 (by decide), d1]; rfl
  have eL1 : ∀ a n, (s2.L.get 1).data a n = if a < 2 ∧ n = 0 then 1 else 0 := by
    intro a n; rw [d2]; rfl
  rw [e20, m2] at m3 d3
  have hmax : max ((0 : Int) + ((2 : Nat) : Int) - 1) (0 + ((1 : Nat) : Int) - 1) = 1 := rfl
  rw [hmax] at m3 d3
  have hN : (s3.maxsubst.get (sub_define_jump_process zeroRightMod 3).mod.tree.id + 1).toNat
      = 2 := by
    rw [hroot]
    show (s3.maxsubst.get 2 + 1).toNat = 2
    rw [m3]
    rfl
  have hvec : ∀ n, n < 2 → rootVec (sub_define_jump_process zeroRightMod 3) s3 n = 1 / 2 := by
    intro n hn
    unfold rootVec
    rw [hN, if_pos hn, hsize, hroot]
    have hN2 : ((1 : Int) + 1).toNat = 2 := rfl
    have w1 : winLo 0 2 = 0 := rfl
    have w2 : winLo 1 2 = 0 := rfl
    have w3 : winHi 0 0 = 1 := rfl
    have w4 : winHi 1 0 = 1 := rfl
    simp only [treeNode_node_id, Finset.sum_range_succ, Finset.sum_range_zero, zero_add, hfreq,
      d3, hN2, hn, if_true]
    rw [splitSum_zero_right 2 _ _ _ _ _ 0 n (by decide) hc0 (fun b hb => hd0 0 b (by decide) hb),
      splitSum_zero_right 2 _ _ _ _ _ 1 n (by decide) hc0 (fun b hb => hd0 1 b (by decide) hb)]
    interval_cases n <;>
      norm_num [childSum, Finset.sum_range_succ, hc1, w1, w2, w3, w4, eL0, eL1, hd1]
  refine ⟨s3, ?_, ?_, hvec 0 (by decide), hvec 1 (by decide)⟩
  · rw [hroot]
    simp only [tr_postorder, List.cons_append, List.nil_append, posterior_traversal_cons,
      posterior_traversal_nil, Option.some_bind, h1, h2, h3]
  · rw [hroot]
    exact m3

theorem C16_posterior_vector_normalised_trimmed_witness :
    ∃ v, sub_posterior_distrib_site cutPois (fun _ _ => id)
        (sub_define_jump_process zeroRightMod 3) missingMSA 0 = some v ∧
      0 < v.size ∧ ∑ n in Finset.range v.size, v.data n = 1 := by
  obtain ⟨s3, htrav, hms, h0, h1⟩ := zeroRight_state
  have hN : (s3.maxsubst.get (sub_define_jump_process zeroRightMod 3).mod.tree.id + 1).toNat
      = 2 := by
    rw [hms]
    rfl
  obtain ⟨v, hv, _, _, hpos, _, _, _, _, hsum⟩ := C16_posterior_vector_normalised_trimmed
    cutPois (fun _ _ => id) (sub_define_jump_process zeroRightMod 3) missingMSA
    ⟨1, fun _ => 1, fun _ _ => 42⟩ 0 s3 rfl rfl htrav
    (by
      rw [hN, Finset.sum_range_succ, Finset.sum_range_succ, Finset.sum_range_zero, h0, h1]
      norm_num)
    (by rw [hms]; decide)
  exact ⟨v, hv, hpos, hsum⟩


/-- C16 (as stated) fails: on the two-leaf tree with both branch lengths 0, for a column
with `A` at one leaf and `C` at the other, no root label is compatible with both leaves,
the root vector is 0, and the entries of the returned vector do not sum to 1. -/
theorem C16_counterexample :
    ∃ v, sub_posterior_distrib_site cutPois (fun _ _ => id)
        (sub_define_jump_process zeroMod 3) clashMSA 0 = some v ∧
      ∑ n in Finset.range v.size, v.data n ≠ 1 := by
  obtain ⟨D0, hD0, hc0, _, hd0⟩ := symTree_D0 (.node 2 0 (.leaf 0 0) (.leaf 1 0))
  have hsize : (sub_define_jump_process zeroMod 3).mod.rate_matrix.size = 2 := rfl
  have hroot : (sub_define_jump_process zeroMod 3).mod.tree
      = .node 2 0 (.leaf 0 0) (.leaf 1 0) := rfl
  obtain ⟨s1, h1, m1, d1⟩ := posterior_leaf_observed_spec cutPois
    (sub_define_jump_process zeroMod 3) clashMSA
    ⟨1, fun _ => 1, fun _ seq => if seq = 0 then 65 else if seq = 1 then 67 else 88⟩
    (seq_idx (fun _ _ => id) (sub_define_jump_process zeroMod 3) clashMSA) 0
    SiteState.init 0 0 (by decide) (by decide)
  obtain ⟨s2, h2, m2, d2⟩ := posterior_leaf_observed_spec cutPois
    (sub_define_jump_process zeroMod 3) clashMSA
    ⟨1, fun _ => 1, fun _ seq => if seq = 0 then 65 else if seq = 1 then 67 else 88⟩
    (seq_idx (fun _ _ => id) (sub_define_jump_process zeroMod 3) clashMSA) 0
    s1 1 0 (by decide) (by decide)
  obtain ⟨_, fm2, fl2⟩ := posterior_node_leaf_frame _ _ _ _ _ _ _ _ _ _ h2
  obtain ⟨s3, h3, m3, fm3, fl3, d3⟩ := posterior_internal_spec cutPois
    (sub_define_jump_process zeroMod 3) clashMSA
    ⟨1, fun _ => 1, fun _ seq => if seq = 0 then 65 else if seq = 1 then 67 else 88⟩
    (seq_idx (fun _ _ => id) (sub_define_jump_process zeroMod 3) clashMSA) 0 s2 2 0
    (.leaf 0 0) (.leaf 1 0) D0 D0 hD0 hD0 (by decide) (by decide)
  simp only [treeNode_leaf_id, hsize, hc0] at m3 d3
  have e20 : s2.maxsubst.get 0 = 0 := by rw [fm2 0 (by decide), m1]
  have eL0 : ∀ a n, (s2.L.get 0).data a n = if a = 0 ∧ n = 0 then 1 else 0 := by
    intro a n
    rw [fl2 0 (by decide), d1]
    rfl
  have eL1 : ∀ a n, (s2.L.get 1).data a n = if a = 1 ∧ n = 0 then 1 else 0 := by
    intro a n
    rw [d2]
    rfl
  rw [e20, m2] at m3 d3
  have hmax : max ((0 : Int) + ((1 : Nat) : Int) - 1) (0 + ((1 : Nat) : Int) - 1) = 0 := rfl
  rw [hmax] at m3 d3
  have hrun := sub_posterior_distrib_site_some cutPois (fun _ _ => id)
    (sub_define_jump_process zeroMod 3) clashMSA 0
    ⟨1, fun _ => 1, fun _ seq => if seq = 0 then 65 else if seq = 1 then 67 else 88⟩ s3 rfl
    rfl (by
      rw [hroot]
      simp only [tr_postorder, List.cons_append, List.nil_append, posterior_traversal_cons,
        posterior_traversal_nil, Option.some_bind, h1, h2, h3])
  have hN : (s3.maxsubst.get (sub_define_jump_process zeroMod 3).mod.tree.id + 1).toNat
      = 1 := by
    rw [hroot]
    show (s3.maxsubst.get 2 + 1).toNat = 1
    rw [m3]
    rfl
  have hvec : ∀ n, n < (s3.maxsubst.get (sub_define_jump_process zeroMod 3).mod.tree.id
      + 1).toNat → rootVec (sub_define_jump_process zeroMod 3) s3 n = 0 := by
    intro n hn
    rw [hN] at hn
    have hn0 : n = 0 := by omega
    subst hn0
    unfold rootVec
    rw [hN, if_pos Nat.zero_lt_one, hsize, hroot]
    have hN2 : ((0 : Int) + 1).toNat = 1 := rfl
    have w1 : winLo 0 1 = 0 := rfl
    have w3 : winHi 0 0 = 1 := rfl
    simp only [treeNode_node_id, Finset.sum_range_succ, Finset.sum_range_zero, zero_add,
      d3, hN2, Nat.zero_lt_one, if_true]
    rw [splitSum_zero_right 2 _ _ _ _ _ 0 0 (by decide) hc0 (fun b hb => hd0 0 b (by decide) hb),
      splitSum_zero_right 2 _ _ _ _ _ 1 0 (by decide) hc0 (fun b hb => hd0 1 b (by decide) hb)]
    norm_num [childSum, Finset.sum_range_succ, hc0, w1, w3, eL0, eL1, hd0]
  have hz := posterior_root_size_zero (sub_define_jump_process zeroMod 3) s3 hvec
  refine ⟨_, hrun, ?_⟩
  rw [hz, Finset.sum_range_zero]
  norm_num

/-! ## The joint table before trimming -/

/-- The table before trimming in closed form. -/
theorem joint_table_eq (jp : JumpProcess) (st : JointState) (lchild rchild : TreeNode)
    (d_left : MatrixArray) :
    joint_table jp st lchild rchild d_left
      = jointScaled jp (st.L.get lchild.id) (st.L.get rchild.id) d_left
          st.n1_max.toNat st.n2_max.toNat := by
  have hspec := joint_acc_spec jp (st.L.get lchild.id) (st.L.get rchild.id) d_left
    st.n1_max.toNat st.n2_max.toNat
  have hdims := joint_acc_dims jp (st.L.get lchild.id) (st.L.get rchild.id) d_left
    st.n1_max.toNat st.n2_max.toNat
  simp only [joint_table, mat_scale, jointScaled]
  rw [hdims.1, hdims.2, hspec.2]
  congr 1
  funext r c
  rw [hspec.1 r c]

/-- The function `joint_root` trims and renormalises `joint_table`. -/
theorem joint_root_table (pv_poisson : ℚ → Vector) (jp : JumpProcess) (st : JointState)
    (lchild rchild : TreeNode) (d_left : MatrixArray)
    (hD : sub_distrib_branch_conditional pv_poisson jp lchild.dparent = some d_left) :
    joint_root pv_poisson jp st lchild rchild
      = some (pm_normalize (mat_resize (joint_table jp st lchild rchild d_left)
          (trim_rows (joint_table jp st lchild rchild d_left) st.n1_max.toNat st.n2_max.toNat)
          (trim_cols (joint_table jp st lchild rchild d_left)
            (trim_rows (joint_table jp st lchild rchild d_left) st.n1_max.toNat
              st.n2_max.toNat)
            st.n2_max.toNat))) := by
  rw [joint_root_spec pv_poisson jp st lchild rchild d_left hD, joint_table_eq]

/-- The windowed left sum of line 446-450 equals the sum over all `i <= n1`, the branch
distribution being read as 0 beyond its last column. -/
theorem childSum_eq_distZ (size : Nat) (Lc D : Matrix) (n1 : Nat) :
    childSum size Lc D (winLo n1 D.ncols) (n1 + 1) n1
      = ∑ b in Finset.range size, ∑ i in Finset.range (n1 + 1),
          Lc.data b i * distZ D b (n1 - i) := by
  unfold childSum
  refine Finset.sum_congr rfl (fun b _ => ?_)
  have hsub : Finset.Ico (winLo n1 D.ncols) (n1 + 1) ⊆ Finset.range (n1 + 1) := by
    intro i hi
    rw [Finset.mem_Ico] at hi
    rw [Finset.mem_range]
    exact hi.2
  rw [← Finset.sum_subset hsub]
  · refine Finset.sum_congr rfl (fun i hi => ?_)
    rw [Finset.mem_Ico] at hi
    unfold winLo at hi
    unfold distZ
    rw [if_pos (by omega)]
  · intro i hi hni
    rw [Finset.mem_range] at hi
    rw [Finset.mem_Ico] at hni
    unfold winLo at hni
    unfold distZ
    rw [if_neg (by omega), mul_zero]

theorem jointCell_eq_full (jp : JumpProcess) (Ll Lr : Matrix) (d_left : MatrixArray)
    (n1 n2 : Nat) : jointCell jp Ll Lr d_left n1 n2 = jointFull jp Ll Lr d_left n1 n2 := by
  unfold jointCell jointFull
  refine Finset.sum_congr rfl (fun a _ => ?_)
  rw [childSum_eq_distZ]
  ring


theorem joint_traversal_none (pv_poisson : ℚ → Vector) (jp : JumpProcess) (msa : Option MSA)
    (idx : Nat → Nat) (tuple_idx : Nat) (xs : List TreeNode) :
    joint_traversal pv_poisson jp msa idx tuple_idx xs none = none := by
  induction xs with
  | nil => rfl
  | cons x rest ih => exact ih

/-- The last step of a successful joint traversal of a tree with an internal root is the
step of the root. -/
theorem joint_traversal_last (pv_poisson : ℚ → Vector) (jp : JumpProcess) (msa : Option MSA)
    (idx : Nat → Nat) (tuple_idx : Nat) (id : Nat) (d : ℚ) (lchild rchild : TreeNode)
    (s : Option JointState) (jst : JointState)
    (h : joint_traversal pv_poisson jp msa idx tuple_idx
      (tr_postorder (.node id d lchild rchild)) s = some jst) :
    ∃ jst2, joint_node pv_poisson jp msa idx tuple_idx jst2 (.node id d lchild rchild)
      = some jst := by
  simp only [tr_postorder] at h
  rw [joint_traversal_append] at h
  cases h1 : joint_traversal pv_poisson jp msa idx tuple_idx
      (tr_postorder lchild ++ tr_postorder rchild) s with
  | none =>
    rw [h1] at h
    cases h
  | some jst2 =>
    rw [h1] at h
    exact ⟨jst2, h⟩

/-- The sizes saved at the root (lines 399-403), read off the final tables. -/
theorem joint_final_sizes (pv_poisson : ℚ → Vector) (jp : JumpProcess) (msa : Option MSA)
    (idx : Nat → Nat) (tuple_idx : Nat) (id : Nat) (d : ℚ) (lchild rchild : TreeNode)
    (d_left d_right : MatrixArray) (jst : JointState)
    (hroot : jp.mod.tree = .node id d lchild rchild)
    (hl : sub_distrib_branch_conditional pv_poisson jp lchild.dparent = some d_left)
    (hr : sub_distrib_branch_conditional pv_poisson jp rchild.dparent = some d_right)
    (htrav : joint_traversal pv_poisson jp msa idx tuple_idx (tr_postorder jp.mod.tree)
      (some JointState.init) = some jst) :
    jst.n1_max = jst.maxsubst.get lchild.id + (d_left.get 0).ncols ∧
    jst.n2_max = jst.maxsubst.get rchild.id + (d_right.get 0).ncols := by
  rw [hroot] at htrav
  obtain ⟨jst2, h2⟩ := joint_traversal_last _ _ _ _ _ _ _ _ _ _ _ htrav
  rw [joint_node_root pv_poisson jp msa idx tuple_idx jst2 id d lchild rchild d_left d_right
    hroot hl hr] at h2
  have h3 := Option.some.inj h2
  rw [← h3]
  exact ⟨rfl, rfl⟩

/-- The joint function on a tree with an internal root, from the final tables. -/
theorem sub_joint_distrib_site_final (pv_poisson : ℚ → Vector)
    (tm_build_seq_idx : TreeModel → MSA → Nat → Nat) (jp : JumpProcess) (msa : Option MSA)
    (tuple_idx : Nat) (id : Nat) (d : ℚ) (lchild rchild : TreeNode) (jst : JointState)
    (ho : jp.mod.order = 0) (hroot : jp.mod.tree = .node id d lchild rchild)
    (htrav : joint_traversal pv_poisson jp msa (joint_seq_idx tm_build_seq_idx jp msa)
      tuple_idx (tr_postorder jp.mod.tree) (some JointState.init) = some jst) :
    sub_joint_distrib_site pv_poisson tm_build_seq_idx jp msa tuple_idx
      = joint_root pv_poisson jp jst lchild rchild := by
  unfold sub_joint_distrib_site
  rw [if_neg (fun h => h ho)]
  simp only
  rw [htrav, hroot]


/-- C17. Before trimming, the table built by `sub_joint_distrib_site` has
`maxsubst[lchild] + ncols(D_left)` rows and `maxsubst[rchild] + ncols(D_right)` columns,
and its entry `(n1, n2)` is the sum over the root labels `a` of `backgd_freqs[a]` times
(the sum over `b` and `i <= n1` of `L[lchild][b][i] * D_left[a][b][n1-i]`) times
`L[rchild]->data[a][n2]`, divided by the total of these sums over the table; the function
returns this table trimmed and renormalised. -/
theorem C17_joint_table_before_trimming (pv_poisson : ℚ → Vector)
    (tm_build_seq_idx : TreeModel → MSA → Nat → Nat) (jp : JumpProcess) (msa : Option MSA)
    (tuple_idx : Nat) (id : Nat) (d : ℚ) (lchild rchild : TreeNode)
    (d_left d_right : MatrixArray) (jst : JointState)
    (ho : jp.mod.order = 0) (hroot : jp.mod.tree = .node id d lchild rchild)
    (hl : sub_distrib_branch_conditional pv_poisson jp lchild.dparent = some d_left)
    (hr : sub_distrib_branch_conditional pv_poisson jp rchild.dparent = some d_right)
    (htrav : joint_traversal pv_poisson jp msa (joint_seq_idx tm_build_seq_idx jp msa)
      tuple_idx (tr_postorder jp.mod.tree) (some JointState.init) = some jst) :
    sub_joint_distrib_site pv_poisson tm_build_seq_idx jp msa tuple_idx
      = some (pm_normalize (mat_resize (joint_table jp jst lchild rchild d_left)
          (trim_rows (joint_table jp jst lchild rchild d_left)
            (joint_table jp jst lchild rchild d_left).nrows
            (joint_table jp jst lchild rchild d_left).ncols)
          (trim_cols (joint_table jp jst lchild rchild d_left)
            (trim_rows (joint_table jp jst lchild rchild d_left)
              (joint_table jp jst lchild rchild d_left).nrows
              (joint_table jp jst lchild rchild d_left).ncols)
            (joint_table jp jst lchild rchild d_left).ncols))) ∧
    (joint_table jp jst lchild rchild d_left).nrows
      = (jst.maxsubst.get lchild.id + (d_left.get 0).ncols).toNat ∧
    (joint_table jp jst lchild rchild d_left).ncols
      = (jst.maxsubst.get rchild.id + (d_right.get 0).ncols).toNat ∧
    ∀ n1 n2, n1 < (joint_table jp jst lchild rchild d_left).nrows →
      n2 < (joint_table jp jst lchild rchild d_left).ncols →
      (joint_table jp jst lchild rchild d_left).data n1 n2
        = jointFull jp (jst.L.get lchild.id) (jst.L.get rchild.id) d_left n1 n2 *
          (1 / ∑ x in Finset.range (joint_table jp jst lchild rchild d_left).nrows,
            ∑ y in Finset.range (joint_table jp jst lchild rchild d_left).ncols,
              jointFull jp (jst.L.get lchild.id) (jst.L.get rchild.id) d_left x y) := by
  obtain ⟨hn1, hn2⟩ := joint_final_sizes pv_poisson jp msa _ tuple_idx id d lchild rchild
    d_left d_right jst hroot hl hr htrav
  have hrows : (joint_table jp jst lchild rchild d_left).nrows = jst.n1_max.toNat := by
    rw [joint_table_eq]
    rfl
  have hcols : (joint_table jp jst lchild rchild d_left).ncols = jst.n2_max.toNat := by
    rw [joint_table_eq]
    rfl
  refine ⟨?_, by rw [hrows, hn1], by rw [hcols, hn2], ?_⟩
  · rw [sub_joint_distrib_site_final pv_poisson tm_build_seq_idx jp msa tuple_idx id d lchild
      rchild jst ho hroot htrav, joint_root_table pv_poisson jp jst lchild rchild d_left hl,
      hrows, hcols]
  · intro n1 n2 h1 h2
    rw [hrows] at h1 ⊢
    rw [hcols] at h2 ⊢
    rw [joint_table_eq]
    simp only [jointScaled]
    rw [if_pos ⟨h1, h2⟩]
    simp only [jointCell_eq_full]

theorem C17_joint_table_before_trimming_witness :
    ∃ D1 D0 jst,
      sub_distrib_branch_conditional cutPois (sub_define_jump_process zeroRightMod 3) 1
        = some D1 ∧
      sub_distrib_branch_conditional cutPois (sub_define_jump_process zeroRightMod 3) 0
        = some D0 ∧
      joint_traversal cutPois (sub_define_jump_process zeroRightMod 3) (some missingMSA)
        (joint_seq_idx (fun _ _ => id) (sub_define_jump_process zeroRightMod 3)
          (some missingMSA)) 0
        (tr_postorder (sub_define_jump_process zeroRightMod 3).mod.tree)
        (some JointState.init) = some jst ∧
      (joint_table (sub_define_jump_process zeroRightMod 3) jst (.leaf 0 1) (.leaf 1 0)
          D1).nrows = (jst.maxsubst.get 0 + (D1.get 0).ncols).toNat ∧
      (joint_table (sub_define_jump_process zeroRightMod 3) jst (.leaf 0 1) (.leaf 1 0)
          D1).ncols = (jst.maxsubst.get 1 + (D0.get 0).ncols).toNat ∧
      ∀ n1 n2,
        n1 < (joint_table (sub_define_jump_process zeroRightMod 3) jst (.leaf 0 1) (.leaf 1 0)
          D1).nrows →
        n2 < (joint_table (sub_define_jump_process zeroRightMod 3) jst (.leaf 0 1) (.leaf 1 0)
          D1).ncols →
        (joint_table (sub_define_jump_process zeroRightMod 3) jst (.leaf 0 1) (.leaf 1 0)
          D1).data n1 n2
          = jointFull (sub_define_jump_process zeroRightMod 3) (jst.L.get 0) (jst.L.get 1) D1
              n1 n2 *
            (1 / ∑ x in Finset.range (joint_table (sub_define_jump_process zeroRightMod 3) jst
                (.leaf 0 1) (.leaf 1 0) D1).nrows,
              ∑ y in Finset.range (joint_table (sub_define_jump_process zeroRightMod 3) jst
                  (.leaf 0 1) (.leaf 1 0) D1).ncols,
                jointFull (sub_define_jump_process zeroRightMod 3) (jst.L.get 0) (jst.L.get 1)
                  D1 x y) := by
  obtain ⟨D1, hD1, _⟩ := symTree_D1 (.node 2 0 (.leaf 0 1) (.leaf 1 0))
  obtain ⟨D0, hD0, _⟩ := symTree_D0 (.node 2 0 (.leaf 0 1) (.leaf 1 0))
  obtain ⟨s3, hs3, _⟩ := zeroRight_state
  have hsim := joint_traversal_sim cutPois (sub_define_jump_process zeroRightMod 3) missingMSA
    ⟨1, fun _ => 1, fun _ _ => 42⟩
    (seq_idx (fun _ _ => id) (sub_define_jump_process zeroRightMod 3) missingMSA) 0 rfl
    (tr_postorder (sub_define_jump_process zeroRightMod 3).mod.tree) (some JointState.init)
  have hinit : (some JointState.init).map JointState.site = some SiteState.init := rfl
  rw [hinit, hs3] at hsim
  obtain ⟨jst, hj, _⟩ := Option.map_eq_some'.mp hsim
  rw [← joint_seq_idx_some] at hj
  obtain ⟨_, h2, h3, h4⟩ := C17_joint_table_before_trimming cutPois (fun _ _ => id)
    (sub_define_jump_process zeroRightMod 3) (some missingMSA) 0 2 0 (.leaf 0 1) (.leaf 1 0)
    D1 D0 jst rfl rfl hD1 hD0 hj
  exact ⟨D1, D0, jst, hD1, hD0, hj, h2, h3, h4⟩

/-! ## The trimming passes of the joint table -/

/-- The inner loop of a trimming pass (lines 464-468): from a state that has not found an
entry, it finds one exactly when the scanned line has an entry that is at least `1e-10`. -/
theorem trim_inner (g : Nat → ℚ) (o x : Nat) (m : Nat) :
    ((∃ i, i < m ∧ trimThreshold ≤ g i) →
      forUpTo m (fun i (s : Nat × Bool) =>
        if !s.2 then (if g i ≥ trimThreshold then (o + 1, true) else s) else s) (x, false)
        = (o + 1, true)) ∧
    ((¬ ∃ i, i < m ∧ trimThreshold ≤ g i) →
      forUpTo m (fun i (s : Nat × Bool) =>
        if !s.2 then (if g i ≥ trimThreshold then (o + 1, true) else s) else s) (x, false)
        = (x, false)) := by
  induction m with
  | zero =>
    refine ⟨fun h => ?_, fun _ => rfl⟩
    obtain ⟨i, hi, _⟩ := h
    exact absurd hi (Nat.not_lt_zero i)
  | succ m ih =>
    rw [forUpTo_succ]
    by_cases hprev : ∃ i, i < m ∧ trimThreshold ≤ g i
    · have hnow : ∃ i, i < m + 1 ∧ trimThreshold ≤ g i := by
        obtain ⟨i, hi, hg⟩ := hprev
        exact ⟨i, Nat.lt_succ_of_lt hi, hg⟩
      refine ⟨fun _ => ?_, fun h => absurd hnow h⟩
      rw [ih.1 hprev]
      rfl
    · rw [ih.2 hprev]
      by_cases hm : trimThreshold ≤ g m
      · refine ⟨fun _ => ?_, fun h => absurd ⟨m, Nat.lt_succ_self m, hm⟩ h⟩
        simp only [Bool.not_false, if_true, ge_iff_le, hm]
      · refine ⟨fun h => ?_, fun _ => ?_⟩
        · obtain ⟨i, hi, hg⟩ := h
          rcases Nat.lt_succ_iff_lt_or_eq.mp hi with h1 | h1
          · exact absurd ⟨i, h1, hg⟩ hprev
          · rw [h1] at hg
            exact absurd hg hm
        · simp only [Bool.not_false, if_true, ge_iff_le, hm, if_false]

/-- Once an entry has been found a trimming pass changes nothing. -/
theorem trim_pass_done (g : Nat → Nat → ℚ) (m k x : Nat) :
    forDown k (fun o s =>
      forUpTo m (fun i (s : Nat × Bool) =>
        if !s.2 then (if g o i ≥ trimThreshold then (o + 1, true) else s) else s) s) (x, true)
      = (x, true) := by
  induction k with
  | zero => rfl
  | succ k ih =>
    simp only [forDown]
    have hstep : forUpTo m (fun i (s : Nat × Bool) =>
        if !s.2 then (if g k i ≥ trimThreshold then (k + 1, true) else s) else s) (x, true)
        = (x, true) := by
      refine forUpTo_inv (fun s : Nat × Bool => s = (x, true)) _ _ _ rfl ?_
      intro i t _ ht
      rw [ht]
      rfl
    rw [hstep]
    exact ih

/-- A trimming pass over the lines `k-1, ..., 0`, when some line has an entry that is at
least `1e-10`: the result is one more than the last such line. -/
theorem trim_pass_spec (g : Nat → Nat → ℚ) (m k x : Nat)
    (h : ∃ o, o < k ∧ ∃ i, i < m ∧ trimThreshold ≤ g o i) :
    0 < (forDown k (fun o s =>
      forUpTo m (fun i (s : Nat × Bool) =>
        if !s.2 then (if g o i ≥ trimThreshold then (o + 1, true) else s) else s) s)
        (x, false)).1 ∧
    (forDown k (fun o s =>
      forUpTo m (fun i (s : Nat × Bool) =>
        if !s.2 then (if g o i ≥ trimThreshold then (o + 1, true) else s) else s) s)
        (x, false)).1 ≤ k ∧
    (∃ i, i < m ∧ trimThreshold ≤ g ((forDown k (fun o s =>
      forUpTo m (fun i (s : Nat × Bool) =>
        if !s.2 then (if g o i ≥ trimThreshold then (o + 1, true) else s) else s) s)
        (x, false)).1 - 1) i) ∧
    ∀ o, (forDown k (fun o s =>
      forUpTo m (fun i (s : Nat × Bool) =>
        if !s.2 then (if g o i ≥ trimThreshold then (o + 1, true) else s) else s) s)
        (x, false)).1 ≤ o → o < k → ∀ i, i < m → g o i < trimThreshold := by
  induction k with
  | zero =>
    obtain ⟨o, ho, _⟩ := h
    exact absurd ho (Nat.not_lt_zero o)
  | succ k ih =>
    simp only [forDown]
    by_cases hk : ∃ i, i < m ∧ trimThreshold ≤ g k i
    · rw [(trim_inner (g k) k x m).1 hk, trim_pass_done]
      refine ⟨Nat.succ_pos k, Nat.le_refl _, ?_, fun o ho hok => ?_⟩
      · simp only [Nat.add_sub_cancel]
        exact hk
      · exact absurd hok (by simp only at ho; omega)
    · rw [(trim_inner (g k) k x m).2 hk]
      have h2 : ∃ o, o < k ∧ ∃ i, i < m ∧ trimThreshold ≤ g o i := by
        obtain ⟨o, ho, hi⟩ := h
        rcases Nat.lt_succ_iff_lt_or_eq.mp ho with h1 | h1
        · exact ⟨o, h1, hi⟩
        · rw [h1] at hi
          exact absurd hi hk
      obtain ⟨a1, a2, a3, a4⟩ := ih h2
      refine ⟨a1, Nat.le_succ_of_le a2, a3, fun o ho hok i hi => ?_⟩
      rcases Nat.lt_succ_iff_lt_or_eq.mp hok with h1 | h1
      · exact a4 o ho h1 i hi
      · rw [h1]
        exact not_le.mp (fun hc => hk ⟨i, hi, hc⟩)


/-- The first trimming pass is the generic pass over the rows. -/
theorem trim_rows_eq (T : Matrix) (N1 N2 : Nat) :
    trim_rows T N1 N2 = (forDown N1 (fun o s =>
      forUpTo N2 (fun i (s : Nat × Bool) =>
        if !s.2 then (if (fun x y => T.data x y) o i ≥ trimThreshold then (o + 1, true) else s)
        else s) s) (N1, false)).1 := rfl

/-- The second trimming pass is the generic pass over the columns. -/
theorem trim_cols_eq (T : Matrix) (N1 N2 : Nat) :
    trim_cols T N1 N2 = (forDown N2 (fun o s =>
      forUpTo N1 (fun i (s : Nat × Bool) =>
        if !s.2 then (if (fun y x => T.data x y) o i ≥ trimThreshold then (o + 1, true) else s)
        else s) s) (N2, false)).1 := rfl

/-- The two trimming passes on a table with an entry that is at least `1e-10`. -/
theorem trim_block_spec (T : Matrix) (N1 N2 : Nat)
    (hex : ∃ x, x < N1 ∧ ∃ y, y < N2 ∧ trimThreshold ≤ T.data x y) :
    0 < trim_rows T N1 N2 ∧ trim_rows T N1 N2 ≤ N1 ∧
    0 < trim_cols T (trim_rows T N1 N2) N2 ∧ trim_cols T (trim_rows T N1 N2) N2 ≤ N2 ∧
    (∀ x y, x < N1 → y < N2 →
      (trim_rows T N1 N2 ≤ x ∨ trim_cols T (trim_rows T N1 N2) N2 ≤ y) →
      T.data x y < trimThreshold) ∧
    (∃ y, y < trim_cols T (trim_rows T N1 N2) N2 ∧
      trimThreshold ≤ T.data (trim_rows T N1 N2 - 1) y) ∧
    (∃ x, x < trim_rows T N1 N2 ∧
      trimThreshold ≤ T.data x (trim_cols T (trim_rows T N1 N2) N2 - 1)) := by
  obtain ⟨r1, r2, ⟨y0, hy0, hry0⟩, r4⟩ :=
    trim_pass_spec (fun x y => T.data x y) N2 N1 N1 hex
  rw [← trim_rows_eq] at r1 r2 hry0 r4
  have hr1 : trim_rows T N1 N2 - 1 < trim_rows T N1 N2 := Nat.sub_lt r1 Nat.one_pos
  have hex2 : ∃ y, y < N2 ∧ ∃ x, x < trim_rows T N1 N2 ∧
      trimThreshold ≤ (fun y x => T.data x y) y x :=
    ⟨y0, hy0, trim_rows T N1 N2 - 1, hr1, hry0⟩
  obtain ⟨c1, c2, ⟨x0, hx0, hcx0⟩, c4⟩ :=
    trim_pass_spec (fun y x => T.data x y) (trim_rows T N1 N2) N2 N2 hex2
  rw [← trim_cols_eq] at c1 c2 hcx0 c4
  refine ⟨r1, r2, c1, c2, ?_, ?_, ⟨x0, hx0, hcx0⟩⟩
  · intro x y hx hy hxy
    by_cases hxr : trim_rows T N1 N2 ≤ x
    · exact r4 x hxr hx y hy
    · rcases hxy with h | h
      · exact absurd h hxr
      · exact c4 y h hy x (not_le.mp hxr)
  · refine ⟨y0, ?_, hry0⟩
    by_contra hlt
    exact absurd hry0 (not_le.mpr (c4 y0 (not_lt.mp hlt) hy0 _ hr1))

/-- The entries of the top-left block of `r` rows and `c` columns, summed inside a larger
range of rows and columns. -/
theorem block_sum_eq (f : Nat → Nat → ℚ) (r c N1 N2 : Nat) (hr : r ≤ N1) (hc : c ≤ N2) :
    ∑ x in Finset.range N1, ∑ y in Finset.range N2, (if x < r ∧ y < c then f x y else 0)
      = ∑ x in Finset.range r, ∑ y in Finset.range c, f x y := by
  have hinner : ∀ x, x < r →
      ∑ y in Finset.range N2, (if x < r ∧ y < c then f x y else 0)
        = ∑ y in Finset.range c, f x y := by
    intro x hx
    rw [← Finset.sum_subset (Finset.range_subset.mpr hc)
      (f := fun y => if x < r ∧ y < c then f x y else 0)]
    · refine Finset.sum_congr rfl (fun y hy => ?_)
      rw [if_pos ⟨hx, Finset.mem_range.mp hy⟩]
    · intro y _ hy
      rw [if_neg (fun h => hy (Finset.mem_range.mpr h.2))]
  rw [← Finset.sum_subset (Finset.range_subset.mpr hr)
    (f := fun x => ∑ y in Finset.range N2, (if x < r ∧ y < c then f x y else 0))]
  · exact Finset.sum_congr rfl (fun x hx => hinner x (Finset.mem_range.mp hx))
  · intro x _ hx
    refine Finset.sum_eq_zero (fun y _ => ?_)
    rw [if_neg (fun h => hx (Finset.mem_range.mpr h.1))]

/-- In a table whose entries sum to 1 and that has fewer than `1e10` entries, a top-left
block outside of which every entry is below `1e-10` has a positive total. -/
theorem kept_block_pos (f : Nat → Nat → ℚ) (r c N1 N2 : Nat) (hr : r ≤ N1) (hc : c ≤ N2)
    (hsum : ∑ x in Finset.range N1, ∑ y in Finset.range N2, f x y = 1)
    (hsize : N1 * N2 < 10000000000)
    (hdisc : ∀ x y, x < N1 → y < N2 → (r ≤ x ∨ c ≤ y) → f x y < trimThreshold) :
    0 < ∑ x in Finset.range r, ∑ y in Finset.range c, f x y := by
  have hsplit : ∑ x in Finset.range N1, ∑ y in Finset.range N2, f x y
      = ∑ x in Finset.range N1, ∑ y in Finset.range N2, (if x < r ∧ y < c then f x y else 0)
        + ∑ x in Finset.range N1, ∑ y in Finset.range N2,
            (if x < r ∧ y < c then 0 else f x y) := by
    rw [← Finset.sum_add_distrib]
    refine Finset.sum_congr rfl (fun x _ => ?_)
    rw [← Finset.sum_add_distrib]
    refine Finset.sum_congr rfl (fun y _ => ?_)
    by_cases h : x < r ∧ y < c
    · rw [if_pos h, if_pos h, add_zero]
    · rw [if_neg h, if_neg h, zero_add]
  have hbound : ∑ x in Finset.range N1, ∑ y in Finset.range N2,
      (if x < r ∧ y < c then 0 else f x y)
      ≤ ∑ x in Finset.range N1, ∑ _y in Finset.range N2, trimThreshold := by
    refine Finset.sum_le_sum (fun x hx => Finset.sum_le_sum (fun y hy => ?_))
    by_cases h : x < r ∧ y < c
    · rw [if_pos h]
      exact le_of_lt trimThreshold_pos
    · rw [if_neg h]
      refine le_of_lt (hdisc x y (Finset.mem_range.mp hx) (Finset.mem_range.mp hy) ?_)
      by_cases hx2 : x < r
      · exact Or.inr (not_lt.mp (fun hy2 => h ⟨hx2, hy2⟩))
      · exact Or.inl (not_lt.mp hx2)
  have hconst : ∑ _x in Finset.range N1, ∑ _y in Finset.range N2, trimThreshold < 1 := by
    simp only [Finset.sum_const, Finset.card_range, nsmul_eq_mul]
    have h1 : ((N1 * N2 : Nat) : ℚ) < 10000000000 := by exact_mod_cast hsize
    rw [Nat.cast_mul] at h1
    unfold trimThreshold
    rw [← mul_assoc]
    linarith
  rw [block_sum_eq f r c N1 N2 hr hc] at hsplit
  linarith

/-- Claim C18. The trimming step of `sub_joint_distrib_site` (lines 461-486), applied to a
normalised table (its entries are non-negative, or they sum to 1 and there are fewer than
`1e10` of them) with at least one entry that is at least `1e-10`, keeps a non-empty
top-left block: every discarded entry is below `1e-10`, the last kept row and the last
kept column each contain a kept entry that is at least `1e-10`, and the kept block is
rescaled by the inverse of its total, so that its entries sum to 1. -/
theorem C18_joint_trimming_step (T : Matrix)
    (hT : (∀ x y, x < T.nrows → y < T.ncols → 0 ≤ T.data x y) ∨
      (∑ x in Finset.range T.nrows, ∑ y in Finset.range T.ncols, T.data x y = 1 ∧
        T.nrows * T.ncols < 10000000000))
    (hex : ∃ x, x < T.nrows ∧ ∃ y, y < T.ncols ∧ trimThreshold ≤ T.data x y) :
    0 < trim_rows T T.nrows T.ncols ∧ trim_rows T T.nrows T.ncols ≤ T.nrows ∧
    0 < trim_cols T (trim_rows T T.nrows T.ncols) T.ncols ∧
    trim_cols T (trim_rows T T.nrows T.ncols) T.ncols ≤ T.ncols ∧
    (∀ x y, x < T.nrows → y < T.ncols →
      (trim_rows T T.nrows T.ncols ≤ x ∨
        trim_cols T (trim_rows T T.nrows T.ncols) T.ncols ≤ y) →
      T.data x y < trimThreshold) ∧
    (∃ y, y < trim_cols T (trim_rows T T.nrows T.ncols) T.ncols ∧
      trimThreshold ≤ T.data (trim_rows T T.nrows T.ncols - 1) y) ∧
    (∃ x, x < trim_rows T T.nrows T.ncols ∧
      trimThreshold ≤ T.data x (trim_cols T (trim_rows T T.nrows T.ncols) T.ncols - 1)) ∧
    (pm_normalize (mat_resize T (trim_rows T T.nrows T.ncols)
      (trim_cols T (trim_rows T T.nrows T.ncols) T.ncols))).nrows
      = trim_rows T T.nrows T.ncols ∧
    (pm_normalize (mat_resize T (trim_rows T T.nrows T.ncols)
      (trim_cols T (trim_rows T T.nrows T.ncols) T.ncols))).ncols
      = trim_cols T (trim_rows T T.nrows T.ncols) T.ncols ∧
    (∀ x y, (pm_normalize (mat_resize T (trim_rows T T.nrows T.ncols)
      (trim_cols T (trim_rows T T.nrows T.ncols) T.ncols))).data x y
      = T.data x y * (1 / ∑ u in Finset.range (trim_rows T T.nrows T.ncols),
          ∑ w in Finset.range (trim_cols T (trim_rows T T.nrows T.ncols) T.ncols),
            T.data u w)) ∧
    ∑ x in Finset.range (trim_rows T T.nrows T.ncols),
      ∑ y in Finset.range (trim_cols T (trim_rows T T.nrows T.ncols) T.ncols),
        (pm_normalize (mat_resize T (trim_rows T T.nrows T.ncols)
          (trim_cols T (trim_rows T T.nrows T.ncols) T.ncols))).data x y = 1 := by
  obtain ⟨r1, r2, c1, c2, hdisc, ⟨y0, hy0, hry0⟩, hcol⟩ := trim_block_spec T T.nrows T.ncols hex
  obtain ⟨n1, n2, n3⟩ := pm_normalize_resize T (trim_rows T T.nrows T.ncols)
    (trim_cols T (trim_rows T T.nrows T.ncols) T.ncols)
  refine ⟨r1, r2, c1, c2, hdisc, ⟨y0, hy0, hry0⟩, hcol, n1, n2, n3, ?_⟩
  have hr1 : trim_rows T T.nrows T.ncols - 1 < trim_rows T T.nrows T.ncols :=
    Nat.sub_lt r1 Nat.one_pos
  have hpos : (0 : ℚ) < ∑ x in Finset.range (trim_rows T T.nrows T.ncols),
      ∑ y in Finset.range (trim_cols T (trim_rows T T.nrows T.ncols) T.ncols),
        T.data x y := by
    rcases hT with hnn | ⟨hsum, hsize⟩
    · have hrow : ∀ x, x ∈ Finset.range (trim_rows T T.nrows T.ncols) →
          0 ≤ ∑ y in Finset.range (trim_cols T (trim_rows T T.nrows T.ncols) T.ncols),
            T.data x y := by
        intro x hx
        refine Finset.sum_nonneg (fun y hy => ?_)
        exact hnn x y (lt_of_lt_of_le (Finset.mem_range.mp hx) r2)
          (lt_of_lt_of_le (Finset.mem_range.mp hy) c2)
      have h1 : T.data (trim_rows T T.nrows T.ncols - 1) y0
          ≤ ∑ y in Finset.range (trim_cols T (trim_rows T T.nrows T.ncols) T.ncols),
            T.data (trim_rows T T.nrows T.ncols - 1) y :=
        Finset.single_le_sum (f := fun y => T.data (trim_rows T T.nrows T.ncols - 1) y)
          (fun y hy => hnn _ y (lt_of_lt_of_le hr1 r2)
            (lt_of_lt_of_le (Finset.mem_range.mp hy) c2)) (Finset.mem_range.mpr hy0)
      have h2 : ∑ y in Finset.range (trim_cols T (trim_rows T T.nrows T.ncols) T.ncols),
            T.data (trim_rows T T.nrows T.ncols - 1) y
          ≤ ∑ x in Finset.range (trim_rows T T.nrows T.ncols),
            ∑ y in Finset.range (trim_cols T (trim_rows T T.nrows T.ncols) T.ncols),
              T.data x y :=
        Finset.single_le_sum (f := fun x =>
          ∑ y in Finset.range (trim_cols T (trim_rows T T.nrows T.ncols) T.ncols),
            T.data x y)
          hrow (Finset.mem_range.mpr hr1)
      exact lt_of_lt_of_le trimThreshold_pos (le_trans hry0 (le_trans h1 h2))
    · exact kept_block_pos (fun x y => T.data x y) _ _ T.nrows T.ncols r2 c2 hsum hsize hdisc
  simp only [n3]
  simp only [← Finset.sum_mul]
  exact mul_one_div_cancel (ne_of_gt hpos)

/-- Claim C18 applied to `cornerTable`, whose entries sum to 1: row 1 and column 1 are
discarded and the kept entry becomes 1. -/
theorem C18_joint_trimming_step_witness :
    (∑ x in Finset.range cornerTable.nrows, ∑ y in Finset.range cornerTable.ncols,
      cornerTable.data x y = 1 ∧ cornerTable.nrows * cornerTable.ncols < 10000000000) ∧
    (∃ x, x < cornerTable.nrows ∧ ∃ y, y < cornerTable.ncols ∧
      trimThreshold ≤ cornerTable.data x y) ∧
    (∀ x y, x < cornerTable.nrows → y < cornerTable.ncols →
      (trim_rows cornerTable cornerTable.nrows cornerTable.ncols ≤ x ∨
        trim_cols cornerTable (trim_rows cornerTable cornerTable.nrows cornerTable.ncols)
          cornerTable.ncols ≤ y) →
      cornerTable.data x y < trimThreshold) ∧
    ∑ x in Finset.range (trim_rows cornerTable cornerTable.nrows cornerTable.ncols),
      ∑ y in Finset.range (trim_cols cornerTable
          (trim_rows cornerTable cornerTable.nrows cornerTable.ncols) cornerTable.ncols),
        (pm_normalize (mat_resize cornerTable
          (trim_rows cornerTable cornerTable.nrows cornerTable.ncols)
          (trim_cols cornerTable (trim_rows cornerTable cornerTable.nrows cornerTable.ncols)
            cornerTable.ncols))).data x y = 1 := by
  have hT : ∑ x in Finset.range cornerTable.nrows, ∑ y in Finset.range cornerTable.ncols,
      cornerTable.data x y = 1 ∧ cornerTable.nrows * cornerTable.ncols < 10000000000 := by
    refine ⟨?_, by decide⟩
    have hr : cornerTable.nrows = 2 := rfl
    have hc : cornerTable.ncols = 2 := rfl
    rw [hr, hc]
    simp only [Finset.sum_range_succ, Finset.sum_range_zero, cornerTable]
    norm_num
  have hex : ∃ x, x < cornerTable.nrows ∧ ∃ y, y < cornerTable.ncols ∧
      trimThreshold ≤ cornerTable.data x y :=
    ⟨0, by decide, 0, by decide, by norm_num [trimThreshold, cornerTable]⟩
  exact ⟨hT, hex, (C18_joint_trimming_step cornerTable (Or.inr hT) hex).2.2.2.2.1,
    (C18_joint_trimming_step cornerTable (Or.inr hT) hex).2.2.2.2.2.2.2.2.2.2⟩

/-! ## The statistics of an alignment -/

/-- The accumulation loop of `sub_posterior_stats_alignment` after `k` tuples. -/
theorem stats_loop (site : Nat → Option Vector) (pv_stats : Vector → ℚ × ℚ)
    (counts : Nat → ℚ) (p : Nat → Vector) (k : Nat)
    (hp : ∀ tup, tup < k → site tup = some (p tup)) :
    forUpTo k (fun tup (acc : Option (ℚ × ℚ)) =>
      match acc with
      | none => none
      | some (mean, variance) =>
        match site tup with
        | none => none
        | some q =>
          let this := pv_stats q
          some (mean + this.1 * counts tup, variance + this.2 * counts tup))
      (some (0, 0))
    = some (∑ tup in Finset.range k, counts tup * (pv_stats (p tup)).1,
        ∑ tup in Finset.range k, counts tup * (pv_stats (p tup)).2) := by
  induction k with
  | zero => rfl
  | succ k ih =>
    rw [forUpTo_succ, ih (fun tup h => hp tup (Nat.lt_succ_of_lt h))]
    simp only [hp k (Nat.lt_succ_self k), Finset.sum_range_succ]
    rw [mul_comm (pv_stats (p k)).1, mul_comm (pv_stats (p k)).2]

/-- Claim C19. For an alignment with sufficient statistics on which
`sub_posterior_distrib_site` returns the vector `p tup` for every tuple,
`sub_posterior_stats_alignment` returns: `*mean` is the sum over the tuples of
`counts[tup]` times the mean of `p tup`, and `*variance` the sum of `counts[tup]` times
the variance of `p tup`, where mean and variance are the two results of `pv_stats`. With no
tuples both are 0. -/
theorem C19_posterior_stats_alignment (pv_poisson : ℚ → Vector)
    (tm_build_seq_idx : TreeModel → MSA → Nat → Nat) (pv_stats : Vector → ℚ × ℚ)
    (jp : JumpProcess) (msa : MSA) (ss : SuffStats) (p : Nat → Vector)
    (hss : msa.ss = some ss)
    (hp : ∀ tup, tup < ss.ntuples →
      sub_posterior_distrib_site pv_poisson tm_build_seq_idx jp msa tup = some (p tup)) :
    sub_posterior_stats_alignment pv_poisson tm_build_seq_idx pv_stats jp msa
      = some (∑ tup in Finset.range ss.ntuples, ss.counts tup * (pv_stats (p tup)).1,
          ∑ tup in Finset.range ss.ntuples, ss.counts tup * (pv_stats (p tup)).2) ∧
    (ss.ntuples = 0 →
      sub_posterior_stats_alignment pv_poisson tm_build_seq_idx pv_stats jp msa
        = some (0, 0)) := by
  have hmain : sub_posterior_stats_alignment pv_poisson tm_build_seq_idx pv_stats jp msa
      = some (∑ tup in Finset.range ss.ntuples, ss.counts tup * (pv_stats (p tup)).1,
          ∑ tup in Finset.range ss.ntuples, ss.counts tup * (pv_stats (p tup)).2) := by
    unfold sub_posterior_stats_alignment
    rw [hss]
    exact stats_loop _ pv_stats ss.counts p ss.ntuples hp
  refine ⟨hmain, fun h0 => ?_⟩
  rw [hmain, h0]
  rfl

/-- Claim C19 applied to the one-column all-missing alignment and `zeroRightMod`: the
results are the mean `1/2` and the variance `1/4` of the posterior `(1/2, 1/2)`. -/
theorem C19_posterior_stats_alignment_witness :
    sub_posterior_stats_alignment cutPois (fun _ _ => id) meanVar
      (sub_define_jump_process zeroRightMod 3) missingMSA = some (1 / 2, 1 / 4) := by
  obtain ⟨v, hv, hs, h0, h1⟩ := zeroRight_posterior
  have hp : ∀ tup, tup < (⟨1, fun _ => 1, fun _ _ => 42⟩ : SuffStats).ntuples →
      sub_posterior_distrib_site cutPois (fun _ _ => id)
        (sub_define_jump_process zeroRightMod 3) missingMSA tup = some ((fun _ => v) tup) := by
    intro tup ht
    have h : tup = 0 := Nat.lt_one_iff.mp ht
    rw [h]
    exact hv
  have hm : meanVar v = (1 / 2, 1 / 4) := by
    unfold meanVar
    simp only [hs, Finset.sum_range_succ, Finset.sum_range_zero, h0, h1]
    norm_num
  rw [(C19_posterior_stats_alignment cutPois (fun _ _ => id) meanVar
    (sub_define_jump_process zeroRightMod 3) missingMSA ⟨1, fun _ => 1, fun _ _ => 42⟩
    (fun _ => v) rfl hp).1]
  simp only [Finset.sum_range_one, hm, one_mul]

/-! ## Non-negativity and conservation of mass -/

/-- With a non-negative jump matrix and a non-negative initial distribution every entry
of the table is non-negative. -/
theorem jumpTable_nonneg (R : Matrix) (size : Nat) (init : Nat → ℚ)
    (hR : ∀ k i, k < size → i < size → 0 ≤ R.data k i) (hinit : ∀ i, 0 ≤ init i) (j : Nat) :
    ∀ i n, 0 ≤ jumpTable R size init j i n := by
  induction j with
  | zero =>
    intro i n
    simp only [jumpTable]
    by_cases hn : n = 0
    · rw [if_pos hn]
      exact hinit i
    · rw [if_neg hn]
  | succ j ih =>
    intro i n
    simp only [jumpTable]
    by_cases hc : i < size ∧ n ≤ j + 1
    · rw [if_pos hc]
      refine add_nonneg (mul_nonneg (ih i n) (hR i i hc.1 hc.1)) ?_
      by_cases hn : n > 0
      · rw [if_pos hn]
        refine Finset.sum_nonneg (fun k hk => ?_)
        by_cases hki : k = i
        · rw [if_pos hki]
        · rw [if_neg hki]
          exact mul_nonneg (ih k (n - 1)) (hR k i (Finset.mem_range.mp hk) hc.1)
      · rw [if_neg hn]
    · rw [if_neg hc]

/-- Claim C20. If the jump matrix `R` of a built jump process is stochastic (non-negative
entries, rows summing to 1) and the background frequencies are non-negative, then every
entry of the tables `A[b]` and `B[a][b]` is non-negative, and for every jump count
`j < njumps_max` the entries `A[b]->data[n][j]` summed over the bases `b` and the counts
`n` give the sum of the background frequencies, and for every start base `a` the entries
`B[a][b]->data[n][j]` summed over `b` and `n` give 1. -/
theorem C20_tables_nonneg_and_mass_conserved (mod : TreeModel) (njumps_max : Nat)
    (hRnn : ∀ k i, k < mod.rate_matrix.size → i < mod.rate_matrix.size →
      0 ≤ (sub_define_jump_process mod njumps_max).R.data k i)
    (hRsum : ∀ k, k < mod.rate_matrix.size →
      ∑ i in Finset.range mod.rate_matrix.size,
        (sub_define_jump_process mod njumps_max).R.data k i = 1)
    (hfreq : ∀ i, i < mod.rate_matrix.size → 0 ≤ mod.backgd_freqs.data i) :
    (∀ b n j, b < mod.rate_matrix.size → n < njumps_max → j < njumps_max →
      0 ≤ ((sub_define_jump_process mod njumps_max).A.get b).data n j) ∧
    (∀ a b n j, a < mod.rate_matrix.size → b < mod.rate_matrix.size → n < njumps_max →
      j < njumps_max →
      0 ≤ (((sub_define_jump_process mod njumps_max).B.get a).get b).data n j) ∧
    (∀ j, j < njumps_max →
      ∑ b in Finset.range mod.rate_matrix.size, ∑ n in Finset.range njumps_max,
        ((sub_define_jump_process mod njumps_max).A.get b).data n j
        = ∑ b in Finset.range mod.rate_matrix.size, mod.backgd_freqs.data b) ∧
    (∀ a j, a < mod.rate_matrix.size → j < njumps_max →
      ∑ b in Finset.range mod.rate_matrix.size, ∑ n in Finset.range njumps_max,
        (((sub_define_jump_process mod njumps_max).B.get a).get b).data n j = 1) := by
  refine ⟨fun b n j _ _ hj => ?_, fun a b n j ha _ _ hj => ?_, fun j hj => ?_,
    fun a j ha hj => ?_⟩
  · rw [A_data mod njumps_max b n j hj]
    refine jumpTable_nonneg _ _ _ hRnn (fun i => ?_) j b n
    by_cases hi : i < mod.rate_matrix.size
    · rw [if_pos hi]
      exact hfreq i hi
    · rw [if_neg hi]
  · rw [B_data mod njumps_max a b n j hj ha]
    refine jumpTable_nonneg _ _ _ hRnn (fun i => ?_) j b n
    by_cases hi : i = a
    · rw [if_pos hi]
      exact zero_le_one
    · rw [if_neg hi]
  · have h1 : ∀ b, b ∈ Finset.range mod.rate_matrix.size →
        ∑ n in Finset.range njumps_max,
          ((sub_define_jump_process mod njumps_max).A.get b).data n j
        = ∑ n in Finset.range njumps_max,
          jumpTable (sub_define_jump_process mod njumps_max).R mod.rate_matrix.size
            (fun i => if i < mod.rate_matrix.size then mod.backgd_freqs.data i else 0) j b n :=
      fun b _ => Finset.sum_congr rfl (fun n _ => A_data mod njumps_max b n j hj)
    rw [Finset.sum_congr rfl h1, jumpTable_mass _ _ _ hRsum j njumps_max hj]
    refine Finset.sum_congr rfl (fun b hb => ?_)
    rw [if_pos (Finset.mem_range.mp hb)]
  · have h1 : ∀ b, b ∈ Finset.range mod.rate_matrix.size →
        ∑ n in Finset.range njumps_max,
          (((sub_define_jump_process mod njumps_max).B.get a).get b).data n j
        = ∑ n in Finset.range njumps_max,
          jumpTable (sub_define_jump_process mod njumps_max).R mod.rate_matrix.size
            (fun i => if i = a then 1 else 0) j b n :=
      fun b _ => Finset.sum_congr rfl (fun n _ => B_data mod njumps_max a b n j hj ha)
    rw [Finset.sum_congr rfl h1, jumpTable_mass _ _ _ hRsum j njumps_max hj,
      Finset.sum_ite_eq', if_pos (Finset.mem_range.mpr ha)]

/-- Claim C20 applied to `zeroMod` with `njumps_max = 3`, whose jump matrix is the
exchange of the two bases: after two jumps the tables `A` hold total mass 1 and the
tables `B[0]` hold total mass 1. -/
theorem C20_tables_nonneg_and_mass_conserved_witness :
    (∀ k i, k < zeroMod.rate_matrix.size → i < zeroMod.rate_matrix.size →
      0 ≤ (sub_define_jump_process zeroMod 3).R.data k i) ∧
    (∀ k, k < zeroMod.rate_matrix.size →
      ∑ i in Finset.range zeroMod.rate_matrix.size,
        (sub_define_jump_process zeroMod 3).R.data k i = 1) ∧
    0 ≤ ((sub_define_jump_process zeroMod 3).A.get 1).data 2 2 ∧
    ∑ b in Finset.range zeroMod.rate_matrix.size, ∑ n in Finset.range 3,
      ((sub_define_jump_process zeroMod 3).A.get b).data n 2
      = ∑ b in Finset.range zeroMod.rate_matrix.size, zeroMod.backgd_freqs.data b ∧
    ∑ b in Finset.range zeroMod.rate_matrix.size, ∑ n in Finset.range 3,
      (((sub_define_jump_process zeroMod 3).B.get 0).get b).data n 2 = 1 := by
  have hs : zeroMod.rate_matrix.size = 2 := rfl
  have hRnn : ∀ k i, k < zeroMod.rate_matrix.size → i < zeroMod.rate_matrix.size →
      0 ≤ (sub_define_jump_process zeroMod 3).R.data k i := by
    intro k i hk hi
    unfold zeroMod
    rw [symTree_R _ 3 k i hk hi]
    split_ifs <;> norm_num
  have hRsum : ∀ k, k < zeroMod.rate_matrix.size →
      ∑ i in Finset.range zeroMod.rate_matrix.size,
        (sub_define_jump_process zeroMod 3).R.data k i = 1 := by
    intro k hk
    rw [hs] at hk ⊢
    unfold zeroMod
    rw [Finset.sum_range_succ, Finset.sum_range_one, symTree_R _ 3 k 0 hk (by decide),
      symTree_R _ 3 k 1 hk (by decide)]
    interval_cases k <;> norm_num
  have hfreq : ∀ i, i < zeroMod.rate_matrix.size → 0 ≤ zeroMod.backgd_freqs.data i := by
    intro i _
    exact (by norm_num : (0 : ℚ) ≤ 1 / 2)
  exact ⟨hRnn, hRsum,
    (C20_tables_nonneg_and_mass_conserved zeroMod 3 hRnn hRsum hfreq).1 1 2 2
      (by decide) (by decide) (by decide),
    (C20_tables_nonneg_and_mass_conserved zeroMod 3 hRnn hRsum hfreq).2.2.1 2 (by decide),
    (C20_tables_nonneg_and_mass_conserved zeroMod 3 hRnn hRsum hfreq).2.2.2 0 2
      (by decide) (by decide)⟩

/-! ## The unconditioned tables as a mixture, and the powers of the jump matrix -/

/-- Claim C22. The unconditioned tables are the background-weighted mixture of the
conditioned ones: for every final base `b` and all `n, j < njumps_max`,
`A[b]->data[n][j]` is the sum over the start bases `a` of
`backgd_freqs[a] * B[a][b]->data[n][j]`. -/
theorem C22_unconditioned_is_mixture (mod : TreeModel) (njumps_max : Nat) :
    ∀ b n j, b < mod.rate_matrix.size → n < njumps_max → j < njumps_max →
      ((sub_define_jump_process mod njumps_max).A.get b).data n j
        = ∑ a in Finset.range mod.rate_matrix.size,
            mod.backgd_freqs.data a
              * (((sub_define_jump_process mod njumps_max).B.get a).get b).data n j := by
  intro b n j _ _ hj
  rw [A_data mod njumps_max b n j hj, jumpTable_linear]
  refine Finset.sum_congr rfl (fun a ha => ?_)
  rw [B_data mod njumps_max a b n j hj (Finset.mem_range.mp ha)]

/-- Claim C22 applied to `asymMod` with `njumps_max = 3`, at `b = 0`, `n = 1`, `j = 2`. -/
theorem C22_unconditioned_is_mixture_witness :
    ((sub_define_jump_process asymMod 3).A.get 0).data 1 2
      = ∑ a in Finset.range asymMod.rate_matrix.size,
          asymMod.backgd_freqs.data a
            * (((sub_define_jump_process asymMod 3).B.get a).get 0).data 1 2 :=
  C22_unconditioned_is_mixture asymMod 3 0 1 2 (by decide) (by decide) (by decide)

/-- The sum over the substitution counts `n < K` of the table of `j < K` jumps does not
depend on `K`. -/
theorem jumpTable_count_sum (R : Matrix) (size : Nat) (init : Nat → ℚ) (j i K : Nat)
    (hK : j < K) :
    ∑ n in Finset.range K, jumpTable R size init j i n
      = ∑ n in Finset.range (j + 1), jumpTable R size init j i n := by
  symm
  refine Finset.sum_subset (Finset.range_subset.mpr hK) (fun n _ hn => ?_)
  refine jumpTable_zero_above R size init j i n ?_
  have h : ¬ n < j + 1 := fun h2 => hn (Finset.mem_range.mpr h2)
  omega

/-- Summed over the substitution counts, one step of the recurrence multiplies the row of
sums by the matrix `R`. -/
theorem jumpTable_count_sum_step (R : Matrix) (size : Nat) (init : Nat → ℚ) (j b : Nat)
    (hb : b < size) :
    ∑ n in Finset.range (j + 1 + 1), jumpTable R size init (j + 1) b n
      = ∑ k in Finset.range size,
          (∑ n in Finset.range (j + 1), jumpTable R size init j k n) * R.data k b := by
  rw [jumpTable_step_counts R size init j b (j + 1) hb (Nat.lt_succ_self j)]
  have hcell : ∀ n, n ∈ Finset.range (j + 1) →
      jumpTable R size init j b n * R.data b b +
        ∑ k in Finset.range size,
          (if k = b then 0 else jumpTable R size init j k n * R.data k b)
      = ∑ k in Finset.range size, jumpTable R size init j k n * R.data k b := by
    intro n _
    have h1 : ∀ k, k ∈ Finset.range size →
        jumpTable R size init j k n * R.data k b
          = (if k = b then jumpTable R size init j b n * R.data b b else 0)
            + (if k = b then 0 else jumpTable R size init j k n * R.data k b) := by
      intro k _
      by_cases hk : k = b
      · rw [if_pos hk, if_pos hk, add_zero, hk]
      · rw [if_neg hk, if_neg hk, zero_add]
    rw [Finset.sum_congr rfl h1, Finset.sum_add_distrib, Finset.sum_ite_eq',
      if_pos (Finset.mem_range.mpr hb)]
  rw [Finset.sum_congr rfl hcell, Finset.sum_comm]
  refine Finset.sum_congr rfl (fun k _ => ?_)
  rw [Finset.sum_mul]

/-- Started from the point mass at `a`, the table of `j` jumps summed over the substitution
counts is row `a` of the `j`-th power of `R`. -/
theorem jumpTable_count_sum_pow (R : Matrix) (size : Nat) (a : Nat) (ha : a < size) (j : Nat) :
    ∀ b (hb : b < size),
      ∑ n in Finset.range (j + 1), jumpTable R size (fun i => if i = a then 1 else 0) j b n
        = (Matrix.of (fun (x y : Fin size) => R.data x y) ^ j) ⟨a, ha⟩ ⟨b, hb⟩ := by
  induction j with
  | zero =>
    intro b hb
    rw [pow_zero, Finset.sum_range_one, Matrix.one_apply]
    simp only [jumpTable, if_true, Fin.mk.injEq]
    by_cases h : b = a
    · rw [if_pos h, if_pos h.symm]
    · rw [if_neg h, if_neg (fun h2 => h h2.symm)]
  | succ j ih =>
    intro b hb
    rw [jumpTable_count_sum_step R size _ j b hb, pow_succ, Matrix.mul_apply,
      Finset.sum_range]
    refine Finset.sum_congr rfl (fun k _ => ?_)
    rw [ih k.1 k.2]
    rfl

/-- Claim C21. Summing out the substitution count recovers the `j`-step transition matrix
of the jump chain: for every start base `a`, final base `b` and jump count
`j < njumps_max`, the sum over `n < njumps_max` of `B[a][b]->data[n][j]` is the `(a, b)`
entry of the `j`-th matrix power of `R` (restricted to the alphabet). -/
theorem C21_count_sum_is_matrix_power (mod : TreeModel) (njumps_max : Nat) :
    ∀ (a b j : Nat) (ha : a < mod.rate_matrix.size) (hb : b < mod.rate_matrix.size),
      j < njumps_max →
      ∑ n in Finset.range njumps_max,
        (((sub_define_jump_process mod njumps_max).B.get a).get b).data n j
        = (Matrix.of (fun (x y : Fin mod.rate_matrix.size) =>
            (sub_define_jump_process mod njumps_max).R.data x y) ^ j) ⟨a, ha⟩ ⟨b, hb⟩ := by
  intro a b j ha hb hj
  rw [Finset.sum_congr rfl (fun n _ => B_data mod njumps_max a b n j hj ha),
    jumpTable_count_sum _ _ _ j b njumps_max hj]
  exact jumpTable_count_sum_pow _ _ a ha j b hb


/-- Claim C21 applied to `asymMod` with `njumps_max = 3`: two jumps from base 0 to
base 1. -/
theorem C21_count_sum_is_matrix_power_witness :
    ∑ n in Finset.range 3, (((sub_define_jump_process asymMod 3).B.get 0).get 1).data n 2
      = (Matrix.of (fun (x y : Fin asymMod.rate_matrix.size) =>
          (sub_define_jump_process asymMod 3).R.data x y) ^ 2)
          ⟨0, by decide⟩ ⟨1, by decide⟩ :=
  C21_count_sum_is_matrix_power asymMod 3 0 1 2 (by decide) (by decide) (by decide)

/-! ## The trimmed posterior vector is not empty -/

/-- Among `N > 0` entries that sum to 1 one is at least `1 / N`. -/
theorem exists_entry_ge_mean (f : Nat → ℚ) (N : Nat) (hN : 0 < N)
    (hsum : ∑ k in Finset.range N, f k = 1) : ∃ i, i < N ∧ 1 / (N : ℚ) ≤ f i := by
  by_contra hno
  have hall : ∀ k, k ∈ Finset.range N → f k < 1 / (N : ℚ) := by
    intro k hk
    by_contra hc
    exact hno ⟨k, Finset.mem_range.mp hk, not_lt.mp hc⟩
  have hlt := Finset.sum_lt_sum_of_nonempty
    (Finset.nonempty_range_iff.mpr (Nat.pos_iff_ne_zero.mp hN)) hall
  rw [hsum, Finset.sum_const, Finset.card_range, nsmul_eq_mul] at hlt
  have hN2 : (0 : ℚ) < N := by exact_mod_cast hN
  rw [mul_one_div_cancel (ne_of_gt hN2)] at hlt
  exact lt_irrefl _ hlt

/-- Claim C24. When the traversal of `sub_posterior_distrib_site` ends in the tables `st`,
the root vector has a positive total and `maxsubst[root] < 500`, the trimming step does
not remove everything: the returned vector has length at least 1 and at most
`maxsubst[root] + 1`, because after the first normalisation some entry is at least
`1 / (maxsubst[root] + 1)`, which is above `1e-10`. -/
theorem C24_trimming_keeps_an_entry (pv_poisson : ℚ → Vector)
    (tm_build_seq_idx : TreeModel → MSA → Nat → Nat) (jp : JumpProcess) (msa : MSA)
    (ss : SuffStats) (tuple_idx : Nat) (st : SiteState)
    (ho : jp.mod.order = 0) (hss : msa.ss = some ss)
    (htrav : posterior_traversal pv_poisson jp msa ss (seq_idx tm_build_seq_idx jp msa)
      tuple_idx (tr_postorder jp.mod.tree) (some SiteState.init) = some st)
    (htot : 0 < ∑ k in Finset.range (st.maxsubst.get jp.mod.tree.id + 1).toNat,
      rootVec jp st k)
    (hms : st.maxsubst.get jp.mod.tree.id < 500) :
    ∃ v, sub_posterior_distrib_site pv_poisson tm_build_seq_idx jp msa tuple_idx = some v ∧
      1 ≤ v.size ∧ (v.size : Int) ≤ st.maxsubst.get jp.mod.tree.id + 1 ∧
      (∃ n : Nat, (n : Int) ≤ st.maxsubst.get jp.mod.tree.id ∧
        1 / (((st.maxsubst.get jp.mod.tree.id : Int) : ℚ) + 1) ≤ rootVecNorm jp st n) ∧
      trimThreshold < 1 / (((st.maxsubst.get jp.mod.tree.id : Int) : ℚ) + 1) := by
  have hne : ∑ k in Finset.range (st.maxsubst.get jp.mod.tree.id + 1).toNat,
      rootVec jp st k ≠ 0 := ne_of_gt htot
  have hN0 : 0 < (st.maxsubst.get jp.mod.tree.id + 1).toNat := by
    rcases Nat.eq_zero_or_pos (st.maxsubst.get jp.mod.tree.id + 1).toNat with h | h
    · rw [h, Finset.sum_range_zero] at htot
      exact absurd htot (lt_irrefl _)
    · exact h
  have hms0 : 0 ≤ st.maxsubst.get jp.mod.tree.id := by omega
  have hcast : (((st.maxsubst.get jp.mod.tree.id + 1).toNat : Nat) : ℚ)
      = ((st.maxsubst.get jp.mod.tree.id : Int) : ℚ) + 1 := by
    have h1 : (((st.maxsubst.get jp.mod.tree.id + 1).toNat : Nat) : Int)
        = st.maxsubst.get jp.mod.tree.id + 1 := Int.toNat_of_nonneg (by omega)
    have h2 : ((((st.maxsubst.get jp.mod.tree.id + 1).toNat : Nat) : Int) : ℚ)
        = ((st.maxsubst.get jp.mod.tree.id + 1 : Int) : ℚ) := by rw [h1]
    rw [Int.cast_natCast] at h2
    rw [h2, Int.cast_add, Int.cast_one]
  obtain ⟨a1, a2, _, _, _, _⟩ := posterior_root_trim jp st hne (by omega)
  have hone : ∑ k in Finset.range (st.maxsubst.get jp.mod.tree.id + 1).toNat,
      rootVecNorm jp st k = 1 := by
    unfold rootVecNorm
    rw [← Finset.sum_div]
    exact div_self hne
  obtain ⟨i, hi, hge⟩ := exists_entry_ge_mean (rootVecNorm jp st) _ hN0 hone
  rw [hcast] at hge
  refine ⟨_, sub_posterior_distrib_site_some pv_poisson tm_build_seq_idx jp msa tuple_idx ss st
    ho hss htrav, a1, by omega, ⟨i, by omega, hge⟩, ?_⟩
  have hq : ((st.maxsubst.get jp.mod.tree.id : Int) : ℚ) < 500 := by exact_mod_cast hms
  have hq0 : (0 : ℚ) ≤ ((st.maxsubst.get jp.mod.tree.id : Int) : ℚ) := by exact_mod_cast hms0
  unfold trimThreshold
  exact one_div_lt_one_div_of_lt (by linarith) (by linarith)


/-- Claim C24 applied to `zeroRightMod` and the all-missing column, where
`maxsubst[root] = 1` and the root vector is `(1/2, 1/2)`. -/
theorem C24_trimming_keeps_an_entry_witness :
    ∃ v, sub_posterior_distrib_site cutPois (fun _ _ => id)
        (sub_define_jump_process zeroRightMod 3) missingMSA 0 = some v ∧ 1 ≤ v.size := by
  obtain ⟨s3, htrav, hms, h0, h1⟩ := zeroRight_state
  have hN : (s3.maxsubst.get (sub_define_jump_process zeroRightMod 3).mod.tree.id + 1).toNat
      = 2 := by
    rw [hms]
    rfl
  obtain ⟨v, hv, hpos, _⟩ := C24_trimming_keeps_an_entry
    cutPois (fun _ _ => id) (sub_define_jump_process zeroRightMod 3) missingMSA
    ⟨1, fun _ => 1, fun _ _ => 42⟩ 0 s3 rfl rfl htrav
    (by
      rw [hN, Finset.sum_range_succ, Finset.sum_range_succ, Finset.sum_range_zero, h0, h1]
      norm_num)
    (by rw [hms]; decide)
  exact ⟨v, hv, hpos⟩

/-! ## The option `--indel-model` -/

/-- The two comparisons of the range test are both false exactly for NaN and for the
values strictly between 0 and 1. -/
theorem range_test_false_iff (x : CDouble) :
    (x.le 0 = false ∧ x.ge 1 = false) ↔ (x = .nan ∨ x.inUnitInterval) := by
  unfold CDouble.inUnitInterval
  cases x with
  | nan => exact ⟨fun _ => Or.inl rfl, fun _ => ⟨rfl, rfl⟩⟩
  | pinf =>
    refine ⟨fun h => absurd h.2 (by decide), fun h => ?_⟩
    rcases h with h | ⟨q, h, _⟩ <;> cases h
  | ninf =>
    refine ⟨fun h => absurd h.1 (by decide), fun h => ?_⟩
    rcases h with h | ⟨q, h, _⟩ <;> cases h
  | val q =>
    simp only [CDouble.le, CDouble.ge, decide_eq_false_iff_not, not_le, ge_iff_le]
    refine ⟨fun h => Or.inr ⟨q, rfl, h.1, h.2⟩, fun h => ?_⟩
    rcases h with h | ⟨q2, h, h0, h1⟩
    · cases h
    · have hq : q = q2 := CDouble.val.inj h
      rw [hq]
      exact ⟨h0, h1⟩

/-- The case `'I'` on a list of 4 or 8 values: the test `lst_size(tmpl) == 6` fails, so the
conserved parameters are copies of the neutral ones and positions 0 to 3 are read. -/
theorem main_indel_model_eq (tmpl : List CDouble) (h : tmpl.length = 4 ∨ tmpl.length = 8) :
    main_indel_model tmpl
      = if ((lst_get_dbl tmpl 0).le 0 || (lst_get_dbl tmpl 0).ge 1 ||
            (lst_get_dbl tmpl 1).le 0 || (lst_get_dbl tmpl 1).ge 1 ||
            (lst_get_dbl tmpl 2).le 0 || (lst_get_dbl tmpl 2).ge 1 ||
            (lst_get_dbl tmpl 3).le 0 || (lst_get_dbl tmpl 3).ge 1 ||
            (lst_get_dbl tmpl 0).le 0 || (lst_get_dbl tmpl 0).ge 1 ||
            (lst_get_dbl tmpl 1).le 0 || (lst_get_dbl tmpl 1).ge 1 ||
            (lst_get_dbl tmpl 2).le 0 || (lst_get_dbl tmpl 2).ge 1 ||
            (lst_get_dbl tmpl 3).le 0 || (lst_get_dbl tmpl 3).ge 1) = true then
          (none, [0, 1, 2, 3])
        else
          (some ⟨lst_get_dbl tmpl 0, lst_get_dbl tmpl 1, lst_get_dbl tmpl 2,
            lst_get_dbl tmpl 3, lst_get_dbl tmpl 0, lst_get_dbl tmpl 1, lst_get_dbl tmpl 2,
            lst_get_dbl tmpl 3, 1⟩, [0, 1, 2, 3]) := by
  have h1 : ¬ (lst_size tmpl ≠ 4 ∧ lst_size tmpl ≠ 8) := by
    unfold lst_size
    omega
  have h2 : ¬ lst_size tmpl = 6 := by
    unfold lst_size
    omega
  unfold main_indel_model
  rw [if_neg h1]
  simp only [if_neg h2]

/-- C25 (as stated) fails: the list of four NaN values is accepted, because each of the
sixteen comparisons of lines 109-112 is false for NaN, although none of its values lies
strictly between 0 and 1. -/
theorem C25_counterexample :
    (main_indel_model [.nan, .nan, .nan, .nan]).1.isSome = true ∧
    ¬ ∀ i, i < 4 → (lst_get_dbl [.nan, .nan, .nan, .nan] i).inUnitInterval := by
  refine ⟨rfl, fun h => ?_⟩
  obtain ⟨q, hq, _⟩ := h 0 (by decide)
  cases hq

/-- C25 (amended). In the option `--indel-model`, a list is accepted exactly when it has 4
or 8 values and each of the first four is NaN or lies strictly between 0 and 1; for every
accepted list, an 8-value one included, the conserved parameters `alpha_c`, `beta_c`,
`tau_c`, `epsilon_c` are the neutral parameters, which are the first four values; and no
position beyond the first four is ever read. -/
theorem C25_indel_model_option (tmpl : List CDouble) :
    ((main_indel_model tmpl).1.isSome = true ↔
      (tmpl.length = 4 ∨ tmpl.length = 8) ∧
        ∀ i, i < 4 → lst_get_dbl tmpl i = .nan ∨ (lst_get_dbl tmpl i).inUnitInterval) ∧
    (∀ p, (main_indel_model tmpl).1 = some p →
      p.alpha_n = lst_get_dbl tmpl 0 ∧ p.beta_n = lst_get_dbl tmpl 1 ∧
      p.tau_n = lst_get_dbl tmpl 2 ∧ p.epsilon_n = lst_get_dbl tmpl 3 ∧
      p.alpha_c = p.alpha_n ∧ p.beta_c = p.beta_n ∧ p.tau_c = p.tau_n ∧
      p.epsilon_c = p.epsilon_n ∧ p.do_ih = 1) ∧
    (∀ i, i ∈ (main_indel_model tmpl).2 → i < 4) := by
  by_cases h : tmpl.length = 4 ∨ tmpl.length = 8
  · rw [main_indel_model_eq tmpl h]
    by_cases hc : ((lst_get_dbl tmpl 0).le 0 || (lst_get_dbl tmpl 0).ge 1 ||
            (lst_get_dbl tmpl 1).le 0 || (lst_get_dbl tmpl 1).ge 1 ||
            (lst_get_dbl tmpl 2).le 0 || (lst_get_dbl tmpl 2).ge 1 ||
            (lst_get_dbl tmpl 3).le 0 || (lst_get_dbl tmpl 3).ge 1 ||
            (lst_get_dbl tmpl 0).le 0 || (lst_get_dbl tmpl 0).ge 1 ||
            (lst_get_dbl tmpl 1).le 0 || (lst_get_dbl tmpl 1).ge 1 ||
            (lst_get_dbl tmpl 2).le 0 || (lst_get_dbl tmpl 2).ge 1 ||
            (lst_get_dbl tmpl 3).le 0 || (lst_get_dbl tmpl 3).ge 1) = true
    · rw [if_pos hc]
      refine ⟨⟨fun hs => absurd hs (by decide), fun hs => ?_⟩,
        fun p hp => absurd hp (by simp), fun i hi => ?_⟩
      · exfalso
        have c0 := (range_test_false_iff _).mpr (hs.2 0 (by decide))
        have c1 := (range_test_false_iff _).mpr (hs.2 1 (by decide))
        have c2 := (range_test_false_iff _).mpr (hs.2 2 (by decide))
        have c3 := (range_test_false_iff _).mpr (hs.2 3 (by decide))
        rw [c0.1, c0.2, c1.1, c1.2, c2.1, c2.2, c3.1, c3.2] at hc
        exact absurd hc (by decide)
      · simp only [List.mem_cons, List.mem_singleton, List.not_mem_nil, or_false] at hi
        omega
    · rw [if_neg hc]
      refine ⟨⟨fun _ => ⟨h, fun i hi => ?_⟩, fun _ => rfl⟩, fun p hp => ?_, fun i hi => ?_⟩
      · have hoff : ∀ (x : CDouble) (c : ℚ) (f : CDouble → ℚ → Bool),
            (f x c = true → ((lst_get_dbl tmpl 0).le 0 || (lst_get_dbl tmpl 0).ge 1 ||
              (lst_get_dbl tmpl 1).le 0 || (lst_get_dbl tmpl 1).ge 1 ||
              (lst_get_dbl tmpl 2).le 0 || (lst_get_dbl tmpl 2).ge 1 ||
              (lst_get_dbl tmpl 3).le 0 || (lst_get_dbl tmpl 3).ge 1 ||
              (lst_get_dbl tmpl 0).le 0 || (lst_get_dbl tmpl 0).ge 1 ||
              (lst_get_dbl tmpl 1).le 0 || (lst_get_dbl tmpl 1).ge 1 ||
              (lst_get_dbl tmpl 2).le 0 || (lst_get_dbl tmpl 2).ge 1 ||
              (lst_get_dbl tmpl 3).le 0 || (lst_get_dbl tmpl 3).ge 1) = true) →
            f x c = false := by
          intro x c f himp
          cases hx : f x c with
          | false => rfl
          | true => exact absurd (himp hx) hc
        have a0 := hoff (lst_get_dbl tmpl 0) 0 CDouble.le
          (fun hx => by simp only [hx, Bool.or_true, Bool.true_or])
        have a1 := hoff (lst_get_dbl tmpl 0) 1 CDouble.ge
          (fun hx => by simp only [hx, Bool.or_true, Bool.true_or])
        have b0 := hoff (lst_get_dbl tmpl 1) 0 CDouble.le
          (fun hx => by simp only [hx, Bool.or_true, Bool.true_or])
        have b1 := hoff (lst_get_dbl tmpl 1) 1 CDouble.ge
          (fun hx => by simp only [hx, Bool.or_true, Bool.true_or])
        have t0 := hoff (lst_get_dbl tmpl 2) 0 CDouble.le
          (fun hx => by simp only [hx, Bool.or_true, Bool.true_or])
        have t1 := hoff (lst_get_dbl tmpl 2) 1 CDouble.ge
          (fun hx => by simp only [hx, Bool.or_true, Bool.true_or])
        have e0 := hoff (lst_get_dbl tmpl 3) 0 CDouble.le
          (fun hx => by simp only [hx, Bool.or_true, Bool.true_or])
        have e1 := hoff (lst_get_dbl tmpl 3) 1 CDouble.ge
          (fun hx => by simp only [hx, Bool.or_true, Bool.true_or])
        have hi4 : i = 0 ∨ i = 1 ∨ i = 2 ∨ i = 3 := by omega
        rcases hi4 with q | q | q | q <;> rw [q]
        · exact (range_test_false_iff _).mp ⟨a0, a1⟩
        · exact (range_test_false_iff _).mp ⟨b0, b1⟩
        · exact (range_test_false_iff _).mp ⟨t0, t1⟩
        · exact (range_test_false_iff _).mp ⟨e0, e1⟩
      · have hp2 := Option.some.inj hp
        rw [← hp2]
        exact ⟨rfl, rfl, rfl, rfl, rfl, rfl, rfl, rfl, rfl⟩
      · simp only [List.mem_cons, List.mem_singleton, List.not_mem_nil, or_false] at hi
        omega
  · have hbad : lst_size tmpl ≠ 4 ∧ lst_size tmpl ≠ 8 := by
      unfold lst_size
      omega
    have hres : main_indel_model tmpl = (none, []) := by
      unfold main_indel_model
      rw [if_pos hbad]
    rw [hres]
    refine ⟨⟨fun hs => absurd hs (by decide), fun hs => absurd hs.1 h⟩,
      fun p hp => absurd hp (by simp), fun i hi => absurd hi (List.not_mem_nil i)⟩

/-- Claim C25 (amended) applied to an 8-value list whose last four values lie outside
`(0, 1)`: the list is accepted and the conserved parameters are the first four values. -/
theorem C25_indel_model_option_witness :
    ∃ p, (main_indel_model [.val (1 / 2), .val (1 / 3), .val (1 / 4), .val (1 / 5),
        .val 9, .val 9, .val 9, .nan]).1 = some p ∧
      p.alpha_n = .val (1 / 2) ∧ p.alpha_c = p.alpha_n ∧ p.epsilon_c = .val (1 / 5) := by
  have hpass : ∀ i, i < 4 →
      lst_get_dbl [.val (1 / 2), .val (1 / 3), .val (1 / 4), .val (1 / 5),
        .val 9, .val 9, .val 9, .nan] i = .nan ∨
      (lst_get_dbl [.val (1 / 2), .val (1 / 3), .val (1 / 4), .val (1 / 5),
        .val 9, .val 9, .val 9, .nan] i).inUnitInterval := by
    intro i hi
    have hi4 : i = 0 ∨ i = 1 ∨ i = 2 ∨ i = 3 := by omega
    rcases hi4 with q | q | q | q <;> rw [q]
    · exact Or.inr ⟨1 / 2, rfl, by norm_num, by norm_num⟩
    · exact Or.inr ⟨1 / 3, rfl, by norm_num, by norm_num⟩
    · exact Or.inr ⟨1 / 4, rfl, by norm_num, by norm_num⟩
    · exact Or.inr ⟨1 / 5, rfl, by norm_num, by norm_num⟩
  have hacc := (C25_indel_model_option [.val (1 / 2), .val (1 / 3), .val (1 / 4),
    .val (1 / 5), .val 9, .val 9, .val 9, .nan]).1.mpr ⟨Or.inr rfl, hpass⟩
  obtain ⟨p, hp⟩ := Option.isSome_iff_exists.mp hacc
  obtain ⟨a1, _, _, a4, a5, _, _, a8, _⟩ :=
    (C25_indel_model_option [.val (1 / 2), .val (1 / 3), .val (1 / 4),
      .val (1 / 5), .val 9, .val 9, .val 9, .nan]).2.1 p hp
  exact ⟨p, hp, a1, a5, a8.trans a4⟩

/-! ## The column accesses of the dynamic program are in bounds -/

/-- The accesses of the loop nest of an internal node are in bounds when the three tables
have 500 columns, the three bounds `maxsubst` are below 500 and the branch distributions
of all start bases have the number of columns of the first. -/
theorem combine_children_cols_ok (size : Nat) (L : MatrixArray) (maxsubst : IntArray)
    (id lid rid : Nat) (d_left d_right : MatrixArray)
    (hwi : (L.get id).ncols = 500) (hwl : (L.get lid).ncols = 500)
    (hwr : (L.get rid).ncols = 500)
    (hmi : maxsubst.get id < 500) (hml : maxsubst.get lid < 500)
    (hmr : maxsubst.get rid < 500)
    (hcl : ∀ a, a < size → (d_left.get a).ncols = (d_left.get 0).ncols)
    (hcr : ∀ a, a < size → (d_right.get a).ncols = (d_right.get 0).ncols) :
    ∀ x, x ∈ combine_children_cols size L maxsubst id lid rid d_left d_right →
      x.inBounds := by
  unfold combine_children_cols
  refine forUpTo_inv (fun log : List ColAccess => ∀ x, x ∈ log → x.inBounds) _ _ _
    (fun x hx => absurd hx (List.not_mem_nil x)) ?_
  intro n log1 hn h1
  refine forUpTo_inv (fun log : List ColAccess => ∀ x, x ∈ log → x.inBounds) _ _ _ h1 ?_
  intro j log2 hj h2
  refine forUpTo_inv (fun log : List ColAccess => ∀ x, x ∈ log → x.inBounds) _ _ _ h2 ?_
  intro a log3 ha h3
  have hleft : ∀ x, x ∈ forUpTo size (fun _b log =>
      forRange (max 0 ((j : Int) - (d_left.get 0).ncols + 1)).toNat
        (min (j : Int) (maxsubst.get lid) + 1).toNat (fun i log =>
          (⟨.D_left, (j : Int) - i, (d_left.get a).ncols⟩ : ColAccess) ::
            ⟨.L, (i : Int), (L.get lid).ncols⟩ :: log) log) log3 → x.inBounds := by
    refine forUpTo_inv (fun log : List ColAccess => ∀ x, x ∈ log → x.inBounds) _ _ _ h3 ?_
    intro b log4 _ h4
    unfold forRange
    refine forUpTo_inv (fun log : List ColAccess => ∀ x, x ∈ log → x.inBounds) _ _ _ h4 ?_
    intro d log5 hd h5 x hx
    rcases List.mem_cons.mp hx with hx1 | hx1
    · rw [hx1]
      refine ⟨?_, ?_, fun h => absurd (show DPTable.D_left = DPTable.L from h) (by decide)⟩
      · show (0 : Int) ≤ (j : Int) - ((max 0 ((j : Int) - (d_left.get 0).ncols + 1)).toNat + d : Nat)
        omega
      · show (j : Int) - ((max 0 ((j : Int) - (d_left.get 0).ncols + 1)).toNat + d : Nat)
          < ((d_left.get a).ncols : Int)
        rw [hcl a ha]
        omega
    · rcases List.mem_cons.mp hx1 with hx2 | hx2
      · rw [hx2]
        refine ⟨?_, ?_, fun _ => hwl⟩
        · show (0 : Int) ≤ ((max 0 ((j : Int) - (d_left.get 0).ncols + 1)).toNat + d : Nat)
          omega
        · show (((max 0 ((j : Int) - (d_left.get 0).ncols + 1)).toNat + d : Nat) : Int)
            < ((L.get lid).ncols : Int)
          rw [hwl]
          omega
      · exact h5 x hx2
  have hright : ∀ x, x ∈ forUpTo size (fun _c log =>
      forRange (max 0 ((n : Int) - j - (d_right.get 0).ncols + 1)).toNat
        (min ((n : Int) - j) (maxsubst.get rid) + 1).toNat (fun k log =>
          (⟨.D_right, (n : Int) - j - k, (d_right.get a).ncols⟩ : ColAccess) ::
            ⟨.L, (k : Int), (L.get rid).ncols⟩ :: log) log)
      (forUpTo size (fun _b log =>
        forRange (max 0 ((j : Int) - (d_left.get 0).ncols + 1)).toNat
          (min (j : Int) (maxsubst.get lid) + 1).toNat (fun i log =>
            (⟨.D_left, (j : Int) - i, (d_left.get a).ncols⟩ : ColAccess) ::
              ⟨.L, (i : Int), (L.get lid).ncols⟩ :: log) log) log3) → x.inBounds := by
    refine forUpTo_inv (fun log : List ColAccess => ∀ x, x ∈ log → x.inBounds) _ _ _ hleft ?_
    intro c log4 _ h4
    unfold forRange
    refine forUpTo_inv (fun log : List ColAccess => ∀ x, x ∈ log → x.inBounds) _ _ _ h4 ?_
    intro d log5 hd h5 x hx
    rcases List.mem_cons.mp hx with hx1 | hx1
    · rw [hx1]
      refine ⟨?_, ?_, fun h => absurd (show DPTable.D_right = DPTable.L from h) (by decide)⟩
      · show (0 : Int) ≤ (n : Int) - j
          - ((max 0 ((n : Int) - j - (d_right.get 0).ncols + 1)).toNat + d : Nat)
        omega
      · show (n : Int) - j
          - ((max 0 ((n : Int) - j - (d_right.get 0).ncols + 1)).toNat + d : Nat)
          < ((d_right.get a).ncols : Int)
        rw [hcr a ha]
        omega
    · rcases List.mem_cons.mp hx1 with hx2 | hx2
      · rw [hx2]
        refine ⟨?_, ?_, fun _ => hwr⟩
        · show (0 : Int)
            ≤ ((max 0 ((n : Int) - j - (d_right.get 0).ncols + 1)).toNat + d : Nat)
          omega
        · show (((max 0 ((n : Int) - j - (d_right.get 0).ncols + 1)).toNat + d : Nat) : Int)
            < ((L.get rid).ncols : Int)
          rw [hwr]
          omega
      · exact h5 x hx2
  intro x hx
  rcases List.mem_cons.mp hx with hx1 | hx1
  · rw [hx1]
    refine ⟨?_, ?_, fun _ => hwi⟩
    · show (0 : Int) ≤ (n : Int)
      omega
    · show (n : Int) < ((L.get id).ncols : Int)
      rw [hwi]
      omega
  · exact hright x hx1

theorem traversalRun_none {σ : Type} (step : σ → TreeNode → Option σ) (xs : List TreeNode) :
    traversalRun step xs none = none := by
  induction xs with
  | nil => rfl
  | cons x rest ih => exact ih

theorem traversalRun_cons {σ : Type} (step : σ → TreeNode → Option σ) (x : TreeNode)
    (xs : List TreeNode) (st : σ) :
    traversalRun step (x :: xs) (some st) = traversalRun step xs (step st x) := rfl

theorem traversalRun_append {σ : Type} (step : σ → TreeNode → Option σ)
    (xs ys : List TreeNode) (s : Option σ) :
    traversalRun step (xs ++ ys) s = traversalRun step ys (traversalRun step xs s) := by
  unfold traversalRun
  rw [List.foldl_append]

theorem traversalTrace_none {σ α : Type} (step : σ → TreeNode → Option σ)
    (trace : σ → TreeNode → List α) (xs : List TreeNode) :
    traversalTrace step trace xs none = [] := by
  cases xs <;> rfl

theorem traversalTrace_single {σ α : Type} (step : σ → TreeNode → Option σ)
    (trace : σ → TreeNode → List α) (x : TreeNode) (st : σ) :
    traversalTrace step trace [x] (some st) = trace st x := by
  simp only [traversalTrace, List.append_nil]

/-- The trace of a traversal of `xs ++ ys` is the trace of `xs` followed by the trace of
`ys` from the state that `xs` leaves. -/
theorem traversalTrace_append {σ α : Type} (step : σ → TreeNode → Option σ)
    (trace : σ → TreeNode → List α) (xs ys : List TreeNode) (s : Option σ) :
    traversalTrace step trace (xs ++ ys) s
      = traversalTrace step trace xs s
        ++ traversalTrace step trace ys (traversalRun step xs s) := by
  induction xs generalizing s with
  | nil =>
    rw [List.nil_append]
    cases s <;> rfl
  | cons x rest ih =>
    cases s with
    | none =>
      rw [traversalRun_none, traversalTrace_none, traversalTrace_none, traversalTrace_none]
      rfl
    | some st =>
      rw [traversalRun_cons]
      show trace st x ++ traversalTrace step trace (rest ++ ys) (step st x)
        = trace st x ++ traversalTrace step trace rest (step st x)
          ++ traversalTrace step trace ys (traversalRun step rest (step st x))
      rw [ih (step st x), List.append_assoc]

/-- One step of a traversal, for a step function that allocates a table of 500 columns for
the node, keeps the widths of the other tables and the other entries of `maxsubst`, and
whose accesses are in bounds once the children's tables have 500 columns. -/
theorem traversal_step_ok {σ : Type} (step : σ → TreeNode → Option σ)
    (cols : σ → TreeNode → List ColAccess) (Lof : σ → MatrixArray) (msof : σ → IntArray)
    (hW : ∀ st node st', step st node = some st' →
      ((Lof st').get node.id).ncols = 500 ∧
      ∀ i, ((Lof st).get i).ncols = 500 → ((Lof st').get i).ncols = 500)
    (hM : ∀ st node st', step st node = some st' →
      ∀ i, i ≠ node.id → (msof st').get i = (msof st).get i)
    (hN : ∀ st node, step st node = none → cols st node = [])
    (st : σ) (node : TreeNode)
    (hcols : ∀ st', step st node = some st' → (∀ i, (msof st').get i < 500) →
      ∀ x, x ∈ cols st node → x.inBounds)
    (hB : ∀ i, (msof st).get i < 500)
    (hv : ∀ m, m ∈ assignedMaxsubst step msof st node → m < 500) :
    (∀ x, x ∈ cols st node → x.inBounds) ∧
    ∀ st', step st node = some st' →
      ((Lof st').get node.id).ncols = 500 ∧
      (∀ i, ((Lof st).get i).ncols = 500 → ((Lof st').get i).ncols = 500) ∧
      ∀ i, (msof st').get i < 500 := by
  cases h : step st node with
  | none =>
    refine ⟨fun x hx => ?_, fun st' h2 => absurd h2 (by simp)⟩
    rw [hN st node h] at hx
    exact absurd hx (List.not_mem_nil x)
  | some st1 =>
    unfold assignedMaxsubst at hv
    rw [h] at hv
    have hval : (msof st1).get node.id < 500 := hv _ (List.mem_singleton.mpr rfl)
    have hB1 : ∀ i, (msof st1).get i < 500 := by
      intro i
      by_cases hi : i = node.id
      · rw [hi]
        exact hval
      · rw [hM st node st1 h i hi]
        exact hB i
    refine ⟨hcols st1 h hB1, fun st' h2 => ?_⟩
    have he : st1 = st' := Option.some.inj h2
    rw [← he]
    exact ⟨(hW st node st1 h).1, (hW st node st1 h).2, hB1⟩

/-- The accesses of a traversal of a subtree in postorder are in bounds when every value
assigned to `maxsubst` is below 500; afterwards the table of the subtree's root has 500
columns. -/
theorem traversal_subtree_ok {σ : Type} (step : σ → TreeNode → Option σ)
    (cols : σ → TreeNode → List ColAccess) (Lof : σ → MatrixArray) (msof : σ → IntArray)
    (hW : ∀ st node st', step st node = some st' →
      ((Lof st').get node.id).ncols = 500 ∧
      ∀ i, ((Lof st).get i).ncols = 500 → ((Lof st').get i).ncols = 500)
    (hM : ∀ st node st', step st node = some st' →
      ∀ i, i ≠ node.id → (msof st').get i = (msof st).get i)
    (hN : ∀ st node, step st node = none → cols st node = [])
    (hleaf : ∀ st id d st', step st (.leaf id d) = some st' →
      ∀ x, x ∈ cols st (.leaf id d) → x.inBounds)
    (hnode : ∀ st id d l r st', step st (.node id d l r) = some st' →
      (∀ i, (msof st').get i < 500) → ((Lof st).get l.id).ncols = 500 →
      ((Lof st).get r.id).ncols = 500 → ∀ x, x ∈ cols st (.node id d l r) → x.inBounds)
    (t : TreeNode) :
    ∀ st, (∀ i, (msof st).get i < 500) →
      (∀ m, m ∈ traversalTrace step (assignedMaxsubst step msof) (tr_postorder t) (some st) →
        m < 500) →
      (∀ x, x ∈ traversalTrace step cols (tr_postorder t) (some st) → x.inBounds) ∧
      ∀ st', traversalRun step (tr_postorder t) (some st) = some st' →
        ((Lof st').get t.id).ncols = 500 ∧
        (∀ i, ((Lof st).get i).ncols = 500 → ((Lof st').get i).ncols = 500) ∧
        (∀ i, (msof st').get i < 500) ∧
        ∀ id2 d2 l2 r2, t = .node id2 d2 l2 r2 →
          ((Lof st').get l2.id).ncols = 500 ∧ ((Lof st').get r2.id).ncols = 500 := by
  induction t with
  | leaf id d =>
    intro st hB hv
    simp only [tr_postorder] at hv ⊢
    rw [traversalTrace_single] at hv ⊢
    obtain ⟨hc, hs⟩ := traversal_step_ok step cols Lof msof hW hM hN st (.leaf id d)
      (fun st' h _ => hleaf st id d st' h) hB hv
    refine ⟨hc, fun st' h => ?_⟩
    obtain ⟨a1, a2, a3⟩ := hs st' h
    exact ⟨a1, a2, a3, fun _ _ _ _ he => TreeNode.noConfusion he⟩
  | node id d l r ihl ihr =>
    intro st hB hv
    simp only [tr_postorder] at hv ⊢
    rw [traversalTrace_append, traversalTrace_append, traversalRun_append] at hv ⊢
    rw [traversalRun_append, traversalRun_append]
    obtain ⟨hc1, hs1⟩ := ihl st hB
      (fun m hm => hv m (List.mem_append_left _ (List.mem_append_left _ hm)))
    cases h1 : traversalRun step (tr_postorder l) (some st) with
    | none =>
      rw [traversalRun_none, traversalTrace_none, traversalTrace_none, traversalRun_none]
      refine ⟨fun x hx => ?_, fun st' h => absurd h (by simp)⟩
      rw [List.append_nil, List.append_nil] at hx
      exact hc1 x hx
    | some st1 =>
      rw [h1] at hv
      obtain ⟨hwl1, hp1, hB1, _⟩ := hs1 st1 h1
      obtain ⟨hc2, hs2⟩ := ihr st1 hB1
        (fun m hm => hv m (List.mem_append_left _ (List.mem_append_right _ hm)))
      cases h2 : traversalRun step (tr_postorder r) (some st1) with
      | none =>
        rw [traversalTrace_none, traversalRun_none]
        refine ⟨fun x hx => ?_, fun st' h => absurd h (by simp)⟩
        rw [List.append_nil] at hx
        rcases List.mem_append.mp hx with hx1 | hx1
        · exact hc1 x hx1
        · exact hc2 x hx1
      | some st2 =>
        rw [h2] at hv
        obtain ⟨hwr2, hp2, hB2, _⟩ := hs2 st2 h2
        rw [traversalTrace_single] at hv ⊢
        obtain ⟨hc3, hs3⟩ := traversal_step_ok step cols Lof msof hW hM hN st2
          (.node id d l r)
          (fun st' h hB3 => hnode st2 id d l r st' h hB3 (hp2 l.id hwl1) hwr2) hB2
          (fun m hm => hv m (List.mem_append_right _ hm))
        refine ⟨fun x hx => ?_, fun st' h => ?_⟩
        · rcases List.mem_append.mp hx with hx1 | hx1
          · rcases List.mem_append.mp hx1 with hx2 | hx2
            · exact hc1 x hx2
            · exact hc2 x hx2
          · exact hc3 x hx1
        · obtain ⟨a1, a2, a3⟩ := hs3 st' h
          refine ⟨a1, fun i hi => a2 i (hp2 i (hp1 i hi)), a3, fun id2 d2 l2 r2 he => ?_⟩
          obtain ⟨_, _, e3, e4⟩ := TreeNode.node.inj he
          rw [← e3, ← e4]
          exact ⟨a2 _ (hp2 l.id hwl1), a2 _ hwr2⟩

/-- The table allocated for a node has 500 columns; the other tables are not touched. -/
theorem fresh_ncols (L : MatrixArray) (id size i : Nat) :
    ((L.set id (mat_zero (mat_new size 500))).get i).ncols
      = if i = id then 500 else (L.get i).ncols := by
  rw [matrixArray_set_get]
  by_cases h : i = id
  · rw [if_pos h, if_pos h]
    rfl
  · rw [if_neg h, if_neg h]

/-- The leaf loop of lines 214-215 keeps the number of columns of every table. -/
theorem leaf_fill_ncols (size : Nat) (L : MatrixArray) (id i : Nat) :
    ((forUpTo size (fun a L => setEntry L id a 0 1) L).get i).ncols = (L.get i).ncols :=
  forUpTo_frame (fun L : MatrixArray => (L.get i).ncols) _
    (fun a s => setEntry_ncols s id a 0 1 i) size L

/-- The loop nest of lines 232-258 keeps the number of columns of every table. -/
theorem combine_children_ncols (size : Nat) (L : MatrixArray) (maxsubst : IntArray)
    (id lid rid : Nat) (d_left d_right : MatrixArray) (i : Nat) :
    ((combine_children size L maxsubst id lid rid d_left d_right).get i).ncols
      = (L.get i).ncols := by
  unfold combine_children
  refine forUpTo_frame (fun L : MatrixArray => (L.get i).ncols) _ (fun n s => ?_) _ L
  refine forUpTo_frame (fun L : MatrixArray => (L.get i).ncols) _ (fun j s => ?_) _ s
  refine forUpTo_frame (fun L : MatrixArray => (L.get i).ncols) _ (fun a s => ?_) _ s
  exact setEntry_ncols s id a _ _ i

/-- The accesses of the leaf loop are to column 0. -/
theorem leaf_cols_ok (size c : Nat) (hc : c = 500) :
    ∀ x, x ∈ forUpTo size (fun _a log => (⟨.L, 0, c⟩ : ColAccess) :: log) [] → x.inBounds := by
  refine forUpTo_inv (fun log : List ColAccess => ∀ x, x ∈ log → x.inBounds) _ _ _
    (fun x hx => absurd hx (List.not_mem_nil x)) ?_
  intro a log _ h x hx
  rcases List.mem_cons.mp hx with hx1 | hx1
  · rw [hx1, hc]
    exact ⟨le_refl 0, by decide, fun _ => rfl⟩
  · exact h x hx1

/-- The accesses of the loop nest of an internal node whose table has just been allocated,
when the children's tables have 500 columns, every bound `maxsubst` is below 500 and the
branch distributions are those of `sub_distrib_branch_conditional`. -/
theorem internal_cols_ok (pv_poisson : ℚ → Vector) (jp : JumpProcess) (L : MatrixArray)
    (maxsubst : IntArray) (id : Nat) (lchild rchild : TreeNode)
    (d_left d_right : MatrixArray)
    (hl : sub_distrib_branch_conditional pv_poisson jp lchild.dparent = some d_left)
    (hr : sub_distrib_branch_conditional pv_poisson jp rchild.dparent = some d_right)
    (hB : ∀ i, maxsubst.get i < 500)
    (hwl : (L.get lchild.id).ncols = 500) (hwr : (L.get rchild.id).ncols = 500) :
    ∀ x, x ∈ combine_children_cols jp.mod.rate_matrix.size
        (L.set id (mat_zero (mat_new jp.mod.rate_matrix.size 500))) maxsubst id lchild.id
        rchild.id d_left d_right → x.inBounds := by
  have hfresh : ∀ i, (L.get i).ncols = 500 →
      ((L.set id (mat_zero (mat_new jp.mod.rate_matrix.size 500))).get i).ncols = 500 := by
    intro i hi
    rw [fresh_ncols]
    by_cases h : i = id
    · rw [if_pos h]
    · rw [if_neg h]
      exact hi
  refine combine_children_cols_ok _ _ _ _ _ _ _ _ ?_ (hfresh _ hwl) (hfresh _ hwr) (hB _)
    (hB _) (hB _) ?_ ?_
  · rw [fresh_ncols, if_pos rfl]
  · intro a ha
    rw [cond_ncols pv_poisson jp _ d_left hl a ha,
      cond_ncols pv_poisson jp _ d_left hl 0 (by omega)]
  · intro a ha
    rw [cond_ncols pv_poisson jp _ d_right hr a ha,
      cond_ncols pv_poisson jp _ d_right hr 0 (by omega)]

/-- A step of the posterior traversal allocates a table of 500 columns for the node and
keeps the widths of the other tables. -/
theorem posterior_node_widths (pv_poisson : ℚ → Vector) (jp : JumpProcess) (msa : MSA)
    (ss : SuffStats) (idx : Nat → Nat) (tuple_idx : Nat) (st : SiteState) (node : TreeNode)
    (st' : SiteState)
    (h : posterior_node pv_poisson jp msa ss idx tuple_idx st node = some st') :
    (st'.L.get node.id).ncols = 500 ∧
    ∀ i, (st.L.get i).ncols = 500 → (st'.L.get i).ncols = 500 := by
  have hfresh : ∀ i, (i = node.id ∨ (st.L.get i).ncols = 500) →
      ((st.L.set node.id (mat_zero (mat_new jp.mod.rate_matrix.size 500))).get i).ncols
        = 500 := by
    intro i hi
    rw [fresh_ncols]
    by_cases h : i = node.id
    · rw [if_pos h]
    · rw [if_neg h]
      rcases hi with h2 | h2
      · exact absurd h2 h
      · exact h2
  have hall : ∀ i, (i = node.id ∨ (st.L.get i).ncols = 500) → (st'.L.get i).ncols = 500 := by
    intro i hi
    cases node with
    | leaf id d =>
      simp only [posterior_node] at h
      by_cases h1 : (msa.is_missing (ss.col_char tuple_idx (idx id))
          || ss.col_char tuple_idx (idx id) == GAP_CHAR) = true
      · rw [if_pos h1] at h
        cases h
        show ((forUpTo jp.mod.rate_matrix.size (fun a L => setEntry L id a 0 1) _).get i).ncols
          = 500
        rw [leaf_fill_ncols]
        exact hfresh i hi
      · rw [if_neg h1] at h
        by_cases h2 : msa.inv_alphabet (ss.col_char tuple_idx (idx id)) ≥ 0
        · rw [if_pos h2] at h
          cases h
          show ((setEntry _ id _ 0 1).get i).ncols = 500
          rw [setEntry_ncols]
          exact hfresh i hi
        · rw [if_neg h2] at h
          cases h
    | node id d lchild rchild =>
      obtain ⟨d_left, d_right, hl, hr⟩ := posterior_node_internal_inv _ _ _ _ _ _ _ _ _ _ _ _ h
      rw [posterior_node_internal pv_poisson jp msa ss idx tuple_idx st id d lchild rchild
        d_left d_right hl hr] at h
      cases h
      show ((combine_children _ _ _ id _ _ d_left d_right).get i).ncols = 500
      rw [combine_children_ncols]
      exact hfresh i hi
  exact ⟨hall _ (Or.inl rfl), fun i hi => hall i (Or.inr hi)⟩

/-- A step of the posterior traversal assigns `maxsubst` of the node only. -/
theorem posterior_node_maxsubst_frame (pv_poisson : ℚ → Vector) (jp : JumpProcess)
    (msa : MSA) (ss : SuffStats) (idx : Nat → Nat) (tuple_idx : Nat) (st : SiteState)
    (node : TreeNode) (st' : SiteState)
    (h : posterior_node pv_poisson jp msa ss idx tuple_idx st node = some st') :
    ∀ i, i ≠ node.id → st'.maxsubst.get i = st.maxsubst.get i := by
  cases node with
  | leaf id d => exact (posterior_node_leaf_frame _ _ _ _ _ _ _ _ _ _ h).2.1
  | node id d lchild rchild =>
    obtain ⟨d_left, d_right, hl, hr⟩ := posterior_node_internal_inv _ _ _ _ _ _ _ _ _ _ _ _ h
    rw [posterior_node_internal pv_poisson jp msa ss idx tuple_idx st id d lchild rchild
      d_left d_right hl hr] at h
    cases h
    intro i hi
    have hi2 : i ≠ id := hi
    rw [intArray_set_get, if_neg hi2]

/-- A failed step of the posterior traversal makes no column access. -/
theorem posterior_node_cols_none (pv_poisson : ℚ → Vector) (jp : JumpProcess) (msa : MSA)
    (ss : SuffStats) (idx : Nat → Nat) (tuple_idx : Nat) (st : SiteState) (node : TreeNode)
    (h : posterior_node pv_poisson jp msa ss idx tuple_idx st node = none) :
    posterior_node_cols pv_poisson jp msa ss idx tuple_idx st node = [] := by
  cases node with
  | leaf id d =>
    simp only [posterior_node] at h
    simp only [posterior_node_cols]
    by_cases h1 : (msa.is_missing (ss.col_char tuple_idx (idx id))
        || ss.col_char tuple_idx (idx id) == GAP_CHAR) = true
    · rw [if_pos h1] at h
      cases h
    · rw [if_neg h1] at h ⊢
      by_cases h2 : msa.inv_alphabet (ss.col_char tuple_idx (idx id)) ≥ 0
      · rw [if_pos h2] at h
        cases h
      · rw [if_neg h2]
  | node id d lchild rchild =>
    simp only [posterior_node] at h
    simp only [posterior_node_cols]
    cases hl : sub_distrib_branch_conditional pv_poisson jp lchild.dparent with
    | none => rfl
    | some d_left =>
      cases hr : sub_distrib_branch_conditional pv_poisson jp rchild.dparent with
      | none => rfl
      | some d_right =>
        rw [hl, hr] at h
        cases h

/-- The accesses of a leaf step of the posterior traversal are in bounds. -/
theorem posterior_node_cols_leaf (pv_poisson : ℚ → Vector) (jp : JumpProcess) (msa : MSA)
    (ss : SuffStats) (idx : Nat → Nat) (tuple_idx : Nat) (st : SiteState) (id : Nat) (d : ℚ) :
    ∀ x, x ∈ posterior_node_cols pv_poisson jp msa ss idx tuple_idx st (.leaf id d) →
      x.inBounds := by
  have hw : ((st.L.set id (mat_zero (mat_new jp.mod.rate_matrix.size 500))).get id).ncols
      = 500 := by
    rw [fresh_ncols, if_pos rfl]
  simp only [posterior_node_cols, treeNode_leaf_id]
  by_cases h1 : (msa.is_missing (ss.col_char tuple_idx (idx id))
      || ss.col_char tuple_idx (idx id) == GAP_CHAR) = true
  · rw [if_pos h1]
    exact leaf_cols_ok _ _ hw
  · rw [if_neg h1]
    by_cases h2 : msa.inv_alphabet (ss.col_char tuple_idx (idx id)) ≥ 0
    · rw [if_pos h2]
      intro x hx
      rw [List.mem_singleton.mp hx, hw]
      exact ⟨le_refl 0, by decide, fun _ => rfl⟩
    · rw [if_neg h2]
      exact fun x hx => absurd hx (List.not_mem_nil x)

/-- The accesses of an internal step of the posterior traversal are in bounds when the
children's tables have 500 columns and every `maxsubst` is below 500 after the step. -/
theorem posterior_node_cols_internal (pv_poisson : ℚ → Vector) (jp : JumpProcess)
    (msa : MSA) (ss : SuffStats) (idx : Nat → Nat) (tuple_idx : Nat) (st : SiteState)
    (id : Nat) (d : ℚ) (lchild rchild : TreeNode) (st' : SiteState)
    (h : posterior_node pv_poisson jp msa ss idx tuple_idx st (.node id d lchild rchild)
      = some st')
    (hB : ∀ i, st'.maxsubst.get i < 500)
    (hwl : (st.L.get lchild.id).ncols = 500) (hwr : (st.L.get rchild.id).ncols = 500) :
    ∀ x, x ∈ posterior_node_cols pv_poisson jp msa ss idx tuple_idx st
      (.node id d lchild rchild) → x.inBounds := by
  obtain ⟨d_left, d_right, hl, hr⟩ := posterior_node_internal_inv _ _ _ _ _ _ _ _ _ _ _ _ h
  rw [posterior_node_internal pv_poisson jp msa ss idx tuple_idx st id d lchild rchild
    d_left d_right hl hr] at h
  cases h
  simp only [posterior_node_cols, treeNode_node_id, hl, hr]
  exact internal_cols_ok pv_poisson jp st.L _ id lchild rchild d_left d_right hl hr hB hwl hwr

/-- An internal step of the joint traversal that succeeds has both branch distributions
and stores the tables of the loop nest. -/
theorem joint_node_internal_inv (pv_poisson : ℚ → Vector) (jp : JumpProcess)
    (msa : Option MSA) (idx : Nat → Nat) (tuple_idx : Nat) (st st' : JointState) (id : Nat)
    (d : ℚ) (lchild rchild : TreeNode)
    (h : joint_node pv_poisson jp msa idx tuple_idx st (.node id d lchild rchild) = some st') :
    ∃ d_left d_right,
      sub_distrib_branch_conditional pv_poisson jp lchild.dparent = some d_left ∧
      sub_distrib_branch_conditional pv_poisson jp rchild.dparent = some d_right ∧
      st'.L = combine_children jp.mod.rate_matrix.size
          (st.L.set id (mat_zero (mat_new jp.mod.rate_matrix.size 500)))
          (st.maxsubst.set id
            (max (st.maxsubst.get lchild.id + (d_left.get 0).ncols - 1)
                 (st.maxsubst.get rchild.id + (d_right.get 0).ncols - 1)))
          id lchild.id rchild.id d_left d_right ∧
      st'.maxsubst = st.maxsubst.set id
            (max (st.maxsubst.get lchild.id + (d_left.get 0).ncols - 1)
                 (st.maxsubst.get rchild.id + (d_right.get 0).ncols - 1)) := by
  cases hl : sub_distrib_branch_conditional pv_poisson jp lchild.dparent with
  | none =>
    simp only [joint_node, hl] at h
    cases h
  | some d_left =>
    cases hr : sub_distrib_branch_conditional pv_poisson jp rchild.dparent with
    | none =>
      simp only [joint_node, hl, hr] at h
      cases h
    | some d_right =>
      obtain ⟨jst', hj, hL, hM⟩ := joint_node_internal pv_poisson jp msa idx tuple_idx st id d
        lchild rchild d_left d_right hl hr
      have he : jst' = st' := Option.some.inj (hj.symm.trans h)
      rw [← he]
      exact ⟨d_left, d_right, rfl, rfl, hL, hM⟩

/-- A leaf step of the joint traversal that succeeds stores the leaf loop or one entry in
the fresh table, and sets `maxsubst` of the leaf to 0. -/
theorem joint_node_leaf_inv (pv_poisson : ℚ → Vector) (jp : JumpProcess)
    (msa : Option MSA) (idx : Nat → Nat) (tuple_idx : Nat) (st st' : JointState) (id : Nat)
    (d : ℚ)
    (h : joint_node pv_poisson jp msa idx tuple_idx st (.leaf id d) = some st') :
    (st'.L = forUpTo jp.mod.rate_matrix.size (fun a L => setEntry L id a 0 1)
        (st.L.set id (mat_zero (mat_new jp.mod.rate_matrix.size 500))) ∨
      ∃ k, st'.L = setEntry (st.L.set id (mat_zero (mat_new jp.mod.rate_matrix.size 500)))
        id k 0 1) ∧
    st'.maxsubst = st.maxsubst.set id 0 := by
  cases msa with
  | none =>
    simp only [joint_node, treeNode_leaf_id] at h
    cases h
    exact ⟨Or.inl rfl, rfl⟩
  | some m =>
    cases hss : m.ss with
    | none =>
      simp only [joint_node, hss] at h
      cases h
    | some ss =>
      simp only [joint_node, hss, treeNode_leaf_id] at h
      by_cases h1 : (m.is_missing (ss.col_char tuple_idx (idx id))
          || ss.col_char tuple_idx (idx id) == GAP_CHAR) = true
      · rw [if_pos h1] at h
        cases h
        exact ⟨Or.inl rfl, rfl⟩
      · rw [if_neg h1] at h
        by_cases h2 : m.inv_alphabet (ss.col_char tuple_idx (idx id)) ≥ 0
        · rw [if_pos h2] at h
          cases h
          exact ⟨Or.inr ⟨_, rfl⟩, rfl⟩
        · rw [if_neg h2] at h
          cases h

/-- A step of the joint traversal allocates a table of 500 columns for the node and keeps
the widths of the other tables. -/
theorem joint_node_widths (pv_poisson : ℚ → Vector) (jp : JumpProcess) (msa : Option MSA)
    (idx : Nat → Nat) (tuple_idx : Nat) (st : JointState) (node : TreeNode)
    (st' : JointState)
    (h : joint_node pv_poisson jp msa idx tuple_idx st node = some st') :
    (st'.L.get node.id).ncols = 500 ∧
    ∀ i, (st.L.get i).ncols = 500 → (st'.L.get i).ncols = 500 := by
  have hfresh : ∀ id i, (i = id ∨ (st.L.get i).ncols = 500) →
      ((st.L.set id (mat_zero (mat_new jp.mod.rate_matrix.size 500))).get i).ncols
        = 500 := by
    intro id i hi
    rw [fresh_ncols]
    by_cases h : i = id
    · rw [if_pos h]
    · rw [if_neg h]
      rcases hi with h2 | h2
      · exact absurd h2 h
      · exact h2
  have hall : ∀ i, (i = node.id ∨ (st.L.get i).ncols = 500) → (st'.L.get i).ncols = 500 := by
    intro i hi
    cases node with
    | leaf id d =>
      obtain ⟨hL, _⟩ := joint_node_leaf_inv _ _ _ _ _ _ _ _ _ h
      rcases hL with hL | ⟨k, hL⟩
      · rw [hL, leaf_fill_ncols]
        exact hfresh id i hi
      · rw [hL, setEntry_ncols]
        exact hfresh id i hi
    | node id d lchild rchild =>
      obtain ⟨d_left, d_right, _, _, hL, _⟩ := joint_node_internal_inv _ _ _ _ _ _ _ _ _ _ _ h
      rw [hL, combine_children_ncols]
      exact hfresh id i hi
  exact ⟨hall _ (Or.inl rfl), fun i hi => hall i (Or.inr hi)⟩

/-- A step of the joint traversal assigns `maxsubst` of the node only. -/
theorem joint_node_maxsubst_frame (pv_poisson : ℚ → Vector) (jp : JumpProcess)
    (msa : Option MSA) (idx : Nat → Nat) (tuple_idx : Nat) (st : JointState)
    (node : TreeNode) (st' : JointState)
    (h : joint_node pv_poisson jp msa idx tuple_idx st node = some st') :
    ∀ i, i ≠ node.id → st'.maxsubst.get i = st.maxsubst.get i := by
  intro i hi
  cases node with
  | leaf id d =>
    have hi2 : i ≠ id := hi
    rw [(joint_node_leaf_inv _ _ _ _ _ _ _ _ _ h).2, intArray_set_get, if_neg hi2]
  | node id d lchild rchild =>
    have hi2 : i ≠ id := hi
    obtain ⟨d_left, d_right, _, _, _, hM⟩ := joint_node_internal_inv _ _ _ _ _ _ _ _ _ _ _ h
    rw [hM, intArray_set_get, if_neg hi2]

/-- A failed step of the joint traversal makes no column access. -/
theorem joint_node_cols_none (pv_poisson : ℚ → Vector) (jp : JumpProcess)
    (msa : Option MSA) (idx : Nat → Nat) (tuple_idx : Nat) (st : JointState)
    (node : TreeNode)
    (h : joint_node pv_poisson jp msa idx tuple_idx st node = none) :
    joint_node_cols pv_poisson jp msa idx tuple_idx st node = [] := by
  cases node with
  | leaf id d =>
    cases msa with
    | none =>
      simp only [joint_node] at h
      cases h
    | some m =>
      cases hss : m.ss with
      | none => simp only [joint_node_cols, hss]
      | some ss =>
        simp only [joint_node, hss] at h
        simp only [joint_node_cols, hss]
        by_cases h1 : (m.is_missing (ss.col_char tuple_idx (idx id))
            || ss.col_char tuple_idx (idx id) == GAP_CHAR) = true
        · rw [if_pos h1] at h
          cases h
        · rw [if_neg h1] at h ⊢
          by_cases h2 : m.inv_alphabet (ss.col_char tuple_idx (idx id)) ≥ 0
          · rw [if_pos h2] at h
            cases h
          · rw [if_neg h2]
  | node id d lchild rchild =>
    simp only [joint_node] at h
    simp only [joint_node_cols]
    cases hl : sub_distrib_branch_conditional pv_poisson jp lchild.dparent with
    | none => rfl
    | some d_left =>
      cases hr : sub_distrib_branch_conditional pv_poisson jp rchild.dparent with
      | none => rfl
      | some d_right =>
        rw [hl, hr] at h
        cases h

/-- The accesses of a leaf step of the joint traversal are in bounds. -/
theorem joint_node_cols_leaf (pv_poisson : ℚ → Vector) (jp : JumpProcess)
    (msa : Option MSA) (idx : Nat → Nat) (tuple_idx : Nat) (st : JointState) (id : Nat)
    (d : ℚ) :
    ∀ x, x ∈ joint_node_cols pv_poisson jp msa idx tuple_idx st (.leaf id d) →
      x.inBounds := by
  have hw : ((st.L.set id (mat_zero (mat_new jp.mod.rate_matrix.size 500))).get id).ncols
      = 500 := by
    rw [fresh_ncols, if_pos rfl]
  cases msa with
  | none =>
    simp only [joint_node_cols, treeNode_leaf_id]
    exact leaf_cols_ok _ _ hw
  | some m =>
    cases hss : m.ss with
    | none =>
      simp only [joint_node_cols, hss]
      exact fun x hx => absurd hx (List.not_mem_nil x)
    | some ss =>
      simp only [joint_node_cols, hss, treeNode_leaf_id]
      by_cases h1 : (m.is_missing (ss.col_char tuple_idx (idx id))
          || ss.col_char tuple_idx (idx id) == GAP_CHAR) = true
      · rw [if_pos h1]
        exact leaf_cols_ok _ _ hw
      · rw [if_neg h1]
        by_cases h2 : m.inv_alphabet (ss.col_char tuple_idx (idx id)) ≥ 0
        · rw [if_pos h2]
          intro x hx
          rw [List.mem_singleton.mp hx, hw]
          exact ⟨le_refl 0, by decide, fun _ => rfl⟩
        · rw [if_neg h2]
          exact fun x hx => absurd hx (List.not_mem_nil x)

/-- The accesses of an internal step of the joint traversal are in bounds when the
children's tables have 500 columns and every `maxsubst` is below 500 after the step. -/
theorem joint_node_cols_internal (pv_poisson : ℚ → Vector) (jp : JumpProcess)
    (msa : Option MSA) (idx : Nat → Nat) (tuple_idx : Nat) (st : JointState)
    (id : Nat) (d : ℚ) (lchild rchild : TreeNode) (st' : JointState)
    (h : joint_node pv_poisson jp msa idx tuple_idx st (.node id d lchild rchild) = some st')
    (hB : ∀ i, st'.maxsubst.get i < 500)
    (hwl : (st.L.get lchild.id).ncols = 500) (hwr : (st.L.get rchild.id).ncols = 500) :
    ∀ x, x ∈ joint_node_cols pv_poisson jp msa idx tuple_idx st
      (.node id d lchild rchild) → x.inBounds := by
  obtain ⟨d_left, d_right, hl, hr, _, hM⟩ := joint_node_internal_inv _ _ _ _ _ _ _ _ _ _ _ h
  rw [hM] at hB
  simp only [joint_node_cols, treeNode_node_id, hl, hr]
  exact internal_cols_ok pv_poisson jp st.L _ id lchild rchild d_left d_right hl hr hB hwl hwr

/-- The accesses of the loop nest that fills the joint table are in bounds when the tables
of the root's children have 500 columns and the table has at most 500 rows and columns. -/
theorem joint_root_cols_ok (pv_poisson : ℚ → Vector) (jp : JumpProcess) (st : JointState)
    (lchild rchild : TreeNode)
    (hwl : (st.L.get lchild.id).ncols = 500) (hwr : (st.L.get rchild.id).ncols = 500)
    (h1 : st.n1_max ≤ 500) (h2 : st.n2_max ≤ 500) :
    ∀ x, x ∈ joint_root_cols pv_poisson jp st lchild rchild → x.inBounds := by
  unfold joint_root_cols
  cases hl : sub_distrib_branch_conditional pv_poisson jp lchild.dparent with
  | none => exact fun x hx => absurd hx (List.not_mem_nil x)
  | some d_left =>
    simp only
    refine forUpTo_inv (fun log : List ColAccess => ∀ x, x ∈ log → x.inBounds) _ _ _
      (fun x hx => absurd hx (List.not_mem_nil x)) ?_
    intro n1 log1 hn1 g1
    refine forUpTo_inv (fun log : List ColAccess => ∀ x, x ∈ log → x.inBounds) _ _ _ g1 ?_
    intro n2 log2 hn2 g2
    refine forUpTo_inv (fun log : List ColAccess => ∀ x, x ∈ log → x.inBounds) _ _ _ g2 ?_
    intro a log3 _ g3
    have hleft : ∀ x, x ∈ forUpTo jp.mod.rate_matrix.size (fun _b log =>
        forRange (max 0 ((n1 : Int) - (d_left.get a).ncols + 1)).toNat (n1 + 1) (fun i log =>
          (⟨.D_left, (n1 : Int) - i, (d_left.get a).ncols⟩ : ColAccess) ::
            ⟨.L, (i : Int), (st.L.get lchild.id).ncols⟩ :: log) log) log3 → x.inBounds := by
      refine forUpTo_inv (fun log : List ColAccess => ∀ x, x ∈ log → x.inBounds) _ _ _ g3 ?_
      intro b log4 _ g4
      unfold forRange
      refine forUpTo_inv (fun log : List ColAccess => ∀ x, x ∈ log → x.inBounds) _ _ _ g4 ?_
      intro e log5 he g5 x hx
      rcases List.mem_cons.mp hx with hx1 | hx1
      · rw [hx1]
        refine ⟨?_, ?_, fun h => absurd (show DPTable.D_left = DPTable.L from h) (by decide)⟩
        · show (0 : Int)
            ≤ (n1 : Int) - ((max 0 ((n1 : Int) - (d_left.get a).ncols + 1)).toNat + e : Nat)
          omega
        · show (n1 : Int) - ((max 0 ((n1 : Int) - (d_left.get a).ncols + 1)).toNat + e : Nat)
            < ((d_left.get a).ncols : Int)
          omega
      · rcases List.mem_cons.mp hx1 with hx2 | hx2
        · rw [hx2]
          refine ⟨?_, ?_, fun _ => hwl⟩
          · show (0 : Int)
              ≤ ((max 0 ((n1 : Int) - (d_left.get a).ncols + 1)).toNat + e : Nat)
            omega
          · show (((max 0 ((n1 : Int) - (d_left.get a).ncols + 1)).toNat + e : Nat) : Int)
              < ((st.L.get lchild.id).ncols : Int)
            rw [hwl]
            omega
        · exact g5 x hx2
    intro x hx
    rcases List.mem_cons.mp hx with hx1 | hx1
    · rw [hx1]
      refine ⟨?_, ?_, fun _ => hwr⟩
      · show (0 : Int) ≤ (n2 : Int)
        omega
      · show (n2 : Int) < ((st.L.get rchild.id).ncols : Int)
        rw [hwr]
        omega
    · exact hleft x hx1

/-- The column accesses of `sub_posterior_distrib_site` are in bounds when every value
assigned to `maxsubst` is below 500. -/
theorem posterior_cols_in_bounds (pv_poisson : ℚ → Vector)
    (tm_build_seq_idx : TreeModel → MSA → Nat → Nat) (jp : JumpProcess) (msa : MSA)
    (tuple_idx : Nat)
    (hv : ∀ m, m ∈ sub_posterior_distrib_site_maxsubst pv_poisson tm_build_seq_idx jp msa
      tuple_idx → m < 500) :
    ∀ x, x ∈ sub_posterior_distrib_site_cols pv_poisson tm_build_seq_idx jp msa tuple_idx →
      x.inBounds := by
  unfold sub_posterior_distrib_site_cols
  unfold sub_posterior_distrib_site_maxsubst at hv
  by_cases ho : jp.mod.order ≠ 0
  · rw [if_pos ho]
    exact fun x hx => absurd hx (List.not_mem_nil x)
  · rw [if_neg ho] at hv ⊢
    cases hss : msa.ss with
    | none => exact fun x hx => absurd hx (List.not_mem_nil x)
    | some ss =>
      rw [hss] at hv
      simp only at hv
      exact (traversal_subtree_ok
        (posterior_node pv_poisson jp msa ss (seq_idx tm_build_seq_idx jp msa) tuple_idx)
        (posterior_node_cols pv_poisson jp msa ss (seq_idx tm_build_seq_idx jp msa) tuple_idx)
        SiteState.L SiteState.maxsubst
        (fun st node st' h => posterior_node_widths _ _ _ _ _ _ st node st' h)
        (fun st node st' h => posterior_node_maxsubst_frame _ _ _ _ _ _ st node st' h)
        (fun st node h => posterior_node_cols_none _ _ _ _ _ _ st node h)
        (fun st id d _ _ => posterior_node_cols_leaf _ _ _ _ _ _ st id d)
        (fun st id d l r st' h hB hwl hwr =>
          posterior_node_cols_internal _ _ _ _ _ _ st id d l r st' h hB hwl hwr)
        jp.mod.tree SiteState.init (fun _ => (by decide : (0 : Int) < 500)) hv).1

/-- The column accesses of `sub_joint_distrib_site` are in bounds when every value
assigned to `maxsubst` is below 500 and the ids of the root's children differ from the id
of the root. -/
theorem joint_cols_in_bounds (pv_poisson : ℚ → Vector)
    (tm_build_seq_idx : TreeModel → MSA → Nat → Nat) (jp : JumpProcess) (msa : Option MSA)
    (tuple_idx : Nat)
    (hids : ∀ id d l r, jp.mod.tree = TreeNode.node id d l r → l.id ≠ id ∧ r.id ≠ id)
    (hv : ∀ m, m ∈ sub_joint_distrib_site_maxsubst pv_poisson tm_build_seq_idx jp msa
      tuple_idx → m < 500) :
    ∀ x, x ∈ sub_joint_distrib_site_cols pv_poisson tm_build_seq_idx jp msa tuple_idx →
      x.inBounds := by
  unfold sub_joint_distrib_site_cols
  unfold sub_joint_distrib_site_maxsubst at hv
  by_cases ho : jp.mod.order ≠ 0
  · rw [if_pos ho]
    exact fun x hx => absurd hx (List.not_mem_nil x)
  · rw [if_neg ho] at hv ⊢
    simp only at hv
    obtain ⟨hc, hs⟩ := traversal_subtree_ok
      (joint_node pv_poisson jp msa (joint_seq_idx tm_build_seq_idx jp msa) tuple_idx)
      (joint_node_cols pv_poisson jp msa (joint_seq_idx tm_build_seq_idx jp msa) tuple_idx)
      JointState.L JointState.maxsubst
      (fun st node st' h => joint_node_widths _ _ _ _ _ st node st' h)
      (fun st node st' h => joint_node_maxsubst_frame _ _ _ _ _ st node st' h)
      (fun st node h => joint_node_cols_none _ _ _ _ _ st node h)
      (fun st id d _ _ => joint_node_cols_leaf _ _ _ _ _ st id d)
      (fun st id d l r st' h hB hwl hwr =>
        joint_node_cols_internal _ _ _ _ _ st id d l r st' h hB hwl hwr)
      jp.mod.tree JointState.init (fun _ => (by decide : (0 : Int) < 500)) hv
    intro x hx
    simp only at hx
    rcases List.mem_append.mp hx with hx1 | hx1
    · exact hc x hx1
    · cases hfin : joint_traversal pv_poisson jp msa (joint_seq_idx tm_build_seq_idx jp msa)
          tuple_idx (tr_postorder jp.mod.tree) (some JointState.init) with
      | none =>
        rw [hfin] at hx1
        exact absurd hx1 (List.not_mem_nil x)
      | some jst =>
        rw [hfin] at hx1
        cases hroot : jp.mod.tree with
        | leaf id d =>
          rw [hroot] at hx1
          exact absurd hx1 (List.not_mem_nil x)
        | node id d lchild rchild =>
          rw [hroot] at hx1
          simp only at hx1
          obtain ⟨_, _, hB, hch⟩ := hs jst hfin
          obtain ⟨hwl, hwr⟩ := hch id d lchild rchild hroot
          obtain ⟨hidl, hidr⟩ := hids id d lchild rchild hroot
          have hfin2 := hfin
          rw [hroot] at hfin2
          obtain ⟨jst2, h2⟩ := joint_traversal_last _ _ _ _ _ _ _ _ _ _ _ hfin2
          obtain ⟨d_left, d_right, hl, hr, _, hM⟩ :=
            joint_node_internal_inv _ _ _ _ _ _ _ _ _ _ _ h2
          obtain ⟨hn1, hn2⟩ := joint_final_sizes pv_poisson jp msa _ tuple_idx id d lchild
            rchild d_left d_right jst hroot hl hr hfin
          have hroot_ms := hB id
          rw [hM, intArray_set_get, if_pos rfl] at hroot_ms
          have hml : jst.maxsubst.get lchild.id = jst2.maxsubst.get lchild.id := by
            rw [hM, intArray_set_get, if_neg hidl]
          have hmr : jst.maxsubst.get rchild.id = jst2.maxsubst.get rchild.id := by
            rw [hM, intArray_set_get, if_neg hidr]
          refine joint_root_cols_ok pv_poisson jp jst lchild rchild hwl hwr ?_ ?_ x hx1
          · rw [hn1, hml]
            omega
          · rw [hn2, hmr]
            omega

/-- Claim C23. In the postorder dynamic program of `sub_posterior_distrib_site` and
`sub_joint_distrib_site` (the loop nest of the joint table included), provided every
value assigned to `maxsubst[node->id]` is below 500, every column access is in bounds:
each index `i`, `k`, `n` or `n2` used on a table `L` is in `[0, 499]`, where 500 is the
number of columns of the table, each index `j-i` or `n1-i` used on `d_left[a]` and each
index `n-j-k` used on `d_right[a]` is at least 0 and below the number of columns of that
matrix. For the joint function the ids of the root's children differ from the root's. -/
theorem C23_dp_column_accesses_in_bounds (pv_poisson : ℚ → Vector)
    (tm_build_seq_idx : TreeModel → MSA → Nat → Nat) (jp : JumpProcess) (msa : MSA)
    (omsa : Option MSA) (tuple_idx : Nat) :
    ((∀ m, m ∈ sub_posterior_distrib_site_maxsubst pv_poisson tm_build_seq_idx jp msa
        tuple_idx → m < 500) →
      ∀ x, x ∈ sub_posterior_distrib_site_cols pv_poisson tm_build_seq_idx jp msa tuple_idx →
        0 ≤ x.col ∧ x.col < x.ncols ∧ (x.table = DPTable.L → x.ncols = 500)) ∧
    ((∀ id d l r, jp.mod.tree = TreeNode.node id d l r → l.id ≠ id ∧ r.id ≠ id) →
      (∀ m, m ∈ sub_joint_distrib_site_maxsubst pv_poisson tm_build_seq_idx jp omsa
        tuple_idx → m < 500) →
      ∀ x, x ∈ sub_joint_distrib_site_cols pv_poisson tm_build_seq_idx jp omsa tuple_idx →
        0 ≤ x.col ∧ x.col < x.ncols ∧ (x.table = DPTable.L → x.ncols = 500)) :=
  ⟨fun hv x hx => posterior_cols_in_bounds pv_poisson tm_build_seq_idx jp msa tuple_idx hv x hx,
    fun hids hv x hx =>
      joint_cols_in_bounds pv_poisson tm_build_seq_idx jp omsa tuple_idx hids hv x hx⟩

/-- The trace of a traversal of three nodes whose first two steps succeed. -/
theorem traversalTrace_three {σ α : Type} (step : σ → TreeNode → Option σ)
    (trace : σ → TreeNode → List α) (a b c : TreeNode) (s0 s1 s2 : σ)
    (h1 : step s0 a = some s1) (h2 : step s1 b = some s2) :
    traversalTrace step trace [a, b, c] (some s0)
      = trace s0 a ++ (trace s1 b ++ trace s2 c) := by
  simp only [traversalTrace, h1, h2, List.append_nil]

/-- The value assigned by a step that succeeds. -/
theorem assignedMaxsubst_some {σ : Type} (step : σ → TreeNode → Option σ)
    (maxsubst : σ → IntArray) (st st' : σ) (node : TreeNode) (h : step st node = some st') :
    assignedMaxsubst step maxsubst st node = [(maxsubst st').get node.id] := by
  unfold assignedMaxsubst
  rw [h]

/-- The values assigned to `maxsubst` by the posterior traversal of `zeroRightMod` for the
all-missing column are 0, 0 and 1. -/
theorem zeroRight_posterior_maxsubst :
    sub_posterior_distrib_site_maxsubst cutPois (fun _ _ => id)
      (sub_define_jump_process zeroRightMod 3) missingMSA 0 = [0, 0, 1] := by
  obtain ⟨D1, hD1, hc1, _, _⟩ := symTree_D1 (.node 2 0 (.leaf 0 1) (.leaf 1 0))
  obtain ⟨D0, hD0, hc0, _, _⟩ := symTree_D0 (.node 2 0 (.leaf 0 1) (.leaf 1 0))
  obtain ⟨s1, h1, m1, _, _, _⟩ := posterior_leaf_missing_spec cutPois
    (sub_define_jump_process zeroRightMod 3) missingMSA ⟨1, fun _ => 1, fun _ _ => 42⟩
    (seq_idx (fun _ _ => id) (sub_define_jump_process zeroRightMod 3) missingMSA) 0
    SiteState.init 0 1 (missing_all _)
  obtain ⟨s2, h2, m2, fm2, _, _⟩ := posterior_leaf_missing_spec cutPois
    (sub_define_jump_process zeroRightMod 3) missingMSA ⟨1, fun _ => 1, fun _ _ => 42⟩
    (seq_idx (fun _ _ => id) (sub_define_jump_process zeroRightMod 3) missingMSA) 0 s1 1 0
    (missing_all _)
  obtain ⟨s3, h3, m3, _, _, _⟩ := posterior_internal_spec cutPois
    (sub_define_jump_process zeroRightMod 3) missingMSA ⟨1, fun _ => 1, fun _ _ => 42⟩
    (seq_idx (fun _ _ => id) (sub_define_jump_process zeroRightMod 3) missingMSA) 0 s2 2 0
    (.leaf 0 1) (.leaf 1 0) D1 D0 hD1 hD0 (by decide) (by decide)
  rw [treeNode_leaf_id, treeNode_leaf_id, fm2 0 (by decide), m1, m2, hc1, hc0] at m3
  have hlist : sub_posterior_distrib_site_maxsubst cutPois (fun _ _ => id)
      (sub_define_jump_process zeroRightMod 3) missingMSA 0
      = traversalTrace (posterior_node cutPois (sub_define_jump_process zeroRightMod 3)
          missingMSA ⟨1, fun _ => 1, fun _ _ => 42⟩
          (seq_idx (fun _ _ => id) (sub_define_jump_process zeroRightMod 3) missingMSA) 0)
        (assignedMaxsubst (posterior_node cutPois (sub_define_jump_process zeroRightMod 3)
          missingMSA ⟨1, fun _ => 1, fun _ _ => 42⟩
          (seq_idx (fun _ _ => id) (sub_define_jump_process zeroRightMod 3) missingMSA) 0)
          SiteState.maxsubst)
        [.leaf 0 1, .leaf 1 0, .node 2 0 (.leaf 0 1) (.leaf 1 0)] (some SiteState.init) := rfl
  rw [hlist, traversalTrace_three _ _ _ _ _ _ s1 s2 h1 h2,
    assignedMaxsubst_some _ _ _ s1 _ h1, assignedMaxsubst_some _ _ _ s2 _ h2,
    assignedMaxsubst_some _ _ _ s3 _ h3]
  show [s1.maxsubst.get 0] ++ ([s2.maxsubst.get 1] ++ [s3.maxsubst.get 2]) = [0, 0, 1]
  rw [m1, m2, m3]
  rfl

/-- The values assigned to `maxsubst` by the joint traversal of `zeroRightMod` without an
alignment are 0, 0 and 1. -/
theorem zeroRight_joint_maxsubst :
    sub_joint_distrib_site_maxsubst cutPois (fun _ _ => id)
      (sub_define_jump_process zeroRightMod 3) none 0 = [0, 0, 1] := by
  obtain ⟨D1, hD1, hc1, _, _⟩ := symTree_D1 (.node 2 0 (.leaf 0 1) (.leaf 1 0))
  obtain ⟨D0, hD0, hc0, _, _⟩ := symTree_D0 (.node 2 0 (.leaf 0 1) (.leaf 1 0))
  obtain ⟨j1, h1, _, _⟩ := joint_leaf_no_msa cutPois (sub_define_jump_process zeroRightMod 3)
    (joint_seq_idx (fun _ _ => id) (sub_define_jump_process zeroRightMod 3) none) 0
    JointState.init 0 1
  obtain ⟨j2, h2, _, _⟩ := joint_leaf_no_msa cutPois (sub_define_jump_process zeroRightMod 3)
    (joint_seq_idx (fun _ _ => id) (sub_define_jump_process zeroRightMod 3) none) 0 j1 1 0
  obtain ⟨j3, h3, _, e3⟩ := joint_node_internal cutPois
    (sub_define_jump_process zeroRightMod 3) none
    (joint_seq_idx (fun _ _ => id) (sub_define_jump_process zeroRightMod 3) none) 0 j2 2 0
    (.leaf 0 1) (.leaf 1 0) D1 D0 hD1 hD0
  have e1 := (joint_node_leaf_inv _ _ _ _ _ _ _ _ _ h1).2
  have e2 := (joint_node_leaf_inv _ _ _ _ _ _ _ _ _ h2).2
  have m1 : j1.maxsubst.get 0 = 0 := by rw [e1, intArray_set_get, if_pos rfl]
  have m2 : j2.maxsubst.get 1 = 0 := by rw [e2, intArray_set_get, if_pos rfl]
  have m20 : j2.maxsubst.get 0 = 0 := by
    rw [e2, intArray_set_get, if_neg (by decide), m1]
  have m3 : j3.maxsubst.get 2 = 1 := by
    rw [e3, intArray_set_get, if_pos rfl, treeNode_leaf_id, treeNode_leaf_id, m20, m2, hc1,
      hc0]
    rfl
  have hlist : sub_joint_distrib_site_maxsubst cutPois (fun _ _ => id)
      (sub_define_jump_process zeroRightMod 3) none 0
      = traversalTrace (joint_node cutPois (sub_define_jump_process zeroRightMod 3) none
          (joint_seq_idx (fun _ _ => id) (sub_define_jump_process zeroRightMod 3) none) 0)
        (assignedMaxsubst (joint_node cutPois (sub_define_jump_process zeroRightMod 3) none
          (joint_seq_idx (fun _ _ => id) (sub_define_jump_process zeroRightMod 3) none) 0)
          JointState.maxsubst)
        [.leaf 0 1, .leaf 1 0, .node 2 0 (.leaf 0 1) (.leaf 1 0)] (some JointState.init) := rfl
  rw [hlist, traversalTrace_three _ _ _ _ _ _ j1 j2 h1 h2,
    assignedMaxsubst_some _ _ _ j1 _ h1, assignedMaxsubst_some _ _ _ j2 _ h2,
    assignedMaxsubst_some _ _ _ j3 _ h3]
  show [j1.maxsubst.get 0] ++ ([j2.maxsubst.get 1] ++ [j3.maxsubst.get 2]) = [0, 0, 1]
  rw [m1, m2, m3]
  rfl

/-- The trace of the posterior traversal of `zeroRightMod` is not empty: it starts with the
two writes to column 0 of the table of leaf 0. -/
theorem zeroRight_posterior_cols_mem :
    (⟨.L, 0, 500⟩ : ColAccess) ∈ sub_posterior_distrib_site_cols cutPois (fun _ _ => id)
      (sub_define_jump_process zeroRightMod 3) missingMSA 0 := by
  have hlist : sub_posterior_distrib_site_cols cutPois (fun _ _ => id)
      (sub_define_jump_process zeroRightMod 3) missingMSA 0
      = posterior_node_cols cutPois (sub_define_jump_process zeroRightMod 3)
          missingMSA ⟨1, fun _ => 1, fun _ _ => 42⟩
          (seq_idx (fun _ _ => id) (sub_define_jump_process zeroRightMod 3) missingMSA) 0
          SiteState.init (.leaf 0 1)
        ++ traversalTrace (posterior_node cutPois (sub_define_jump_process zeroRightMod 3)
          missingMSA ⟨1, fun _ => 1, fun _ _ => 42⟩
          (seq_idx (fun _ _ => id) (sub_define_jump_process zeroRightMod 3) missingMSA) 0)
        (posterior_node_cols cutPois (sub_define_jump_process zeroRightMod 3)
          missingMSA ⟨1, fun _ => 1, fun _ _ => 42⟩
          (seq_idx (fun _ _ => id) (sub_define_jump_process zeroRightMod 3) missingMSA) 0)
        [.leaf 1 0, .node 2 0 (.leaf 0 1) (.leaf 1 0)]
        (posterior_node cutPois (sub_define_jump_process zeroRightMod 3)
          missingMSA ⟨1, fun _ => 1, fun _ _ => 42⟩
          (seq_idx (fun _ _ => id) (sub_define_jump_process zeroRightMod 3) missingMSA) 0
          SiteState.init (.leaf 0 1)) := rfl
  have hleaf : posterior_node_cols cutPois (sub_define_jump_process zeroRightMod 3)
      missingMSA ⟨1, fun _ => 1, fun _ _ => 42⟩
      (seq_idx (fun _ _ => id) (sub_define_jump_process zeroRightMod 3) missingMSA) 0
      SiteState.init (.leaf 0 1) = [⟨.L, 0, 500⟩, ⟨.L, 0, 500⟩] := rfl
  rw [hlist, hleaf]
  exact List.mem_append_left _ (List.mem_cons_self _ _)

/-- Claim C23 applied to `zeroRightMod`: for the all-missing column (posterior) and without
an alignment (joint) the values assigned to `maxsubst` are 0, 0, 1, and every column access
is in bounds; the trace of the posterior is not empty. -/
theorem C23_dp_column_accesses_in_bounds_witness :
    (⟨.L, 0, 500⟩ : ColAccess) ∈ sub_posterior_distrib_site_cols cutPois (fun _ _ => id)
      (sub_define_jump_process zeroRightMod 3) missingMSA 0 ∧
    (∀ m, m ∈ sub_posterior_distrib_site_maxsubst cutPois (fun _ _ => id)
      (sub_define_jump_process zeroRightMod 3) missingMSA 0 → m < 500) ∧
    (∀ x, x ∈ sub_posterior_distrib_site_cols cutPois (fun _ _ => id)
        (sub_define_jump_process zeroRightMod 3) missingMSA 0 →
      0 ≤ x.col ∧ x.col < x.ncols ∧ (x.table = DPTable.L → x.ncols = 500)) ∧
    (∀ m, m ∈ sub_joint_distrib_site_maxsubst cutPois (fun _ _ => id)
      (sub_define_jump_process zeroRightMod 3) none 0 → m < 500) ∧
    (∀ x, x ∈ sub_joint_distrib_site_cols cutPois (fun _ _ => id)
        (sub_define_jump_process zeroRightMod 3) none 0 →
      0 ≤ x.col ∧ x.col < x.ncols ∧ (x.table = DPTable.L → x.ncols = 500)) := by
  have hv1 : ∀ m, m ∈ sub_posterior_distrib_site_maxsubst cutPois (fun _ _ => id)
      (sub_define_jump_process zeroRightMod 3) missingMSA 0 → m < 500 := by
    rw [zeroRight_posterior_maxsubst]
    decide
  have hv2 : ∀ m, m ∈ sub_joint_distrib_site_maxsubst cutPois (fun _ _ => id)
      (sub_define_jump_process zeroRightMod 3) none 0 → m < 500 := by
    rw [zeroRight_joint_maxsubst]
    decide
  have hids : ∀ id d l r, (sub_define_jump_process zeroRightMod 3).mod.tree
      = TreeNode.node id d l r → l.id ≠ id ∧ r.id ≠ id := by
    intro id d l r h
    have h2 : TreeNode.node 2 0 (.leaf 0 1) (.leaf 1 0) = TreeNode.node id d l r := h
    obtain ⟨e1, _, e3, e4⟩ := TreeNode.node.inj h2
    rw [← e1, ← e3, ← e4]
    exact ⟨by decide, by decide⟩
  exact ⟨zeroRight_posterior_cols_mem, hv1,
    (C23_dp_column_accesses_in_bounds cutPois (fun _ _ => id)
      (sub_define_jump_process zeroRightMod 3) missingMSA none 0).1 hv1,
    hv2,
    (C23_dp_column_accesses_in_bounds cutPois (fun _ _ => id)
      (sub_define_jump_process zeroRightMod 3) missingMSA none 0).2 hids hv2⟩

/-! ## The conditional branch distribution of a rate matrix -/

/-- Claim C4. For a jump process built by `sub_define_jump_process` from a rate matrix (its
rows sum to 0), a branch length `t` whose Poisson vector `p` has length `m < njumps_max`
and a non-zero total, and a start base `a`: `sub_distrib_branch_conditional` returns
`D[a]` with (alphabet size) rows and `m` columns, `D[a]->data[b][n]` is the sum over
`j < m` of `B[a][b]->data[n][j] * p[j]` divided by the total of these sums over `(b, n)`,
and the entries of `D[a]` sum to 1. -/
theorem C4_branch_conditional_normalised (pv_poisson : ℚ → Vector) (mod : TreeModel)
    (njumps_max : Nat) (t : ℚ) (a : Nat) (ha : a < mod.rate_matrix.size)
    (hrow : ∀ i, i < mod.rate_matrix.size →
      ∑ j in Finset.range mod.rate_matrix.size, mod.rate_matrix.mm_get i j = 0)
    (hlt : (pv_poisson ((sub_define_jump_process mod njumps_max).lambda * t)).size
      < njumps_max)
    (hpois : ∑ j in Finset.range
        (pv_poisson ((sub_define_jump_process mod njumps_max).lambda * t)).size,
      (pv_poisson ((sub_define_jump_process mod njumps_max).lambda * t)).data j ≠ 0) :
    ∃ D, sub_distrib_branch_conditional pv_poisson (sub_define_jump_process mod njumps_max) t
        = some D ∧
      (D.get a).nrows = mod.rate_matrix.size ∧
      (D.get a).ncols
        = (pv_poisson ((sub_define_jump_process mod njumps_max).lambda * t)).size ∧
      (∀ b n, b < mod.rate_matrix.size →
        n < (pv_poisson ((sub_define_jump_process mod njumps_max).lambda * t)).size →
        (D.get a).data b n =
          (∑ j in Finset.range
              (pv_poisson ((sub_define_jump_process mod njumps_max).lambda * t)).size,
            (((sub_define_jump_process mod njumps_max).B.get a).get b).data n j
              * (pv_poisson ((sub_define_jump_process mod njumps_max).lambda * t)).data j) /
          (∑ b' in Finset.range mod.rate_matrix.size,
            ∑ n' in Finset.range
                (pv_poisson ((sub_define_jump_process mod njumps_max).lambda * t)).size,
              ∑ j in Finset.range
                  (pv_poisson ((sub_define_jump_process mod njumps_max).lambda * t)).size,
                (((sub_define_jump_process mod njumps_max).B.get a).get b').data n' j
                  * (pv_poisson ((sub_define_jump_process mod njumps_max).lambda * t)).data
                      j)) ∧
      ∑ b in Finset.range (D.get a).nrows, ∑ n in Finset.range (D.get a).ncols,
        (D.get a).data b n = 1 := by
  have htot := condMix_total mod njumps_max
    (pv_poisson ((sub_define_jump_process mod njumps_max).lambda * t)) hrow hlt a ha
  unfold condMix at htot
  exact branch_conditional_of_total pv_poisson (sub_define_jump_process mod njumps_max) t a ha
    hlt (by
      show ∑ b in Finset.range mod.rate_matrix.size, _ ≠ 0
      rw [htot]
      exact hpois)

/-- The rows of the rate matrix of `asymMod` sum to 0. -/
theorem asymMod_rows : ∀ i, i < asymMod.rate_matrix.size →
    ∑ j in Finset.range asymMod.rate_matrix.size, asymMod.rate_matrix.mm_get i j = 0 := by
  intro i hi
  have hs : asymMod.rate_matrix.size = 2 := rfl
  rw [hs] at hi ⊢
  interval_cases i <;> norm_num [Finset.sum_range_succ, asymMod, asymQ]

/-- Claim C4 applied to `asymMod` (rate matrix `((-2, 2), (1, -1))`), branch length 1 and
the two-entry Poisson vector `(1/3, 2/3)`, for the start base 0. -/
theorem C4_branch_conditional_normalised_witness :
    ∃ D, sub_distrib_branch_conditional cutPois (sub_define_jump_process asymMod 3) 1
        = some D ∧
      (D.get 0).nrows = 2 ∧ (D.get 0).ncols = 2 ∧
      ∑ b in Finset.range (D.get 0).nrows, ∑ n in Finset.range (D.get 0).ncols,
        (D.get 0).data b n = 1 := by
  have hp := asym_pois 3 1 one_ne_zero
  obtain ⟨D, hD, hr, hc, _, hsum⟩ := C4_branch_conditional_normalised cutPois asymMod 3 1 0
    (by decide) asymMod_rows (by rw [hp]; decide)
    (by
      rw [hp]
      simp only [Finset.sum_range_succ, Finset.sum_range_zero]
      norm_num)
  rw [hp] at hc
  exact ⟨D, hD, hr, hc, hsum⟩

/-! ## A short branch: the posterior is trimmed, the prior is not -/

end Phast
